import Mathlib

/-!
# game-ai: graph engine, pathfinder, trees, decision making and steering

A shallow embedding of `src/utils/graph/graph.hpp`, `src/utils/algorithm/algorithm.hpp`,
`src/utils/algorithm/heuristic.hpp`, `src/environment/environment.cpp`,
`src/utils/tree/tree.hpp`, `src/utils/tree/behavior-tree/behavior-tree.cpp`,
`src/utils/tree/decision-tree/decision-tree.cpp`, the decisions of
`src/sceneA/sceneA.cpp`, `src/utils/kinematics/kinematics.hpp`,
`src/utils/vmath/vmath.hpp`, `src/steering/steering.cpp`, `Entity::nextAccelerations`
and `Entity::update` of `src/entity/entity.cpp`, `Engine::pathfind` and
`Engine::nearestObstacle` of `src/engine/engine.cpp` and the path-following behaviors
of `src/steering/behaviors.hpp`.

Conventions of the embedding:

* A C++ pointer is a natural number (`Ptr`); `nullptr` is `0`.  The objects a graph
  allocates with `new` live in the two stores `vertexObj` and `edgeObj` of the graph,
  and `fresh` is the next address `new` hands out.  `delete` empties the store slot.
  The nodes of a decision tree are objects of the caller; they live in a store `Nodes`.
* Dereferencing a pointer with no live object behind it, `back()` on an empty vector and
  dereferencing `end()` are undefined behaviour in C++; the embedding reports them as
  `Fault.undefinedBehaviour`.
* Loops that C++ writes as `while`, and recursion through node pointers, are given a
  fuel argument; running out of fuel is `Fault.outOfFuel`.
* The edge payload of the pathfinder is `int`; it is embedded as `Int` (no wrap-around).
  The counters of the decorators are `int`; they move only between their start value
  and their bound, so they are embedded as `Int` as well.
* In the decision tree a `float` is embedded as a rational number; that code only
  compares and prints such values, and `std::to_string` on `float` is a parameter.
* In the steering code and in the positions of the environment a `float` is an element
  of an ordered field `F` (exact arithmetic, no rounding); `sqrt`, `fmod` and
  `std::numeric_limits<float>::max()` are parameters.  A division whose divisor is zero
  is reported as `Fault.divisionByZero`, and the conversion of a `float` to `int` drops
  the fraction.
* The Manhattan and the Euclidean estimate of `heuristic.hpp` are computed in `int`: a
  result outside the range of `int` is reported as `Fault.undefinedBehaviour`. The
  `double` values of the Euclidean estimate are elements of an ordered field `F`, with
  the rounding to `double` and `std::sqrt` as parameters.
* `rand()` is a parameter: the value, or the sequence of values, that its calls return.
* A node of a behavior tree is a function on the state behind `EnvironmentParameters`
  that returns its `Boolean`.
-/

namespace GameAI

/-! ## Pointers and faults -/

/-- A pointer value (address). -/
abbrev Ptr := Nat

/-- The null pointer. -/
def nullptr : Ptr := 0

/-- Ways in which a run of the embedded code does not produce a value: undefined
behaviour, a loop that outlasts the fuel, the two standard exceptions that the code
names (`std::invalid_argument`, `std::out_of_range`), and a floating-point division
whose divisor is zero (the C++ value is then an infinity or a NaN). -/
inductive Fault where
  | undefinedBehaviour
  | outOfFuel
  | invalidArgument
  | outOfRange
  | divisionByZero
  deriving DecidableEq

/-! ## graph.hpp -/

/-- Class `ALVertex<V, E>`: the payload and the two adjacency vectors. -/
structure ALVertex (V : Type) where
  element : V
  outgoing : List Ptr
  incoming : List Ptr

/-- Class `ALEdge<V, E>`: the payload and the two endpoints. -/
structure ALEdge (E : Type) where
  element : E
  endpoints : Ptr × Ptr

/-- Class `AdjacencyListGraph<V, E>` together with the objects it points to. -/
structure AdjacencyListGraph (V E : Type) where
  directed : Bool
  vertexList : List Ptr
  edgeList : List Ptr
  vertexObj : Ptr → Option (ALVertex V)
  edgeObj : Ptr → Option (ALEdge E)
  fresh : Ptr

namespace AdjacencyListGraph

variable {V E : Type}

/-- Constructor `AdjacencyListGraph(bool directed)`. -/
def new (directed : Bool) : AdjacencyListGraph V E :=
  { directed := directed, vertexList := [], edgeList := [],
    vertexObj := fun _ => none, edgeObj := fun _ => none, fresh := 1 }

/-- Dereference of a vertex pointer. -/
def vertexAt (g : AdjacencyListGraph V E) (v : Ptr) : Except Fault (ALVertex V) :=
  match g.vertexObj v with
  | some o => .ok o
  | none => .error .undefinedBehaviour

/-- Dereference of an edge pointer. -/
def edgeAt (g : AdjacencyListGraph V E) (e : Ptr) : Except Fault (ALEdge E) :=
  match g.edgeObj e with
  | some o => .ok o
  | none => .error .undefinedBehaviour

/-- Assignment through a vertex pointer. -/
def setVertex (g : AdjacencyListGraph V E) (v : Ptr) (o : Option (ALVertex V)) :
    AdjacencyListGraph V E :=
  { g with vertexObj := fun p => if p = v then o else g.vertexObj p }

/-- Assignment through an edge pointer. -/
def setEdge (g : AdjacencyListGraph V E) (e : Ptr) (o : Option (ALEdge E)) :
    AdjacencyListGraph V E :=
  { g with edgeObj := fun p => if p = e then o else g.edgeObj p }

/-- Method `numVertices`. -/
def numVertices (g : AdjacencyListGraph V E) : Nat := g.vertexList.length

/-- Method `vertices`. -/
def vertices (g : AdjacencyListGraph V E) : List Ptr := g.vertexList

/-- Method `numEdges`. -/
def numEdges (g : AdjacencyListGraph V E) : Nat := g.edgeList.length

/-- Method `edges`. -/
def edges (g : AdjacencyListGraph V E) : List Ptr := g.edgeList

/-- Method `outgoingEdges`. -/
def outgoingEdges (g : AdjacencyListGraph V E) (v : Ptr) : Except Fault (List Ptr) :=
  (g.vertexAt v).map (fun o => o.outgoing)

/-- Method `incomingEdges`. -/
def incomingEdges (g : AdjacencyListGraph V E) (v : Ptr) : Except Fault (List Ptr) :=
  (g.vertexAt v).map (fun o => o.incoming)

/-- Method `endVertices`. -/
def endVertices (g : AdjacencyListGraph V E) (e : Ptr) : Except Fault (Ptr × Ptr) :=
  (g.edgeAt e).map (fun o => o.endpoints)

/-- Method `Edge::getElement` through an edge pointer. -/
def edgeElement (g : AdjacencyListGraph V E) (e : Ptr) : Except Fault E :=
  (g.edgeAt e).map (fun o => o.element)

/-- Method `Vertex::getElement` through a vertex pointer. -/
def vertexElement (g : AdjacencyListGraph V E) (v : Ptr) : Except Fault V :=
  (g.vertexAt v).map (fun o => o.element)

/-- Method `opposite`. -/
def opposite (g : AdjacencyListGraph V E) (vertex e : Ptr) : Except Fault Ptr :=
  (g.edgeAt e).map (fun o =>
    if o.endpoints.1 = vertex then o.endpoints.2
    else if o.endpoints.2 = vertex then o.endpoints.1
    else nullptr)

/-- Method `outDegree`. -/
def outDegree (g : AdjacencyListGraph V E) (v : Ptr) : Except Fault Int :=
  (g.vertexAt v).map (fun o => (o.outgoing.length : Int))

/-- Method `inDegree`. -/
def inDegree (g : AdjacencyListGraph V E) (v : Ptr) : Except Fault Int :=
  (g.vertexAt v).map (fun o => (o.incoming.length : Int))

/-- Method `insertVertex`: the new vertex is returned with the new graph.  For an
undirected graph the constructor of `ALVertex` copies the (empty) outgoing vector into
the incoming one, so both start empty either way. -/
def insertVertex (g : AdjacencyListGraph V E) (vertexData : V) :
    Ptr × AdjacencyListGraph V E :=
  let vertex := g.fresh
  let outgoing : List Ptr := []
  let incoming : List Ptr := if g.directed then [] else outgoing
  (vertex,
    { (g.setVertex vertex (some { element := vertexData, outgoing := outgoing,
                                  incoming := incoming })) with
      vertexList := g.vertexList ++ [vertex], fresh := g.fresh + 1 })

/-- Method `ALVertex::addOutgoing` through a vertex pointer. -/
def addOutgoing (g : AdjacencyListGraph V E) (v edge : Ptr) :
    Except Fault (AdjacencyListGraph V E) :=
  (g.vertexAt v).map (fun o => g.setVertex v (some { o with outgoing := o.outgoing ++ [edge] }))

/-- Method `ALVertex::addIncoming` through a vertex pointer. -/
def addIncoming (g : AdjacencyListGraph V E) (v edge : Ptr) :
    Except Fault (AdjacencyListGraph V E) :=
  (g.vertexAt v).map (fun o => g.setVertex v (some { o with incoming := o.incoming ++ [edge] }))

/-- Method `insertEdge`. -/
def insertEdge (g : AdjacencyListGraph V E) (org dest : Ptr) (edgeData : E) :
    Except Fault (Ptr × AdjacencyListGraph V E) := do
  let edge := g.fresh
  let g1 : AdjacencyListGraph V E :=
    { (g.setEdge edge (some { element := edgeData, endpoints := (org, dest) })) with
      edgeList := g.edgeList ++ [edge], fresh := g.fresh + 1 }
  let g2 ← g1.addOutgoing org edge
  let g3 ← g2.addIncoming dest edge
  pure (edge, g3)

/-- Method `removeEdge`.  Each of the three loops erases the first occurrence of the
edge and stops. -/
def removeEdge (g : AdjacencyListGraph V E) (e : Ptr) :
    Except Fault (AdjacencyListGraph V E) := do
  let edge ← g.edgeAt e
  let ends := edge.endpoints
  let origin ← g.vertexAt ends.1
  let _ ← g.vertexAt ends.2
  let g1 := g.setVertex ends.1 (some { origin with outgoing := origin.outgoing.erase e })
  let destination ← g1.vertexAt ends.2
  let g2 := g1.setVertex ends.2
    (some { destination with incoming := destination.incoming.erase e })
  let g3 : AdjacencyListGraph V E := { g2 with edgeList := g2.edgeList.erase e }
  pure (g3.setEdge e none)

/-- One turn of the first loop of `removeVertex`. -/
def removeVertexStep (vertex : Ptr) (g : AdjacencyListGraph V E) (e : Ptr) :
    Except Fault (AdjacencyListGraph V E) := do
  let ends ← g.endVertices e
  if vertex = ends.1 ∨ vertex = ends.2 then g.removeEdge e else pure g

/-- Method `removeVertex`.  The first loop runs over the copy of the edge vector that
`edges()` returns. -/
def removeVertex (g : AdjacencyListGraph V E) (vertex : Ptr) :
    Except Fault (AdjacencyListGraph V E) := do
  let g1 ← g.edges.foldlM (removeVertexStep vertex) g
  let g2 : AdjacencyListGraph V E := { g1 with vertexList := g1.vertexList.erase vertex }
  if vertex = nullptr then pure g2
  else
    let _ ← g2.vertexAt vertex
    pure (g2.setVertex vertex none)

end AdjacencyListGraph

/-! ## algorithm.hpp -/

/-- Struct `VertexRecord<V, E>`.  A field the code leaves uninitialised is embedded as
`nullptr` (for `edge`) or `0` (for the costs); the code never reads such a field on a
run without undefined behaviour. -/
structure VertexRecord where
  vertex : Ptr
  edge : Ptr
  cost : Int
  costSoFar : Int
  deriving DecidableEq

/-- A `VertexRecord` declared without an initialiser. -/
def VertexRecord.uninitialised : VertexRecord :=
  { vertex := nullptr, edge := nullptr, cost := 0, costSoFar := 0 }

/-- Class `AdaptableSearchableVector<V, E>`: a vector of records. -/
abbrev AdaptableSearchableVector := List VertexRecord

/-- Method `AdaptableSearchableVector::find`, already dereferenced: the first record
whose vertex is `item`, or `none` where the code returns `end()`. -/
def AdaptableSearchableVector.find (l : AdaptableSearchableVector) (item : Ptr) :
    Option VertexRecord :=
  List.find? (fun r => decide (r.vertex = item)) l

/-- The call `closedList.erase(closedList.find(item))` for an item that `find` finds:
the first record whose vertex is `item` is erased. -/
def AdaptableSearchableVector.eraseFound (l : AdaptableSearchableVector) (item : Ptr) :
    AdaptableSearchableVector :=
  List.eraseP (fun r => decide (r.vertex = item)) l

/-- The two heap algorithms of the C++ standard library the search calls with the
comparator `std::greater<VertexRecord>`.  Their code is not part of the repository, so
the search is embedded over any pair of functions and the theorems assume the contract
of the standard (`HeapOps.Lawful`). -/
structure HeapOps where
  make_heap : List VertexRecord → List VertexRecord
  pop_heap : List VertexRecord → List VertexRecord

/-- The range is a heap with respect to `std::greater<VertexRecord>` (`std::is_heap`):
no parent compares greater than its child. -/
def IsHeap (l : List VertexRecord) : Prop :=
  ∀ i : Nat, 0 < i → ∀ h : i < l.length,
    ¬ ((l.get ⟨(i - 1) / 2, by omega⟩).cost > (l.get ⟨i, h⟩).cost)

/-- The contract of `std::make_heap` and `std::pop_heap`: `make_heap` permutes the range
into a heap; `pop_heap` on a non-empty heap moves the first element to the last position
and leaves a heap of the other elements in front of it. -/
structure HeapOps.Lawful (H : HeapOps) : Prop where
  make_heap_perm : ∀ l, (H.make_heap l).Perm l
  make_heap_isHeap : ∀ l, IsHeap (H.make_heap l)
  pop_heap_spec : ∀ x l, IsHeap (x :: l) →
    ∃ l', H.pop_heap (x :: l) = l' ++ [x] ∧ l'.Perm l ∧ IsHeap l'

/-- Insertion of a record into a list sorted by ascending cost, after the records that
do not cost more. -/
def insertByCost (r : VertexRecord) : List VertexRecord → List VertexRecord
  | [] => [r]
  | x :: xs => if r.cost < x.cost then r :: x :: xs else x :: insertByCost r xs

/-- A reference implementation of the heap contract: `make_heap` sorts the range by
ascending cost (a sorted range is a heap for `std::greater`), `pop_heap` rotates the
first element to the end. -/
def sortedHeap : HeapOps where
  make_heap := fun l => l.foldr insertByCost []
  pop_heap := fun l =>
    match l with
    | [] => []
    | x :: xs => xs.foldr insertByCost [] ++ [x]

namespace Algorithm

variable {V : Type}

/-- Class `Heuristic<V, E>`: the virtual method `estimate(current, end)`. -/
abbrev Heuristic := Ptr → Ptr → Int

/-- Body of the `for` loop over the outgoing edges in `dijkstras`, for one edge `e`.
In the branch of an open vertex the code updates a local copy of the record, so the
open list is left as it was. -/
def dijkstrasEdge (graph : AdjacencyListGraph V Int) (current : VertexRecord)
    (closedList : AdaptableSearchableVector) (openList : AdaptableSearchableVector)
    (e : Ptr) : Except Fault AdaptableSearchableVector := do
  let opposite ← graph.opposite current.vertex e
  let newCost := current.cost + (← graph.edgeElement e)
  if (closedList.find opposite).isSome then
    pure openList
  else
    match openList.find opposite with
    | some record =>
      let _record : VertexRecord := { record with cost := min record.cost newCost }
      pure openList
    | none =>
      let record : VertexRecord :=
        { vertex := opposite, cost := newCost, edge := e, costSoFar := 0 }
      pure (openList ++ [record])

/-- The `while (openList.size() > 0)` loop of `dijkstras`; the result is the final value
of `current` and the closed list. -/
def dijkstrasLoop (H : HeapOps) (graph : AdjacencyListGraph V Int) (endVertex : Ptr) :
    Nat → AdaptableSearchableVector → AdaptableSearchableVector → VertexRecord →
    Except Fault (VertexRecord × AdaptableSearchableVector)
  | 0, _, _, _ => .error .outOfFuel
  | fuel + 1, openList, closedList, current =>
    if openList.length > 0 then
      let popped := H.pop_heap openList
      match popped.getLast? with
      | none => .error .undefinedBehaviour
      | some back =>
        let current := back
        let openList := popped.dropLast
        if current.vertex = endVertex then
          .ok (current, closedList)
        else do
          let edges ← graph.outgoingEdges current.vertex
          let openList ← edges.foldlM (dijkstrasEdge graph current closedList) openList
          let closedList := closedList ++ [current]
          let openList := H.make_heap openList
          dijkstrasLoop H graph endVertex fuel openList closedList current
    else
      .ok (current, closedList)

/-- The `while (current.vertex != startVertex)` loop that compiles the path, shared by
`dijkstras` and `astar`. -/
def compilePath (graph : AdjacencyListGraph V Int) (startVertex : Ptr)
    (closedList : AdaptableSearchableVector) :
    Nat → VertexRecord → List Ptr → Except Fault (List Ptr)
  | 0, _, _ => .error .outOfFuel
  | fuel + 1, current, path =>
    if current.vertex ≠ startVertex then do
      let path := path ++ [current.edge]
      let previous ← graph.opposite current.vertex current.edge
      match closedList.find previous with
      | none => .error .undefinedBehaviour
      | some record => compilePath graph startVertex closedList fuel record path
    else
      .ok path

/-- Function `Algorithm::dijkstras`.  The vector behind `path` is passed in and returned
next to the boolean result. -/
def dijkstras (H : HeapOps) (fuel : Nat) (path : List Ptr) (graph : AdjacencyListGraph V Int)
    (startVertex endVertex : Ptr) : Except Fault (Bool × List Ptr) := do
  let start : VertexRecord :=
    { vertex := startVertex, cost := 0, edge := nullptr, costSoFar := 0 }
  let (current, closedList) ←
    dijkstrasLoop H graph endVertex fuel [start] [] VertexRecord.uninitialised
  if current.vertex ≠ endVertex then
    pure (false, path)
  else do
    let path ← compilePath graph startVertex closedList fuel current path
    pure (true, path.reverse)

/-- Body of the `for` loop over the outgoing edges in `astar`, for one edge `e`, on the
pair of the open and the closed list.  In the branches of a closed and of an open vertex
the code updates a local copy of the record and pushes it nowhere. -/
def astarEdge (graph : AdjacencyListGraph V Int) (endVertex : Ptr) (heuristic : Heuristic)
    (current : VertexRecord)
    (lists : AdaptableSearchableVector × AdaptableSearchableVector) (e : Ptr) :
    Except Fault (AdaptableSearchableVector × AdaptableSearchableVector) := do
  let (openList, closedList) := lists
  let opposite ← graph.opposite current.vertex e
  let newCost := current.costSoFar + (← graph.edgeElement e)
  match closedList.find opposite with
  | some record =>
    if record.costSoFar ≤ newCost then
      pure (openList, closedList)
    else
      let closedList := closedList.eraseFound opposite
      let _record : VertexRecord :=
        { record with cost := newCost + (record.cost - record.costSoFar),
                      costSoFar := newCost, edge := e }
      pure (openList, closedList)
  | none =>
    match openList.find opposite with
    | some record =>
      if record.costSoFar ≤ newCost then
        pure (openList, closedList)
      else
        let _record : VertexRecord :=
          { record with cost := newCost + (record.cost - record.costSoFar),
                        costSoFar := newCost, edge := e }
        pure (openList, closedList)
    | none =>
      let record : VertexRecord :=
        { vertex := opposite, edge := e, costSoFar := newCost,
          cost := newCost + heuristic opposite endVertex }
      pure (openList ++ [record], closedList)

/-- The `while (openList.size() > 0)` loop of `astar`. -/
def astarLoop (H : HeapOps) (graph : AdjacencyListGraph V Int) (endVertex : Ptr)
    (heuristic : Heuristic) :
    Nat → AdaptableSearchableVector → AdaptableSearchableVector → VertexRecord →
    Except Fault (VertexRecord × AdaptableSearchableVector)
  | 0, _, _, _ => .error .outOfFuel
  | fuel + 1, openList, closedList, current =>
    if openList.length > 0 then
      let popped := H.pop_heap openList
      match popped.getLast? with
      | none => .error .undefinedBehaviour
      | some back =>
        let current := back
        let openList := popped.dropLast
        if current.vertex = endVertex then
          .ok (current, closedList)
        else do
          let edges ← graph.outgoingEdges current.vertex
          let (openList, closedList) ←
            edges.foldlM (astarEdge graph endVertex heuristic current) (openList, closedList)
          let closedList := closedList ++ [current]
          let openList := H.make_heap openList
          astarLoop H graph endVertex heuristic fuel openList closedList current
    else
      .ok (current, closedList)

/-- Function `Algorithm::astar`. -/
def astar (H : HeapOps) (fuel : Nat) (path : List Ptr) (graph : AdjacencyListGraph V Int)
    (startVertex endVertex : Ptr) (heuristic : Heuristic) :
    Except Fault (Bool × List Ptr) := do
  let start : VertexRecord :=
    { vertex := startVertex, costSoFar := 0, cost := heuristic startVertex endVertex,
      edge := nullptr }
  let (current, closedList) ←
    astarLoop H graph endVertex heuristic fuel [start] [] VertexRecord.uninitialised
  if current.vertex ≠ endVertex then
    pure (false, path)
  else do
    let path ← compilePath graph startVertex closedList fuel current path
    pure (true, path.reverse)

end Algorithm

/-! ## Well-formed graphs, edge sequences and distances -/

namespace AdjacencyListGraph

variable {V E : Type}

/-- The outgoing vector of a vertex, empty when the pointer has no object. -/
def out (g : AdjacencyListGraph V E) (v : Ptr) : List Ptr :=
  match g.vertexObj v with
  | some o => o.outgoing
  | none => []

/-- The incoming vector of a vertex, empty when the pointer has no object. -/
def inc (g : AdjacencyListGraph V E) (v : Ptr) : List Ptr :=
  match g.vertexObj v with
  | some o => o.incoming
  | none => []

/-- The endpoints of an edge, when the pointer has an object. -/
def ends (g : AdjacencyListGraph V E) (e : Ptr) : Option (Ptr × Ptr) :=
  (g.edgeObj e).map (fun o => o.endpoints)

/-- The representation invariant of the graph: the vertex and edge vectors hold distinct
live objects, every edge joins two vertices of the graph and sits in the outgoing vector
of its first endpoint and the incoming vector of its second, the adjacency vectors hold,
without repetition, only edges of the graph that start (end) at their vertex, and the
addresses in use lie below the next address that `new` hands out. -/
def WellFormed (g : AdjacencyListGraph V E) : Prop :=
  g.vertexList.Nodup ∧ g.edgeList.Nodup ∧
  (∀ v ∈ g.vertexList, v ≠ nullptr ∧ (g.vertexObj v).isSome = true ∧
    (g.out v).Nodup ∧ (g.inc v).Nodup ∧
    (∀ e ∈ g.out v, e ∈ g.edgeList ∧ (g.ends e).map Prod.fst = some v) ∧
    (∀ e ∈ g.inc v, e ∈ g.edgeList ∧ (g.ends e).map Prod.snd = some v)) ∧
  (∀ e ∈ g.edgeList, ∃ a ∈ g.vertexList, ∃ b ∈ g.vertexList,
    g.ends e = some (a, b) ∧ e ∈ g.out a ∧ e ∈ g.inc b) ∧
  (0 < g.fresh ∧ (∀ v ∈ g.vertexList, v < g.fresh) ∧ (∀ e ∈ g.edgeList, e < g.fresh))

instance (g : AdjacencyListGraph V E) : Decidable g.WellFormed := by
  unfold WellFormed
  infer_instance

/-- The edge `e` has `v` as one of its endpoints. -/
def Incident (g : AdjacencyListGraph V E) (e v : Ptr) : Prop :=
  (g.ends e).map Prod.fst = some v ∨ (g.ends e).map Prod.snd = some v

instance (g : AdjacencyListGraph V E) (e v : Ptr) : Decidable (g.Incident e v) := by
  unfold Incident
  infer_instance

/-- The sequence `path` of edges leads from `s` to `t` along outgoing edges: every edge
is in the outgoing vector of the vertex reached so far and `opposite` gives the next
vertex. -/
def IsWalk (g : AdjacencyListGraph V E) : Ptr → List Ptr → Ptr → Prop
  | s, [], t => s = t
  | s, e :: path, t =>
    e ∈ g.out s ∧ ∃ w, g.opposite s e = .ok w ∧ IsWalk g w path t

/-- The vertex `t` can be reached from `s` along outgoing edges. -/
def Reachable (g : AdjacencyListGraph V E) (s t : Ptr) : Prop :=
  ∃ path, g.IsWalk s path t

/-- The sequence `path` is made of edges of the graph, the first starts at `s`, every
edge ends where the next starts, and the last ends at `t`. -/
def IsEdgePath (g : AdjacencyListGraph V E) : Ptr → List Ptr → Ptr → Prop
  | s, [], t => s = t
  | s, e :: path, t =>
    e ∈ g.edges ∧ ∃ w, g.endVertices e = .ok (s, w) ∧ IsEdgePath g w path t

/-- The first endpoint of an edge (`endVertices(e)[0]`), when the pointer has an object. -/
def origin (g : AdjacencyListGraph V E) (e : Ptr) : Option Ptr :=
  (g.ends e).map Prod.fst

/-- The second endpoint of an edge (`endVertices(e)[1]`), when the pointer has an object. -/
def destination (g : AdjacencyListGraph V E) (e : Ptr) : Option Ptr :=
  (g.ends e).map Prod.snd

/-- The payload of an edge, `0` when the pointer has no object. -/
def weight (g : AdjacencyListGraph V Int) (e : Ptr) : Int :=
  match g.edgeObj e with
  | some o => o.element
  | none => 0

/-- The total weight of a sequence of edges. -/
def pathWeight (g : AdjacencyListGraph V Int) (path : List Ptr) : Int :=
  (path.map g.weight).sum

end AdjacencyListGraph

/-! ## Sample graphs -/

/-- Inserts `edges` (origin, destination, weight) in the order given. -/
def insertEdges {V : Type} (g : AdjacencyListGraph V Int) :
    List (Ptr × Ptr × Int) → Except Fault (AdjacencyListGraph V Int)
  | [] => .ok g
  | (org, dest, w) :: rest =>
    match g.insertEdge org dest w with
    | .ok (_, g') => insertEdges g' rest
    | .error f => .error f

/-- The graph of a run of the graph operations, or the empty graph when it faulted. -/
def graphOf {V : Type} (r : Except Fault (AdjacencyListGraph V Int)) : AdjacencyListGraph V Int :=
  match r with
  | .ok g => g
  | .error _ => AdjacencyListGraph.new true

/-- A directed graph with vertices `1`, `2`, `3` and edges `4 : 1 → 2` of weight `10`,
`5 : 1 → 3` of weight `1` and `6 : 3 → 2` of weight `1`, built with `insertVertex` and
`insertEdge`. -/
def detourGraph : AdjacencyListGraph Unit Int :=
  let g : AdjacencyListGraph Unit Int := AdjacencyListGraph.new true
  let g := (g.insertVertex ()).2
  let g := (g.insertVertex ()).2
  let g := (g.insertVertex ()).2
  graphOf (insertEdges g [(1, 2, 10), (1, 3, 1), (3, 2, 1)])

/-- A directed graph with vertices `1`..`4` and edges `5 : 1 → 2` of weight `5`,
`6 : 1 → 3` of weight `1`, `7 : 3 → 2` of weight `1` and `8 : 2 → 4` of weight `10`. -/
def reopenGraph : AdjacencyListGraph Unit Int :=
  let g : AdjacencyListGraph Unit Int := AdjacencyListGraph.new true
  let g := (g.insertVertex ()).2
  let g := (g.insertVertex ()).2
  let g := (g.insertVertex ()).2
  let g := (g.insertVertex ()).2
  graphOf (insertEdges g [(1, 2, 5), (1, 3, 1), (3, 2, 1), (2, 4, 10)])

/-- A heuristic on `reopenGraph` for the goal `4`: it never exceeds the least cost to the
goal (`12`, `10`, `11`, `0` from the vertices `1`, `2`, `3`, `4`). -/
def reopenHeuristic : Algorithm.Heuristic :=
  fun current _ => if current = 3 then 11 else 0

/-! ## vertex.hpp, heuristic.hpp, environment.cpp -/

/-- Class `Grid<int>`. -/
structure Grid where
  row : Int
  column : Int
  deriving DecidableEq

/-- The result of an operation on `int` values, or of a conversion to `int`: a result
outside the range of `int` is undefined behaviour. -/
def intResult (x : Int) : Except Fault Int :=
  if -2147483648 ≤ x ∧ x ≤ 2147483647 then .ok x else .error .undefinedBehaviour

/-- Method `ManhattanHeuristic<int>::estimate`, on the payloads of the two vertices: the
two differences, `std::abs` of each and the sum are computed in `int`. -/
def ManhattanHeuristic.estimate (current end_ : Grid) : Except Fault Int := do
  let rows ← intResult (end_.row - current.row)
  let rows ← intResult (Int.natAbs rows : Int)
  let columns ← intResult (end_.column - current.column)
  let columns ← intResult (Int.natAbs columns : Int)
  intResult (rows + columns)

/-- Method `EuclideanSquaredHeuristic<int>::estimate`, on the payloads of the two
vertices. -/
def EuclideanSquaredHeuristic.estimate (current end_ : Grid) : Int :=
  (end_.row - current.row) ^ 2 + (end_.column - current.column) ^ 2

/-- A heuristic of the grid, as the search calls it with two vertex pointers; reading
the payload of a pointer with no object and an estimate whose computation leaves the
range of `int` are undefined behaviour in C++ and are given the estimate `0` here. -/
def gridHeuristic (graph : AdjacencyListGraph Grid Int)
    (estimate : Grid → Grid → Except Fault Int) : Algorithm.Heuristic :=
  fun current end_ =>
    match graph.vertexObj current, graph.vertexObj end_ with
    | some c, some e =>
      match estimate c.element e.element with
      | .ok value => value
      | .error _ => 0
    | _, _ => 0

/-- The edge joins two cells that differ by exactly one in the row and not in the column,
or by exactly one in the column and not in the row. -/
def joinsNeighbours (graph : AdjacencyListGraph Grid Int) (e : Ptr) : Bool :=
  match graph.ends e with
  | some (a, b) =>
    match graph.vertexObj a, graph.vertexObj b with
    | some oa, some ob =>
      (Int.natAbs (oa.element.row - ob.element.row) == 1
          && oa.element.column == ob.element.column)
        || (oa.element.row == ob.element.row
          && Int.natAbs (oa.element.column - ob.element.column) == 1)
    | _, _ => false
  | none => false

/-- Class `GridEnvironment`, without its obstacle vector.  The two tile sizes are the
integer quotients that the constructor stores in a `float`. -/
structure GridEnvironment where
  graph : AdjacencyListGraph Grid Int
  tileWidth : Int
  tileHeight : Int
  xTiles : Int
  yTiles : Int
  width : Int
  height : Int

namespace GridEnvironment

/-- The first pair of loops of the constructor: a vertex for every cell, row by row. -/
def insertCells (xTiles yTiles : Int) (g : AdjacencyListGraph Grid Int) :
    AdjacencyListGraph Grid Int :=
  (List.range yTiles.toNat).foldl
    (fun g row => (List.range xTiles.toNat).foldl
      (fun g col => (g.insertVertex { row := (row : Int), column := (col : Int) }).2) g)
    g

/-- Body of the inner loop over `connecting` of the constructor. -/
def connect (v : Ptr) (g : AdjacencyListGraph Grid Int) (connecting : Ptr) :
    Except Fault (AdjacencyListGraph Grid Int) := do
  let grid ← g.vertexElement v
  let connectingGrid ← g.vertexElement connecting
  if (grid.row - 1 = connectingGrid.row ∨ grid.row + 1 = connectingGrid.row) ∧
      grid.column = connectingGrid.column then
    (g.insertEdge v connecting 1).map Prod.snd
  else if (grid.column - 1 = connectingGrid.column ∨ grid.column + 1 = connectingGrid.column) ∧
      grid.row = connectingGrid.row then
    (g.insertEdge v connecting 1).map Prod.snd
  else
    pure g

/-- The second pair of loops of the constructor: both run over the vertex vector. -/
def insertConnections (g : AdjacencyListGraph Grid Int) :
    Except Fault (AdjacencyListGraph Grid Int) :=
  g.vertices.foldlM (fun g v => g.vertices.foldlM (connect v) g) g

/-- Constructor `GridEnvironment(xTiles, yTiles, width, height)`.  The two integer
divisions are undefined behaviour for a zero divisor. -/
def new (xTiles yTiles width height : Int) : Except Fault GridEnvironment := do
  if xTiles = 0 ∨ yTiles = 0 then throw Fault.undefinedBehaviour
  let tileWidth := Int.tdiv width xTiles
  let tileHeight := Int.tdiv height yTiles
  let g : AdjacencyListGraph Grid Int := AdjacencyListGraph.new true
  let g := insertCells xTiles yTiles g
  let g ← insertConnections g
  pure { graph := g, tileWidth := tileWidth, tileHeight := tileHeight,
         xTiles := xTiles, yTiles := yTiles, width := width, height := height }

end GridEnvironment

/-- The graph of `GridEnvironment(3, 3, 640, 480)`: the cell `(r, c)` is the vertex
`3 * r + c + 1`. -/
def grid3x3 : AdjacencyListGraph Grid Int :=
  graphOf ((GridEnvironment.new 3 3 640 480).map (fun env => env.graph))

/-! ## behavior-tree.cpp -/

/-- The virtual method `AbstractDMNode::run`: it may change the state `σ` behind the
`EnvironmentParameters` pointer and returns a `Boolean`. -/
abbrev NodeRun (σ : Type) := σ → Bool × σ

/-- The `for` loop of `SelectorNode::run` over the children. -/
def SelectorNode.runChildren {σ : Type} : List (NodeRun σ) → σ → Bool × σ
  | [], environment => (false, environment)
  | child :: rest, environment =>
    let result := child environment
    if result.1 then (true, result.2) else SelectorNode.runChildren rest result.2

/-- Method `SelectorNode::run`, on the children that `getChildren` returns. -/
def SelectorNode.run {σ : Type} (children : List (NodeRun σ)) (environment : σ) : Bool × σ :=
  if children.length = 0 then (false, environment)
  else SelectorNode.runChildren children environment

/-- A child that records its number in the log of invocations and returns a fixed
outcome. -/
def probe (i : Nat) (outcome : Bool) : NodeRun (List Nat) :=
  fun log => (outcome, log ++ [i])

/-- The children `c_k, c_(k+1), ...` with the given outcomes. -/
def probesFrom : Nat → List Bool → List (NodeRun (List Nat))
  | _, [] => []
  | k, b :: bs => probe k b :: probesFrom (k + 1) bs


/-- The `for` loop of `SequenceNode::run` over the children. -/
def SequenceNode.runChildren {σ : Type} : List (NodeRun σ) → σ → Bool × σ
  | [], environment => (true, environment)
  | child :: rest, environment =>
    let result := child environment
    if !result.1 then (false, result.2) else SequenceNode.runChildren rest result.2

/-- Method `SequenceNode::run`, on the children that `getChildren` returns. -/
def SequenceNode.run {σ : Type} (children : List (NodeRun σ)) (environment : σ) : Bool × σ :=
  if children.length = 0 then (false, environment)
  else SequenceNode.runChildren children environment

/-- Method `RandomNode::run`, on the children that `getChildren` returns; `rand` is the
value that the call of `rand()` returns (between `0` and `RAND_MAX`).  `children.at`
throws `std::out_of_range` for an index that is not below the size. -/
def RandomNode.run {σ : Type} (children : List (NodeRun σ)) (rand : Nat) (environment : σ) :
    Except Fault (Bool × σ) :=
  if children.length = 0 then .ok (false, environment)
  else
    let index := rand % children.length
    match children.get? index with
    | some child => .ok (child environment)
    | none => .error .outOfRange

/-- Class `LimitDecorator`: the child of the decorator and the two `int` fields. -/
structure LimitDecorator (σ : Type) where
  child : NodeRun σ
  limit : Int
  count : Int

/-- Method `LimitDecorator::run`; the third component is the object after the call.
`count++` runs only below `limit`, so it cannot leave the range of `int`. -/
def LimitDecorator.run {σ : Type} (self : LimitDecorator σ) (environment : σ) :
    Bool × σ × LimitDecorator σ :=
  if self.count ≥ self.limit then (false, environment, self)
  else
    let self1 := { self with count := self.count + 1 }
    let result := self1.child environment
    (result.1, result.2, self1)

/-- Class `RepeatUntilDecorator`. -/
structure RepeatUntilDecorator (σ : Type) where
  child : NodeRun σ
  condition : Bool

/-- Method `RepeatUntilDecorator::run`: the `while` loop with an empty body, one turn per
unit of fuel. -/
def RepeatUntilDecorator.run {σ : Type} (self : RepeatUntilDecorator σ) :
    Nat → σ → Except Fault (Bool × σ)
  | 0, _ => .error .outOfFuel
  | fuel + 1, environment =>
    let result := self.child environment
    if result.1 != self.condition then RepeatUntilDecorator.run self fuel result.2
    else .ok (true, result.2)

/-- Class `RepeatDecorator`: the child of the decorator and the two `int` fields. -/
structure RepeatDecorator (σ : Type) where
  child : NodeRun σ
  max : Int
  count : Int

/-- Constructor `RepeatDecorator(child, max)`; `count` has the initialiser `0`. -/
def RepeatDecorator.new {σ : Type} (child : NodeRun σ) (max : Int) : RepeatDecorator σ :=
  { child := child, max := max, count := 0 }

/-- Method `RepeatDecorator::run`; the third component is the object after the call.
`count++` runs only below `max`, so it cannot leave the range of `int`. -/
def RepeatDecorator.run {σ : Type} (self : RepeatDecorator σ) (environment : σ) :
    Bool × σ × RepeatDecorator σ :=
  let after : σ × RepeatDecorator σ :=
    if self.count < self.max then
      let result := self.child environment
      if result.1 then (result.2, { self with count := self.count + 1 })
      else (result.2, self)
    else (environment, { self with count := 0 })
  (decide (after.2.count ≥ after.2.max), after.1, after.2)

/-- A child whose successive invocations return `outcomes 0`, `outcomes 1`, ...; the
state is the number of invocations so far. -/
def scripted (outcomes : Nat → Bool) : NodeRun Nat :=
  fun invocations => (outcomes invocations, invocations + 1)

/-- The results of `n` successive calls of `LimitDecorator::run`, with the state and the
object after them. -/
def LimitDecorator.runs {σ : Type} : Nat → LimitDecorator σ → σ → List Bool × σ × LimitDecorator σ
  | 0, self, environment => ([], environment, self)
  | n + 1, self, environment =>
    let first := self.run environment
    let rest := LimitDecorator.runs n first.2.2 first.2.1
    (first.1 :: rest.1, rest.2)

/-- The state and the object after `n` successive calls of `RepeatDecorator::run`. -/
def RepeatDecorator.runs {σ : Type} : Nat → RepeatDecorator σ → σ → σ × RepeatDecorator σ
  | 0, self, environment => (environment, self)
  | n + 1, self, environment =>
    let before := RepeatDecorator.runs n self environment
    let result := before.2.run before.1
    (result.2.1, result.2.2)

/-- The number of successes among the first `n` invocations of a scripted child. -/
def successes (outcomes : Nat → Bool) (n : Nat) : Nat :=
  ((List.range n).filter outcomes).length

/-! ## tree.hpp -/

/-- Class `Tree<V, E>`: the adjacency list graph it derives from and the field `root`. -/
structure Tree (V E : Type) where
  graph : AdjacencyListGraph V E
  root : Ptr

namespace Tree

variable {V E : Type}

/-- Constructor `Tree()`: a directed graph and the initialiser `root = nullptr`. -/
def new : Tree V E :=
  { graph := AdjacencyListGraph.new true, root := nullptr }

/-- The `for` loop of `children`: `opposite` of every outgoing edge is pushed back. -/
def childrenLoop (t : Tree V E) (vertex : Ptr) : List Ptr → List Ptr → Except Fault (List Ptr)
  | [], children => .ok children
  | e :: rest, children =>
    match t.graph.opposite vertex e with
    | .ok child => childrenLoop t vertex rest (children ++ [child])
    | .error fault => .error fault

/-- Method `children`. -/
def children (t : Tree V E) (vertex : Ptr) : Except Fault (List Ptr) :=
  if vertex = nullptr then .ok []
  else
    match t.graph.outgoingEdges vertex with
    | .ok outgoing => t.childrenLoop vertex outgoing []
    | .error fault => .error fault

/-- Method `parent`; `at(0)` throws `std::out_of_range` on an empty vector. -/
def parent (t : Tree V E) (vertex : Ptr) : Except Fault Ptr :=
  match t.graph.incomingEdges vertex with
  | .ok (e :: _) => t.graph.opposite vertex e
  | .ok [] => .error .outOfRange
  | .error fault => .error fault

/-- Method `getRoot`. -/
def getRoot (t : Tree V E) : Ptr := t.root

/-- Method `size`. -/
def size (t : Tree V E) : Nat := t.graph.numVertices

/-- One turn of the loop of `addRoot` over the incoming edges of the old root.  The loop
runs over the incoming vector of the old root itself: an `insertEdge` whose destination
is the old root pushes onto that vector and invalidates the iterators of the loop. -/
def addRootStep (root oldRoot : Ptr) (g : AdjacencyListGraph V E) (e : Ptr) :
    Except Fault (AdjacencyListGraph V E) :=
  match g.endVertices e, g.edgeElement e with
  | .ok ends, .ok element =>
    match g.insertEdge root ends.2 element with
    | .ok (_, g1) => if ends.2 = oldRoot then .error .undefinedBehaviour else .ok g1
    | .error fault => .error fault
  | .error fault, _ => .error fault
  | _, .error fault => .error fault

/-- Method `addRoot`: the new root is returned with the new tree.  `incomingEdges`
returns the address of a member of the vertex, which is never null. -/
def addRoot (t : Tree V E) (rootData : V) : Except Fault (Ptr × Tree V E) :=
  let oldRoot := t.root
  let inserted := t.graph.insertVertex rootData
  if oldRoot = nullptr then .ok (inserted.1, { graph := inserted.2, root := inserted.1 })
  else
    match inserted.2.incomingEdges oldRoot with
    | .ok incoming =>
      match incoming.foldlM (addRootStep inserted.1 oldRoot) inserted.2 with
      | .ok g1 =>
        match g1.removeVertex oldRoot with
        | .ok g2 => .ok (inserted.1, { graph := g2, root := inserted.1 })
        | .error fault => .error fault
      | .error fault => .error fault
    | .error fault => .error fault

/-- Method `insertNode`: the new vertex is returned with the new tree. -/
def insertNode (t : Tree V E) (vertexData : V) (edgeData : E) (parent : Ptr) :
    Except Fault (Ptr × Tree V E) :=
  let inserted := t.graph.insertVertex vertexData
  match inserted.2.insertEdge parent inserted.1 edgeData with
  | .ok (_, g1) => .ok (inserted.1, { t with graph := g1 })
  | .error fault => .error fault

/-- The trees that one `addRoot` on an empty tree and then calls of `insertNode` under
a vertex of the tree build. -/
inductive Built : Tree V E → Prop
  | addRoot (rootData : V) (root : Ptr) (t : Tree V E) :
      (Tree.new : Tree V E).addRoot rootData = .ok (root, t) → Built t
  | insertNode (t : Tree V E) (vertexData : V) (edgeData : E) (parent vertex : Ptr)
      (t1 : Tree V E) :
      Built t → parent ∈ t.graph.vertices →
      t.insertNode vertexData edgeData parent = .ok (vertex, t1) → Built t1

/-- The vertex `b` is reached from `a` by repeatedly taking `children()`. -/
inductive Descends (t : Tree V E) : Ptr → Ptr → Prop
  | refl (a : Ptr) : Descends t a a
  | child (a b c : Ptr) (cs : List Ptr) :
      Descends t a b → t.children b = .ok cs → c ∈ cs → Descends t a c

end Tree

/-- A run of `insertNode` calls, for the sample trees. -/
def Tree.grow {V E : Type} (t : Tree V E) : List (V × E × Ptr) → Except Fault (Tree V E)
  | [] => .ok t
  | (vertexData, edgeData, parent) :: rest =>
    match t.insertNode vertexData edgeData parent with
    | .ok (_, t1) => Tree.grow t1 rest
    | .error fault => .error fault

/-- The tree of a run of the tree operations, or the empty tree when it faulted. -/
def treeOf {V E : Type} (r : Except Fault (Tree V E)) : Tree V E :=
  match r with
  | .ok t => t
  | .error _ => Tree.new

/-- The tree of `addRoot(10)`, `insertNode(20, true, root)`, `insertNode(30, false, root)`
and `insertNode(40, true, first child)`: the vertices are `1`, `2`, `4` and `6`. -/
def sampleTree : Tree Nat Bool :=
  treeOf (match (Tree.new : Tree Nat Bool).addRoot 10 with
    | .ok (_, t) => Tree.grow t [(20, true, 1), (30, false, 1), (40, true, 2)]
    | .error fault => .error fault)

/-! ## decision-tree.cpp, entity.hpp, sceneA.cpp -/

/-- Class `StatePacket`; the `float` fields are embedded as rationals. -/
structure StatePacket where
  timestamp : Int
  action : String
  x : Rat
  y : Rat
  characterX : Rat
  characterY : Rat
  obstacleDistTop : Rat
  obstacleDistRight : Rat
  obstacleDistBottom : Rat
  obstacleDistLeft : Rat

/-- What the nodes of a decision tree read and write through `EnvironmentParameters`:
the position of the character (`character->getTarget().position`), the packet that
`character->getStatePacket(gameState->getTimestamp())` returns, the behaviors of the
character, and the state of `rand()` (the values that its calls return and the number of
calls so far).  `B` is the type `WeightedBehavior`. -/
structure EnvironmentParameters (B : Type) where
  position : Rat × Rat
  packet : StatePacket
  behaviors : List B
  randValues : Nat → Nat
  randCalls : Nat

/-- The three subclasses of `Decision` in `sceneA.cpp`. -/
inductive Decision where
  | isAtBoundary
  | isAtMaze
  | isAtMazeEnd
  deriving DecidableEq

/-- The condition of the `run` method of each subclass of `Decision`, on the position of
the character; `IsAtMaze` has `start = (290, 0)` and `size = (350, 480)`, and
`IsAtMazeEnd` has `start = (580, 420)`. -/
def Decision.holds : Decision → Rat × Rat → Bool
  | .isAtBoundary, pos =>
    let closeToHorizontal := decide (pos.1 ≥ 610) || decide (pos.1 ≤ 10)
    let closeToVertical := decide (pos.2 ≥ 470) || decide (pos.2 ≤ 10)
    closeToHorizontal || closeToVertical
  | .isAtMaze, pos =>
    let inX := decide (290 ≤ pos.1) && decide (pos.1 ≤ 290 + 350)
    let inY := decide (0 ≤ pos.2) && decide (pos.2 ≤ 0 + 480)
    inX && inY
  | .isAtMazeEnd, pos =>
    let inX := decide (580 ≤ pos.1)
    let inY := decide (420 ≤ pos.2)
    inX && inY

/-- The objects of the classes `Action`, `Decision` and `DecisionMulti`.  The fields
`truthNode` and `falseNode` have no initialiser: `none` is a pointer that was never set.
The map `children` is a list of keys with their vectors. -/
inductive DecisionTreeNode (B : Type) where
  | action (behaviors : List B)
  | decision (test : Decision) (truthNode falseNode : Option Ptr)
  | multi (children : List (String × List Ptr)) (testValue : String)

/-- The node objects, by address. -/
abbrev Nodes (B : Type) := Ptr → Option (DecisionTreeNode B)

/-- Assignment through a node pointer. -/
def Nodes.set {B : Type} (nodes : Nodes B) (p : Ptr) (o : DecisionTreeNode B) : Nodes B :=
  fun q => if q = p then some o else nodes q

namespace DecisionMulti

/-- `children.find(value)`: the vector registered under the key, if there is one. -/
def find (children : List (String × List Ptr)) (value : String) : Option (List Ptr) :=
  (children.find? (fun entry => entry.1 == value)).map Prod.snd

/-- Method `addChildNode` on the map: `children[onValue].push_back(child)`. -/
def addChildNode (children : List (String × List Ptr)) (child : Ptr) (onValue : String) :
    List (String × List Ptr) :=
  match find children onValue with
  | some _ =>
    children.map (fun entry => if entry.1 == onValue then (entry.1, entry.2 ++ [child])
      else entry)
  | none => children ++ [(onValue, [child])]

/-- The string that `run` extracts from the packet for a test value; `toString` is
`std::to_string` on `float`. -/
def value (toString : Rat → String) (testValue : String) (packet : StatePacket) : String :=
  if testValue = "timestamp" then ToString.toString packet.timestamp
  else if testValue = "action" then packet.action
  else if testValue = "x" then toString packet.x
  else if testValue = "y" then toString packet.y
  else if testValue = "characterX" then toString packet.characterX
  else if testValue = "characterY" then toString packet.characterY
  else if testValue = "obstacleTop" then toString packet.obstacleDistTop
  else if testValue = "obstacleRight" then toString packet.obstacleDistRight
  else if testValue = "obstacleBottom" then toString packet.obstacleDistBottom
  else if testValue = "obstacleLeft" then toString packet.obstacleDistLeft
  else ""

end DecisionMulti

/-- The map `children` of a `DecisionMulti` after the calls `addChildNode(child, key)`
of the list, in order, on a new node. -/
def DecisionMulti.registered (registrations : List (Ptr × String)) : List (String × List Ptr) :=
  registrations.foldl (fun children r => DecisionMulti.addChildNode children r.1 r.2) []

/-- The virtual method `run` of the decision tree nodes (`Action::run`, the `run` of the
subclasses of `Decision`, `DecisionMulti::run`), called through the pointer `self`; one
unit of fuel per call.  The result is the pointer that `run` returns and the state after
the call. -/
def DecisionTreeNode.run {B : Type} (toString : Rat → String) (nodes : Nodes B) :
    Nat → Ptr → EnvironmentParameters B → Except Fault (Ptr × EnvironmentParameters B)
  | 0, _, _ => .error .outOfFuel
  | fuel + 1, self, environment =>
    match nodes self with
    | none => .error .undefinedBehaviour
    | some (.action behaviors) => .ok (self, { environment with behaviors := behaviors })
    | some (.decision test truthNode falseNode) =>
      if test.holds environment.position then
        match truthNode with
        | some node => DecisionTreeNode.run toString nodes fuel node environment
        | none => .error .undefinedBehaviour
      else
        match falseNode with
        | some node => DecisionTreeNode.run toString nodes fuel node environment
        | none => .error .undefinedBehaviour
    | some (.multi children testValue) =>
      let value := DecisionMulti.value toString testValue environment.packet
      match DecisionMulti.find children value with
      | none => .ok (self, environment)
      | some list =>
        if list.length = 0 then .error .undefinedBehaviour
        else
          let index := environment.randValues environment.randCalls % list.length
          let environment1 := { environment with randCalls := environment.randCalls + 1 }
          match list.get? index with
          | some node => DecisionTreeNode.run toString nodes fuel node environment1
          | none => .error .outOfRange

/-- Class `DecisionTree`: the tree of vertices whose payloads are node pointers, with
the node objects that the payloads point to. -/
structure DecisionTree (B : Type) where
  tree : Tree Ptr Bool
  nodes : Nodes B

namespace DecisionTree

variable {B : Type}

/-- A new `DecisionTree`, beside the node objects that the caller has created. -/
def new (nodes : Nodes B) : DecisionTree B :=
  { tree := Tree.new, nodes := nodes }

/-- Method `decide`. -/
def decide (dt : DecisionTree B) (toString : Rat → String) (fuel : Nat)
    (environment : EnvironmentParameters B) :
    Except Fault (Ptr × EnvironmentParameters B) :=
  if dt.tree.getRoot = nullptr then .ok (nullptr, environment)
  else
    match dt.tree.graph.vertexElement dt.tree.getRoot with
    | .ok element =>
      if element = nullptr then .ok (nullptr, environment)
      else DecisionTreeNode.run toString dt.nodes fuel element environment
    | .error fault => .error fault

/-- Method `addRoot`. -/
def addRoot (dt : DecisionTree B) (root : Ptr) : Except Fault (Ptr × DecisionTree B) :=
  match dt.tree.addRoot root with
  | .ok (vertex, tree1) => .ok (vertex, { dt with tree := tree1 })
  | .error fault => .error fault

/-- `dynamic_cast<T*>(v)` on a pointer: the pointer itself when the object is a `T`, the
null pointer when it is not or `v` is null; it does not throw. -/
def dynamicCast (nodes : Nodes B) (isT : DecisionTreeNode B → Bool) (v : Ptr) :
    Except Fault Ptr :=
  if v = nullptr then .ok nullptr
  else
    match nodes v with
    | some o => if isT o then .ok v else .ok nullptr
    | none => .error .undefinedBehaviour

/-- `try { body } catch (const std::bad_cast& e) { throw std::invalid_argument(...) }`:
the handler runs when the body throws `std::bad_cast`; `thrownBadCast` tells whether it
does. -/
def catchBadCast {α : Type} (body : Except Fault α) (thrownBadCast : Bool) : Except Fault α :=
  if thrownBadCast then .error .invalidArgument else body

/-- Method `validateDecisionNode`: the body of the `try` is a `dynamic_cast` on a
pointer, which throws nothing. -/
def validateDecisionNode (nodes : Nodes B) (v : Ptr) : Except Fault Ptr :=
  catchBadCast (dynamicCast nodes (fun o => match o with
    | .decision _ _ _ => true
    | _ => false) v) false

/-- Method `validateMultiNode`. -/
def validateMultiNode (nodes : Nodes B) (v : Ptr) : Except Fault Ptr :=
  catchBadCast (dynamicCast nodes (fun o => match o with
    | .multi _ _ => true
    | _ => false) v) false

/-- Methods `setTruthNode` and `setFalseNode` through a `Decision` pointer. -/
def setNode (nodes : Nodes B) (decision : Ptr) (value : Bool) (node : Ptr) :
    Except Fault (Nodes B) :=
  if decision = nullptr then .error .undefinedBehaviour
  else
    match nodes decision with
    | some (.decision test truthNode falseNode) =>
      if value then .ok (nodes.set decision (.decision test (some node) falseNode))
      else .ok (nodes.set decision (.decision test truthNode (some node)))
    | _ => .error .undefinedBehaviour

/-- Method `addChildNode` through a `DecisionMulti` pointer. -/
def addChildNode (nodes : Nodes B) (multi : Ptr) (child : Ptr) (onValue : String) :
    Except Fault (Nodes B) :=
  if multi = nullptr then .error .undefinedBehaviour
  else
    match nodes multi with
    | some (.multi children testValue) =>
      .ok (nodes.set multi (.multi (DecisionMulti.addChildNode children child onValue)
        testValue))
    | _ => .error .undefinedBehaviour

/-- Method `insertNode(DecisionTreeNode*, Vertex*, bool)`. -/
def insertNode (dt : DecisionTree B) (data parent : Ptr) (value : Bool) :
    Except Fault (Ptr × DecisionTree B) :=
  match dt.tree.insertNode data value parent with
  | .ok (node, tree1) =>
    match tree1.graph.vertexElement parent with
    | .ok element =>
      match validateDecisionNode dt.nodes element with
      | .ok decision =>
        match setNode dt.nodes decision value data with
        | .ok nodes1 => .ok (node, { tree := tree1, nodes := nodes1 })
        | .error fault => .error fault
      | .error fault => .error fault
    | .error fault => .error fault
  | .error fault => .error fault

/-- Method `insertNode(DecisionMulti*, Vertex*, std::string)`. -/
def insertMultiNode (dt : DecisionTree B) (data parent : Ptr) (value : String) :
    Except Fault (Ptr × DecisionTree B) :=
  match dt.tree.insertNode data false parent with
  | .ok (node, tree1) =>
    match tree1.graph.vertexElement parent with
    | .ok element =>
      match validateMultiNode dt.nodes element with
      | .ok multi =>
        match addChildNode dt.nodes multi data value with
        | .ok nodes1 => .ok (node, { tree := tree1, nodes := nodes1 })
        | .error fault => .error fault
      | .error fault => .error fault
    | .error fault => .error fault
  | .error fault => .error fault

end DecisionTree

namespace DecisionTree

variable {B : Type}

/-- The decision trees that one `addRoot` on a new tree and then calls of
`insertNode(data, parent, bool)` build, where `parent` is a vertex of the tree and `data`
is a node that is not in the tree yet or an `Action` (a `Decision` is inserted once); no
node object lives at the null address. -/
inductive Built : DecisionTree B → Prop
  | addRoot (nodes : Nodes B) (root vertex : Ptr) (dt : DecisionTree B) :
      nodes nullptr = none →
      (DecisionTree.new nodes).addRoot root = .ok (vertex, dt) → Built dt
  | insertNode (dt : DecisionTree B) (data parent : Ptr) (value : Bool) (vertex : Ptr)
      (dt1 : DecisionTree B) :
      Built dt → parent ∈ dt.tree.graph.vertices →
      (∀ v ∈ dt.tree.graph.vertices, dt.tree.graph.vertexElement v = .ok data →
        ∃ behaviors, dt.nodes data = some (.action behaviors)) →
      dt.insertNode data parent value = .ok (vertex, dt1) → Built dt1

/-- The label of an edge of the tree, when the pointer has an object. -/
def label (dt : DecisionTree B) (e : Ptr) : Option Bool :=
  (dt.tree.graph.edgeObj e).map (fun o => o.element)

/-- The outgoing edges of a vertex that carry the label `value`, in the order of their
insertion. -/
def edgesLabelled (dt : DecisionTree B) (v : Ptr) (value : Bool) : List Ptr :=
  (dt.tree.graph.out v).filter (fun e => dt.label e == some value)

/-- The branch from the vertex `v` to the leaf `leaf` for a position of the character:
at the vertex of a `Decision` the branch continues along an edge labelled with the value
of its condition, and it ends at the vertex of an `Action`. -/
inductive Branch (dt : DecisionTree B) (position : Rat × Rat) : Ptr → Ptr → Prop
  | leaf (v action : Ptr) (behaviors : List B) :
      dt.tree.graph.vertexElement v = .ok action →
      dt.nodes action = some (.action behaviors) → Branch dt position v v
  | step (v element : Ptr) (test : Decision) (truthNode falseNode : Option Ptr)
      (e child leaf : Ptr) :
      dt.tree.graph.vertexElement v = .ok element →
      dt.nodes element = some (.decision test truthNode falseNode) →
      e ∈ dt.edgesLabelled v (test.holds position) →
      dt.tree.graph.opposite v e = .ok child →
      Branch dt position child leaf → Branch dt position v leaf

end DecisionTree

/-- A packet with the given action and zeros elsewhere. -/
def packetWithAction (action : String) : StatePacket :=
  { timestamp := 0, action := action, x := 0, y := 0, characterX := 0, characterY := 0,
    obstacleDistTop := 0, obstacleDistRight := 0, obstacleDistBottom := 0,
    obstacleDistLeft := 0 }

/-- A state with the given position and action of the character, no behaviors, and
`rand()` returning `5` at every call. -/
def sampleEnvironment (position : Rat × Rat) (action : String) : EnvironmentParameters Nat :=
  { position := position, packet := packetWithAction action, behaviors := [],
    randValues := fun _ => 5, randCalls := 0 }

/-- Node objects for a `DecisionMulti` at `100` that tests the action, with the actions
`101` and `102` registered under `idle` and `103` under `run`. -/
def multiNodes : Nodes Nat := fun p =>
  if p = 100 then
    some (.multi (DecisionMulti.registered [(101, "idle"), (102, "idle"), (103, "run")])
      "action")
  else if p = 101 then some (.action [1])
  else if p = 102 then some (.action [2])
  else if p = 103 then some (.action [3])
  else none

/-- A run of `insertNode(data, parent, value)` calls, for the sample trees. -/
def DecisionTree.grow {B : Type} (dt : DecisionTree B) :
    List (Ptr × Ptr × Bool) → Except Fault (DecisionTree B)
  | [] => .ok dt
  | (data, parent, value) :: rest =>
    match dt.insertNode data parent value with
    | .ok (_, dt1) => DecisionTree.grow dt1 rest
    | .error fault => .error fault

/-- The decision tree of a run of its operations, or a new tree when the run faulted. -/
def decisionTreeOf {B : Type} (r : Except Fault (DecisionTree B)) : DecisionTree B :=
  match r with
  | .ok dt => dt
  | .error _ => DecisionTree.new (fun _ => none)

/-- The node objects of the decision tree of `SceneA`: the three decisions at `100`,
`102` and `104`, and the actions `spinning`, `pathfinding to end`, `seeking to center`
and `wandering` at `101`, `103`, `105` and `106`, with their behaviors numbered. -/
def sceneANodes : Nodes Nat := fun p =>
  if p = 100 then some (.decision .isAtMazeEnd none none)
  else if p = 101 then some (.action [1])
  else if p = 102 then some (.decision .isAtMaze none none)
  else if p = 103 then some (.action [2])
  else if p = 104 then some (.decision .isAtBoundary none none)
  else if p = 105 then some (.action [3])
  else if p = 106 then some (.action [4])
  else none

/-- The decision tree that the constructor of `SceneA` builds; its vertices are `1`,
`2`, `4`, `6`, `8`, `10` and `12`. -/
def sceneATree : DecisionTree Nat :=
  decisionTreeOf (match (DecisionTree.new sceneANodes).addRoot 100 with
    | .ok (_, dt) => dt.grow [(101, 1, true), (102, 1, false), (103, 4, true),
        (104, 4, false), (105, 8, true), (106, 8, false)]
    | .error fault => .error fault)

/-- A decision tree whose root is the action `spinning`. -/
def actionRootTree : DecisionTree Nat :=
  decisionTreeOf (match (DecisionTree.new sceneANodes).addRoot 101 with
    | .ok (_, dt) => .ok dt
    | .error fault => .error fault)

/-! ## kinematics.hpp, vmath.hpp -/

/-- Class `sf::Vector2f`, over the numbers `F`. -/
structure Vector2 (F : Type) where
  x : F
  y : F
  deriving DecidableEq

/-- Division of one `float` by another; a zero divisor is reported. -/
def divide {F : Type} [LinearOrderedField F] (a b : F) : Except Fault F :=
  if b = 0 then .error .divisionByZero else .ok (a / b)

/-- Conversion of a `float` to `int`: the fraction is dropped. -/
def truncate {F : Type} [LinearOrderedField F] [FloorRing F] (a : F) : Int :=
  if 0 ≤ a then Int.floor a else Int.ceil a

/-- Method `EuclideanHeuristic<int>::estimate`, on the payloads of the two vertices: the
two differences are computed in `int`; the two squares `std::pow(x, 2)`, their sum and
the square root are computed in `double`: `double` rounds an exact result to a `double`
value and `sqrt` is `std::sqrt` on `double` values, both parameters; the conversion of
the root to `int` drops the fraction. -/
def EuclideanHeuristic.estimate {F : Type} [LinearOrderedField F] [FloorRing F]
    (double sqrt : F → F) (current end_ : Grid) : Except Fault Int := do
  let rows ← intResult (end_.row - current.row)
  let columns ← intResult (end_.column - current.column)
  let root := sqrt (double (double ((rows : F) ^ 2) + double ((columns : F) ^ 2)))
  intResult (truncate root)

namespace Vector2

variable {F : Type} [LinearOrderedField F]

/-- The vector `sf::Vector2f(0, 0)`. -/
def zero : Vector2 F := ⟨0, 0⟩

/-- The sum `left + right` of two vectors. -/
def add (left right : Vector2 F) : Vector2 F := ⟨left.x + right.x, left.y + right.y⟩

/-- The difference `left - right` of two vectors. -/
def sub (left right : Vector2 F) : Vector2 F := ⟨left.x - right.x, left.y - right.y⟩

/-- The vector `-right`. -/
def neg (right : Vector2 F) : Vector2 F := ⟨-right.x, -right.y⟩

/-- The product `left * right` of a vector and a number. -/
def mul (left : Vector2 F) (right : F) : Vector2 F := ⟨left.x * right, left.y * right⟩

/-- The quotient `left / right` of a vector and a number: both components are divided. -/
def div (left : Vector2 F) (right : F) : Except Fault (Vector2 F) := do
  let x ← divide left.x right
  let y ← divide left.y right
  pure ⟨x, y⟩

end Vector2

/-- Struct `Accelerations`. -/
structure Accelerations (F : Type) where
  linearAcceleration : Vector2 F
  angularAcceleration : F
  deriving DecidableEq

/-- Struct `Kinematics`. -/
structure Kinematics (F : Type) extends Accelerations F where
  linearVelocity : Vector2 F
  angularVelocity : F
  deriving DecidableEq

/-- Struct `Target`. -/
structure Target (F : Type) extends Kinematics F where
  position : Vector2 F
  orientation : F
  deriving DecidableEq

/-- Struct `Params`. -/
structure Params (F : Type) where
  target : Target F
  character : Target F
  deriving DecidableEq

namespace Accelerations

variable {F : Type} [LinearOrderedField F]

/-- The default member initialisers of `Accelerations`. -/
def new : Accelerations F := { linearAcceleration := ⟨0, 0⟩, angularAcceleration := 0 }

/-- Method `Accelerations::operator+`. -/
def add (self obj : Accelerations F) : Accelerations F :=
  { linearAcceleration := self.linearAcceleration.add obj.linearAcceleration,
    angularAcceleration := self.angularAcceleration + obj.angularAcceleration }

/-- Method `Accelerations::operator*`. -/
def mul (self : Accelerations F) (d : F) : Accelerations F :=
  { linearAcceleration := self.linearAcceleration.mul d,
    angularAcceleration := self.angularAcceleration * d }

end Accelerations

/-- The default member initialisers of `Target`. -/
def Target.new {F : Type} [LinearOrderedField F] : Target F :=
  { linearAcceleration := ⟨0, 0⟩, angularAcceleration := 0, linearVelocity := ⟨0, 0⟩,
    angularVelocity := 0, position := ⟨0, 0⟩, orientation := 0 }

/-- The default member initialisers of `Params`. -/
def Params.new {F : Type} [LinearOrderedField F] : Params F :=
  { target := Target.new, character := Target.new }

namespace Vmath

variable {F : Type} [LinearOrderedField F]

/-- Method `Vmath::length`; the square root is a parameter. -/
def length (sqrt : F → F) (v : Vector2 F) : F :=
  sqrt (v.x * v.x + v.y * v.y)

/-- Method `Vmath::normalize`. -/
def normalize (sqrt : F → F) (v : Vector2 F) : Except Fault (Vector2 F) :=
  v.div (length sqrt v)

/-- Method `Vmath::mapOrientationToRange`; the function `fmod` is a parameter. -/
def mapOrientationToRange (fmod : F → F → F) (o : F) : F :=
  let orientation := fmod o 360
  if |orientation| ≤ 180 then orientation
  else if orientation > 180 then orientation - 360
  else orientation + 360

end Vmath

/-! ## steering.cpp -/

/-- Class `Align`. -/
structure Align (F : Type) where
  radiusOfSatisfaction : F
  radiusOfDeceleration : F
  maxRotation : F
  timeToTargetRotation : F

/-- Class `Arrive`. -/
structure Arrive (F : Type) where
  radiusOfSatisfaction : F
  radiusOfDeceleration : F
  maxVelocity : F
  timeToTargetVelocity : F

/-- Class `Flee`. -/
structure Flee (F : Type) where
  maxVelocity : F
  timeToTargetVelocity : F

/-- Class `Seek`. -/
structure Seek (F : Type) where
  maxVelocity : F
  timeToTargetVelocity : F

section Steering

variable {F : Type} [LinearOrderedField F]

/-- Method `Align::find`. -/
def Align.find (fmod : F → F → F) (self : Align F) (params : Params F) :
    Except Fault (Accelerations F) := do
  let a : Accelerations F := Accelerations.new
  let rotation :=
    Vmath.mapOrientationToRange fmod (params.target.orientation - params.character.orientation)
  let rotationSize := |rotation|
  if rotationSize < self.radiusOfSatisfaction then
    pure a
  else
    let goalRotation ←
      if rotationSize < self.radiusOfDeceleration then do
        let fraction ← divide rotationSize self.radiusOfDeceleration
        pure (self.maxRotation * fraction)
      else
        pure self.maxRotation
    let direction ← divide rotation rotationSize
    let goalRotation := goalRotation * direction
    let angular ← divide (goalRotation - params.character.angularVelocity)
      self.timeToTargetRotation
    pure { a with angularAcceleration := angular }

/-- Method `Arrive::find`. -/
def Arrive.find (sqrt : F → F) (self : Arrive F) (params : Params F) :
    Except Fault (Accelerations F) := do
  let a : Accelerations F := Accelerations.new
  let dPos := params.target.position.sub params.character.position
  let len := Vmath.length sqrt dPos
  if len = 0 then
    pure a
  else
    let uPos ← Vmath.normalize sqrt dPos
    let targetSpeed ←
      if len < self.radiusOfSatisfaction then
        pure 0
      else if len < self.radiusOfDeceleration then do
        let fraction ← divide len self.radiusOfDeceleration
        pure (fraction * self.maxVelocity)
      else
        pure self.maxVelocity
    let goalVelocity := uPos.mul targetSpeed
    let linear ← (goalVelocity.sub params.character.linearVelocity).div self.timeToTargetVelocity
    pure { a with linearAcceleration := linear }

/-- Method `Flee::find`. -/
def Flee.find (sqrt : F → F) (self : Flee F) (params : Params F) :
    Except Fault (Accelerations F) := do
  let a : Accelerations F := Accelerations.new
  let unit ← Vmath.normalize sqrt (params.target.position.sub params.character.position)
  let direction := unit.neg
  let linear ← (direction.mul self.maxVelocity).div self.timeToTargetVelocity
  pure { a with linearAcceleration := linear }

/-- Method `Seek::find`. -/
def Seek.find (sqrt : F → F) (self : Seek F) (params : Params F) :
    Except Fault (Accelerations F) := do
  let a : Accelerations F := Accelerations.new
  let direction ← Vmath.normalize sqrt (params.target.position.sub params.character.position)
  let linear ← (direction.mul self.maxVelocity).div self.timeToTargetVelocity
  pure { a with linearAcceleration := linear }

end Steering

/-! ## entity.cpp -/

/-- Struct `WeightedBehavior`: the behavior function and its weight.  The function may
change the state `σ` of the objects that it captured. -/
structure WeightedBehavior (F σ : Type) where
  behavior : Target F → σ → Accelerations F × σ
  weight : F

/-- Class `Entity`: the position and rotation of the sprite, the kinematic members and
the behavior vector. -/
structure Entity (F σ : Type) extends Kinematics F where
  position : Vector2 F
  rotation : F
  behaviors : List (WeightedBehavior F σ)

namespace Entity

variable {F σ : Type} [LinearOrderedField F]

/-- Method `Entity::getTarget`. -/
def getTarget (self : Entity F σ) : Target F :=
  { position := self.position, orientation := self.rotation,
    linearVelocity := self.linearVelocity, linearAcceleration := self.linearAcceleration,
    angularVelocity := self.angularVelocity, angularAcceleration := self.angularAcceleration }

/-- The `for` loop of `Entity::nextAccelerations`. -/
def blend (self : Entity F σ) :
    List (WeightedBehavior F σ) → Accelerations F → σ → Accelerations F × σ
  | [], a, state => (a, state)
  | b :: rest, a, state =>
    let result := b.behavior self.getTarget state
    blend self rest (a.add (result.1.mul b.weight)) result.2

/-- Method `Entity::nextAccelerations`. -/
def nextAccelerations (self : Entity F σ) (state : σ) : Entity F σ × σ :=
  let result := self.blend self.behaviors Accelerations.new state
  ({ self with linearAcceleration := result.1.linearAcceleration,
               angularAcceleration := result.1.angularAcceleration }, result.2)

end Entity

/-! ## environment.cpp: positions and obstacles -/

namespace GridEnvironment

section Positions

variable (F : Type) [LinearOrderedField F] [FloorRing F]

/-- The loop of `quantize` over the vertex vector. -/
def quantizeLoop (graph : AdjacencyListGraph Grid Int) (row column : Int) :
    List Ptr → Except Fault Ptr
  | [] => .ok nullptr
  | v :: rest => do
    let element ← graph.vertexElement v
    if element.row = row ∧ element.column = column then
      pure v
    else
      quantizeLoop graph row column rest

/-- Method `GridEnvironment::quantize`.  The two quotients are computed in `float` and
converted to `int`. -/
def quantize (env : GridEnvironment) (position : Vector2 F) : Except Fault Ptr := do
  let x ← divide position.x (env.tileWidth : F)
  let column : Int := truncate x
  let y ← divide position.y (env.tileHeight : F)
  let row : Int := truncate y
  quantizeLoop env.graph row column env.graph.vertices

/-- Method `GridEnvironment::localize`. -/
def localize (env : GridEnvironment) (vertex : Ptr) : Except Fault (Vector2 F) := do
  let element ← env.graph.vertexElement vertex
  pure ⟨(element.column : F) * (env.tileWidth : F) + (env.tileWidth : F) / 2,
        (element.row : F) * (env.tileHeight : F) + (env.tileHeight : F) / 2⟩

/-- Method `GridEnvironment::localizeEndpoint`; an index other than `0` and `1` is
outside the array of the two endpoints. -/
def localizeEndpoint (env : GridEnvironment) (edge : Ptr) (index : Nat) :
    Except Fault (Vector2 F) := do
  let edges ← env.graph.endVertices edge
  match index with
  | 0 => localize F env edges.1
  | 1 => localize F env edges.2
  | _ => throw Fault.undefinedBehaviour

end Positions

/-- The loop of `addObstacle` over the vertex vector: the first vertex of the cell is
removed. -/
def addObstacleLoop (graph : AdjacencyListGraph Grid Int) (gridLocation : Grid) :
    List Ptr → Except Fault (AdjacencyListGraph Grid Int)
  | [] => .ok graph
  | v :: rest => do
    let element ← graph.vertexElement v
    if element.row = gridLocation.row ∧ element.column = gridLocation.column then
      graph.removeVertex v
    else
      addObstacleLoop graph gridLocation rest

/-- Method `GridEnvironment::addObstacle`, for an obstacle at `gridLocation`; the
obstacle vector and the sprite of the obstacle are left out.  The two integer divisions
that place the sprite are undefined behaviour for a zero divisor. -/
def addObstacle (env : GridEnvironment) (gridLocation : Grid) : Except Fault GridEnvironment := do
  if env.xTiles = 0 ∨ env.yTiles = 0 then throw Fault.undefinedBehaviour
  let graph ← addObstacleLoop env.graph gridLocation env.graph.vertices
  pure { env with graph := graph }

/-- The environments that the program can build: the constructor, followed by calls of
`addObstacle`. -/
inductive Built : GridEnvironment → Prop
  | new {xTiles yTiles width height : Int} {env : GridEnvironment} :
    GridEnvironment.new xTiles yTiles width height = .ok env → Built env
  | addObstacle {env env1 : GridEnvironment} {gridLocation : Grid} :
    Built env → env.addObstacle gridLocation = .ok env1 → Built env1

end GridEnvironment

/-! ## engine.cpp -/

/-- Method `Engine::pathfind`, for the environment of the engine: `H` and `fuel` are
the heap algorithms and the fuel of the search. -/
def Engine.pathfind {F : Type} [LinearOrderedField F] [FloorRing F] (H : HeapOps) (fuel : Nat)
    (environment : GridEnvironment) (heuristic : Algorithm.Heuristic)
    (currentPosition goalPosition : Vector2 F) : Except Fault (List Ptr) := do
  let startVertex ← environment.quantize F currentPosition
  let endVertex ← environment.quantize F goalPosition
  let startVertex ←
    if startVertex = nullptr then environment.quantize F ⟨320, 240⟩ else pure startVertex
  let endVertex ←
    if endVertex = nullptr then environment.quantize F ⟨320, 240⟩ else pure endVertex
  let path : List Ptr := []
  let (success, path) ←
    Algorithm.astar H fuel path environment.graph startVertex endVertex heuristic
  if !success then
    pure []
  else
    pure path

/-! ## behaviors.hpp: the path-following behaviors -/

/-- Method `std::vector::at`. -/
def vectorAt {α : Type} (v : List α) (i : Nat) : Except Fault α :=
  match v.get? i with
  | some x => .ok x
  | none => .error .outOfRange

section PathFollowing

variable {F : Type} [LinearOrderedField F]

/-- Body of the `for` loop of the path-following behaviors: `best` is the pair of
`minDistance` and `minIndex`. -/
def scanStep (sqrt : F → F) (env : GridEnvironment) (path : List Ptr)
    (futurePosition : Vector2 F) (best : F × Nat) (i : Nat) : Except Fault (F × Nat) := do
  let edge ← vectorAt path i
  let start ← env.localizeEndpoint F edge 0
  let distance := Vmath.length sqrt (start.sub futurePosition)
  if distance < best.1 then pure (distance, i) else pure best

/-- The statements that the behavior functions of `PathfindToPositionOld`,
`PathfindToPosition`, `PathfindToMultiplePosition` and `PathfindToRandomPosition` share,
from the test of the empty path on: the value that is returned and the new
`currentIndex`.  The value `floatMax` is `std::numeric_limits<float>::max()`, and `find`
is the method `find` of the wrapped steering behavior. -/
def followPath (sqrt : F → F) (floatMax : F) (env : GridEnvironment)
    (find : Params F → Except Fault (Accelerations F)) (path : List Ptr) (currentIndex : Nat)
    (predictTime : F) (character : Target F) : Except Fault (Accelerations F × Nat) := do
  let params : Params F := { Params.new with character := character }
  if path.length = 0 then
    pure (Accelerations.new, currentIndex)
  else
    let futurePosition := character.position.add (character.linearVelocity.mul predictTime)
    let best ← (List.range' currentIndex (path.length - currentIndex)).foldlM
      (scanStep sqrt env path futurePosition) (floatMax, currentIndex)
    let currentIndex := best.2
    let edge ← vectorAt path currentIndex
    let position ← env.localizeEndpoint F edge 1
    let a ← find { params with target := { params.target with position := position } }
    pure (a, currentIndex)

end PathFollowing

/-- Class `PathfindToPosition`: the members. -/
structure PathfindToPosition (F : Type) where
  targetPosition : Vector2 F
  path : List Ptr
  currentIndex : Nat
  calculatedPath : Bool
  predictTime : F

/-- Class `PathfindToMultiplePosition`: the members. -/
structure PathfindToMultiplePosition (F : Type) where
  positionIndex : Nat
  path : List Ptr
  currentIndex : Nat
  calculatedPath : Bool
  predictTime : F

/-- Class `PathfindToRandomPosition`: the members. -/
structure PathfindToRandomPosition (F : Type) where
  path : List Ptr
  currentIndex : Nat
  calculatedPath : Bool
  predictTime : F

namespace PathfindToPosition

variable {F : Type} [LinearOrderedField F]

set_option linter.unusedVariables false in
/-- Constructor `PathfindToPosition(engine, behavior, heuristic, predictTime,
targetPosition)`.  Its body assigns `predictTime` and `currentIndex`; the member
`targetPosition` is not assigned and keeps the value `vectorDefault` that its default
constructor `sf::Vector2f()` gave it. -/
def new (vectorDefault : Vector2 F) (predictTime : F) (targetPosition : Vector2 F) :
    PathfindToPosition F :=
  { targetPosition := vectorDefault, path := [], currentIndex := 0, calculatedPath := false,
    predictTime := predictTime }

/-- Method `PathfindToPosition::reset`. -/
def reset (self : PathfindToPosition F) (position : Vector2 F) : PathfindToPosition F :=
  { self with calculatedPath := false, targetPosition := position }

/-- The behavior function that the constructor of `PathfindToPosition` installs;
`pathfind` is `Engine::pathfind` with the heuristic of the constructor. -/
def behavior (sqrt : F → F) (floatMax : F) (env : GridEnvironment)
    (pathfind : Vector2 F → Vector2 F → Except Fault (List Ptr))
    (find : Params F → Except Fault (Accelerations F)) (self : PathfindToPosition F)
    (character : Target F) : Except Fault (Accelerations F × PathfindToPosition F) := do
  let self ←
    if !self.calculatedPath then do
      let path ← pathfind character.position self.targetPosition
      pure { self with calculatedPath := true, currentIndex := 0, path := path }
    else
      pure self
  let result ← followPath sqrt floatMax env find self.path self.currentIndex self.predictTime
    character
  pure (result.1, { self with currentIndex := result.2 })

end PathfindToPosition

namespace PathfindToMultiplePosition

variable {F : Type} [LinearOrderedField F]

/-- Constructor of `PathfindToMultiplePosition`. -/
def new (predictTime : F) : PathfindToMultiplePosition F :=
  { positionIndex := 0, path := [], currentIndex := 0, calculatedPath := false,
    predictTime := predictTime }

/-- The behavior function that the constructor of `PathfindToMultiplePosition`
installs; `targetPositions` is the vector behind the pointer of the constructor.  The
remainder by the size of an empty vector is undefined behaviour. -/
def behavior (sqrt : F → F) (floatMax : F) (env : GridEnvironment)
    (pathfind : Vector2 F → Vector2 F → Except Fault (List Ptr))
    (find : Params F → Except Fault (Accelerations F)) (targetPositions : List (Vector2 F))
    (self : PathfindToMultiplePosition F) (character : Target F) :
    Except Fault (Accelerations F × PathfindToMultiplePosition F) := do
  let self ←
    if !self.calculatedPath || self.currentIndex + 1 == self.path.length then do
      if targetPositions.length = 0 then throw Fault.undefinedBehaviour
      let positionIndex := (self.positionIndex + 1) % targetPositions.length
      let goal ← vectorAt targetPositions positionIndex
      let path ← pathfind character.position goal
      pure { self with calculatedPath := true, currentIndex := 0,
                       positionIndex := positionIndex, path := path }
    else
      pure self
  let result ← followPath sqrt floatMax env find self.path self.currentIndex self.predictTime
    character
  pure (result.1, { self with currentIndex := result.2 })

end PathfindToMultiplePosition

namespace PathfindToRandomPosition

variable {F : Type} [LinearOrderedField F]

/-- Constructor of `PathfindToRandomPosition`. -/
def new (predictTime : F) : PathfindToRandomPosition F :=
  { path := [], currentIndex := 0, calculatedPath := false, predictTime := predictTime }

/-- The behavior function that the constructor of `PathfindToRandomPosition` installs;
`rand` is the value that the call of `rand()` returns, if there is one. -/
def behavior (sqrt : F → F) (floatMax : F) (env : GridEnvironment)
    (pathfind : Vector2 F → Vector2 F → Except Fault (List Ptr))
    (find : Params F → Except Fault (Accelerations F)) (targetPositions : List (Vector2 F))
    (rand : Nat) (self : PathfindToRandomPosition F) (character : Target F) :
    Except Fault (Accelerations F × PathfindToRandomPosition F) := do
  let self ←
    if !self.calculatedPath || self.currentIndex + 1 == self.path.length then do
      if targetPositions.length = 0 then throw Fault.undefinedBehaviour
      let randomIndex := rand % targetPositions.length
      let goal ← vectorAt targetPositions randomIndex
      let path ← pathfind character.position goal
      pure { self with calculatedPath := true, currentIndex := 0, path := path }
    else
      pure self
  let result ← followPath sqrt floatMax env find self.path self.currentIndex self.predictTime
    character
  pure (result.1, { self with currentIndex := result.2 })

end PathfindToRandomPosition

/-! ## graph.hpp: `getEdge` and the membership tests -/

namespace AdjacencyListGraph

variable {V E : Type}

/-- Method `validateALVertex`: the body of the `try` is `dynamic_cast<ALVertex<V, E>*>(v)`
on a pointer, which throws nothing.  The store `vertexHeap` holds the `Vertex<V>` objects
of the program, of this graph and of others; all of them are `ALVertex<V, E>` objects,
the only class of the program that derives from `Vertex<V>`.  The cast of the null
pointer is the null pointer, and the cast of a pointer with no object behind it is
undefined behaviour. -/
def validateALVertex (vertexHeap : Ptr → Option (ALVertex V)) (v : Ptr) : Except Fault Ptr :=
  DecisionTree.catchBadCast
    (if v = nullptr then .ok nullptr
     else
      match vertexHeap v with
      | some _ => .ok v
      | none => .error .undefinedBehaviour)
    false

/-- Method `validateALEdge`, with the store `edgeHeap` of the `Edge<E>` objects of the
program. -/
def validateALEdge (edgeHeap : Ptr → Option (ALEdge E)) (e : Ptr) : Except Fault Ptr :=
  DecisionTree.catchBadCast
    (if e = nullptr then .ok nullptr
     else
      match edgeHeap e with
      | some _ => .ok e
      | none => .error .undefinedBehaviour)
    false

/-- The loop of `getEdge` over the edge vector; the cast of the edge pointer and the
call of `getEndpoints` through it are the dereference `edgeAt`. -/
def getEdgeLoop (g : AdjacencyListGraph V E) (vertex1 vertex2 : Ptr) :
    List Ptr → Except Fault Ptr
  | [] => .ok nullptr
  | e :: rest => do
    let edge ← g.edgeAt e
    let ends := edge.endpoints
    if g.directed = true ∧ ends.2 = vertex1 ∧ ends.1 = vertex2 then
      pure e
    else if ends.1 = vertex1 ∧ ends.2 = vertex2 then
      pure e
    else
      getEdgeLoop g vertex1 vertex2 rest

/-- Method `getEdge`; the vertex objects that the two casts look at are those of the
graph. -/
def getEdge (g : AdjacencyListGraph V E) (v1 v2 : Ptr) : Except Fault Ptr := do
  let vertex1 ← validateALVertex g.vertexObj v1
  let vertex2 ← validateALVertex g.vertexObj v2
  getEdgeLoop g vertex1 vertex2 g.edgeList

/-- `try { body } catch (const std::exception) { return false; } return true;` in
`containsVertex` and `containsEdge`: the two standard exceptions are caught. -/
def catchException {α : Type} (body : Except Fault α) : Except Fault Bool :=
  match body with
  | .ok _ => .ok true
  | .error .invalidArgument => .ok false
  | .error .outOfRange => .ok false
  | .error fault => .error fault

set_option linter.unusedVariables false in
/-- Method `containsVertex`; the body does not read a member of the graph. -/
def containsVertex (g : AdjacencyListGraph V E) (vertexHeap : Ptr → Option (ALVertex V))
    (v : Ptr) : Except Fault Bool :=
  catchException (validateALVertex vertexHeap v)

set_option linter.unusedVariables false in
/-- Method `containsEdge`; the body does not read a member of the graph. -/
def containsEdge (g : AdjacencyListGraph V E) (edgeHeap : Ptr → Option (ALEdge E))
    (e : Ptr) : Except Fault Bool :=
  catchException (validateALEdge edgeHeap e)

end AdjacencyListGraph

/-! ## tree.hpp: the number of children -/

namespace Tree

variable {V E : Type}

/-- Method `numChildren`. -/
def numChildren (t : Tree V E) (vertex : Ptr) : Except Fault Int :=
  t.graph.outDegree vertex

/-- Method `isInternal`. -/
def isInternal (t : Tree V E) (vertex : Ptr) : Except Fault Bool :=
  (t.numChildren vertex).map (fun n => decide (n > 0))

/-- Method `isLeaf`. -/
def isLeaf (t : Tree V E) (vertex : Ptr) : Except Fault Bool :=
  (t.numChildren vertex).map (fun n => decide (n = 0))

end Tree

/-! ## environment.cpp, engine.cpp: obstacles -/

namespace GridEnvironment

/-- The loop of `isObstacle` over the vertex vector. -/
def isObstacleLoop (graph : AdjacencyListGraph Grid Int) (row col : Int) :
    List Ptr → Except Fault Bool
  | [] => .ok true
  | v :: rest => do
    let element ← graph.vertexElement v
    if element.row = row ∧ element.column = col then
      pure false
    else
      isObstacleLoop graph row col rest

/-- Method `GridEnvironment::isObstacle`. -/
def isObstacle (env : GridEnvironment) (row col : Int) : Except Fault Bool :=
  isObstacleLoop env.graph row col env.graph.vertices

end GridEnvironment

/-- Enumeration `Direction`. -/
inductive Direction where
  | Top
  | Right
  | Bottom
  | Left
  deriving DecidableEq

/-- Struct `Settings`: the four maxima and the sizes of the window and of the grid; the
fields of the colours, the timers and the breadcrumbs are left out. -/
structure Settings (F : Type) where
  maxLinearVelocity : F
  maxAngularVelocity : F
  maxLinearAcceleration : F
  maxAngularAcceleration : F
  width : Int
  height : Int
  xTiles : Int
  yTiles : Int

namespace Engine

variable {F : Type} [LinearOrderedField F] [FloorRing F]

/-- The `switch` of `nearestObstacle`: the values of `dx`, `dy` and `dd`.  The two
integer divisions are undefined behaviour for a zero divisor; `dx` and `dy` are `float`
variables that hold `-1`, `0` or `1`. -/
def nearestObstacleDeltas (settings : Settings F) :
    Direction → Except Fault (Int × Int × Int)
  | .Top =>
    if settings.yTiles = 0 then .error .undefinedBehaviour
    else .ok (0, -1, Int.tdiv settings.height settings.yTiles)
  | .Right =>
    if settings.xTiles = 0 then .error .undefinedBehaviour
    else .ok (1, 0, Int.tdiv settings.width settings.xTiles)
  | .Bottom =>
    if settings.yTiles = 0 then .error .undefinedBehaviour
    else .ok (0, 1, Int.tdiv settings.height settings.yTiles)
  | .Left =>
    if settings.xTiles = 0 then .error .undefinedBehaviour
    else .ok (-1, 0, Int.tdiv settings.width settings.xTiles)

/-- The `while` loop of `nearestObstacle`, for at most `fuel` turns: `row += dx` and
`col += dy`. -/
def nearestObstacleLoop (settings : Settings F) (environment : GridEnvironment)
    (dx dy : Int) (dd : F) : Nat → Int → Int → F → Except Fault F
  | 0, _, _, _ => .error .outOfFuel
  | fuel + 1, row, col, distance =>
    if row ≥ 0 ∧ row < settings.yTiles ∧ col ≥ 0 ∧ col < settings.xTiles then do
      let row := row + dx
      let col := col + dy
      let distance := distance + dd
      if (← environment.isObstacle row col) then
        pure distance
      else
        nearestObstacleLoop settings environment dx dy dd fuel row col distance
    else
      pure distance

/-- Method `Engine::nearestObstacle`, for the environment of the engine. -/
def nearestObstacle (settings : Settings F) (environment : GridEnvironment) (fuel : Nat)
    (position : Vector2 F) (direction : Direction) : Except Fault F := do
  let (dx, dy, dd) ← nearestObstacleDeltas settings direction
  let currentVertex ← environment.quantize F position
  let element ← environment.graph.vertexElement currentVertex
  let row := element.row
  let col := element.column
  let distance : F := 0
  nearestObstacleLoop settings environment dx dy (dd : F) fuel row col distance

end Engine

/-! ## entity.cpp: `Entity::update` -/

/-- Method `Vmath::scale`. -/
def Vmath.scale {F : Type} [LinearOrderedField F] (sqrt : F → F) (v : Vector2 F) (length : F) :
    Except Fault (Vector2 F) := do
  let n ← Vmath.normalize sqrt v
  pure (n.mul length)

namespace Entity

variable {F σ : Type} [LinearOrderedField F]

/-- The first part of `Entity::update`: the position, the orientation and the two
velocities with their caps.  `rotate` is `sf::Transformable::rotate`, which gives the
new rotation of the sprite from the old one and the angle. -/
def updateVelocities (sqrt : F → F) (rotate : F → F → F) (settings : Settings F)
    (self : Entity F σ) (seconds : F) : Except Fault (Entity F σ) := do
  let self := { self with position := self.position.add (self.linearVelocity.mul seconds) }
  let self := { self with rotation := rotate self.rotation (self.angularVelocity * seconds) }
  let self := { self with
    linearVelocity := self.linearVelocity.add (self.linearAcceleration.mul seconds) }
  let self := { self with
    angularVelocity := self.angularVelocity + self.angularAcceleration * seconds }
  let self ←
    if Vmath.length sqrt self.linearVelocity > settings.maxLinearVelocity then do
      let v ← Vmath.scale sqrt self.linearVelocity settings.maxLinearVelocity
      pure { self with linearVelocity := v }
    else pure self
  let self :=
    if self.angularVelocity > settings.maxAngularVelocity then
      { self with angularVelocity := settings.maxAngularVelocity }
    else self
  pure self

/-- Method `Entity::update`, for `seconds = dt.asSeconds()` and the settings of the
engine: the first part, then `nextAccelerations` and the caps of the two
accelerations. -/
def update (sqrt : F → F) (rotate : F → F → F) (settings : Settings F)
    (self : Entity F σ) (state : σ) (seconds : F) : Except Fault (Entity F σ × σ) := do
  let self ← updateVelocities sqrt rotate settings self seconds
  let (self, state) := self.nextAccelerations state
  let self ←
    if Vmath.length sqrt self.linearAcceleration > settings.maxLinearAcceleration then do
      let a ← Vmath.scale sqrt self.linearAcceleration settings.maxLinearAcceleration
      pure { self with linearAcceleration := a }
    else pure self
  let self :=
    if self.angularAcceleration > settings.maxAngularAcceleration then
      { self with angularAcceleration := settings.maxAngularAcceleration }
    else self
  pure (self, state)

end Entity

/-! ## behaviors.hpp: `reset` -/

/-- Method `PathfindToMultiplePosition::reset`. -/
def PathfindToMultiplePosition.reset {F : Type} (self : PathfindToMultiplePosition F) :
    PathfindToMultiplePosition F :=
  { self with calculatedPath := false }

/-! ## Notions used in the proofs -/

/-- Some record of the list is a record of the vertex `w`. -/
def Has (l : List VertexRecord) (w : Ptr) : Prop := ∃ r ∈ l, r.vertex = w

instance (l : List VertexRecord) (w : Ptr) : Decidable (Has l w) := by
  unfold Has
  infer_instance

/-- The record is a record of the start vertex, or its edge is an edge of the graph that
leads into its vertex from a vertex with a record in `cl`. -/
def Linked {V : Type} (g : AdjacencyListGraph V Int) (s : Ptr) (cl : List VertexRecord)
    (r : VertexRecord) : Prop :=
  r.vertex = s ∨
    ∃ p, g.ends r.edge = some (p, r.vertex) ∧ r.edge ∈ g.edgeList ∧ r.edge ∈ g.out p ∧ Has cl p

/-- Every record of the closed list is linked to the records before it. -/
def ClosedOK {V : Type} (g : AdjacencyListGraph V Int) (s : Ptr) (closed : List VertexRecord) :
    Prop :=
  ∀ pre r post, closed = pre ++ r :: post → Linked g s pre r

/-- The potential that bounds the number of turns of the loop of `dijkstras`: the size of
the open list, twice the number of vertices with no record at all and three times the
number of vertices with no closed record. -/
def potential {V : Type} (g : AdjacencyListGraph V Int) (openList closed : List VertexRecord) :
    Nat :=
  openList.length
    + 2 * g.vertexList.countP (fun v => decide (¬ Has closed v ∧ ¬ Has openList v))
    + 3 * g.vertexList.countP (fun v => decide (¬ Has closed v))

/-- The record is the initial record of the start vertex, or its edge leads into its
vertex from a vertex that a walk from the start reaches in one edge less than its cost. -/
def Realised {V : Type} (g : AdjacencyListGraph V Int) (s : Ptr) (r : VertexRecord) : Prop :=
  (r.vertex = s ∧ r.cost = 0) ∨
    ∃ p q, g.ends r.edge = some (p, r.vertex) ∧ r.edge ∈ g.out p ∧ g.IsWalk s q p ∧
      (q.length : Int) + 1 = r.cost

/-- No walk from the start to the vertex of the record has fewer edges than its cost. -/
def Optimal {V : Type} (g : AdjacencyListGraph V Int) (s : Ptr) (r : VertexRecord) : Prop :=
  ∀ q, g.IsWalk s q r.vertex → r.cost ≤ (q.length : Int)

/-- The invariant of the loop of `dijkstras` on a graph whose edges all weigh `1`. -/
structure BFSInv {V : Type} (g : AdjacencyListGraph V Int) (s t : Ptr)
    (openList closed : List VertexRecord) : Prop where
  closure : ∀ c ∈ closed, ∀ e ∈ g.out c.vertex, ∀ w, g.opposite c.vertex e = .ok w →
    Has closed w ∨ Has openList w
  start : Has closed s ∨ Has openList s
  realised_open : ∀ r ∈ openList, Realised g s r
  optimal_open : ∀ r ∈ openList, ¬ Has closed r.vertex → Optimal g s r
  good_closed : ∀ v r, AdaptableSearchableVector.find closed v = some r →
    Realised g s r ∧ Optimal g s r
  goal : ¬ Has closed t
  vertices : ∀ r ∈ openList, r.vertex ∈ g.vertexList
  plain : ∀ r ∈ openList, r.costSoFar = 0

/-- Every edge of the graph has weight `1`. -/
def UnitWeights {V : Type} (g : AdjacencyListGraph V Int) : Prop :=
  ∀ e ∈ g.edgeList, g.weight e = 1

instance {V : Type} (g : AdjacencyListGraph V Int) : Decidable (UnitWeights g) := by
  unfold UnitWeights
  infer_instance

/-- The record of `astar` with a zero heuristic that matches a record of `dijkstras`:
the cost so far is the cost. -/
def withCostSoFar (r : VertexRecord) : VertexRecord := { r with costSoFar := r.cost }

/-- The record of `dijkstras` that matches a record of `astar`: the cost so far is not
used. -/
def withoutCostSoFar (r : VertexRecord) : VertexRecord := { r with costSoFar := 0 }

/-- The heap algorithms `H` as they act on the records of `dijkstras` when they are
given the matching records of `astar`. -/
def HeapOps.onCostSoFar (H : HeapOps) : HeapOps where
  make_heap := fun l =>
    if ∀ r ∈ l, r.costSoFar = 0 then (H.make_heap (l.map withCostSoFar)).map withoutCostSoFar
    else sortedHeap.make_heap l
  pop_heap := fun l =>
    if ∀ r ∈ l, r.costSoFar = 0 then (H.pop_heap (l.map withCostSoFar)).map withoutCostSoFar
    else sortedHeap.pop_heap l

/-- The vertex object `o` without the edges of `R` in its adjacency vectors. -/
def ALVertex.without {V : Type} (R : List Ptr) (o : ALVertex V) : ALVertex V :=
  { o with outgoing := o.outgoing.filter (fun e => decide (e ∉ R)),
           incoming := o.incoming.filter (fun e => decide (e ∉ R)) }

/-- The graph `g'` is the graph `g` after the edges of `R` were removed. -/
structure Stripped {V E : Type} (g : AdjacencyListGraph V E) (R : List Ptr)
    (g' : AdjacencyListGraph V E) : Prop where
  vertexList : g'.vertexList = g.vertexList
  edgeList : g'.edgeList = g.edgeList.filter (fun e => decide (e ∉ R))
  vertexObj : ∀ u ∈ g.vertexList, g'.vertexObj u = (g.vertexObj u).map (ALVertex.without R)
  edgeObj : ∀ e, g'.edgeObj e = if e ∈ R then none else g.edgeObj e
  fresh : g'.fresh = g.fresh

/-- The records of least cost of a list: the candidates for the back of the range after
`pop_heap`. -/
def minima (l : List VertexRecord) : List VertexRecord :=
  l.filter (fun m => l.all (fun y => decide (m.cost ≤ y.cost)))

/-- The result of `dijkstras` or `astar` from the result of the main loop: the test of
the goal and the loop that compiles the path. -/
def Algorithm.finish {V : Type} (graph : AdjacencyListGraph V Int) (startVertex endVertex : Ptr)
    (fuel : Nat) (path : List Ptr)
    (r : Except Fault (VertexRecord × AdaptableSearchableVector)) :
    Except Fault (Bool × List Ptr) :=
  match r with
  | .error f => .error f
  | .ok (current, closedList) =>
    if current.vertex ≠ endVertex then .ok (false, path)
    else
      match Algorithm.compilePath graph startVertex closedList fuel current path with
      | .error f => .error f
      | .ok path => .ok (true, path.reverse)

/-- The results of the loop of `dijkstras` over every choice of a least-cost record that
a heap implementation may pop. -/
def Algorithm.dijkstrasLoopAll {V : Type} (graph : AdjacencyListGraph V Int) (endVertex : Ptr) :
    Nat → List VertexRecord → List VertexRecord → VertexRecord →
    List (Except Fault (VertexRecord × AdaptableSearchableVector))
  | 0, _, _, _ => [.error .outOfFuel]
  | fuel + 1, openList, closedList, current =>
    if openList.length > 0 then
      (minima openList).flatMap fun m =>
        if m.vertex = endVertex then [.ok (m, closedList)]
        else
          match (graph.outgoingEdges m.vertex).bind fun edges =>
              edges.foldlM (Algorithm.dijkstrasEdge graph m closedList) (openList.erase m) with
          | .error f => [.error f]
          | .ok openList' =>
            Algorithm.dijkstrasLoopAll graph endVertex fuel openList' (closedList ++ [m]) m
    else [.ok (current, closedList)]

/-- The results of the loop of `astar` over every choice of a least-cost record that a
heap implementation may pop. -/
def Algorithm.astarLoopAll {V : Type} (graph : AdjacencyListGraph V Int) (endVertex : Ptr)
    (heuristic : Algorithm.Heuristic) :
    Nat → List VertexRecord → List VertexRecord → VertexRecord →
    List (Except Fault (VertexRecord × AdaptableSearchableVector))
  | 0, _, _, _ => [.error .outOfFuel]
  | fuel + 1, openList, closedList, current =>
    if openList.length > 0 then
      (minima openList).flatMap fun m =>
        if m.vertex = endVertex then [.ok (m, closedList)]
        else
          match (graph.outgoingEdges m.vertex).bind fun edges =>
              edges.foldlM (Algorithm.astarEdge graph endVertex heuristic m)
                (openList.erase m, closedList) with
          | .error f => [.error f]
          | .ok lists =>
            Algorithm.astarLoopAll graph endVertex heuristic fuel lists.1 (lists.2 ++ [m]) m
    else [.ok (current, closedList)]

/-- A result is true with a path of four edges that all join neighbouring cells. -/
def fourNeighbourSteps (graph : AdjacencyListGraph Grid Int)
    (r : Except Fault (Bool × List Ptr)) : Bool :=
  match r with
  | .ok (true, path) => path.length == 4 && path.all (joinsNeighbours graph)
  | _ => false


/-- The second endpoint of an edge, null when the pointer has no object. -/
def AdjacencyListGraph.target {V E : Type} (g : AdjacencyListGraph V E) (e : Ptr) : Ptr :=
  match g.ends e with
  | some p => p.2
  | none => nullptr

/-- The invariant of a tree with a root: the graph is well formed, the root is a vertex
without incoming edge, every other vertex has exactly one incoming edge, there is one
edge less than there are vertices, every vertex descends from the root, and every edge
leads to a vertex that was created after its origin. -/
structure Tree.Rooted {V E : Type} (t : Tree V E) : Prop where
  wellFormed : t.graph.WellFormed
  root_mem : t.root ∈ t.graph.vertexList
  root_inc : t.graph.inc t.root = []
  inc_one : ∀ v ∈ t.graph.vertexList, v ≠ t.root → ∃ e, t.graph.inc v = [e]
  count : t.graph.edgeList.length + 1 = t.graph.vertexList.length
  descends : ∀ v ∈ t.graph.vertexList, t.Descends t.root v
  ordered : ∀ e ∈ t.graph.edgeList, ∀ a b, t.graph.ends e = some (a, b) → a < b


/-- The payload of a vertex, null when the pointer has no object. -/
def AdjacencyListGraph.payload {E : Type} (g : AdjacencyListGraph Ptr E) (v : Ptr) : Ptr :=
  match g.vertexObj v with
  | some o => o.element
  | none => nullptr

/-- The node of the child that was inserted last under the vertex `v` with the label
`value`. -/
def DecisionTree.childUnder {B : Type} (dt : DecisionTree B) (v : Ptr) (value : Bool) :
    Option Ptr :=
  (dt.edgesLabelled v value).getLast?.map
    (fun e => dt.tree.graph.payload (dt.tree.graph.target e))

/-- The invariant of a decision tree under construction: the tree is rooted, distinct
vertices hold distinct `Decision`s, a vertex with a child holds a `Decision`, and the
truth node and false node of a `Decision` are the nodes of the children inserted last
with `true` and with `false`. -/
structure DecisionTree.Wired {B : Type} (dt : DecisionTree B) : Prop where
  rooted : dt.tree.Rooted
  null : dt.nodes nullptr = none
  injective : ∀ u ∈ dt.tree.graph.vertexList, ∀ v ∈ dt.tree.graph.vertexList,
    dt.tree.graph.payload u = dt.tree.graph.payload v →
    (∃ test truthNode falseNode,
      dt.nodes (dt.tree.graph.payload u) = some (.decision test truthNode falseNode)) →
    u = v
  internal : ∀ v ∈ dt.tree.graph.vertexList, dt.tree.graph.out v ≠ [] →
    ∃ test truthNode falseNode,
      dt.nodes (dt.tree.graph.payload v) = some (.decision test truthNode falseNode)
  wired : ∀ v ∈ dt.tree.graph.vertexList, ∀ test truthNode falseNode,
    dt.nodes (dt.tree.graph.payload v) = some (.decision test truthNode falseNode) →
    (∀ c, dt.childUnder v true = some c → truthNode = some c) ∧
    (∀ c, dt.childUnder v false = some c → falseNode = some c)

/-- The weights and outputs of the behaviors of a list, in order, for the target
`target`: each behavior runs in the state that the one before it left. -/
def weightedOutputs {F σ : Type} (target : Target F) :
    List (WeightedBehavior F σ) → σ → List (F × Accelerations F)
  | [], _ => []
  | b :: rest, state =>
    (b.weight, (b.behavior target state).1) ::
      weightedOutputs target rest (b.behavior target state).2

/-- The number of steps between two cells of a four-neighbour grid: the sum of the
absolute differences of the rows and of the columns. -/
def gridDistance (a b : Grid) : Int :=
  (Int.natAbs (b.row - a.row) : Int) + (Int.natAbs (b.column - a.column) : Int)

/-- The cell of a vertex pointer, when it has an object. -/
def cellOf (g : AdjacencyListGraph Grid Int) (v : Ptr) : Option Grid :=
  (g.vertexObj v).map (fun o => o.element)

/-- The representation invariant of a `GridEnvironment`: the graph is well formed, the
vertices stand for different cells with non-negative row and column, every edge has
weight `1` and joins two cells next to each other, and the numbers of tiles are not
zero. -/
structure GridEnvironment.Sound (env : GridEnvironment) : Prop where
  wellFormed : env.graph.WellFormed
  cells : ∀ v ∈ env.graph.vertexList,
    ∃ c, cellOf env.graph v = some c ∧ 0 ≤ c.row ∧ 0 ≤ c.column
  distinct : ∀ u ∈ env.graph.vertexList, ∀ v ∈ env.graph.vertexList,
    cellOf env.graph u = cellOf env.graph v → u = v
  neighbours : ∀ e ∈ env.graph.edgeList, joinsNeighbours env.graph e = true
  unit : UnitWeights env.graph
  tiles : env.xTiles ≠ 0 ∧ env.yTiles ≠ 0

/-- What the loops of the constructor of `GridEnvironment` keep while they insert the
edges: the graph is well formed, its vertices are `vl` with the cells `cells`, and every
edge has weight `1` and joins two cells next to each other. -/
def Connecting (vl : List Ptr) (cells : Ptr → Option Grid) (g : AdjacencyListGraph Grid Int) :
    Prop :=
  g.WellFormed ∧ g.vertexList = vl ∧ (∀ u, cellOf g u = cells u) ∧
    (∀ e ∈ g.edgeList, joinsNeighbours g e = true) ∧ UnitWeights g

/-- The step of the scan of the path-following behaviors when the distance of the edge
at index `i` is `distance i`. -/
def scanPure {F : Type} [LinearOrderedField F] (distance : Nat → F) (best : F × Nat) (i : Nat) :
    F × Nat :=
  if distance i < best.1 then (distance i, i) else best

/-! ## Samples for the steering code and the grid environment -/

/-- An undirected graph with the two vertices `1` and `2` and no edge. -/
def undirectedPair : AdjacencyListGraph Unit Int :=
  (((AdjacencyListGraph.new false : AdjacencyListGraph Unit Int).insertVertex ()).2.insertVertex
    ()).2

/-- A behavior that returns the accelerations `a` for every target and keeps no state. -/
def constantBehavior (a : Accelerations ℚ) (weight : ℚ) : WeightedBehavior ℚ Unit :=
  { behavior := fun _ state => (a, state), weight := weight }

/-- An entity at rest with two behaviors of weight `2` whose outputs are opposite. -/
def opposedEntity : Entity ℚ Unit :=
  { linearAcceleration := ⟨5, 5⟩, angularAcceleration := 5, linearVelocity := ⟨0, 0⟩,
    angularVelocity := 0, position := ⟨0, 0⟩, rotation := 0,
    behaviors :=
      [constantBehavior { linearAcceleration := ⟨3, -4⟩, angularAcceleration := 7 } 2,
       constantBehavior { linearAcceleration := ⟨-3, 4⟩, angularAcceleration := -7 } 2] }

/-- The function `fmod` of `<math.h>` over exact numbers: what is left of `a` when the
multiple of `b` by the truncated quotient is taken away. -/
def fmodExact {F : Type} [LinearOrderedField F] [FloorRing F] (a b : F) : F :=
  a - b * ((truncate (a / b) : Int) : F)

/-- A target at the position `position` with the orientation `orientation`, at rest. -/
def targetAt {F : Type} [LinearOrderedField F] (position : Vector2 F) (orientation : F) :
    Target F :=
  { (Target.new : Target F) with position := position, orientation := orientation }

/-- The environment `GridEnvironment(3, 3, 640, 480)`: tiles of `213` by `160`. -/
def environment3x3 : GridEnvironment :=
  { graph := grid3x3, tileWidth := 213, tileHeight := 160, xTiles := 3, yTiles := 3,
    width := 640, height := 480 }

/-! ## Notions for the reachable graphs, the obstacles, the trees and the targets -/

/-- The graphs that calls of `insertVertex`, `insertEdge`, `removeEdge` and `removeVertex`
build from the empty graph, directed or not; the calls are those that return. -/
inductive AdjacencyListGraph.Reached {V E : Type} : AdjacencyListGraph V E → Prop
  | new (directed : Bool) : Reached (AdjacencyListGraph.new directed)
  | insertVertex {g : AdjacencyListGraph V E} (vertexData : V) :
    Reached g → Reached (g.insertVertex vertexData).2
  | insertEdge {g g1 : AdjacencyListGraph V E} {org dest e : Ptr} {edgeData : E} :
    Reached g → g.insertEdge org dest edgeData = .ok (e, g1) → Reached g1
  | removeEdge {g g1 : AdjacencyListGraph V E} {e : Ptr} :
    Reached g → g.removeEdge e = .ok g1 → Reached g1
  | removeVertex {g g1 : AdjacencyListGraph V E} {vertex : Ptr} :
    Reached g → g.removeVertex vertex = .ok g1 → Reached g1

/-- No object is left behind: a pointer outside the vertex (edge) vector has no vertex
(edge) object. -/
def AdjacencyListGraph.Clean {V E : Type} (g : AdjacencyListGraph V E) : Prop :=
  (∀ v, v ∉ g.vertexList → g.vertexObj v = none) ∧ (∀ e, e ∉ g.edgeList → g.edgeObj e = none)

/-- An undirected graph with vertices `1`, `2` and the edge `3` stored from `1` to `2`. -/
def undirectedEdge : AdjacencyListGraph Unit Int :=
  graphOf (insertEdges undirectedPair [(1, 2, 5)])

/-- The environment `GridEnvironment(3, 3, 640, 480)` after `addObstacle` for the cell of
row `0` and column `1`. -/
def obstacle3x3 : GridEnvironment :=
  match environment3x3.addObstacle ⟨0, 1⟩ with
  | .ok env => env
  | .error _ => environment3x3

/-- Settings of a window of `640` by `480` with a grid of `3` by `3` tiles. -/
def settings3x3 : Settings ℚ :=
  { maxLinearVelocity := 200, maxAngularVelocity := 90, maxLinearAcceleration := 100,
    maxAngularAcceleration := 45, width := 640, height := 480, xTiles := 3, yTiles := 3 }

/-- The trees that one `addRoot` on an empty tree and then calls of `insertNode` under a
vertex of the tree build, with the log of the calls of `insertNode` in their order: the
vertex passed as parent and the vertex returned. -/
inductive Tree.BuiltWith {V E : Type} : Tree V E → List (Ptr × Ptr) → Prop
  | addRoot (rootData : V) (root : Ptr) (t : Tree V E) :
      (Tree.new : Tree V E).addRoot rootData = .ok (root, t) → BuiltWith t []
  | insertNode (t : Tree V E) (log : List (Ptr × Ptr)) (vertexData : V) (edgeData : E)
      (parent vertex : Ptr) (t1 : Tree V E) :
      BuiltWith t log → parent ∈ t.graph.vertices →
      t.insertNode vertexData edgeData parent = .ok (vertex, t1) →
      BuiltWith t1 (log ++ [(parent, vertex)])

/-- The vertices that the log records as inserted under `p`, in the order of the
insertions. -/
def insertedUnder (log : List (Ptr × Ptr)) (p : Ptr) : List Ptr :=
  (log.filter (fun q => decide (q.1 = p))).map Prod.snd

/-- The test at the head of the behavior function of `PathfindToMultiplePosition`: this
evaluation computes a path. -/
def PathfindToMultiplePosition.computes {F : Type} (self : PathfindToMultiplePosition F) :
    Bool :=
  !self.calculatedPath || self.currentIndex + 1 == self.path.length

/-- The states of a `PathfindToMultiplePosition` that evaluations of its behavior
function and calls of `reset` reach from the constructor, with the number of path
computations since the construction and whether none has happened since the
construction or the last `reset`. -/
inductive PathfindToMultiplePosition.Ran {F : Type} [LinearOrderedField F] (sqrt : F → F)
    (floatMax : F) (env : GridEnvironment)
    (pathfind : Vector2 F → Vector2 F → Except Fault (List Ptr))
    (find : Params F → Except Fault (Accelerations F)) (targetPositions : List (Vector2 F)) :
    PathfindToMultiplePosition F → Nat → Bool → Prop
  | new (predictTime : F) : Ran sqrt floatMax env pathfind find targetPositions
      (PathfindToMultiplePosition.new predictTime) 0 true
  | reset {self : PathfindToMultiplePosition F} {k : Nat} {clean : Bool} :
      Ran sqrt floatMax env pathfind find targetPositions self k clean →
      Ran sqrt floatMax env pathfind find targetPositions self.reset k true
  | follow {self : PathfindToMultiplePosition F} {k : Nat} {clean : Bool}
      {character : Target F} {result : Accelerations F × PathfindToMultiplePosition F} :
      Ran sqrt floatMax env pathfind find targetPositions self k clean →
      self.computes = false →
      PathfindToMultiplePosition.behavior sqrt floatMax env pathfind find targetPositions
        self character = .ok result →
      Ran sqrt floatMax env pathfind find targetPositions result.2 k clean
  | compute {self : PathfindToMultiplePosition F} {k : Nat} {clean : Bool}
      {character : Target F} {result : Accelerations F × PathfindToMultiplePosition F} :
      Ran sqrt floatMax env pathfind find targetPositions self k clean →
      self.computes = true →
      PathfindToMultiplePosition.behavior sqrt floatMax env pathfind find targetPositions
        self character = .ok result →
      Ran sqrt floatMax env pathfind find targetPositions result.2 (k + 1) false

/-- The loop of `dijkstras` with a counter of the turns that expand a vertex: the turns
that remove a record other than that of the goal from the open list and run the loop
over its outgoing edges. -/
def Algorithm.dijkstrasLoopCount {V : Type} (H : HeapOps) (graph : AdjacencyListGraph V Int)
    (endVertex : Ptr) :
    Nat → AdaptableSearchableVector → AdaptableSearchableVector → VertexRecord → Nat →
    Except Fault (VertexRecord × AdaptableSearchableVector × Nat)
  | 0, _, _, _, _ => .error .outOfFuel
  | fuel + 1, openList, closedList, current, expanded =>
    if openList.length > 0 then
      let popped := H.pop_heap openList
      match popped.getLast? with
      | none => .error .undefinedBehaviour
      | some back =>
        let current := back
        let openList := popped.dropLast
        if current.vertex = endVertex then
          .ok (current, closedList, expanded)
        else do
          let edges ← graph.outgoingEdges current.vertex
          let openList ← edges.foldlM (Algorithm.dijkstrasEdge graph current closedList) openList
          let closedList := closedList ++ [current]
          let openList := H.make_heap openList
          Algorithm.dijkstrasLoopCount H graph endVertex fuel openList closedList current
            (expanded + 1)
    else
      .ok (current, closedList, expanded)

/-- The loop of `astar` with a counter of the turns that expand a vertex. -/
def Algorithm.astarLoopCount {V : Type} (H : HeapOps) (graph : AdjacencyListGraph V Int)
    (endVertex : Ptr) (heuristic : Algorithm.Heuristic) :
    Nat → AdaptableSearchableVector → AdaptableSearchableVector → VertexRecord → Nat →
    Except Fault (VertexRecord × AdaptableSearchableVector × Nat)
  | 0, _, _, _, _ => .error .outOfFuel
  | fuel + 1, openList, closedList, current, expanded =>
    if openList.length > 0 then
      let popped := H.pop_heap openList
      match popped.getLast? with
      | none => .error .undefinedBehaviour
      | some back =>
        let current := back
        let openList := popped.dropLast
        if current.vertex = endVertex then
          .ok (current, closedList, expanded)
        else do
          let edges ← graph.outgoingEdges current.vertex
          let (openList, closedList) ←
            edges.foldlM (Algorithm.astarEdge graph endVertex heuristic current)
              (openList, closedList)
          let closedList := closedList ++ [current]
          let openList := H.make_heap openList
          Algorithm.astarLoopCount H graph endVertex heuristic fuel openList closedList current
            (expanded + 1)
    else
      .ok (current, closedList, expanded)

/-- The loop returned with a record of the vertex `goal` and a closed list of `k`
records. -/
def closesExactly (goal : Ptr) (k : Nat)
    (r : Except Fault (VertexRecord × AdaptableSearchableVector)) : Bool :=
  match r with
  | .ok (current, closedList) => current.vertex == goal && closedList.length == k
  | .error _ => false

/-- A directed graph with vertices `1`..`5` and edges `6 : 1 → 2` of weight `3`,
`7 : 1 → 3` of weight `1`, `8 : 2 → 4` of weight `100`, `9 : 3 → 4` of weight `10` and
`10 : 3 → 5` of weight `40`. -/
def sidetrackGraph : AdjacencyListGraph Unit Int :=
  let g : AdjacencyListGraph Unit Int := AdjacencyListGraph.new true
  let g := (g.insertVertex ()).2
  let g := (g.insertVertex ()).2
  let g := (g.insertVertex ()).2
  let g := (g.insertVertex ()).2
  let g := (g.insertVertex ()).2
  graphOf (insertEdges g [(1, 2, 3), (1, 3, 1), (2, 4, 100), (3, 4, 10), (3, 5, 40)])

/-- A heuristic on `sidetrackGraph` for the goal `4`: `9` at the vertex `3`, from which
the goal is `10` away, and `0` elsewhere. -/
def sidetrackHeuristic : Algorithm.Heuristic :=
  fun current _ => if current = 3 then 9 else 0

/-! ## Theorems -/

/-! ### The heap contract -/

theorem isHeap_nil : IsHeap [] := by
  intro i _ h
  simp at h

theorem isHeap_singleton (x : VertexRecord) : IsHeap [x] := by
  intro i hi h
  simp at h
  omega

/-- The first element of a heap costs no more than any element. -/
theorem IsHeap.head_le {x : VertexRecord} {l : List VertexRecord} (h : IsHeap (x :: l)) :
    ∀ y ∈ x :: l, x.cost ≤ y.cost := by
  have key : ∀ n : Nat, ∀ i : Nat, i ≤ n → ∀ hi : i < (x :: l).length,
      x.cost ≤ ((x :: l).get ⟨i, hi⟩).cost := by
    intro n
    induction n with
    | zero =>
      intro i hi0 hi
      have : i = 0 := by omega
      subst this
      simp
    | succ n ih =>
      intro i hin hi
      rcases Nat.eq_zero_or_pos i with h0 | hpos
      · subst h0
        simp
      · have hp := h i hpos hi
        have hlt : (i - 1) / 2 < (x :: l).length := by omega
        have := ih ((i - 1) / 2) (by omega) hlt
        omega
  intro y hy
  obtain ⟨i, rfl⟩ := List.mem_iff_get.mp hy
  exact key i.1 i.1 (le_refl _) i.2

theorem insertByCost_perm (r : VertexRecord) (l : List VertexRecord) :
    (insertByCost r l).Perm (r :: l) := by
  induction l with
  | nil => simp [insertByCost]
  | cons x xs ih =>
    unfold insertByCost
    split
    · exact List.Perm.refl _
    · exact (List.Perm.cons x ih).trans (List.Perm.swap r x xs)

theorem insertByCost_sorted (r : VertexRecord) (l : List VertexRecord)
    (h : l.Pairwise (fun a b => a.cost ≤ b.cost)) :
    (insertByCost r l).Pairwise (fun a b => a.cost ≤ b.cost) := by
  induction l with
  | nil => simp [insertByCost]
  | cons x xs ih =>
    unfold insertByCost
    rw [List.pairwise_cons] at h
    split
    · rename_i hlt
      refine List.pairwise_cons.mpr ⟨?_, List.pairwise_cons.mpr h⟩
      intro a ha
      rcases List.mem_cons.mp ha with rfl | ha
      · omega
      · have := h.1 a ha
        omega
    · rename_i hnlt
      refine List.pairwise_cons.mpr ⟨?_, ih h.2⟩
      intro a ha
      have ha' := (insertByCost_perm r xs).subset ha
      rcases List.mem_cons.mp ha' with rfl | ha'
      · omega
      · exact h.1 a ha'

theorem sortByCost_perm (l : List VertexRecord) : (l.foldr insertByCost []).Perm l := by
  induction l with
  | nil => simp
  | cons x xs ih =>
    simp only [List.foldr_cons]
    exact (insertByCost_perm x _).trans (List.Perm.cons x ih)

theorem sortByCost_sorted (l : List VertexRecord) :
    (l.foldr insertByCost []).Pairwise (fun a b => a.cost ≤ b.cost) := by
  induction l with
  | nil => simp
  | cons x xs ih =>
    simp only [List.foldr_cons]
    exact insertByCost_sorted x _ ih

/-- A range sorted by ascending cost is a heap for `std::greater`. -/
theorem isHeap_of_sorted (l : List VertexRecord)
    (h : l.Pairwise (fun a b => a.cost ≤ b.cost)) : IsHeap l := by
  intro i hi hlt
  have hp : (i - 1) / 2 < i := by omega
  have := List.pairwise_iff_get.mp h ⟨(i - 1) / 2, by omega⟩ ⟨i, hlt⟩ (by simpa using hp)
  omega

/-- The reference implementation meets the contract of the standard. -/
theorem sortedHeap_lawful : sortedHeap.Lawful where
  make_heap_perm := fun l => sortByCost_perm l
  make_heap_isHeap := fun l => isHeap_of_sorted _ (sortByCost_sorted l)
  pop_heap_spec := fun _ l _ =>
    ⟨l.foldr insertByCost [], rfl, sortByCost_perm l, isHeap_of_sorted _ (sortByCost_sorted l)⟩

/-- On a non-empty heap, `pop_heap` leaves at the back an element of least cost and in
front of it a heap of the other elements. -/
theorem HeapOps.Lawful.pop_heap_min {H : HeapOps} (hH : H.Lawful) {l : List VertexRecord}
    (hheap : IsHeap l) (hne : l ≠ []) :
    ∃ m rest, H.pop_heap l = rest ++ [m] ∧ (m :: rest).Perm l ∧
      (∀ y ∈ l, m.cost ≤ y.cost) ∧ IsHeap rest := by
  cases l with
  | nil => exact absurd rfl hne
  | cons x xs =>
    obtain ⟨l', h1, h2, h3⟩ := hH.pop_heap_spec x xs hheap
    exact ⟨x, l', h1, List.Perm.cons x h2, hheap.head_le, h3⟩

/-- On a range of one element `pop_heap` changes nothing. -/
theorem HeapOps.Lawful.pop_heap_singleton {H : HeapOps} (hH : H.Lawful) (x : VertexRecord) :
    H.pop_heap [x] = [x] := by
  obtain ⟨l', h1, h2, _⟩ := hH.pop_heap_spec x [] (isHeap_singleton x)
  have : l' = [] := List.Perm.eq_nil h2
  subst this
  simpa using h1

/-- On a range of one element `make_heap` changes nothing. -/
theorem HeapOps.Lawful.make_heap_singleton {H : HeapOps} (hH : H.Lawful) (x : VertexRecord) :
    H.make_heap [x] = [x] :=
  List.perm_singleton.mp (hH.make_heap_perm [x])

theorem HeapOps.Lawful.make_heap_nil {H : HeapOps} (hH : H.Lawful) :
    H.make_heap [] = [] :=
  List.Perm.eq_nil (hH.make_heap_perm [])

namespace Algorithm

variable {V : Type}

/-! ### Start equal to goal -/

/-- C5: for every graph, vertex `v` and heuristic, `dijkstras(path, g, v, v)` and
`astar(path, g, v, v, h)` return true and leave an initially empty path empty. -/
theorem start_eq_goal_returns_empty_path (H : HeapOps) (hH : H.Lawful) (fuel : Nat)
    (graph : AdjacencyListGraph V Int) (v : Ptr) (heuristic : Heuristic) :
    dijkstras H (fuel + 1) [] graph v v = .ok (true, []) ∧
    astar H (fuel + 1) [] graph v v heuristic = .ok (true, []) := by
  constructor
  · simp [dijkstras, dijkstrasLoop, hH.pop_heap_singleton, compilePath, bind, Except.bind,
      pure, Except.pure]
  · simp [astar, astarLoop, hH.pop_heap_singleton, compilePath, bind, Except.bind,
      pure, Except.pure]

end Algorithm


/-! ### Records of a vertex in a list -/


theorem find_isSome_iff (l : List VertexRecord) (w : Ptr) :
    (AdaptableSearchableVector.find l w).isSome = true ↔ Has l w := by
  simp [AdaptableSearchableVector.find, Has]

theorem find_eq_none_iff (l : List VertexRecord) (w : Ptr) :
    AdaptableSearchableVector.find l w = none ↔ ¬ Has l w := by
  simp [AdaptableSearchableVector.find, Has]

theorem find_some_mem {l : List VertexRecord} {w : Ptr} {r : VertexRecord}
    (h : AdaptableSearchableVector.find l w = some r) : r ∈ l ∧ r.vertex = w := by
  unfold AdaptableSearchableVector.find at h
  exact ⟨List.mem_of_find?_eq_some h, by simpa using List.find?_some h⟩

theorem has_of_find_some {l : List VertexRecord} {w : Ptr} {r : VertexRecord}
    (h : AdaptableSearchableVector.find l w = some r) : Has l w :=
  ⟨r, (find_some_mem h).1, (find_some_mem h).2⟩

theorem Has.append_left {l : List VertexRecord} {w : Ptr} (h : Has l w) (l' : List VertexRecord) :
    Has (l ++ l') w := by
  obtain ⟨r, hr, hv⟩ := h
  exact ⟨r, List.mem_append_left _ hr, hv⟩

theorem Has.perm {l l' : List VertexRecord} {w : Ptr} (h : Has l w) (hp : l.Perm l') :
    Has l' w := by
  obtain ⟨r, hr, hv⟩ := h
  exact ⟨r, hp.subset hr, hv⟩

theorem has_append {l l' : List VertexRecord} {w : Ptr} :
    Has (l ++ l') w ↔ Has l w ∨ Has l' w := by
  simp only [Has, List.mem_append]
  constructor
  · rintro ⟨r, hr | hr, hv⟩
    · exact Or.inl ⟨r, hr, hv⟩
    · exact Or.inr ⟨r, hr, hv⟩
  · rintro (⟨r, hr, hv⟩ | ⟨r, hr, hv⟩)
    · exact ⟨r, Or.inl hr, hv⟩
    · exact ⟨r, Or.inr hr, hv⟩

theorem has_singleton {r : VertexRecord} {w : Ptr} : Has [r] w ↔ r.vertex = w := by
  simp [Has]

theorem has_cons {r : VertexRecord} {l : List VertexRecord} {w : Ptr} :
    Has (r :: l) w ↔ r.vertex = w ∨ Has l w := by
  simp [Has]

namespace AdjacencyListGraph

variable {V E : Type}

/-! ### Consequences of well-formedness -/

theorem outgoingEdges_eq {g : AdjacencyListGraph V E} {v : Ptr} {es : List Ptr}
    (h : g.outgoingEdges v = .ok es) : es = g.out v := by
  unfold outgoingEdges vertexAt at h
  unfold out
  cases hv : g.vertexObj v with
  | none => simp [hv, Except.map] at h
  | some o =>
    simp only [hv, Except.map] at h
    cases h
    rfl

theorem WellFormed.outgoingEdges_ok {g : AdjacencyListGraph V E} (hg : g.WellFormed) {v : Ptr}
    (hv : v ∈ g.vertexList) : g.outgoingEdges v = .ok (g.out v) := by
  have h := (hg.2.2.1 v hv).2.1
  unfold outgoingEdges vertexAt out
  cases hvo : g.vertexObj v with
  | none => simp [hvo] at h
  | some o => rfl

theorem opposite_of_ends_fst {g : AdjacencyListGraph V E} {e v w : Ptr}
    (h : g.ends e = some (v, w)) : g.opposite v e = .ok w := by
  unfold ends at h
  unfold opposite edgeAt
  cases he : g.edgeObj e with
  | none => simp [he] at h
  | some o =>
    simp only [he, Option.map_some', Option.some.injEq] at h
    simp [Except.map, h]

theorem opposite_of_ends_snd {g : AdjacencyListGraph V E} {e v w : Ptr}
    (h : g.ends e = some (v, w)) : g.opposite w e = .ok v := by
  unfold ends at h
  unfold opposite edgeAt
  cases he : g.edgeObj e with
  | none => simp [he] at h
  | some o =>
    simp only [he, Option.map_some', Option.some.injEq] at h
    simp only [Except.map, h, if_true]
    by_cases hvw : v = w
    · simp [hvw]
    · simp [hvw]

theorem edgeElement_of_ends {g : AdjacencyListGraph V Int} {e : Ptr} {p : Ptr × Ptr}
    (h : g.ends e = some p) : g.edgeElement e = .ok (g.weight e) := by
  unfold ends at h
  unfold edgeElement edgeAt weight
  cases he : g.edgeObj e with
  | none => simp [he] at h
  | some o => rfl

theorem endVertices_of_ends {g : AdjacencyListGraph V E} {e : Ptr} {p : Ptr × Ptr}
    (h : g.ends e = some p) : g.endVertices e = .ok p := by
  unfold ends at h
  unfold endVertices edgeAt
  cases he : g.edgeObj e with
  | none => simp [he] at h
  | some o =>
    simp only [he, Option.map_some', Option.some.injEq] at h
    simp [Except.map, h]

/-- In a well-formed graph an edge of the outgoing vector of `v` is an edge of the graph
from `v` to a vertex of the graph. -/
theorem WellFormed.out_edge {g : AdjacencyListGraph V E} (hg : g.WellFormed) {v e : Ptr}
    (hv : v ∈ g.vertexList) (he : e ∈ g.out v) :
    ∃ w ∈ g.vertexList, g.ends e = some (v, w) ∧ e ∈ g.edgeList := by
  obtain ⟨hel, hfst⟩ := (hg.2.2.1 v hv).2.2.2.2.1 e he
  obtain ⟨a, _, b, hb, hab, _, _⟩ := hg.2.2.2.1 e hel
  rw [hab] at hfst
  simp only [Option.map_some', Option.some.injEq] at hfst
  subst hfst
  exact ⟨b, hb, hab, hel⟩

/-! ### Walks -/

theorem isWalk_nil {g : AdjacencyListGraph V E} {s t : Ptr} :
    g.IsWalk s [] t ↔ s = t := Iff.rfl

theorem isWalk_cons {g : AdjacencyListGraph V E} {s t e : Ptr} {p : List Ptr} :
    g.IsWalk s (e :: p) t ↔ e ∈ g.out s ∧ ∃ w, g.opposite s e = .ok w ∧ g.IsWalk w p t :=
  Iff.rfl

theorem isEdgePath_nil {g : AdjacencyListGraph V E} {s t : Ptr} :
    g.IsEdgePath s [] t ↔ s = t := Iff.rfl

theorem isEdgePath_cons {g : AdjacencyListGraph V E} {s t e : Ptr} {p : List Ptr} :
    g.IsEdgePath s (e :: p) t ↔
      e ∈ g.edges ∧ ∃ w, g.endVertices e = .ok (s, w) ∧ g.IsEdgePath w p t :=
  Iff.rfl

theorem isWalk_append {g : AdjacencyListGraph V E} {s t : Ptr} (p q : List Ptr) :
    g.IsWalk s (p ++ q) t ↔ ∃ y, g.IsWalk s p y ∧ g.IsWalk y q t := by
  induction p generalizing s with
  | nil => simp [isWalk_nil]
  | cons e p ih =>
    simp only [List.cons_append, isWalk_cons, ih]
    constructor
    · rintro ⟨he, w, hw, y, h1, h2⟩
      exact ⟨y, ⟨he, w, hw, h1⟩, h2⟩
    · rintro ⟨y, ⟨he, w, hw, h1⟩, h2⟩
      exact ⟨he, w, hw, y, h1, h2⟩

theorem isWalk_concat {g : AdjacencyListGraph V E} {s t : Ptr} (p : List Ptr) (e : Ptr) :
    g.IsWalk s (p ++ [e]) t ↔ ∃ y, g.IsWalk s p y ∧ e ∈ g.out y ∧ g.opposite y e = .ok t := by
  rw [isWalk_append]
  simp only [isWalk_cons, isWalk_nil]
  constructor
  · rintro ⟨y, h1, he, w, hw, rfl⟩
    exact ⟨y, h1, he, hw⟩
  · rintro ⟨y, h1, he, hw⟩
    exact ⟨y, h1, he, t, hw, rfl⟩

theorem isEdgePath_append {g : AdjacencyListGraph V E} {s t : Ptr} (p q : List Ptr) :
    g.IsEdgePath s (p ++ q) t ↔ ∃ y, g.IsEdgePath s p y ∧ g.IsEdgePath y q t := by
  induction p generalizing s with
  | nil => simp [isEdgePath_nil]
  | cons e p ih =>
    simp only [List.cons_append, isEdgePath_cons, ih]
    constructor
    · rintro ⟨he, w, hw, y, h1, h2⟩
      exact ⟨y, ⟨he, w, hw, h1⟩, h2⟩
    · rintro ⟨y, ⟨he, w, hw, h1⟩, h2⟩
      exact ⟨he, w, hw, y, h1, h2⟩

theorem Reachable.refl (g : AdjacencyListGraph V E) (s : Ptr) : g.Reachable s s :=
  ⟨[], rfl⟩

theorem Reachable.step {g : AdjacencyListGraph V E} {s u w e : Ptr} (h : g.Reachable s u)
    (he : e ∈ g.out u) (hw : g.opposite u e = .ok w) : g.Reachable s w := by
  obtain ⟨p, hp⟩ := h
  exact ⟨p ++ [e], (isWalk_concat p e).mpr ⟨u, hp, he, hw⟩⟩

end AdjacencyListGraph

open AdjacencyListGraph

/-! ### Single turns of the search loops -/
namespace Algorithm
variable {V : Type}

/-- One turn of the loop of `dijkstras` on a heap: an element of least cost is taken. -/
theorem dijkstrasLoop_step {H : HeapOps} (hH : H.Lawful) (graph : AdjacencyListGraph V Int)
    (endVertex : Ptr) {openList : List VertexRecord} (hheap : IsHeap openList)
    (hne : openList ≠ []) :
    ∃ m rest, (m :: rest).Perm openList ∧ (∀ y ∈ openList, m.cost ≤ y.cost) ∧ IsHeap rest ∧
      ∀ fuel closedList current,
        dijkstrasLoop H graph endVertex (fuel + 1) openList closedList current =
          if m.vertex = endVertex then .ok (m, closedList)
          else
            (graph.outgoingEdges m.vertex).bind fun edges =>
            (edges.foldlM (dijkstrasEdge graph m closedList) rest).bind fun openList' =>
            dijkstrasLoop H graph endVertex fuel (H.make_heap openList') (closedList ++ [m]) m := by
  obtain ⟨m, rest, hpop, hperm, hmin, hrest⟩ := hH.pop_heap_min hheap hne
  refine ⟨m, rest, hperm, hmin, hrest, ?_⟩
  intro fuel closedList current
  have hlen : openList.length > 0 := List.length_pos.mpr hne
  simp only [dijkstrasLoop, hlen, if_true, hpop, List.getLast?_concat, List.dropLast_concat]
  rfl

/-- The loop of `dijkstras` on an open list of one record. -/
theorem dijkstrasLoop_singleton {H : HeapOps} (hH : H.Lawful) (graph : AdjacencyListGraph V Int)
    (endVertex : Ptr) (m : VertexRecord) (fuel : Nat) (closedList : List VertexRecord)
    (current : VertexRecord) :
    dijkstrasLoop H graph endVertex (fuel + 1) [m] closedList current =
      if m.vertex = endVertex then .ok (m, closedList)
      else
        (graph.outgoingEdges m.vertex).bind fun edges =>
        (edges.foldlM (dijkstrasEdge graph m closedList) []).bind fun openList' =>
        dijkstrasLoop H graph endVertex fuel (H.make_heap openList') (closedList ++ [m]) m := by
  simp only [dijkstrasLoop, List.length_singleton, gt_iff_lt, Nat.lt_one_iff, if_true,
    hH.pop_heap_singleton, List.getLast?_singleton, List.dropLast_single, zero_lt_one]
  rfl

theorem pop_two {m a b : VertexRecord} {rest : List VertexRecord}
    (hperm : (m :: rest).Perm [a, b]) (hmin : ∀ y ∈ [a, b], m.cost ≤ y.cost)
    (hlt : b.cost < a.cost) : m = b ∧ rest = [a] := by
  have hm : m ∈ [a, b] := hperm.subset (List.mem_cons_self _ _)
  have hmb : m = b := by
    rcases List.mem_cons.mp hm with h | h
    · have := hmin b (by simp)
      subst h
      omega
    · simpa using h
  subst hmb
  refine ⟨rfl, ?_⟩
  have h2 : (m :: rest).Perm (m :: [a]) := hperm.trans (List.Perm.swap m a [])
  exact List.perm_singleton.mp (List.Perm.cons_inv h2)

theorem dijkstrasLoop_detour {H : HeapOps} (hH : H.Lawful) (fuel : Nat) (current : VertexRecord) :
    dijkstrasLoop H detourGraph 2 (fuel + 1 + 1 + 1) [⟨1, nullptr, 0, 0⟩] [] current =
      .ok (⟨2, 4, 10, 0⟩, [⟨1, nullptr, 0, 0⟩, ⟨3, 5, 1, 0⟩]) := by
  rw [dijkstrasLoop_singleton hH]
  have e1 : (detourGraph.outgoingEdges 1) = .ok [4, 5] := rfl
  have e2 : ([4, 5].foldlM (dijkstrasEdge detourGraph ⟨1, nullptr, 0, 0⟩ []) [])
      = .ok [⟨2, 4, 10, 0⟩, ⟨3, 5, 1, 0⟩] := rfl
  simp only [e1, e2, Except.bind, show ((1 : Ptr) = 2) = False by decide, if_false]
  have hp := hH.make_heap_perm [⟨2, 4, 10, 0⟩, ⟨3, 5, 1, 0⟩]
  obtain ⟨m, rest, hperm, hmin, -, hstep⟩ :=
    dijkstrasLoop_step hH detourGraph 2 (hH.make_heap_isHeap [⟨2, 4, 10, 0⟩, ⟨3, 5, 1, 0⟩])
      (by intro h; have := hp.length_eq; simp [h] at this)
  obtain ⟨rfl, rfl⟩ := pop_two (hperm.trans hp) (fun y hy => hmin y (hp.symm.subset hy)) (by decide)
  rw [hstep]
  have e3 : (detourGraph.outgoingEdges 3) = .ok [6] := rfl
  have e4 : ([6].foldlM (dijkstrasEdge detourGraph ⟨3, 5, 1, 0⟩ [⟨1, nullptr, 0, 0⟩])
      [⟨2, 4, 10, 0⟩]) = .ok [⟨2, 4, 10, 0⟩] := rfl
  simp only [List.nil_append, e3, e4, Except.bind, show ((3 : Ptr) = 2) = False by decide,
    if_false, hH.make_heap_singleton]
  rw [dijkstrasLoop_singleton hH]
  rfl

theorem dijkstras_detour {H : HeapOps} (hH : H.Lawful) (fuel : Nat) :
    dijkstras H (fuel + 3) [] detourGraph 1 2 = .ok (true, [4]) := by
  unfold dijkstras
  simp only [show fuel + 3 = fuel + 1 + 1 + 1 from rfl, dijkstrasLoop_detour hH]
  rfl


/-- One turn of the loop of `astar` on a heap: an element of least cost is taken. -/
theorem astarLoop_step {H : HeapOps} (hH : H.Lawful) (graph : AdjacencyListGraph V Int)
    (endVertex : Ptr) (heuristic : Heuristic) {openList : List VertexRecord}
    (hheap : IsHeap openList) (hne : openList ≠ []) :
    ∃ m rest, (m :: rest).Perm openList ∧ (∀ y ∈ openList, m.cost ≤ y.cost) ∧ IsHeap rest ∧
      ∀ fuel closedList current,
        astarLoop H graph endVertex heuristic (fuel + 1) openList closedList current =
          if m.vertex = endVertex then .ok (m, closedList)
          else
            (graph.outgoingEdges m.vertex).bind fun edges =>
            (edges.foldlM (astarEdge graph endVertex heuristic m) (rest, closedList)).bind
              fun lists =>
            astarLoop H graph endVertex heuristic fuel (H.make_heap lists.1)
              (lists.2 ++ [m]) m := by
  obtain ⟨m, rest, hpop, hperm, hmin, hrest⟩ := hH.pop_heap_min hheap hne
  refine ⟨m, rest, hperm, hmin, hrest, ?_⟩
  intro fuel closedList current
  have hlen : openList.length > 0 := List.length_pos.mpr hne
  simp only [astarLoop, hlen, if_true, hpop, List.getLast?_concat, List.dropLast_concat]
  rfl

/-- The loop of `astar` on an open list of one record. -/
theorem astarLoop_singleton {H : HeapOps} (hH : H.Lawful) (graph : AdjacencyListGraph V Int)
    (endVertex : Ptr) (heuristic : Heuristic) (m : VertexRecord) (fuel : Nat)
    (closedList : List VertexRecord) (current : VertexRecord) :
    astarLoop H graph endVertex heuristic (fuel + 1) [m] closedList current =
      if m.vertex = endVertex then .ok (m, closedList)
      else
        (graph.outgoingEdges m.vertex).bind fun edges =>
        (edges.foldlM (astarEdge graph endVertex heuristic m) ([], closedList)).bind
          fun lists =>
        astarLoop H graph endVertex heuristic fuel (H.make_heap lists.1) (lists.2 ++ [m]) m := by
  simp only [astarLoop, List.length_singleton, gt_iff_lt, if_true,
    hH.pop_heap_singleton, List.getLast?_singleton, List.dropLast_single, zero_lt_one]
  rfl

theorem astarLoop_detour {H : HeapOps} (hH : H.Lawful) (fuel : Nat) (current : VertexRecord) :
    astarLoop H detourGraph 2 (fun _ _ => 0) (fuel + 1 + 1 + 1) [⟨1, nullptr, 0, 0⟩] [] current =
      .ok (⟨2, 4, 10, 10⟩, [⟨1, nullptr, 0, 0⟩, ⟨3, 5, 1, 1⟩]) := by
  rw [astarLoop_singleton hH]
  have e1 : (detourGraph.outgoingEdges 1) = .ok [4, 5] := rfl
  have e2 : ([4, 5].foldlM (astarEdge detourGraph 2 (fun _ _ => 0) ⟨1, nullptr, 0, 0⟩) ([], []))
      = .ok ([⟨2, 4, 10, 10⟩, ⟨3, 5, 1, 1⟩], []) := rfl
  simp only [e1, e2, Except.bind, show ((1 : Ptr) = 2) = False by decide, if_false]
  have hp := hH.make_heap_perm [⟨2, 4, 10, 10⟩, ⟨3, 5, 1, 1⟩]
  obtain ⟨m, rest, hperm, hmin, -, hstep⟩ :=
    astarLoop_step hH detourGraph 2 (fun _ _ => 0)
      (hH.make_heap_isHeap [⟨2, 4, 10, 10⟩, ⟨3, 5, 1, 1⟩])
      (by intro h; have := hp.length_eq; simp [h] at this)
  obtain ⟨rfl, rfl⟩ := pop_two (hperm.trans hp) (fun y hy => hmin y (hp.symm.subset hy)) (by decide)
  rw [hstep]
  have e3 : (detourGraph.outgoingEdges 3) = .ok [6] := rfl
  have e4 : ([6].foldlM (astarEdge detourGraph 2 (fun _ _ => 0) ⟨3, 5, 1, 1⟩)
      ([⟨2, 4, 10, 10⟩], [⟨1, nullptr, 0, 0⟩])) = .ok ([⟨2, 4, 10, 10⟩], [⟨1, nullptr, 0, 0⟩]) := rfl
  simp only [List.nil_append, e3, e4, Except.bind, show ((3 : Ptr) = 2) = False by decide,
    if_false, hH.make_heap_singleton]
  rw [astarLoop_singleton hH]
  rfl

theorem astar_detour {H : HeapOps} (hH : H.Lawful) (fuel : Nat) :
    astar H (fuel + 3) [] detourGraph 1 2 (fun _ _ => 0) = .ok (true, [4]) := by
  unfold astar
  simp only [show fuel + 3 = fuel + 1 + 1 + 1 from rfl, astarLoop_detour hH]
  rfl


end Algorithm

/-! ### Results of the `Except` monad -/

theorem bind_eq_ok {ε α β : Type} {x : Except ε α} {f : α → Except ε β} {b : β} :
    x.bind f = .ok b ↔ ∃ a, x = .ok a ∧ f a = .ok b := by
  cases x with
  | error e => simp [Except.bind]
  | ok a => simp [Except.bind]

theorem map_eq_ok {ε α β : Type} {x : Except ε α} {f : α → β} {b : β} :
    x.map f = .ok b ↔ ∃ a, x = .ok a ∧ f a = b := by
  cases x with
  | error e => simp [Except.map]
  | ok a => simp [Except.map]

theorem foldlM_eq_ok_induct {ε α β : Type} (f : β → α → Except ε β) (P : β → Prop) :
    ∀ (l : List α) (b b' : β), (∀ a ∈ l, ∀ x y, P x → f x a = .ok y → P y) → P b →
      l.foldlM f b = .ok b' → P b' := by
  intro l
  induction l with
  | nil =>
    intro b b' _ hb h
    simp only [List.foldlM_nil, pure, Except.pure, Except.ok.injEq] at h
    exact h ▸ hb
  | cons a l ih =>
    intro b b' hstep hb h
    simp only [List.foldlM_cons, bind] at h
    obtain ⟨y, hy, hrest⟩ := bind_eq_ok.mp h
    exact ih y b' (fun a' ha' => hstep a' (List.mem_cons_of_mem _ ha'))
      (hstep a (List.mem_cons_self _ _) b y hb hy) hrest

namespace Algorithm

variable {V : Type}

/-! ### Only reachable vertices are recorded -/

theorem dijkstrasEdge_reachable {graph : AdjacencyListGraph V Int} {s : Ptr}
    {m : VertexRecord} {closedList openList openList' : List VertexRecord} {e : Ptr}
    (hm : graph.Reachable s m.vertex) (he : e ∈ graph.out m.vertex)
    (hopen : ∀ r ∈ openList, graph.Reachable s r.vertex)
    (h : dijkstrasEdge graph m closedList openList e = .ok openList') :
    ∀ r ∈ openList', graph.Reachable s r.vertex := by
  unfold dijkstrasEdge at h
  simp only [bind, pure, Except.pure] at h
  obtain ⟨w, hw, h⟩ := bind_eq_ok.mp h
  obtain ⟨c, hc, h⟩ := bind_eq_ok.mp h
  split at h
  · cases h
    exact hopen
  · split at h
    · cases h
      exact hopen
    · cases h
      intro r hr
      rcases List.mem_append.mp hr with hr | hr
      · exact hopen r hr
      · simp only [List.mem_singleton] at hr
        subst hr
        exact hm.step he hw

theorem astarEdge_reachable {graph : AdjacencyListGraph V Int} {s endVertex : Ptr}
    {heuristic : Heuristic} {m : VertexRecord}
    {lists lists' : List VertexRecord × List VertexRecord} {e : Ptr}
    (hm : graph.Reachable s m.vertex) (he : e ∈ graph.out m.vertex)
    (hopen : ∀ r ∈ lists.1, graph.Reachable s r.vertex)
    (h : astarEdge graph endVertex heuristic m lists e = .ok lists') :
    ∀ r ∈ lists'.1, graph.Reachable s r.vertex := by
  obtain ⟨openList, closedList⟩ := lists
  unfold astarEdge at h
  simp only [bind, pure, Except.pure] at h
  obtain ⟨w, hw, h⟩ := bind_eq_ok.mp h
  obtain ⟨c, hc, h⟩ := bind_eq_ok.mp h
  split at h
  · split at h
    · cases h
      exact hopen
    · cases h
      exact hopen
  · split at h
    · split at h
      · cases h
        exact hopen
      · cases h
        exact hopen
    · cases h
      intro r hr
      rcases List.mem_append.mp hr with hr | hr
      · exact hopen r hr
      · simp only [List.mem_singleton] at hr
        subst hr
        exact hm.step he hw

theorem dijkstrasLoop_reachable {H : HeapOps} (hH : H.Lawful) (graph : AdjacencyListGraph V Int)
    (s t : Ptr) :
    ∀ (fuel : Nat) (openList closedList : List VertexRecord) (current m : VertexRecord)
      (closedList' : List VertexRecord),
      IsHeap openList → (∀ r ∈ openList, graph.Reachable s r.vertex) →
      (openList = [] → current.vertex = t → graph.Reachable s t) →
      dijkstrasLoop H graph t fuel openList closedList current = .ok (m, closedList') →
      m.vertex = t → graph.Reachable s t := by
  intro fuel
  induction fuel with
  | zero =>
    intro openList closedList current m closedList' _ _ _ h
    simp [dijkstrasLoop] at h
  | succ fuel ih =>
    intro openList closedList current m closedList' hheap hopen hcur h hmt
    by_cases hne : openList = []
    · subst hne
      simp only [dijkstrasLoop, List.length_nil, gt_iff_lt, lt_self_iff_false, if_false,
        Except.ok.injEq, Prod.mk.injEq] at h
      exact hcur rfl (h.1 ▸ hmt)
    · obtain ⟨m0, rest, hperm, -, -, hstep⟩ := dijkstrasLoop_step hH graph t hheap hne
      rw [hstep] at h
      have hm0 : graph.Reachable s m0.vertex := hopen m0 (hperm.subset (List.mem_cons_self _ _))
      have hrest : ∀ r ∈ rest, graph.Reachable s r.vertex :=
        fun r hr => hopen r (hperm.subset (List.mem_cons_of_mem _ hr))
      split at h
      · rename_i hm0t
        cases h
        exact hm0t ▸ hm0
      · rename_i hm0t
        obtain ⟨edges, hedges, h⟩ := bind_eq_ok.mp h
        obtain ⟨openList', hfold, h⟩ := bind_eq_ok.mp h
        have hes := AdjacencyListGraph.outgoingEdges_eq hedges
        have hopen' : ∀ r ∈ openList', graph.Reachable s r.vertex :=
          foldlM_eq_ok_induct _ (fun l => ∀ r ∈ l, graph.Reachable s r.vertex) edges rest openList'
            (fun e he x y hx hxy => dijkstrasEdge_reachable hm0 (hes ▸ he) hx hxy) hrest hfold
        exact ih _ _ _ m closedList' (hH.make_heap_isHeap _)
          (fun r hr => hopen' r ((hH.make_heap_perm _).subset hr))
          (fun _ h' => absurd h' hm0t) h hmt

theorem astarLoop_reachable {H : HeapOps} (hH : H.Lawful) (graph : AdjacencyListGraph V Int)
    (s t : Ptr) (heuristic : Heuristic) :
    ∀ (fuel : Nat) (openList closedList : List VertexRecord) (current m : VertexRecord)
      (closedList' : List VertexRecord),
      IsHeap openList → (∀ r ∈ openList, graph.Reachable s r.vertex) →
      (openList = [] → current.vertex = t → graph.Reachable s t) →
      astarLoop H graph t heuristic fuel openList closedList current = .ok (m, closedList') →
      m.vertex = t → graph.Reachable s t := by
  intro fuel
  induction fuel with
  | zero =>
    intro openList closedList current m closedList' _ _ _ h
    simp [astarLoop] at h
  | succ fuel ih =>
    intro openList closedList current m closedList' hheap hopen hcur h hmt
    by_cases hne : openList = []
    · subst hne
      simp only [astarLoop, List.length_nil, gt_iff_lt, lt_self_iff_false, if_false,
        Except.ok.injEq, Prod.mk.injEq] at h
      exact hcur rfl (h.1 ▸ hmt)
    · obtain ⟨m0, rest, hperm, -, -, hstep⟩ := astarLoop_step hH graph t heuristic hheap hne
      rw [hstep] at h
      have hm0 : graph.Reachable s m0.vertex := hopen m0 (hperm.subset (List.mem_cons_self _ _))
      have hrest : ∀ r ∈ rest, graph.Reachable s r.vertex :=
        fun r hr => hopen r (hperm.subset (List.mem_cons_of_mem _ hr))
      split at h
      · rename_i hm0t
        cases h
        exact hm0t ▸ hm0
      · rename_i hm0t
        obtain ⟨edges, hedges, h⟩ := bind_eq_ok.mp h
        obtain ⟨lists', hfold, h⟩ := bind_eq_ok.mp h
        have hes := AdjacencyListGraph.outgoingEdges_eq hedges
        have hopen' : ∀ r ∈ lists'.1, graph.Reachable s r.vertex :=
          foldlM_eq_ok_induct _ (fun l => ∀ r ∈ l.1, graph.Reachable s r.vertex) edges
            (rest, closedList) lists'
            (fun e he x y hx hxy => astarEdge_reachable hm0 (hes ▸ he) hx hxy) hrest hfold
        exact ih _ _ _ m closedList' (hH.make_heap_isHeap _)
          (fun r hr => hopen' r ((hH.make_heap_perm _).subset hr))
          (fun _ h' => absurd h' hm0t) h hmt

/-- C6: when no sequence of outgoing edges leads from `start` to `goal`, every call of
`dijkstras` or `astar` that returns, returns false and leaves `path` as it was; a call
returns true only if the goal is reachable from the start. -/
theorem unreachable_goal_returns_false (H : HeapOps) (hH : H.Lawful) (fuel : Nat)
    (path : List Ptr) (graph : AdjacencyListGraph V Int) (startVertex endVertex : Ptr)
    (heuristic : Heuristic) :
    (∀ result, dijkstras H fuel path graph startVertex endVertex = .ok result →
      (result.1 = true → graph.Reachable startVertex endVertex) ∧
      (¬ graph.Reachable startVertex endVertex → result = (false, path))) ∧
    (∀ result, astar H fuel path graph startVertex endVertex heuristic = .ok result →
      (result.1 = true → graph.Reachable startVertex endVertex) ∧
      (¬ graph.Reachable startVertex endVertex → result = (false, path))) := by
  have hstart : ∀ c d : Int, ∀ r ∈ [(⟨startVertex, nullptr, c, d⟩ : VertexRecord)],
      graph.Reachable startVertex r.vertex := by
    intro c d r hr
    simp only [List.mem_singleton] at hr
    subst hr
    exact AdjacencyListGraph.Reachable.refl graph startVertex
  constructor
  · intro result h
    unfold dijkstras at h
    simp only [bind, pure, Except.pure] at h
    obtain ⟨⟨m, closedList'⟩, hloop, h⟩ := bind_eq_ok.mp h
    simp only at h
    by_cases hmt : m.vertex = endVertex
    · have hreach : graph.Reachable startVertex endVertex :=
        dijkstrasLoop_reachable hH graph startVertex endVertex fuel _ _ _ m
          closedList' (isHeap_singleton _) (hstart 0 0) (fun h' => by simp at h') hloop hmt
      exact ⟨fun _ => hreach, fun hn => absurd hreach hn⟩
    · simp only [ne_eq, hmt, not_false_eq_true, if_true, Except.ok.injEq] at h
      subst h
      exact ⟨fun h' => by simp at h', fun _ => rfl⟩
  · intro result h
    unfold astar at h
    simp only [bind, pure, Except.pure] at h
    obtain ⟨⟨m, closedList'⟩, hloop, h⟩ := bind_eq_ok.mp h
    simp only at h
    by_cases hmt : m.vertex = endVertex
    · have hreach : graph.Reachable startVertex endVertex :=
        astarLoop_reachable hH graph startVertex endVertex heuristic fuel _ _ _ m
          closedList' (isHeap_singleton _) (hstart _ _) (fun h' => by simp at h') hloop hmt
      exact ⟨fun _ => hreach, fun hn => absurd hreach hn⟩
    · simp only [ne_eq, hmt, not_false_eq_true, if_true, Except.ok.injEq] at h
      subst h
      exact ⟨fun h' => by simp at h', fun _ => rfl⟩

end Algorithm

theorem foldlM_ok_induct {ε α β : Type} (f : β → α → Except ε β) (P : β → Prop) :
    ∀ (l : List α) (b : β), (∀ a ∈ l, ∀ x, P x → ∃ y, f x a = .ok y ∧ P y) → P b →
      ∃ b', l.foldlM f b = .ok b' ∧ P b' := by
  intro l
  induction l with
  | nil =>
    intro b _ hb
    exact ⟨b, rfl, hb⟩
  | cons a l ih =>
    intro b hstep hb
    obtain ⟨y, hy, hPy⟩ := hstep a (List.mem_cons_self _ _) b hb
    obtain ⟨b', hb', hPb'⟩ := ih y (fun a' ha' => hstep a' (List.mem_cons_of_mem _ ha')) hPy
    refine ⟨b', ?_, hPb'⟩
    simp only [List.foldlM_cons, bind, Except.bind, hy]
    exact hb'

/-! ### Linked records and the compilation of the path -/

theorem Linked.mono {V : Type} {g : AdjacencyListGraph V Int} {s : Ptr}
    {cl cl' : List VertexRecord} {r : VertexRecord} (h : Linked g s cl r)
    (hsub : ∀ p, Has cl p → Has cl' p) : Linked g s cl' r := by
  rcases h with h | ⟨p, h1, h2, h3, h4⟩
  · exact Or.inl h
  · exact Or.inr ⟨p, h1, h2, h3, hsub p h4⟩

theorem closedOK_nil {V : Type} (g : AdjacencyListGraph V Int) (s : Ptr) : ClosedOK g s [] := by
  intro pre r post h
  simp at h

theorem ClosedOK.concat {V : Type} {g : AdjacencyListGraph V Int} {s : Ptr}
    {cl : List VertexRecord} {r : VertexRecord} (h : ClosedOK g s cl) (hr : Linked g s cl r) :
    ClosedOK g s (cl ++ [r]) := by
  intro pre x post heq
  rcases List.eq_nil_or_concat post with hp | ⟨post', y, hp⟩
  · subst hp
    have := List.append_inj' heq (by simp)
    obtain ⟨h1, h2⟩ := this
    simp only [List.cons.injEq, and_true] at h2
    subst h1 h2
    exact hr
  · subst hp
    have heq' : cl ++ [r] = (pre ++ x :: post') ++ [y] := by
      simpa using heq
    have := List.append_inj' heq' (by simp)
    exact h pre x post' this.1

namespace Algorithm

variable {V : Type}

/-- From a record linked to a prefix of a closed list whose records are linked in turn,
the loop that compiles the path finds a record at every step and ends at the start; the
edges it appends, reversed, lead from the start to the vertex of the record. -/
theorem compilePath_ok {graph : AdjacencyListGraph V Int} {s : Ptr} {closed : List VertexRecord}
    (hclosed : ClosedOK graph s closed) :
    ∀ (n : Nat) (pre : List VertexRecord), pre.length ≤ n → (∃ post, closed = pre ++ post) →
      ∀ current, Linked graph s pre current → ∀ path, ∃ q,
        (∀ fuel, n + 1 ≤ fuel →
          compilePath graph s closed fuel current path = .ok (path ++ q)) ∧
        graph.IsEdgePath s q.reverse current.vertex ∧
        graph.IsWalk s q.reverse current.vertex ∧
        (current.vertex ≠ s → q ≠ []) := by
  intro n
  induction n with
  | zero =>
    intro pre hlen _ current hlink path
    have hpre : pre = [] := List.length_eq_zero.mp (Nat.le_zero.mp hlen)
    subst hpre
    rcases hlink with hs | ⟨p, _, _, _, hhas⟩
    · refine ⟨[], ?_, ?_, ?_, fun h => absurd hs h⟩
      · intro fuel hfuel
        obtain ⟨f, rfl⟩ : ∃ f, fuel = f + 1 := ⟨fuel - 1, by omega⟩
        simp [compilePath, hs]
      · simpa [AdjacencyListGraph.isEdgePath_nil] using hs.symm
      · simpa [AdjacencyListGraph.isWalk_nil] using hs.symm
    · obtain ⟨r, hr, _⟩ := hhas
      simp at hr
  | succ n ih =>
    intro pre hlen hpost current hlink path
    by_cases hs : current.vertex = s
    · refine ⟨[], ?_, ?_, ?_, fun h => absurd hs h⟩
      · intro fuel hfuel
        obtain ⟨f, rfl⟩ : ∃ f, fuel = f + 1 := ⟨fuel - 1, by omega⟩
        simp [compilePath, hs]
      · simpa [AdjacencyListGraph.isEdgePath_nil] using hs.symm
      · simpa [AdjacencyListGraph.isWalk_nil] using hs.symm
    · rcases hlink with h | ⟨p, hends, hedge, hout, hhas⟩
      · exact absurd h hs
      · obtain ⟨post, hpost⟩ := hpost
        have hsome : (AdaptableSearchableVector.find pre p).isSome = true :=
          (find_isSome_iff pre p).mpr hhas
        obtain ⟨c, hc⟩ := Option.isSome_iff_exists.mp hsome
        have hfind : AdaptableSearchableVector.find closed p = some c := by
          unfold AdaptableSearchableVector.find at hc ⊢
          rw [hpost, List.find?_append, hc]
          rfl
        have hc' := hc
        unfold AdaptableSearchableVector.find at hc'
        obtain ⟨hcv, as, bs, hsplit, _⟩ := List.find?_eq_some.mp hc'
        simp only [decide_eq_true_eq] at hcv
        have hlinkc : Linked graph s as c :=
          hclosed as c (bs ++ post) (by rw [hpost, hsplit]; simp)
        have haslen : as.length ≤ n := by
          have : pre.length = as.length + (bs.length + 1) := by
            rw [hsplit]; simp
          omega
        obtain ⟨q, hq1, hq2, hq3, _⟩ :=
          ih as haslen ⟨c :: bs ++ post, by rw [hpost, hsplit]; simp⟩ c hlinkc
            (path ++ [current.edge])
        refine ⟨current.edge :: q, ?_, ?_, ?_, fun _ => by simp⟩
        · intro fuel hfuel
          obtain ⟨f, rfl⟩ : ∃ f, fuel = f + 1 := ⟨fuel - 1, by omega⟩
          have := hq1 f (by omega)
          simp only [compilePath, ne_eq, hs, not_false_eq_true, if_true, bind, Except.bind,
            AdjacencyListGraph.opposite_of_ends_snd hends, hfind, this]
          simp
        · rw [List.reverse_cons, AdjacencyListGraph.isEdgePath_append]
          refine ⟨p, hcv ▸ hq2, ?_⟩
          rw [AdjacencyListGraph.isEdgePath_cons]
          exact ⟨hedge, current.vertex, AdjacencyListGraph.endVertices_of_ends hends, rfl⟩
        · rw [List.reverse_cons, AdjacencyListGraph.isWalk_concat]
          exact ⟨p, hcv ▸ hq3, hout, AdjacencyListGraph.opposite_of_ends_fst hends⟩

end Algorithm

/-! ### Counting -/

theorem countP_lt_of_witness {α : Type} (p q : α → Bool) :
    ∀ (l : List α) (a : α), a ∈ l → (∀ x ∈ l, p x = true → q x = true) →
      p a = false → q a = true → l.countP p + 1 ≤ l.countP q := by
  intro l
  induction l with
  | nil => intro a ha; simp at ha
  | cons x l ih =>
    intro a ha hmono hpa hqa
    have hmono' : ∀ y ∈ l, p y = true → q y = true :=
      fun y hy => hmono y (List.mem_cons_of_mem _ hy)
    have hle : l.countP p ≤ l.countP q := List.countP_mono_left hmono'
    rcases List.mem_cons.mp ha with rfl | ha'
    · rw [List.countP_cons_of_neg _ _ (by simp [hpa]), List.countP_cons_of_pos _ _ hqa]
      omega
    · have := ih a ha' hmono' hpa hqa
      by_cases hpx : p x = true
      · rw [List.countP_cons_of_pos _ _ hpx,
          List.countP_cons_of_pos _ _ (hmono x (List.mem_cons_self _ _) hpx)]
        omega
      · rw [List.countP_cons_of_neg _ _ hpx]
        have : l.countP q ≤ (x :: l).countP q := by
          by_cases hqx : q x = true
          · rw [List.countP_cons_of_pos _ _ hqx]; omega
          · rw [List.countP_cons_of_neg _ _ hqx]
        omega

theorem countP_le_succ_of_nodup {α : Type} (p q : α → Bool) (u : α) :
    ∀ (l : List α), l.Nodup → (∀ x ∈ l, x ≠ u → p x = true → q x = true) →
      l.countP p ≤ l.countP q + 1 := by
  intro l
  induction l with
  | nil => intro _ _; simp
  | cons x l ih =>
    intro hnd hmono
    rw [List.nodup_cons] at hnd
    by_cases hxu : x = u
    · subst hxu
      have hle : l.countP p ≤ l.countP q :=
        List.countP_mono_left (fun y hy hpy =>
          hmono y (List.mem_cons_of_mem _ hy) (fun h => hnd.1 (h ▸ hy)) hpy)
      have h1 : (x :: l).countP p ≤ l.countP p + 1 := by
        by_cases hpx : p x = true
        · rw [List.countP_cons_of_pos _ _ hpx]
        · rw [List.countP_cons_of_neg _ _ hpx]; omega
      have h2 : l.countP q ≤ (x :: l).countP q := by
        by_cases hqx : q x = true
        · rw [List.countP_cons_of_pos _ _ hqx]; omega
        · rw [List.countP_cons_of_neg _ _ hqx]
      omega
    · have := ih hnd.2 (fun y hy => hmono y (List.mem_cons_of_mem _ hy))
      by_cases hpx : p x = true
      · rw [List.countP_cons_of_pos _ _ hpx,
          List.countP_cons_of_pos _ _ (hmono x (List.mem_cons_self _ _) hxu hpx)]
        omega
      · rw [List.countP_cons_of_neg _ _ hpx]
        have : l.countP q ≤ (x :: l).countP q := by
          by_cases hqx : q x = true
          · rw [List.countP_cons_of_pos _ _ hqx]; omega
          · rw [List.countP_cons_of_neg _ _ hqx]
        omega

namespace Algorithm

variable {V : Type}

/-! ### The relaxation of one edge by `dijkstras` in a well-formed graph -/

/-- In a well-formed graph the body of the `for` loop of `dijkstras` never faults: the
edge leads to a vertex `w` of the graph, and the open list is left as it is when `w` has
a closed or an open record, and gets a new record for `w` otherwise. -/
theorem dijkstrasEdge_ok {graph : AdjacencyListGraph V Int} (hg : graph.WellFormed)
    {m : VertexRecord} (hm : m.vertex ∈ graph.vertexList) {e : Ptr}
    (he : e ∈ graph.out m.vertex) (closedList openList : List VertexRecord) :
    ∃ w ∈ graph.vertexList, graph.ends e = some (m.vertex, w) ∧ e ∈ graph.edgeList ∧
      ∃ openList', dijkstrasEdge graph m closedList openList e = .ok openList' ∧
        ((openList' = openList ∧ (Has closedList w ∨ Has openList w)) ∨
         (openList' = openList ++ [⟨w, e, m.cost + graph.weight e, 0⟩] ∧
            ¬ Has closedList w ∧ ¬ Has openList w)) := by
  obtain ⟨w, hw, hends, hel⟩ := hg.out_edge hm he
  refine ⟨w, hw, hends, hel, ?_⟩
  unfold dijkstrasEdge
  simp only [bind, Except.bind, AdjacencyListGraph.opposite_of_ends_fst hends,
    AdjacencyListGraph.edgeElement_of_ends hends, pure, Except.pure]
  by_cases hc : Has closedList w
  · refine ⟨openList, ?_, Or.inl ⟨rfl, Or.inl hc⟩⟩
    simp [(find_isSome_iff closedList w).mpr hc]
  · have hcn : (AdaptableSearchableVector.find closedList w).isSome = false := by
      rw [(find_eq_none_iff closedList w).mpr hc]; rfl
    by_cases ho : Has openList w
    · refine ⟨openList, ?_, Or.inl ⟨rfl, Or.inr ho⟩⟩
      obtain ⟨r, hr⟩ := Option.isSome_iff_exists.mp ((find_isSome_iff openList w).mpr ho)
      simp [hcn, hr]
    · refine ⟨_, ?_, Or.inr ⟨rfl, hc, ho⟩⟩
      simp [hcn, (find_eq_none_iff openList w).mpr ho]

end Algorithm

namespace Algorithm

variable {V : Type}

/-! ### The loop of `dijkstras` in a well-formed graph -/

/-- The number of vertices with no record at all. -/
theorem potential_eq {graph : AdjacencyListGraph V Int} (openList closed : List VertexRecord) :
    potential graph openList closed = openList.length
      + 2 * graph.vertexList.countP (fun v => decide (¬ Has closed v ∧ ¬ Has openList v))
      + 3 * graph.vertexList.countP (fun v => decide (¬ Has closed v)) := rfl

/-- The expansion of a vertex in a well-formed graph: the `for` loop ends without fault;
the records of the new open list are linked to the closed list extended by the expanded
record; the potential drops. -/
theorem dijkstras_expand_ok {graph : AdjacencyListGraph V Int} (hg : graph.WellFormed)
    (s : Ptr) {m : VertexRecord} (hm : m.vertex ∈ graph.vertexList)
    (closed rest : List VertexRecord)
    (hrest : ∀ r ∈ rest, Linked graph s closed r ∧ r.vertex ∈ graph.vertexList) :
    ∃ openList', (graph.out m.vertex).foldlM (dijkstrasEdge graph m closed) rest = .ok openList' ∧
      (∀ r ∈ openList', Linked graph s (closed ++ [m]) r ∧ r.vertex ∈ graph.vertexList) ∧
      openList'.length
          + 2 * graph.vertexList.countP (fun v => decide (¬ Has closed v ∧ ¬ Has openList' v))
        ≤ rest.length
          + 2 * graph.vertexList.countP (fun v => decide (¬ Has closed v ∧ ¬ Has rest v)) := by
  refine foldlM_ok_induct (dijkstrasEdge graph m closed)
    (fun o => (∀ r ∈ o, Linked graph s (closed ++ [m]) r ∧ r.vertex ∈ graph.vertexList) ∧
      o.length + 2 * graph.vertexList.countP (fun v => decide (¬ Has closed v ∧ ¬ Has o v))
        ≤ rest.length
          + 2 * graph.vertexList.countP (fun v => decide (¬ Has closed v ∧ ¬ Has rest v)))
    (graph.out m.vertex) rest ?_ ?_
  · intro e he o ⟨ho1, ho2⟩
    obtain ⟨w, hw, hends, hel, o', hres, hcase⟩ := dijkstrasEdge_ok hg hm he closed o
    refine ⟨o', hres, ?_⟩
    rcases hcase with ⟨rfl, _⟩ | ⟨rfl, hnc, hno⟩
    · exact ⟨ho1, ho2⟩
    · constructor
      · intro r hr
        rcases List.mem_append.mp hr with hr | hr
        · exact ho1 r hr
        · simp only [List.mem_singleton] at hr
          subst hr
          exact ⟨Or.inr ⟨m.vertex, hends, hel, he,
            has_append.mpr (Or.inr (has_singleton.mpr rfl))⟩, hw⟩
      · have hcount := countP_lt_of_witness
          (fun v => decide (¬ Has closed v ∧
            ¬ Has (o ++ [(⟨w, e, m.cost + graph.weight e, 0⟩ : VertexRecord)]) v))
          (fun v => decide (¬ Has closed v ∧ ¬ Has o v)) graph.vertexList w hw
          (by
            intro x _ hx
            simp only [decide_eq_true_eq] at hx ⊢
            exact ⟨hx.1, fun h => hx.2 (h.append_left _)⟩)
          (by
            simp only [decide_eq_false_iff_not, not_and, not_not]
            intro _
            exact has_append.mpr (Or.inr (has_singleton.mpr rfl)))
          (by
            simp only [decide_eq_true_eq]
            exact ⟨hnc, hno⟩)
        simp only [List.length_append, List.length_singleton]
        omega
  · exact ⟨fun r hr => ⟨(hrest r hr).1.mono (fun p hp => hp.append_left _), (hrest r hr).2⟩,
      le_refl _⟩

/-- The potential drops with every turn of the loop. -/
theorem potential_drop {graph : AdjacencyListGraph V Int} (hg : graph.WellFormed)
    {m : VertexRecord} (hm : m.vertex ∈ graph.vertexList)
    {openList rest closed openList' heap : List VertexRecord}
    (hperm : (m :: rest).Perm openList) (hheap : heap.Perm openList')
    (hcount : openList'.length
          + 2 * graph.vertexList.countP (fun v => decide (¬ Has closed v ∧ ¬ Has openList' v))
        ≤ rest.length
          + 2 * graph.vertexList.countP (fun v => decide (¬ Has closed v ∧ ¬ Has rest v))) :
    potential graph heap (closed ++ [m]) + 1 ≤ potential graph openList closed := by
  rw [potential_eq, potential_eq]
  have hlen : openList.length = rest.length + 1 := by
    rw [← hperm.length_eq]; simp
  have hheaplen : heap.length = openList'.length := hheap.length_eq
  have hB : graph.vertexList.countP
        (fun v => decide (¬ Has (closed ++ [m]) v ∧ ¬ Has heap v))
      ≤ graph.vertexList.countP (fun v => decide (¬ Has closed v ∧ ¬ Has openList' v)) := by
    apply List.countP_mono_left
    intro x _ hx
    simp only [decide_eq_true_eq] at hx ⊢
    exact ⟨fun h => hx.1 (h.append_left _), fun h => hx.2 (h.perm hheap.symm)⟩
  have hC : graph.vertexList.countP (fun v => decide (¬ Has (closed ++ [m]) v))
      ≤ graph.vertexList.countP (fun v => decide (¬ Has closed v)) := by
    apply List.countP_mono_left
    intro x _ hx
    simp only [decide_eq_true_eq] at hx ⊢
    exact fun h => hx (h.append_left _)
  have hopen : ∀ x, Has openList x ↔ m.vertex = x ∨ Has rest x := by
    intro x
    constructor
    · intro h
      exact has_cons.mp (h.perm hperm.symm)
    · intro h
      exact (has_cons.mpr h).perm hperm
  by_cases hmc : Has closed m.vertex
  · have hU : graph.vertexList.countP (fun v => decide (¬ Has closed v ∧ ¬ Has rest v))
        ≤ graph.vertexList.countP (fun v => decide (¬ Has closed v ∧ ¬ Has openList v)) := by
      apply List.countP_mono_left
      intro x _ hx
      simp only [decide_eq_true_eq] at hx ⊢
      refine ⟨hx.1, fun h => ?_⟩
      rcases (hopen x).mp h with h | h
      · exact hx.1 (h ▸ hmc)
      · exact hx.2 h
    omega
  · have hU : graph.vertexList.countP (fun v => decide (¬ Has closed v ∧ ¬ Has rest v))
        ≤ graph.vertexList.countP (fun v => decide (¬ Has closed v ∧ ¬ Has openList v)) + 1 := by
      apply countP_le_succ_of_nodup _ _ m.vertex _ hg.1
      intro x _ hxm hx
      simp only [decide_eq_true_eq] at hx ⊢
      refine ⟨hx.1, fun h => ?_⟩
      rcases (hopen x).mp h with h | h
      · exact hxm h.symm
      · exact hx.2 h
    have hC' : graph.vertexList.countP (fun v => decide (¬ Has (closed ++ [m]) v)) + 1
        ≤ graph.vertexList.countP (fun v => decide (¬ Has closed v)) := by
      apply countP_lt_of_witness _ _ graph.vertexList m.vertex hm
      · intro x _ hx
        simp only [decide_eq_true_eq] at hx ⊢
        exact fun h => hx (h.append_left _)
      · simp only [decide_eq_false_iff_not, not_not]
        exact has_append.mpr (Or.inr (has_singleton.mpr rfl))
      · simpa using hmc
    omega

/-- The loop of `dijkstras` in a well-formed graph never faults, ends within as many
turns as the potential, keeps the closed list linked and returns a goal record that is
linked to it. -/
theorem dijkstrasLoop_ok {H : HeapOps} (hH : H.Lawful) {graph : AdjacencyListGraph V Int}
    (hg : graph.WellFormed) (s t : Ptr) :
    ∀ (fuel : Nat) (openList closed : List VertexRecord) (current : VertexRecord),
      IsHeap openList → ClosedOK graph s closed →
      (∀ r ∈ openList, Linked graph s closed r ∧ r.vertex ∈ graph.vertexList) →
      (openList = [] → current.vertex ≠ t) →
      (dijkstrasLoop H graph t fuel openList closed current = .error .outOfFuel ∧
          fuel ≤ potential graph openList closed) ∨
      ∃ m closed', dijkstrasLoop H graph t fuel openList closed current = .ok (m, closed') ∧
        ClosedOK graph s closed' ∧ (m.vertex = t → Linked graph s closed' m) ∧
        closed'.length < closed.length + fuel := by
  intro fuel
  induction fuel with
  | zero =>
    intro openList closed current _ _ _ _
    exact Or.inl ⟨rfl, Nat.zero_le _⟩
  | succ fuel ih =>
    intro openList closed current hheap hclosed hopen hcur
    by_cases hne : openList = []
    · subst hne
      refine Or.inr ⟨current, closed, ?_, hclosed, fun h => absurd h (hcur rfl), by omega⟩
      simp [dijkstrasLoop]
    · obtain ⟨m, rest, hperm, -, -, hstep⟩ := dijkstrasLoop_step hH graph t hheap hne
      rw [hstep]
      have hm := hopen m (hperm.subset (List.mem_cons_self _ _))
      by_cases hmt : m.vertex = t
      · refine Or.inr ⟨m, closed, ?_, hclosed, fun _ => hm.1, by omega⟩
        simp [hmt]
      · obtain ⟨openList', hfold, hlinked, hcount⟩ :=
          dijkstras_expand_ok hg s hm.2 closed rest
            (fun r hr => hopen r (hperm.subset (List.mem_cons_of_mem _ hr)))
        have hdrop := potential_drop hg hm.2 hperm (hH.make_heap_perm openList') hcount
        simp only [hmt, if_false, hg.outgoingEdges_ok hm.2, Except.bind, hfold]
        rcases ih (H.make_heap openList') (closed ++ [m]) m (hH.make_heap_isHeap _)
            (hclosed.concat hm.1)
            (fun r hr => hlinked r ((hH.make_heap_perm _).subset hr))
            (fun _ => hmt) with ⟨h1, h2⟩ | ⟨m', closed', h1, h2, h3, h4⟩
        · exact Or.inl ⟨h1, by omega⟩
        · refine Or.inr ⟨m', closed', h1, h2, h3, ?_⟩
          simp only [List.length_append, List.length_singleton] at h4
          omega

end Algorithm

namespace AdjacencyListGraph

variable {V E : Type}

theorem ends_of_endVertices {g : AdjacencyListGraph V E} {e : Ptr} {p : Ptr × Ptr}
    (h : g.endVertices e = .ok p) : g.ends e = some p := by
  unfold endVertices edgeAt at h
  unfold ends
  cases he : g.edgeObj e with
  | none => simp [he, Except.map] at h
  | some o =>
    simp only [he, Except.map, Except.ok.injEq] at h
    simp [h]

end AdjacencyListGraph

namespace Algorithm

variable {V : Type}

theorem potential_start_le (graph : AdjacencyListGraph V Int) (r : VertexRecord) :
    potential graph [r] [] ≤ 5 * graph.numVertices + 1 := by
  rw [potential_eq]
  have h1 := List.countP_le_length (fun v => decide (¬ Has [] v ∧ ¬ Has [r] v))
    (l := graph.vertexList)
  have h2 := List.countP_le_length (fun v => decide (¬ Has [] v)) (l := graph.vertexList)
  simp only [List.length_singleton, AdjacencyListGraph.numVertices]
  omega

end Algorithm

theorem foldlM_ok_induct_done {ε α β : Type} (f : β → α → Except ε β)
    (P : List α → β → Prop) :
    ∀ (l done : List α) (b : β),
      (∀ a ∈ l, ∀ d x, P d x → ∃ y, f x a = .ok y ∧ P (d ++ [a]) y) → P done b →
      ∃ b', l.foldlM f b = .ok b' ∧ P (done ++ l) b' := by
  intro l
  induction l with
  | nil =>
    intro done b _ hb
    exact ⟨b, rfl, by simpa using hb⟩
  | cons a l ih =>
    intro done b hstep hb
    obtain ⟨y, hy, hPy⟩ := hstep a (List.mem_cons_self _ _) done b hb
    obtain ⟨b', hb', hPb'⟩ :=
      ih (done ++ [a]) y (fun a' ha' => hstep a' (List.mem_cons_of_mem _ ha')) hPy
    refine ⟨b', ?_, by simpa using hPb'⟩
    simp only [List.foldlM_cons, bind, Except.bind, hy]
    exact hb'

/-! ### Breadth-first search: `dijkstras` on edges of weight one -/

theorem Realised.walk {V : Type} {g : AdjacencyListGraph V Int} {s : Ptr} {r : VertexRecord}
    (h : Realised g s r) : ∃ q, g.IsWalk s q r.vertex ∧ (q.length : Int) = r.cost := by
  rcases h with ⟨h1, h2⟩ | ⟨p, q, h1, h2, h3, h4⟩
  · exact ⟨[], by simpa [AdjacencyListGraph.isWalk_nil] using h1.symm, by simp [h2]⟩
  · refine ⟨q ++ [r.edge], (AdjacencyListGraph.isWalk_concat q r.edge).mpr
      ⟨p, h3, h2, AdjacencyListGraph.opposite_of_ends_fst h1⟩, ?_⟩
    simp only [List.length_append, List.length_singleton, Nat.cast_add, Nat.cast_one]
    exact h4

theorem BFSInv.of_perm {V : Type} {g : AdjacencyListGraph V Int} {s t : Ptr}
    {openList openList' closed : List VertexRecord} (h : BFSInv g s t openList closed)
    (hp : openList'.Perm openList) : BFSInv g s t openList' closed where
  closure := fun c hc e he w hw => (h.closure c hc e he w hw).imp id (fun h' => h'.perm hp.symm)
  start := h.start.imp id (fun h' => h'.perm hp.symm)
  realised_open := fun r hr => h.realised_open r (hp.subset hr)
  optimal_open := fun r hr => h.optimal_open r (hp.subset hr)
  good_closed := h.good_closed
  goal := h.goal
  vertices := fun r hr => h.vertices r (hp.subset hr)
  plain := fun r hr => h.plain r (hp.subset hr)

/-- Below the least cost of the open list every vertex a walk reaches is closed. -/
theorem BFSInv.below {V : Type} {g : AdjacencyListGraph V Int} {s t : Ptr}
    {openList closed : List VertexRecord} (h : BFSInv g s t openList closed) (bound : Int)
    (hmin : ∀ y ∈ openList, bound ≤ y.cost) :
    ∀ (q : List Ptr) (x : Ptr), g.IsWalk s q x → (q.length : Int) < bound → Has closed x := by
  intro q
  induction q using List.reverseRecOn with
  | nil =>
    intro x hx hlen
    rw [AdjacencyListGraph.isWalk_nil] at hx
    subst hx
    rcases h.start with hc | ⟨r, hr, hv⟩
    · exact hc
    · by_contra hnc
      have hopt := h.optimal_open r hr (hv ▸ hnc) [] (by rw [AdjacencyListGraph.isWalk_nil, hv])
      have := hmin r hr
      simp only [List.length_nil, Nat.cast_zero] at hopt hlen
      omega
  | append_singleton q e ih =>
    intro x hx hlen
    obtain ⟨y, hy, he, hyx⟩ := (AdjacencyListGraph.isWalk_concat q e).mp hx
    simp only [List.length_append, List.length_singleton, Nat.cast_add, Nat.cast_one] at hlen
    obtain ⟨c, hc, hcv⟩ := ih y hy (by omega)
    rcases h.closure c hc e (hcv ▸ he) x (hcv ▸ hyx) with h1 | ⟨r, hr, hv⟩
    · exact h1
    · by_contra hnc
      have hopt := h.optimal_open r hr (hv ▸ hnc) (q ++ [e]) (hv ▸ hx)
      have := hmin r hr
      simp only [List.length_append, List.length_singleton, Nat.cast_add, Nat.cast_one] at hopt
      omega

/-- With the open list exhausted every vertex a walk reaches is closed. -/
theorem BFSInv.exhausted {V : Type} {g : AdjacencyListGraph V Int} {s t : Ptr}
    {closed : List VertexRecord} (h : BFSInv g s t [] closed) :
    ∀ (q : List Ptr) (x : Ptr), g.IsWalk s q x → Has closed x := by
  intro q x hx
  exact h.below ((q.length : Int) + 1) (fun y hy => by simp at hy) q x hx (by omega)

namespace Algorithm

variable {V : Type}

/-- The expansion of a least-cost record keeps the invariant of breadth-first search. -/
theorem dijkstras_expand_bfs {graph : AdjacencyListGraph V Int} (hg : graph.WellFormed)
    (hunit : UnitWeights graph) {s t : Ptr} {openList closed rest : List VertexRecord}
    {m : VertexRecord} (inv : BFSInv graph s t openList closed)
    (hperm : (m :: rest).Perm openList) (hmin : ∀ y ∈ openList, m.cost ≤ y.cost)
    (hmt : m.vertex ≠ t) :
    ∃ openList', (graph.out m.vertex).foldlM (dijkstrasEdge graph m closed) rest = .ok openList' ∧
      BFSInv graph s t openList' (closed ++ [m]) := by
  have hmo : m ∈ openList := hperm.subset (List.mem_cons_self _ _)
  have hmV := inv.vertices m hmo
  have hresto : ∀ r ∈ rest, r ∈ openList := fun r hr => hperm.subset (List.mem_cons_of_mem _ hr)
  have hopen : ∀ x, Has openList x → m.vertex = x ∨ Has rest x :=
    fun x h => has_cons.mp (h.perm hperm.symm)
  obtain ⟨qm, hqm, hqmlen⟩ := (inv.realised_open m hmo).walk
  obtain ⟨openList', hfold, hP⟩ := foldlM_ok_induct_done (dijkstrasEdge graph m closed)
    (fun d o =>
      (∀ r ∈ o, Realised graph s r) ∧
      (∀ r ∈ o, ¬ Has (closed ++ [m]) r.vertex → Optimal graph s r) ∧
      (∀ x, Has rest x → Has o x) ∧
      (∀ e ∈ d, ∀ w, graph.opposite m.vertex e = .ok w → Has closed w ∨ Has o w) ∧
      (∀ r ∈ o, r.vertex ∈ graph.vertexList) ∧
      (∀ r ∈ o, r.costSoFar = 0))
    (graph.out m.vertex) [] rest
    (by
      intro e he d o ⟨hP1, hP2, hP3, hP4, hP5, hP6⟩
      obtain ⟨w, hw, hends, hel, o', hres, hcase⟩ := dijkstrasEdge_ok hg hmV he closed o
      have hopp := AdjacencyListGraph.opposite_of_ends_fst hends
      refine ⟨o', hres, ?_⟩
      rcases hcase with ⟨rfl, hfound⟩ | ⟨rfl, hnc, hno⟩
      · refine ⟨hP1, hP2, hP3, ?_, hP5, hP6⟩
        intro e' he' w' hw'
        rcases List.mem_append.mp he' with he' | he'
        · exact hP4 e' he' w' hw'
        · simp only [List.mem_singleton] at he'
          subst he'
          rw [hopp] at hw'
          cases hw'
          exact hfound
      · refine ⟨?_, ?_, fun x hx => (hP3 x hx).append_left _, ?_, ?_, ?_⟩
        · intro r hr
          rcases List.mem_append.mp hr with hr | hr
          · exact hP1 r hr
          · simp only [List.mem_singleton] at hr
            subst hr
            refine Or.inr ⟨m.vertex, qm, hends, he, hqm, ?_⟩
            simp only [hunit e hel]
            omega
        · intro r hr hncm
          rcases List.mem_append.mp hr with hr | hr
          · exact hP2 r hr hncm
          · simp only [List.mem_singleton] at hr
            subst hr
            simp only at hncm ⊢
            have hwm : m.vertex ≠ w := fun h =>
              hncm (has_append.mpr (Or.inr (has_singleton.mpr h)))
            have hcontra : ¬ (Has closed w ∨ Has openList w) := by
              rintro (h | h)
              · exact hnc h
              · rcases hopen w h with h | h
                · exact hwm h
                · exact hno (hP3 w h)
            intro p hp
            have hp' : graph.IsWalk s p w := hp
            simp only [hunit e hel]
            rcases List.eq_nil_or_concat p with hnil | ⟨p', e', hcat⟩
            · subst hnil
              rw [AdjacencyListGraph.isWalk_nil] at hp'
              exact absurd (hp' ▸ inv.start) hcontra
            · rw [List.concat_eq_append] at hcat
              subst hcat
              obtain ⟨y, hy, he', hyw⟩ := (AdjacencyListGraph.isWalk_concat p' e').mp hp'
              simp only [List.length_append, List.length_singleton, Nat.cast_add, Nat.cast_one]
              by_contra hlt
              obtain ⟨c, hc, hcv⟩ := inv.below m.cost hmin p' y hy (by omega)
              exact hcontra (inv.closure c hc e' (hcv ▸ he') w (hcv ▸ hyw))
        · intro e' he' w' hw'
          rcases List.mem_append.mp he' with he' | he'
          · exact (hP4 e' he' w' hw').imp id (fun h => h.append_left _)
          · simp only [List.mem_singleton] at he'
            subst he'
            rw [hopp] at hw'
            cases hw'
            exact Or.inr (has_append.mpr (Or.inr (has_singleton.mpr rfl)))
        · intro r hr
          rcases List.mem_append.mp hr with hr | hr
          · exact hP5 r hr
          · simp only [List.mem_singleton] at hr
            subst hr
            exact hw
        · intro r hr
          rcases List.mem_append.mp hr with hr | hr
          · exact hP6 r hr
          · simp only [List.mem_singleton] at hr
            subst hr
            rfl)
    ⟨fun r hr => inv.realised_open r (hresto r hr),
     fun r hr hn => inv.optimal_open r (hresto r hr) (fun h => hn (h.append_left _)),
     fun x hx => hx, fun e he => by simp at he,
     fun r hr => inv.vertices r (hresto r hr), fun r hr => inv.plain r (hresto r hr)⟩
  obtain ⟨hP1, hP2, hP3, hP4, hP5, hP6⟩ := hP
  simp only [List.nil_append] at hP4
  have hcover : ∀ x, Has closed x ∨ Has openList x →
      Has (closed ++ [m]) x ∨ Has openList' x := by
    rintro x (h | h)
    · exact Or.inl (h.append_left _)
    · rcases hopen x h with h | h
      · exact Or.inl (has_append.mpr (Or.inr (has_singleton.mpr h)))
      · exact Or.inr (hP3 x h)
  refine ⟨openList', hfold, ?_⟩
  exact {
    closure := by
      intro c hc e he w hw
      rcases List.mem_append.mp hc with hc | hc
      · exact hcover w (inv.closure c hc e he w hw)
      · simp only [List.mem_singleton] at hc
        subst hc
        exact (hP4 e he w hw).imp (fun h => h.append_left _) id
    start := hcover s inv.start
    realised_open := hP1
    optimal_open := hP2
    good_closed := by
      intro v r hfind
      unfold AdaptableSearchableVector.find at hfind
      rw [List.find?_append] at hfind
      cases hc : List.find? (fun r => decide (r.vertex = v)) closed with
      | some r' =>
        rw [hc] at hfind
        simp only [Option.or_some, Option.some.injEq] at hfind
        subst hfind
        exact inv.good_closed v r' hc
      | none =>
        rw [hc] at hfind
        simp only [Option.none_or] at hfind
        have hrm : r = m := by
          have := List.mem_of_find?_eq_some hfind
          simpa using this
        have hv : m.vertex = v := by
          have := List.find?_some hfind
          simpa [hrm] using this
        subst hrm
        have hnc : ¬ Has closed r.vertex := by
          rw [hv]
          exact (find_eq_none_iff closed v).mp hc
        exact ⟨inv.realised_open r hmo, inv.optimal_open r hmo hnc⟩
    goal := by
      intro h
      rcases has_append.mp h with h | h
      · exact inv.goal h
      · exact hmt (has_singleton.mp h)
    vertices := hP5
    plain := hP6 }

end Algorithm

namespace Algorithm

variable {V : Type}

/-- On edges of weight one the loop of `dijkstras` returns a goal record whose cost is
the least number of edges of a walk to the goal, or a record of another vertex when no
walk reaches the goal; the first closed record of every vertex is optimal as well. -/
theorem dijkstrasLoop_bfs {H : HeapOps} (hH : H.Lawful) {graph : AdjacencyListGraph V Int}
    (hg : graph.WellFormed) (hunit : UnitWeights graph) (s t : Ptr) :
    ∀ (fuel : Nat) (openList closed : List VertexRecord) (current m : VertexRecord)
      (closed' : List VertexRecord),
      IsHeap openList → BFSInv graph s t openList closed →
      (openList = [] → current.vertex ≠ t) →
      dijkstrasLoop H graph t fuel openList closed current = .ok (m, closed') →
      (m.vertex = t → Realised graph s m ∧ Optimal graph s m) ∧
      (m.vertex ≠ t → ¬ graph.Reachable s t) ∧
      (∀ v r, AdaptableSearchableVector.find closed' v = some r →
        Realised graph s r ∧ Optimal graph s r) := by
  intro fuel
  induction fuel with
  | zero =>
    intro openList closed current m closed' _ _ _ h
    simp [dijkstrasLoop] at h
  | succ fuel ih =>
    intro openList closed current m closed' hheap inv hcur h
    by_cases hne : openList = []
    · subst hne
      simp only [dijkstrasLoop, List.length_nil, gt_iff_lt, lt_self_iff_false, if_false,
        Except.ok.injEq, Prod.mk.injEq] at h
      obtain ⟨rfl, rfl⟩ := h
      refine ⟨fun h' => absurd h' (hcur rfl), fun _ hreach => ?_, inv.good_closed⟩
      obtain ⟨q, hq⟩ := hreach
      exact inv.goal (inv.exhausted q t hq)
    · obtain ⟨m0, rest, hperm, hmin, -, hstep⟩ := dijkstrasLoop_step hH graph t hheap hne
      rw [hstep] at h
      have hm0 : m0 ∈ openList := hperm.subset (List.mem_cons_self _ _)
      by_cases hmt : m0.vertex = t
      · simp only [hmt, if_true, Except.ok.injEq, Prod.mk.injEq] at h
        obtain ⟨rfl, rfl⟩ := h
        exact ⟨fun _ => ⟨inv.realised_open m0 hm0, inv.optimal_open m0 hm0 (hmt ▸ inv.goal)⟩,
          fun h' => absurd hmt h', inv.good_closed⟩
      · obtain ⟨openList', hfold, inv'⟩ := dijkstras_expand_bfs hg hunit inv hperm hmin hmt
        simp only [hmt, if_false, hg.outgoingEdges_ok (inv.vertices m0 hm0), Except.bind,
          hfold] at h
        exact ih _ _ _ m closed' (hH.make_heap_isHeap _) (inv'.of_perm (hH.make_heap_perm _))
          (fun _ => hmt) h

/-- When the first closed record of every vertex is optimal, the path compiled from an
optimal record has as many edges as the cost of the record. -/
theorem compilePath_length {graph : AdjacencyListGraph V Int} {s : Ptr}
    {closed : List VertexRecord}
    (hgood : ∀ v r, AdaptableSearchableVector.find closed v = some r →
      Realised graph s r ∧ Optimal graph s r) :
    ∀ (fuel : Nat) (current : VertexRecord) (path path' : List Ptr),
      Realised graph s current → Optimal graph s current →
      compilePath graph s closed fuel current path = .ok path' →
      ∃ q, path' = path ++ q ∧ (q.length : Int) = current.cost := by
  intro fuel
  induction fuel with
  | zero =>
    intro current path path' _ _ h
    simp [compilePath] at h
  | succ fuel ih =>
    intro current path path' hreal hopt h
    by_cases hs : current.vertex = s
    · simp only [compilePath, ne_eq, hs, not_true_eq_false, if_false, Except.ok.injEq] at h
      subst h
      refine ⟨[], by simp, ?_⟩
      have h0 := hopt [] (by rw [AdjacencyListGraph.isWalk_nil, hs])
      simp only [List.length_nil, Nat.cast_zero] at h0 ⊢
      rcases hreal with ⟨_, hc⟩ | ⟨p, q, _, _, _, hlen⟩
      · exact hc.symm
      · omega
    · rcases hreal with ⟨hv, _⟩ | ⟨p, q0, hends, hout, hq0, hlen⟩
      · exact absurd hv hs
      · simp only [compilePath, ne_eq, hs, not_false_eq_true, if_true, bind, Except.bind,
          AdjacencyListGraph.opposite_of_ends_snd hends] at h
        cases hfind : AdaptableSearchableVector.find closed p with
        | none => simp [hfind] at h
        | some record =>
          simp only [hfind] at h
          obtain ⟨hrreal, hropt⟩ := hgood p record hfind
          obtain ⟨q', hq', hq'len⟩ := ih record _ path' hrreal hropt h
          have hrv : record.vertex = p := (find_some_mem hfind).2
          have h1 : record.cost ≤ (q0.length : Int) := hropt q0 (hrv ▸ hq0)
          obtain ⟨qr, hqr, hqrlen⟩ := hrreal.walk
          have h2 := hopt (qr ++ [current.edge])
            ((AdjacencyListGraph.isWalk_concat qr current.edge).mpr
              ⟨p, hrv ▸ hqr, hout, AdjacencyListGraph.opposite_of_ends_fst hends⟩)
          simp only [List.length_append, List.length_singleton, Nat.cast_add,
            Nat.cast_one] at h2
          refine ⟨current.edge :: q', by simp [hq'], ?_⟩
          simp only [List.length_cons, Nat.cast_add, Nat.cast_one]
          omega

/-- In a well-formed graph whose edges all weigh one, `dijkstras` with enough fuel
returns false exactly when no walk leads from the start to the goal, and otherwise a
walk from the start to the goal with the least number of edges. -/
theorem dijkstras_unit {H : HeapOps} (hH : H.Lawful) {graph : AdjacencyListGraph V Int}
    (hg : graph.WellFormed) (hunit : UnitWeights graph) (fuel : Nat) (path : List Ptr)
    {s : Ptr} (t : Ptr) (hs : s ∈ graph.vertexList) (hfuel : 5 * graph.numVertices + 1 < fuel) :
    (¬ graph.Reachable s t ∧ dijkstras H fuel path graph s t = .ok (false, path)) ∨
    ∃ q, dijkstras H fuel path graph s t = .ok (true, q ++ path.reverse) ∧
      graph.IsWalk s q t ∧ ∀ p, graph.IsWalk s p t → q.length ≤ p.length := by
  have hinv : BFSInv graph s t [⟨s, nullptr, 0, 0⟩] [] :=
    { closure := fun c hc => by simp at hc
      start := Or.inr (has_singleton.mpr rfl)
      realised_open := fun r hr => by
        simp only [List.mem_singleton] at hr
        subst hr
        exact Or.inl ⟨rfl, rfl⟩
      optimal_open := fun r hr _ q _ => by
        simp only [List.mem_singleton] at hr
        subst hr
        simp
      good_closed := fun v r h => by simp [AdaptableSearchableVector.find] at h
      goal := fun h => by
        obtain ⟨r, hr, _⟩ := h
        simp at hr
      vertices := fun r hr => by
        simp only [List.mem_singleton] at hr
        subst hr
        exact hs
      plain := fun r hr => by
        simp only [List.mem_singleton] at hr
        subst hr
        rfl }
  unfold dijkstras
  rcases dijkstrasLoop_ok hH hg s t fuel [⟨s, nullptr, 0, 0⟩] [] VertexRecord.uninitialised
      (isHeap_singleton _) (closedOK_nil graph s)
      (fun r hr => by
        simp only [List.mem_singleton] at hr
        subst hr
        exact ⟨Or.inl rfl, hs⟩)
      (fun h => by simp at h) with ⟨_, h2⟩ | ⟨m, closed', h1, h2, h3, h4⟩
  · have := potential_start_le graph ⟨s, nullptr, 0, 0⟩
    omega
  · obtain ⟨b1, b2, b3⟩ := dijkstrasLoop_bfs hH hg hunit s t fuel _ _ _ m closed'
      (isHeap_singleton _) hinv (fun h => by simp at h) h1
    simp only [bind, Except.bind, h1, pure, Except.pure]
    by_cases hmt : m.vertex = t
    · right
      obtain ⟨q, hq1, _, hq3, _⟩ :=
        compilePath_ok h2 closed'.length closed' (le_refl _) ⟨[], by simp⟩ m (h3 hmt) path
      have hcomp := hq1 fuel (by simpa using h4)
      obtain ⟨q', hq', hq'len⟩ :=
        compilePath_length b3 fuel m path _ (b1 hmt).1 (b1 hmt).2 hcomp
      have hqq : q = q' := List.append_cancel_left hq'
      subst hqq
      refine ⟨q.reverse, ?_, hmt ▸ hq3, fun p hp => ?_⟩
      · simp only [ne_eq, hmt, not_true_eq_false, if_false, hcomp]
        simp
      · have := (b1 hmt).2 p (hmt ▸ hp)
        simp only [List.length_reverse]
        omega
    · left
      exact ⟨b2 hmt, by simp [hmt]⟩

end Algorithm

/-! ### `astar` with a zero heuristic on edges of weight one -/

theorem isHeap_map {f : VertexRecord → VertexRecord} (hf : ∀ r, (f r).cost = r.cost)
    (l : List VertexRecord) : IsHeap (l.map f) ↔ IsHeap l := by
  unfold IsHeap
  constructor
  · intro h i hi hlt
    have := h i hi (by simpa using hlt)
    simpa [hf] using this
  · intro h i hi hlt
    have := h i hi (by simpa using hlt)
    simpa [hf] using this

theorem isHeap_map_with (l : List VertexRecord) : IsHeap (l.map withCostSoFar) ↔ IsHeap l :=
  isHeap_map (f := withCostSoFar) (fun _ => rfl) l

theorem isHeap_map_without (l : List VertexRecord) :
    IsHeap (l.map withoutCostSoFar) ↔ IsHeap l :=
  isHeap_map (f := withoutCostSoFar) (fun _ => rfl) l

theorem withoutCostSoFar_withCostSoFar {r : VertexRecord} (h : r.costSoFar = 0) :
    withoutCostSoFar (withCostSoFar r) = r := by
  cases r
  simp only [withCostSoFar, withoutCostSoFar] at h ⊢
  simp [h]

theorem withCostSoFar_withoutCostSoFar {r : VertexRecord} (h : r.costSoFar = r.cost) :
    withCostSoFar (withoutCostSoFar r) = r := by
  cases r
  simp only [withCostSoFar, withoutCostSoFar] at h ⊢
  simp [h]

theorem map_without_with {l : List VertexRecord} (h : ∀ r ∈ l, r.costSoFar = 0) :
    (l.map withCostSoFar).map withoutCostSoFar = l := by
  rw [List.map_map]
  conv_rhs => rw [← List.map_id l]
  exact List.map_congr_left (fun r hr => withoutCostSoFar_withCostSoFar (h r hr))

theorem map_with_without {l : List VertexRecord} (h : ∀ r ∈ l, r.costSoFar = r.cost) :
    (l.map withoutCostSoFar).map withCostSoFar = l := by
  rw [List.map_map]
  conv_rhs => rw [← List.map_id l]
  exact List.map_congr_left (fun r hr => withCostSoFar_withoutCostSoFar (h r hr))

theorem HeapOps.onCostSoFar_make_heap {H : HeapOps} (hH : H.Lawful) {l : List VertexRecord}
    (h : ∀ r ∈ l, r.costSoFar = 0) :
    H.make_heap (l.map withCostSoFar) = (H.onCostSoFar.make_heap l).map withCostSoFar := by
  simp only [HeapOps.onCostSoFar]
  rw [if_pos h, map_with_without]
  intro r hr
  have := (hH.make_heap_perm _).subset hr
  obtain ⟨r', _, rfl⟩ := List.mem_map.mp this
  rfl

theorem HeapOps.onCostSoFar_pop_heap {H : HeapOps} (hH : H.Lawful) {l : List VertexRecord}
    (h : ∀ r ∈ l, r.costSoFar = 0) (hheap : IsHeap l) (hne : l ≠ []) :
    H.pop_heap (l.map withCostSoFar) = (H.onCostSoFar.pop_heap l).map withCostSoFar := by
  simp only [HeapOps.onCostSoFar]
  rw [if_pos h, map_with_without]
  intro r hr
  cases l with
  | nil => exact absurd rfl hne
  | cons x xs =>
    have hheap' : IsHeap ((x :: xs).map withCostSoFar) := (isHeap_map_with _).mpr hheap
    obtain ⟨l', h1, h2, _⟩ := hH.pop_heap_spec (withCostSoFar x) (xs.map withCostSoFar)
      (by simpa using hheap')
    simp only [List.map_cons] at hr
    rw [h1] at hr
    rcases List.mem_append.mp hr with hr | hr
    · obtain ⟨r', _, rfl⟩ := List.mem_map.mp (h2.subset hr)
      rfl
    · simp only [List.mem_singleton] at hr
      subst hr
      rfl

/-- The heap algorithms on the records of `dijkstras` meet the contract when `H` does. -/
theorem HeapOps.Lawful.onCostSoFar {H : HeapOps} (hH : H.Lawful) : H.onCostSoFar.Lawful where
  make_heap_perm := by
    intro l
    by_cases h : ∀ r ∈ l, r.costSoFar = 0
    · simp only [HeapOps.onCostSoFar]
      rw [if_pos h]
      have := (hH.make_heap_perm (l.map withCostSoFar)).map withoutCostSoFar
      rwa [map_without_with h] at this
    · simp only [HeapOps.onCostSoFar]
      rw [if_neg h]
      exact sortedHeap_lawful.make_heap_perm l
  make_heap_isHeap := by
    intro l
    by_cases h : ∀ r ∈ l, r.costSoFar = 0
    · simp only [HeapOps.onCostSoFar]
      rw [if_pos h]
      exact (isHeap_map_without _).mpr (hH.make_heap_isHeap _)
    · simp only [HeapOps.onCostSoFar]
      rw [if_neg h]
      exact sortedHeap_lawful.make_heap_isHeap l
  pop_heap_spec := by
    intro x l hheap
    by_cases h : ∀ r ∈ x :: l, r.costSoFar = 0
    · simp only [HeapOps.onCostSoFar]
      rw [if_pos h]
      have hheap' : IsHeap ((x :: l).map withCostSoFar) := (isHeap_map_with _).mpr hheap
      obtain ⟨l', h1, h2, h3⟩ := hH.pop_heap_spec (withCostSoFar x) (l.map withCostSoFar)
        (by simpa using hheap')
      refine ⟨l'.map withoutCostSoFar, ?_, ?_, (isHeap_map_without _).mpr h3⟩
      · simp only [List.map_cons]
        rw [h1]
        simp [withoutCostSoFar_withCostSoFar (h x (List.mem_cons_self _ _))]
      · have := h2.map withoutCostSoFar
        rwa [map_without_with (fun r hr => h r (List.mem_cons_of_mem _ hr))] at this
    · simp only [HeapOps.onCostSoFar]
      rw [if_neg h]
      exact sortedHeap_lawful.pop_heap_spec x l hheap

theorem find_map_withCostSoFar (l : List VertexRecord) (w : Ptr) :
    AdaptableSearchableVector.find (l.map withCostSoFar) w
      = (AdaptableSearchableVector.find l w).map withCostSoFar := by
  unfold AdaptableSearchableVector.find
  induction l with
  | nil => rfl
  | cons x xs ih =>
    by_cases hx : x.vertex = w
    · simp [List.find?_cons, hx, withCostSoFar]
    · have : (withCostSoFar x).vertex ≠ w := hx
      simp only [List.map_cons, List.find?_cons, this, hx, decide_False]
      exact ih

namespace Algorithm

variable {V : Type}

/-- The body of the `for` loop of `astar` with a zero heuristic acts on the matching
records as the body of the loop of `dijkstras`, as long as no closed record costs more
than the new cost. -/
theorem astarEdge_sim (graph : AdjacencyListGraph V Int) (t : Ptr) (m : VertexRecord)
    (openList closed : List VertexRecord) (e : Ptr)
    (hcond : ∀ w wt r, graph.opposite m.vertex e = .ok w → graph.edgeElement e = .ok wt →
      AdaptableSearchableVector.find closed w = some r → r.cost ≤ m.cost + wt) :
    astarEdge graph t (fun _ _ => 0) (withCostSoFar m)
        (openList.map withCostSoFar, closed.map withCostSoFar) e
      = (dijkstrasEdge graph m closed openList e).map
          (fun o => (o.map withCostSoFar, closed.map withCostSoFar)) := by
  unfold astarEdge dijkstrasEdge
  simp only [bind, pure, Except.pure]
  have hv : (withCostSoFar m).vertex = m.vertex := rfl
  have hc : (withCostSoFar m).costSoFar = m.cost := rfl
  rw [hv, hc]
  cases hopp : graph.opposite m.vertex e with
  | error f => rfl
  | ok w =>
    cases hwt : graph.edgeElement e with
    | error f => rfl
    | ok wt =>
      simp only [Except.bind, find_map_withCostSoFar]
      cases hfc : AdaptableSearchableVector.find closed w with
      | some r =>
        have := hcond w wt r hopp hwt hfc
        have hr : (withCostSoFar r).costSoFar = r.cost := rfl
        simp [hr, this, Except.map]
      | none =>
        cases hfo : AdaptableSearchableVector.find openList w with
        | some r =>
          simp only [Option.map_some', Option.map_none', Option.isSome_none, Bool.false_eq_true,
            if_false, Except.map]
          split <;> rfl
        | none =>
          simp [Except.map, withCostSoFar]

theorem astarEdges_sim (graph : AdjacencyListGraph V Int) (t : Ptr) (m : VertexRecord)
    (closed : List VertexRecord) :
    ∀ (edges : List Ptr) (openList : List VertexRecord),
      (∀ e ∈ edges, ∀ w wt r, graph.opposite m.vertex e = .ok w →
        graph.edgeElement e = .ok wt →
        AdaptableSearchableVector.find closed w = some r → r.cost ≤ m.cost + wt) →
      edges.foldlM (astarEdge graph t (fun _ _ => 0) (withCostSoFar m))
          (openList.map withCostSoFar, closed.map withCostSoFar)
        = (edges.foldlM (dijkstrasEdge graph m closed) openList).map
            (fun o => (o.map withCostSoFar, closed.map withCostSoFar)) := by
  intro edges
  induction edges with
  | nil =>
    intro openList _
    rfl
  | cons e edges ih =>
    intro openList hcond
    simp only [List.foldlM_cons, bind]
    rw [astarEdge_sim graph t m openList closed e (hcond e (List.mem_cons_self _ _))]
    cases hstep : dijkstrasEdge graph m closed openList e with
    | error f => rfl
    | ok o =>
      simp only [Except.map, Except.bind]
      exact ih o (fun e' he' => hcond e' (List.mem_cons_of_mem _ he'))

theorem compilePath_sim (graph : AdjacencyListGraph V Int) (s : Ptr)
    (closed : List VertexRecord) :
    ∀ (fuel : Nat) (current : VertexRecord) (path : List Ptr),
      compilePath graph s (closed.map withCostSoFar) fuel (withCostSoFar current) path
        = compilePath graph s closed fuel current path := by
  intro fuel
  induction fuel with
  | zero => intro current path; rfl
  | succ fuel ih =>
    intro current path
    have hv : (withCostSoFar current).vertex = current.vertex := rfl
    have he : (withCostSoFar current).edge = current.edge := rfl
    simp only [compilePath, hv, he, bind, find_map_withCostSoFar]
    split
    · cases hopp : graph.opposite current.vertex current.edge with
      | error f => rfl
      | ok w =>
        simp only [Except.bind]
        cases hf : AdaptableSearchableVector.find closed w with
        | none => rfl
        | some r =>
          simp only [Option.map_some']
          exact ih r _
    · rfl

/-- The loop of `astar` once the result of `pop_heap` is known. -/
theorem astarLoop_unfold (H : HeapOps) (graph : AdjacencyListGraph V Int) (t : Ptr)
    (heuristic : Heuristic) {openList rest : List VertexRecord} {m : VertexRecord}
    (hne : openList ≠ []) (hpop : H.pop_heap openList = rest ++ [m]) (fuel : Nat)
    (closed : List VertexRecord) (current : VertexRecord) :
    astarLoop H graph t heuristic (fuel + 1) openList closed current =
      if m.vertex = t then .ok (m, closed)
      else
        (graph.outgoingEdges m.vertex).bind fun edges =>
        (edges.foldlM (astarEdge graph t heuristic m) (rest, closed)).bind fun lists =>
        astarLoop H graph t heuristic fuel (H.make_heap lists.1) (lists.2 ++ [m]) m := by
  have hlen : openList.length > 0 := List.length_pos.mpr hne
  simp only [astarLoop, hlen, if_true, hpop, List.getLast?_concat, List.dropLast_concat]
  rfl

/-- The loop of `dijkstras` once the result of `pop_heap` is known. -/
theorem dijkstrasLoop_unfold (H : HeapOps) (graph : AdjacencyListGraph V Int) (t : Ptr)
    {openList rest : List VertexRecord} {m : VertexRecord}
    (hne : openList ≠ []) (hpop : H.pop_heap openList = rest ++ [m]) (fuel : Nat)
    (closed : List VertexRecord) (current : VertexRecord) :
    dijkstrasLoop H graph t (fuel + 1) openList closed current =
      if m.vertex = t then .ok (m, closed)
      else
        (graph.outgoingEdges m.vertex).bind fun edges =>
        (edges.foldlM (dijkstrasEdge graph m closed) rest).bind fun openList' =>
        dijkstrasLoop H graph t fuel (H.make_heap openList') (closed ++ [m]) m := by
  have hlen : openList.length > 0 := List.length_pos.mpr hne
  simp only [dijkstrasLoop, hlen, if_true, hpop, List.getLast?_concat, List.dropLast_concat]
  rfl

/-- On edges of weight one the loop of `astar` with a zero heuristic runs on the
matching records as the loop of `dijkstras` does with the matching heap algorithms. -/
theorem astarLoop_sim {H : HeapOps} (hH : H.Lawful) {graph : AdjacencyListGraph V Int}
    (hg : graph.WellFormed) (hunit : UnitWeights graph) (s t : Ptr) :
    ∀ (fuel : Nat) (openList closed : List VertexRecord) (current : VertexRecord),
      IsHeap openList → BFSInv graph s t openList closed →
      astarLoop H graph t (fun _ _ => 0) fuel (openList.map withCostSoFar)
          (closed.map withCostSoFar) (withCostSoFar current)
        = (dijkstrasLoop H.onCostSoFar graph t fuel openList closed current).map
            (fun x => (withCostSoFar x.1, x.2.map withCostSoFar)) := by
  intro fuel
  induction fuel with
  | zero => intro openList closed current _ _; rfl
  | succ fuel ih =>
    intro openList closed current hheap inv
    by_cases hne : openList = []
    · subst hne
      simp [astarLoop, dijkstrasLoop, Except.map]
    · obtain ⟨m, rest, hpop, hperm, hmin, -⟩ := hH.onCostSoFar.pop_heap_min hheap hne
      have hpopA : H.pop_heap (openList.map withCostSoFar)
          = rest.map withCostSoFar ++ [withCostSoFar m] := by
        rw [HeapOps.onCostSoFar_pop_heap hH inv.plain hheap hne, hpop]
        simp
      rw [astarLoop_unfold H graph t _ (by simpa using hne) hpopA,
        dijkstrasLoop_unfold H.onCostSoFar graph t hne hpop]
      have hv : (withCostSoFar m).vertex = m.vertex := rfl
      rw [hv]
      by_cases hmt : m.vertex = t
      · simp [hmt, Except.map]
      · have hmo : m ∈ openList := hperm.subset (List.mem_cons_self _ _)
        have hmV := inv.vertices m hmo
        obtain ⟨openList', hfold, inv'⟩ := dijkstras_expand_bfs hg hunit inv hperm hmin hmt
        obtain ⟨qm, hqm, hqmlen⟩ := (inv.realised_open m hmo).walk
        have hcond : ∀ e ∈ graph.out m.vertex, ∀ w wt r, graph.opposite m.vertex e = .ok w →
            graph.edgeElement e = .ok wt →
            AdaptableSearchableVector.find closed w = some r → r.cost ≤ m.cost + wt := by
          intro e he w wt r hw hwt hfind
          obtain ⟨w', _, hends, hel⟩ := hg.out_edge hmV he
          rw [AdjacencyListGraph.edgeElement_of_ends hends] at hwt
          cases hwt
          have hopt := (inv.good_closed w r hfind).2 (qm ++ [e])
            ((find_some_mem hfind).2 ▸
              (AdjacencyListGraph.isWalk_concat qm e).mpr ⟨m.vertex, hqm, he, hw⟩)
          simp only [List.length_append, List.length_singleton, Nat.cast_add,
            Nat.cast_one] at hopt
          rw [hunit e hel]
          omega
        simp only [hmt, if_false, hg.outgoingEdges_ok hmV, Except.bind,
          astarEdges_sim graph t m closed (graph.out m.vertex) rest hcond, hfold, Except.map]
        rw [HeapOps.onCostSoFar_make_heap hH inv'.plain]
        have := ih (H.onCostSoFar.make_heap openList') (closed ++ [m]) m
          (hH.onCostSoFar.make_heap_isHeap _) (inv'.of_perm (hH.onCostSoFar.make_heap_perm _))
        simpa using this

/-- On a well-formed graph whose edges all weigh one, `astar` with a heuristic that
always returns zero is `dijkstras` with the matching heap algorithms. -/
theorem astar_eq_dijkstras {H : HeapOps} (hH : H.Lawful) {graph : AdjacencyListGraph V Int}
    (hg : graph.WellFormed) (hunit : UnitWeights graph) (fuel : Nat) (path : List Ptr)
    {s : Ptr} (t : Ptr) (hs : s ∈ graph.vertexList) (heuristic : Heuristic)
    (hzero : ∀ a b, heuristic a b = 0) :
    astar H fuel path graph s t heuristic = dijkstras H.onCostSoFar fuel path graph s t := by
  have hh : heuristic = fun _ _ => 0 := funext fun a => funext fun b => hzero a b
  subst hh
  have hinv : BFSInv graph s t [⟨s, nullptr, 0, 0⟩] [] :=
    { closure := fun c hc => by simp at hc
      start := Or.inr (has_singleton.mpr rfl)
      realised_open := fun r hr => by
        simp only [List.mem_singleton] at hr
        subst hr
        exact Or.inl ⟨rfl, rfl⟩
      optimal_open := fun r hr _ q _ => by
        simp only [List.mem_singleton] at hr
        subst hr
        simp
      good_closed := fun v r h => by simp [AdaptableSearchableVector.find] at h
      goal := fun h => by
        obtain ⟨r, hr, _⟩ := h
        simp at hr
      vertices := fun r hr => by
        simp only [List.mem_singleton] at hr
        subst hr
        exact hs
      plain := fun r hr => by
        simp only [List.mem_singleton] at hr
        subst hr
        rfl }
  have hsim := astarLoop_sim hH hg hunit s t fuel [⟨s, nullptr, 0, 0⟩] []
    VertexRecord.uninitialised (isHeap_singleton _) hinv
  unfold astar dijkstras
  have h1 : ([⟨s, nullptr, 0, 0⟩] : List VertexRecord).map withCostSoFar
      = [⟨s, nullptr, 0, 0⟩] := rfl
  have h2 : withCostSoFar VertexRecord.uninitialised = VertexRecord.uninitialised := rfl
  rw [h1, h2] at hsim
  simp only [List.map_nil] at hsim
  simp only [bind, pure, Except.pure]
  rw [hsim]
  cases hloop : dijkstrasLoop H.onCostSoFar graph t fuel [⟨s, nullptr, 0, 0⟩] []
      VertexRecord.uninitialised with
  | error f => rfl
  | ok x =>
    obtain ⟨m, closed'⟩ := x
    simp only [Except.map, Except.bind]
    have hv : (withCostSoFar m).vertex = m.vertex := rfl
    rw [hv, compilePath_sim]

end Algorithm

namespace AdjacencyListGraph

variable {V : Type}

theorem WellFormed.walk_edges {g : AdjacencyListGraph V Int} (hg : g.WellFormed) :
    ∀ (q : List Ptr) (s t : Ptr), s ∈ g.vertexList → g.IsWalk s q t →
      ∀ e ∈ q, e ∈ g.edgeList := by
  intro q
  induction q with
  | nil => intro s t _ _ e he; simp at he
  | cons e q ih =>
    intro s t hs hw e' he'
    rw [isWalk_cons] at hw
    obtain ⟨hout, w, hopp, hrest⟩ := hw
    obtain ⟨w', hw', hends, hel⟩ := hg.out_edge hs hout
    have hww : w' = w := by
      rw [opposite_of_ends_fst hends] at hopp
      cases hopp
      rfl
    subst hww
    rcases List.mem_cons.mp he' with rfl | he'
    · exact hel
    · exact ih w' t hw' hrest e' he'

theorem pathWeight_of_unit {g : AdjacencyListGraph V Int} (hunit : UnitWeights g) :
    ∀ (q : List Ptr), (∀ e ∈ q, e ∈ g.edgeList) → g.pathWeight q = (q.length : Int) := by
  intro q
  induction q with
  | nil => intro _; rfl
  | cons e q ih =>
    intro h
    have := ih (fun e' he' => h e' (List.mem_cons_of_mem _ he'))
    unfold pathWeight at this ⊢
    simp only [List.map_cons, List.sum_cons, this, hunit e (h e (List.mem_cons_self _ _)),
      List.length_cons, Nat.cast_add, Nat.cast_one]
    omega

end AdjacencyListGraph

namespace Algorithm

variable {V : Type}

/-- C8: on a graph whose edges all weigh `1`, `dijkstras` and `astar` with a heuristic
that always returns `0` agree on success (they succeed exactly when the goal can be
reached), and when they succeed the two paths have the same total weight, which is their
number of edges and the least number of edges of a walk from the start to the goal. -/
theorem unit_weights_dijkstras_astar_agree (H : HeapOps) (hH : H.Lawful)
    (graph : AdjacencyListGraph V Int) (hg : graph.WellFormed) (hunit : UnitWeights graph)
    (fuel : Nat) (startVertex endVertex : Ptr) (hs : startVertex ∈ graph.vertices)
    (heuristic : Heuristic) (hzero : ∀ a b, heuristic a b = 0)
    (hfuel : 5 * graph.numVertices + 1 < fuel) :
    ∃ success pathD pathA,
      dijkstras H fuel [] graph startVertex endVertex = .ok (success, pathD) ∧
      astar H fuel [] graph startVertex endVertex heuristic = .ok (success, pathA) ∧
      (success = true ↔ graph.Reachable startVertex endVertex) ∧
      (success = true →
        graph.pathWeight pathD = graph.pathWeight pathA ∧
        graph.pathWeight pathD = (pathD.length : Int) ∧
        pathD.length = pathA.length ∧
        graph.IsWalk startVertex pathD endVertex ∧
        graph.IsWalk startVertex pathA endVertex ∧
        ∀ p, graph.IsWalk startVertex p endVertex → pathD.length ≤ p.length) := by
  rw [astar_eq_dijkstras hH hg hunit fuel [] endVertex hs heuristic hzero]
  rcases dijkstras_unit hH hg hunit fuel [] endVertex hs hfuel with
    ⟨hn, hd⟩ | ⟨qd, hd, hdw, hdmin⟩
  · rcases dijkstras_unit hH.onCostSoFar hg hunit fuel [] endVertex hs hfuel with
      ⟨_, ha⟩ | ⟨qa, _, haw, _⟩
    · exact ⟨false, [], [], hd, ha, by simpa using hn, fun h => by simp at h⟩
    · exact absurd ⟨qa, haw⟩ hn
  · rcases dijkstras_unit hH.onCostSoFar hg hunit fuel [] endVertex hs hfuel with
      ⟨hn, _⟩ | ⟨qa, ha, haw, hamin⟩
    · exact absurd ⟨qd, hdw⟩ hn
    · have hlen : qd.length = qa.length := le_antisymm (hdmin qa haw) (hamin qd hdw)
      have hwd := AdjacencyListGraph.pathWeight_of_unit hunit qd
        (hg.walk_edges qd startVertex endVertex hs hdw)
      have hwa := AdjacencyListGraph.pathWeight_of_unit hunit qa
        (hg.walk_edges qa startVertex endVertex hs haw)
      refine ⟨true, qd, qa, by simpa using hd, by simpa using ha, ?_, fun _ => ?_⟩
      · simp only [true_iff]
        exact ⟨qd, hdw⟩
      · exact ⟨by rw [hwd, hwa, hlen], hwd, hlen, hdw, haw, hdmin⟩

end Algorithm

/-! ### Removal of a vertex -/

theorem foldlM_ok_induct_split {ε α β : Type} (f : β → α → Except ε β) :
    ∀ (l : List α) (P : List α → β → Prop) (b : β),
      (∀ d a rest, l = d ++ a :: rest → ∀ x, P d x → ∃ y, f x a = .ok y ∧ P (d ++ [a]) y) →
      P [] b → ∃ b', l.foldlM f b = .ok b' ∧ P l b' := by
  intro l
  induction l with
  | nil =>
    intro P b _ hb
    exact ⟨b, rfl, hb⟩
  | cons a l ih =>
    intro P b hstep hb
    obtain ⟨y, hy, hPy⟩ := hstep [] a l rfl b hb
    obtain ⟨b', hb', hPb'⟩ := ih (fun d x => P (a :: d) x) y
      (fun d a' rest hl x hx => hstep (a :: d) a' rest (by rw [hl]; rfl) x hx) hPy
    refine ⟨b', ?_, hPb'⟩
    simp only [List.foldlM_cons, bind, Except.bind, hy]
    exact hb'

namespace AdjacencyListGraph

variable {V E : Type}

theorem filter_notMem_cons_of_notMem (l R : List Ptr) (e : Ptr) (he : e ∉ l) :
    l.filter (fun x => decide (x ∉ e :: R)) = l.filter (fun x => decide (x ∉ R)) := by
  apply List.filter_congr
  intro x hx
  have : x ≠ e := fun h => he (h ▸ hx)
  simp [this]

theorem erase_filter_notMem (l R : List Ptr) (e : Ptr) (hl : l.Nodup) :
    (l.filter (fun x => decide (x ∉ R))).erase e = l.filter (fun x => decide (x ∉ e :: R)) := by
  rw [(hl.filter _).erase_eq_filter, List.filter_filter]
  apply List.filter_congr
  intro x _
  by_cases hxe : x = e <;> by_cases hxR : x ∈ R <;> simp [hxe, hxR]

theorem filter_notMem_congr {R R' : List Ptr} (hRR : ∀ e, e ∈ R ↔ e ∈ R') (l : List Ptr) :
    l.filter (fun e => decide (e ∉ R)) = l.filter (fun e => decide (e ∉ R')) := by
  apply List.filter_congr
  intro x _
  simp [hRR x]

theorem without_congr {R R' : List Ptr} (hRR : ∀ e, e ∈ R ↔ e ∈ R') (o : ALVertex V) :
    o.without R = o.without R' := by
  unfold ALVertex.without
  rw [filter_notMem_congr hRR, filter_notMem_congr hRR]

theorem Stripped.congr {g g' : AdjacencyListGraph V E} {R R' : List Ptr}
    (h : Stripped g R g') (hRR : ∀ e, e ∈ R ↔ e ∈ R') : Stripped g R' g' where
  vertexList := h.vertexList
  edgeList := by rw [h.edgeList, filter_notMem_congr hRR]
  vertexObj := by
    intro u hu
    rw [h.vertexObj u hu]
    cases g.vertexObj u with
    | none => rfl
    | some o =>
      simp only [Option.map_some']
      rw [without_congr hRR]
  edgeObj := by
    intro e
    rw [h.edgeObj e]
    by_cases he : e ∈ R
    · rw [if_pos he, if_pos ((hRR e).mp he)]
    · rw [if_neg he, if_neg (fun h' => he ((hRR e).mpr h'))]
  fresh := h.fresh

theorem stripped_nil (g : AdjacencyListGraph V E) : Stripped g [] g where
  vertexList := rfl
  edgeList := by simp
  vertexObj := by
    intro u _
    cases g.vertexObj u with
    | none => rfl
    | some o => simp [ALVertex.without]
  edgeObj := by simp
  fresh := rfl

theorem without_cons (R : List Ptr) (e : Ptr) (o : ALVertex V)
    (hout : o.outgoing.Nodup ∨ e ∉ o.outgoing) (hin : o.incoming.Nodup ∨ e ∉ o.incoming) :
    o.without (e :: R) =
      { o.without R with outgoing := (o.without R).outgoing.erase e,
                         incoming := (o.without R).incoming.erase e } := by
  have h1 : o.outgoing.filter (fun x => decide (x ∉ e :: R))
      = (o.outgoing.filter (fun x => decide (x ∉ R))).erase e := by
    rcases hout with h | h
    · exact (erase_filter_notMem _ _ _ h).symm
    · rw [filter_notMem_cons_of_notMem _ _ _ h, List.erase_of_not_mem]
      exact fun h' => h (List.mem_of_mem_filter h')
  have h2 : o.incoming.filter (fun x => decide (x ∉ e :: R))
      = (o.incoming.filter (fun x => decide (x ∉ R))).erase e := by
    rcases hin with h | h
    · exact (erase_filter_notMem _ _ _ h).symm
    · rw [filter_notMem_cons_of_notMem _ _ _ h, List.erase_of_not_mem]
      exact fun h' => h (List.mem_of_mem_filter h')
  unfold ALVertex.without
  simp only [h1, h2]

theorem removeEdge_eq (gk : AdjacencyListGraph V E) (e : Ptr) (eo : ALEdge E)
    (oa ob od : ALVertex V) (hedge : gk.edgeAt e = .ok eo)
    (hva : gk.vertexAt eo.endpoints.1 = .ok oa) (hvb : gk.vertexAt eo.endpoints.2 = .ok ob)
    (hvd : (gk.setVertex eo.endpoints.1
      (some { oa with outgoing := oa.outgoing.erase e })).vertexAt eo.endpoints.2 = .ok od) :
    gk.removeEdge e = .ok
      (({ ((gk.setVertex eo.endpoints.1
              (some { oa with outgoing := oa.outgoing.erase e })).setVertex eo.endpoints.2
              (some { od with incoming := od.incoming.erase e })) with
          edgeList := gk.edgeList.erase e } : AdjacencyListGraph V E).setEdge e none) := by
  simp only [AdjacencyListGraph.removeEdge, bind, Except.bind, hedge, hva, hvb, hvd]
  rfl

/-- In a well-formed graph from which the edges of `R` were removed, `removeEdge` on a
further edge of the graph succeeds and removes just that edge. -/
theorem Stripped.removeEdge {g gk : AdjacencyListGraph V E} (hg : g.WellFormed) {R : List Ptr}
    (h : Stripped g R gk) {e : Ptr} (he : e ∈ g.edgeList) (heR : e ∉ R) :
    ∃ gk', gk.removeEdge e = .ok gk' ∧ Stripped g (e :: R) gk' := by
  obtain ⟨a, ha, b, hb, hends, hea, heb⟩ := hg.2.2.2.1 e he
  obtain ⟨eo, heo⟩ : ∃ eo, g.edgeObj e = some eo := by
    unfold ends at hends
    cases h' : g.edgeObj e with
    | none => simp [h'] at hends
    | some eo => exact ⟨eo, rfl⟩
  have hep : eo.endpoints = (a, b) := by
    unfold ends at hends
    simpa [heo] using hends
  obtain ⟨oa, hoa⟩ := Option.isSome_iff_exists.mp (hg.2.2.1 a ha).2.1
  obtain ⟨ob, hob⟩ := Option.isSome_iff_exists.mp (hg.2.2.1 b hb).2.1
  have hedge : gk.edgeAt e = .ok eo := by
    unfold edgeAt
    rw [h.edgeObj e]
    simp [heR, heo]
  have hva : gk.vertexAt a = .ok (oa.without R) := by
    unfold vertexAt
    rw [h.vertexObj a ha, hoa]
    rfl
  have hvb : gk.vertexAt b = .ok (ob.without R) := by
    unfold vertexAt
    rw [h.vertexObj b hb, hob]
    rfl
  have hnd : ∀ u ∈ g.vertexList, ∀ o, g.vertexObj u = some o →
      o.outgoing.Nodup ∧ o.incoming.Nodup ∧ (u ≠ a → e ∉ o.outgoing) ∧
      (u ≠ b → e ∉ o.incoming) := by
    intro u hu o huo
    have hw := hg.2.2.1 u hu
    have hout : g.out u = o.outgoing := by unfold out; rw [huo]
    have hinc : g.inc u = o.incoming := by unfold inc; rw [huo]
    rw [hout, hinc] at hw
    refine ⟨hw.2.2.1, hw.2.2.2.1, fun hua hmem => ?_, fun hub hmem => ?_⟩
    · have := (hw.2.2.2.2.1 e hmem).2
      rw [hends] at this
      simp only [Option.map_some', Option.some.injEq] at this
      exact hua this.symm
    · have := (hw.2.2.2.2.2 e hmem).2
      rw [hends] at this
      simp only [Option.map_some', Option.some.injEq] at this
      exact hub this.symm
  have hnda := hnd a ha oa hoa
  have hndb := hnd b hb ob hob
  by_cases hab : a = b
  · subst hab
    have hoab : ob = oa := by rw [hoa] at hob; cases hob; rfl
    subst hoab
    have hep1 : eo.endpoints.1 = a := by rw [hep]
    have hep2 : eo.endpoints.2 = a := by rw [hep]
    have hres := removeEdge_eq gk e eo (ob.without R) (ob.without R)
      { ob.without R with outgoing := (ob.without R).outgoing.erase e } hedge
      (by rw [hep1]; exact hva) (by rw [hep2]; exact hva)
      (by rw [hep1, hep2]; simp [vertexAt, setVertex])
    rw [hep1, hep2] at hres
    refine ⟨_, hres, ?_⟩
    · exact {
        vertexList := by simp [setEdge, setVertex, h.vertexList]
        edgeList := by
          simp only [setEdge, setVertex]
          rw [h.edgeList, erase_filter_notMem _ _ _ hg.2.1]
        vertexObj := by
          intro u hu
          simp only [setEdge, setVertex]
          by_cases hua : u = a
          · subst hua
            simp only [if_true, hoa, Option.map_some']
            rw [without_cons R e ob (Or.inl hnda.1) (Or.inl hnda.2.1)]
          · simp only [hua, if_false]
            rw [h.vertexObj u hu]
            cases huo : g.vertexObj u with
            | none => rfl
            | some o =>
              have := hnd u hu o huo
              simp only [Option.map_some']
              rw [without_cons R e o (Or.inr (this.2.2.1 hua)) (Or.inr (this.2.2.2 hua))]
              rw [List.erase_of_not_mem, List.erase_of_not_mem]
              · exact fun h' => this.2.2.2 hua (List.mem_of_mem_filter h')
              · exact fun h' => this.2.2.1 hua (List.mem_of_mem_filter h')
        edgeObj := by
          intro p
          simp only [setEdge, setVertex]
          by_cases hpe : p = e
          · simp [hpe]
          · rw [if_neg hpe, h.edgeObj p]
            by_cases hpR : p ∈ R
            · simp [hpR]
            · simp [hpR, hpe]
        fresh := by simp [setEdge, setVertex, h.fresh] }
  · have hba : ¬ b = a := fun h' => hab h'.symm
    have hep1 : eo.endpoints.1 = a := by rw [hep]
    have hep2 : eo.endpoints.2 = b := by rw [hep]
    have hres := removeEdge_eq gk e eo (oa.without R) (ob.without R) (ob.without R) hedge
      (by rw [hep1]; exact hva) (by rw [hep2]; exact hvb)
      (by
        rw [hep1, hep2]
        unfold vertexAt setVertex
        simp only [hba, if_false]
        rw [h.vertexObj b hb, hob]
        rfl)
    rw [hep1, hep2] at hres
    refine ⟨_, hres, ?_⟩
    · exact {
        vertexList := by simp [setEdge, setVertex, h.vertexList]
        edgeList := by
          simp only [setEdge, setVertex]
          rw [h.edgeList, erase_filter_notMem _ _ _ hg.2.1]
        vertexObj := by
          intro u hu
          simp only [setEdge, setVertex]
          by_cases hub : u = b
          · subst hub
            simp only [if_true, hob, Option.map_some']
            rw [without_cons R e ob (Or.inr (hndb.2.2.1 hba)) (Or.inl hndb.2.1)]
            rw [List.erase_of_not_mem (l := (ob.without R).outgoing)]
            exact fun h' => hndb.2.2.1 hba (List.mem_of_mem_filter h')
          · simp only [hub, if_false]
            by_cases hua : u = a
            · subst hua
              simp only [if_true, hoa, Option.map_some']
              rw [without_cons R e oa (Or.inl hnda.1) (Or.inr (hnda.2.2.2 hab))]
              rw [List.erase_of_not_mem (l := (oa.without R).incoming)]
              exact fun h' => hnda.2.2.2 hab (List.mem_of_mem_filter h')
            · simp only [hua, if_false]
              rw [h.vertexObj u hu]
              cases huo : g.vertexObj u with
              | none => rfl
              | some o =>
                have := hnd u hu o huo
                simp only [Option.map_some']
                rw [without_cons R e o (Or.inr (this.2.2.1 hua)) (Or.inr (this.2.2.2 hub))]
                rw [List.erase_of_not_mem, List.erase_of_not_mem]
                · exact fun h' => this.2.2.2 hub (List.mem_of_mem_filter h')
                · exact fun h' => this.2.2.1 hua (List.mem_of_mem_filter h')
        edgeObj := by
          intro p
          simp only [setEdge, setVertex]
          by_cases hpe : p = e
          · simp [hpe]
          · rw [if_neg hpe, h.edgeObj p]
            by_cases hpR : p ∈ R
            · simp [hpR]
            · simp [hpR, hpe]
        fresh := by simp [setEdge, setVertex, h.fresh] }

end AdjacencyListGraph

namespace AdjacencyListGraph

variable {V E : Type}

/-- The first loop of `removeVertex` removes the edges incident to the vertex and no
other edge. -/
theorem removeVertex_loop {g : AdjacencyListGraph V E} (hg : g.WellFormed) (v : Ptr) :
    ∃ g1, g.edges.foldlM (removeVertexStep v) g = .ok g1 ∧
      Stripped g (g.edgeList.filter (fun e => decide (g.Incident e v))) g1 := by
  refine foldlM_ok_induct_split (removeVertexStep v) g.edges
    (fun d gk => Stripped g (d.filter (fun e => decide (g.Incident e v))) gk) g ?_
    (stripped_nil g)
  intro d e rest hsplit gk hS
  have hnd : (d ++ e :: rest).Nodup := by
    have := hg.2.1
    unfold edges at hsplit
    rwa [hsplit] at this
  have hed : e ∉ d := by
    intro h
    have := (List.nodup_append.mp hnd).2.2
    exact this h (List.mem_cons_self _ _)
  have he : e ∈ g.edgeList := by
    unfold edges at hsplit
    rw [hsplit]
    simp
  have heR : e ∉ d.filter (fun e => decide (g.Incident e v)) :=
    fun h => hed (List.mem_of_mem_filter h)
  obtain ⟨a, _, b, _, hends, _, _⟩ := hg.2.2.2.1 e he
  have hev : gk.endVertices e = .ok (a, b) := by
    unfold endVertices edgeAt
    rw [hS.edgeObj e, if_neg heR]
    unfold ends at hends
    cases heo : g.edgeObj e with
    | none => simp [heo] at hends
    | some eo =>
      simp only [heo, Option.map_some', Option.some.injEq] at hends
      simp [Except.map, hends]
  have hinc : g.Incident e v ↔ (v = a ∨ v = b) := by
    unfold Incident
    rw [hends]
    simp only [Option.map_some', Option.some.injEq]
    constructor
    · rintro (h | h)
      · exact Or.inl h.symm
      · exact Or.inr h.symm
    · rintro (h | h)
      · exact Or.inl h.symm
      · exact Or.inr h.symm
  unfold removeVertexStep
  simp only [bind, Except.bind, hev, pure, Except.pure]
  by_cases hi : g.Incident e v
  · obtain ⟨gk', hres, hS'⟩ := Stripped.removeEdge hg hS he heR
    refine ⟨gk', ?_, Stripped.congr hS' ?_⟩
    · rw [if_pos (hinc.mp hi)]
      exact hres
    · intro x
      have hfe : [e].filter (fun e => decide (g.Incident e v)) = [e] := by simp [hi]
      rw [List.filter_append, hfe]
      simp only [List.mem_cons, List.mem_append, List.mem_singleton, List.not_mem_nil, or_false]
      tauto
  · refine ⟨gk, ?_, Stripped.congr hS ?_⟩
    · rw [if_neg (fun h => hi (hinc.mpr h))]
    · intro x
      have hfe : [e].filter (fun e => decide (g.Incident e v)) = [] := by simp [hi]
      rw [List.filter_append, hfe, List.append_nil]

/-- C4: for every graph and every vertex `v` in it, after `removeVertex(v)`: `vertices()`
is the old one without `v`, so `v` is no longer in it and `numVertices()` has decreased by
one; `edges()` is the old one without the edges incident to `v`, in the old order, so
every incident edge is gone, `numEdges()` has decreased by their number and no edge of
`edges()` has `v` as an endpoint; no remaining vertex holds an edge that was incident to
`v` in its outgoing or incoming vector; and every edge not incident to `v` and every
other vertex is still present. -/
theorem removeVertex_removes_incident_edges (g : AdjacencyListGraph V E)
    (hg : g.WellFormed) (v : Ptr) (hv : v ∈ g.vertices) :
    ∃ g', g.removeVertex v = .ok g' ∧
      v ∉ g'.vertices ∧
      g'.vertices = g.vertices.erase v ∧
      g'.numVertices + 1 = g.numVertices ∧
      g'.edges = g.edges.filter (fun e => decide (¬ g.Incident e v)) ∧
      (∀ e ∈ g.edges, g.Incident e v → e ∉ g'.edges) ∧
      g'.numEdges + (g.edges.filter (fun e => decide (g.Incident e v))).length = g.numEdges ∧
      (∀ e ∈ g'.edges, ∃ a b, g'.endVertices e = .ok (a, b) ∧ a ≠ v ∧ b ≠ v) ∧
      (∀ e ∈ g'.edges, ¬ g'.Incident e v) ∧
      (∀ u ∈ g'.vertices, ∃ outgoing incoming,
        g'.outgoingEdges u = .ok outgoing ∧ g'.incomingEdges u = .ok incoming ∧
        ∀ e, e ∈ outgoing ∨ e ∈ incoming → ¬ g.Incident e v) ∧
      (∀ e ∈ g.edges, ¬ g.Incident e v → e ∈ g'.edges ∧ g'.endVertices e = g.endVertices e) ∧
      (∀ u ∈ g.vertices, u ≠ v → u ∈ g'.vertices ∧
        ∀ e, ¬ g.Incident e v →
          (e ∈ g.out u → e ∈ g'.out u) ∧ (e ∈ g.inc u → e ∈ g'.inc u)) := by
  obtain ⟨g1, hfold, hS⟩ := removeVertex_loop hg v
  obtain ⟨R, hR⟩ : ∃ R, R = g.edgeList.filter (fun e => decide (g.Incident e v)) := ⟨_, rfl⟩
  rw [← hR] at hS
  have hRmem : ∀ e, e ∈ R ↔ e ∈ g.edgeList ∧ g.Incident e v := by
    intro e
    rw [hR, List.mem_filter, decide_eq_true_eq]
  have hv' : v ∈ g.vertexList := hv
  have hvne : v ≠ nullptr := (hg.2.2.1 v hv').1
  obtain ⟨ov, hov⟩ := Option.isSome_iff_exists.mp (hg.2.2.1 v hv').2.1
  have hlive : (({ g1 with vertexList := g1.vertexList.erase v } :
      AdjacencyListGraph V E).vertexAt v) = .ok (ov.without R) := by
    unfold vertexAt
    simp only [hS.vertexObj v hv', hov, Option.map_some']
  have hvl : (({ g1 with vertexList := g1.vertexList.erase v } :
      AdjacencyListGraph V E).setVertex v none).vertexList = g.vertexList.erase v := by
    simp only [setVertex, hS.vertexList]
  have hel : ∀ e, e ∈ (({ g1 with vertexList := g1.vertexList.erase v } :
      AdjacencyListGraph V E).setVertex v none).edgeList ↔ e ∈ g.edgeList ∧ e ∉ R := by
    intro e
    simp only [setVertex, hS.edgeList, List.mem_filter, decide_eq_true_eq]
  have heo : ∀ e, (({ g1 with vertexList := g1.vertexList.erase v } :
      AdjacencyListGraph V E).setVertex v none).edgeObj e
        = if e ∈ R then none else g.edgeObj e := by
    intro e
    simp only [setVertex, hS.edgeObj e]
  have hvo : ∀ u ∈ g.vertexList, u ≠ v → (({ g1 with vertexList := g1.vertexList.erase v } :
      AdjacencyListGraph V E).setVertex v none).vertexObj u
        = (g.vertexObj u).map (ALVertex.without R) := by
    intro u hu huv
    simp only [setVertex, huv, if_false, hS.vertexObj u hu]
  have helist : (({ g1 with vertexList := g1.vertexList.erase v } :
      AdjacencyListGraph V E).setVertex v none).edgeList =
        g.edgeList.filter (fun e => decide (¬ g.Incident e v)) := by
    simp only [setVertex, hS.edgeList]
    apply List.filter_congr
    intro e he
    have := hRmem e
    by_cases hi : g.Incident e v
    · have hR' : e ∈ R := this.mpr ⟨he, hi⟩
      simp [hi, hR']
    · have hR' : e ∉ R := fun h => hi (this.mp h).2
      simp [hi, hR']
  refine ⟨({ g1 with vertexList := g1.vertexList.erase v } :
      AdjacencyListGraph V E).setVertex v none, ?_, ?_, ?_, ?_, ?_, ?_, ?_, ?_, ?_, ?_, ?_, ?_⟩
  · simp only [removeVertex, bind, Except.bind, hfold, hvne, if_false, hlive, pure, Except.pure]
  · unfold vertices
    rw [hvl]
    exact fun h => ((List.Nodup.mem_erase_iff hg.1).mp h).1 rfl
  · exact hvl
  · unfold numVertices
    rw [hvl, List.length_erase_of_mem hv']
    have : 0 < g.vertexList.length := List.length_pos_of_mem hv'
    omega
  · exact helist
  · intro e _ hi he'
    have he'' : e ∈ g.edgeList.filter (fun e => decide (¬ g.Incident e v)) := helist ▸ he'
    exact (of_decide_eq_true (List.mem_filter.mp he'').2) hi
  · unfold numEdges edges
    rw [helist]
    have hlen := List.length_eq_length_filter_add (l := g.edgeList)
      (fun e => decide (¬ g.Incident e v))
    have hnot : g.edgeList.filter (fun e => decide (g.Incident e v)) =
        g.edgeList.filter (fun e => !(decide (¬ g.Incident e v))) := by
      apply List.filter_congr
      intro e _
      by_cases hi : g.Incident e v <;> simp [hi]
    rw [hnot]
    omega
  · intro e he
    have he' := (hel e).mp he
    have hni : ¬ g.Incident e v := fun h => he'.2 ((hRmem e).mpr ⟨he'.1, h⟩)
    obtain ⟨a, _, b, _, hab, _, _⟩ := hg.2.2.2.1 e he'.1
    refine ⟨a, b, ?_, ?_, ?_⟩
    · unfold endVertices edgeAt
      rw [heo e, if_neg he'.2]
      exact endVertices_of_ends hab
    · intro h
      apply hni
      left
      rw [hab, h]
      rfl
    · intro h
      apply hni
      right
      rw [hab, h]
      rfl
  · intro e he
    have he' := (hel e).mp he
    have hni : ¬ g.Incident e v := fun h => he'.2 ((hRmem e).mpr ⟨he'.1, h⟩)
    unfold Incident ends at hni ⊢
    rw [heo e, if_neg he'.2]
    exact hni
  · intro u hu
    have hu' : u ∈ g.vertexList.erase v := by
      unfold vertices at hu
      rwa [hvl] at hu
    have huv : u ≠ v := fun h => ((List.Nodup.mem_erase_iff hg.1).mp hu').1 h
    have huV : u ∈ g.vertexList := List.mem_of_mem_erase hu'
    obtain ⟨ou, hou⟩ := Option.isSome_iff_exists.mp (hg.2.2.1 u huV).2.1
    refine ⟨(ou.without R).outgoing, (ou.without R).incoming, ?_, ?_, ?_⟩
    · unfold outgoingEdges vertexAt
      rw [hvo u huV huv, hou]
      rfl
    · unfold incomingEdges vertexAt
      rw [hvo u huV huv, hou]
      rfl
    · intro e he hi
      have hw := hg.2.2.1 u huV
      have hout : g.out u = ou.outgoing := by unfold out; rw [hou]
      have hinc : g.inc u = ou.incoming := by unfold inc; rw [hou]
      rw [hout, hinc] at hw
      unfold ALVertex.without at he
      rcases he with he | he
      · obtain ⟨h1, h2⟩ := List.mem_filter.mp he
        exact (of_decide_eq_true h2) ((hRmem e).mpr ⟨(hw.2.2.2.2.1 e h1).1, hi⟩)
      · obtain ⟨h1, h2⟩ := List.mem_filter.mp he
        exact (of_decide_eq_true h2) ((hRmem e).mpr ⟨(hw.2.2.2.2.2 e h1).1, hi⟩)
  · intro e he hi
    have heR : e ∉ R := fun h => hi ((hRmem e).mp h).2
    constructor
    · exact (hel e).mpr ⟨he, heR⟩
    · unfold endVertices edgeAt
      rw [heo e, if_neg heR]
  · intro u hu huv
    have hu' : u ∈ g.vertexList := hu
    constructor
    · unfold vertices
      rw [hvl]
      exact (List.Nodup.mem_erase_iff hg.1).mpr ⟨huv, hu'⟩
    · intro e hi
      have heR : e ∉ R := fun h => hi ((hRmem e).mp h).2
      obtain ⟨ou, hou⟩ := Option.isSome_iff_exists.mp (hg.2.2.1 u hu').2.1
      unfold out inc
      rw [hvo u hu' huv, hou]
      simp only [Option.map_some', ALVertex.without, List.mem_filter, decide_eq_true_eq]
      exact ⟨fun h => ⟨h, heR⟩, fun h => ⟨h, heR⟩⟩

end AdjacencyListGraph

/-! ### The selector of the behavior tree -/

theorem SelectorNode.runChildren_probes :
    ∀ (outcomes : List Bool) (k : Nat) (log : List Nat),
      SelectorNode.runChildren (probesFrom k outcomes) log =
        (outcomes.any id,
          log ++ List.range' k
            ((outcomes.takeWhile (fun b => !b)).length + if outcomes.any id then 1 else 0)) := by
  intro outcomes
  induction outcomes with
  | nil =>
    intro k log
    simp [probesFrom, SelectorNode.runChildren]
  | cons b bs ih =>
    intro k log
    cases b with
    | true =>
      simp [probesFrom, SelectorNode.runChildren, probe]
    | false =>
      simp only [probesFrom, SelectorNode.runChildren, probe, Bool.false_eq_true, if_false, ih,
        List.any_cons, id, Bool.false_or, List.takeWhile_cons, Bool.not_false, if_true,
        List.length_cons]
      congr 1
      rw [List.append_assoc]
      congr 1
      rw [show (List.takeWhile (fun b => !b) bs).length + 1 + (if bs.any id = true then 1 else 0)
          = ((List.takeWhile (fun b => !b) bs).length + (if bs.any id = true then 1 else 0)) + 1
          by omega]
      rw [List.range'_succ]
      rfl

/-- C10: for a `SelectorNode` whose children `c1..cn` return fixed outcomes, `run`
returns success iff some child returns success; it invokes the children in order and
stops right after the first success (invoking all of them when none succeeds); with no
child it returns failure; over `[fail, fail, success]` it returns success after invoking
exactly three children. -/
theorem selector_runs_children_until_first_success (outcomes : List Bool) (log : List Nat) :
    ((SelectorNode.run (probesFrom 1 outcomes) log).1 = true ↔ true ∈ outcomes) ∧
    (SelectorNode.run (probesFrom 1 outcomes) log).2 =
      log ++ List.range' 1
        ((outcomes.takeWhile (fun b => !b)).length + if true ∈ outcomes then 1 else 0) ∧
    (true ∉ outcomes →
      (SelectorNode.run (probesFrom 1 outcomes) log).2 = log ++ List.range' 1 outcomes.length) ∧
    SelectorNode.run (probesFrom 1 []) log = (false, log) ∧
    SelectorNode.run (probesFrom 1 [false, false, true]) [] = (true, [1, 2, 3]) := by
  have hany : outcomes.any id = true ↔ true ∈ outcomes := by simp
  have hrun : SelectorNode.run (probesFrom 1 outcomes) log =
      SelectorNode.runChildren (probesFrom 1 outcomes) log := by
    unfold SelectorNode.run
    split
    · rename_i h
      cases outcomes with
      | nil => rfl
      | cons b bs => simp [probesFrom] at h
    · rfl
  have hsnd : (SelectorNode.run (probesFrom 1 outcomes) log).2 =
      log ++ List.range' 1
        ((outcomes.takeWhile (fun b => !b)).length + if true ∈ outcomes then 1 else 0) := by
    rw [hrun, SelectorNode.runChildren_probes]
    simp only [hany]
  refine ⟨?_, hsnd, ?_, rfl, rfl⟩
  · rw [hrun, SelectorNode.runChildren_probes]
    exact hany
  · intro hnone
    rw [hsnd, if_neg hnone, Nat.add_zero]
    have : outcomes.takeWhile (fun b => !b) = outcomes := by
      rw [List.takeWhile_eq_self_iff]
      intro b hb
      cases b with
      | true => exact absurd hb hnone
      | false => rfl
    rw [this]

/-! ### The claims on sample inputs -/

namespace Algorithm

/-- C1, on the code: on `detourGraph`, whose weights are non-negative and where the edges
`5, 6` lead from vertex `1` to vertex `2` with total weight `2`, `dijkstras` returns true
with the path `[4]` of weight `10`, whatever the heap algorithms do with ties: the record
of an open vertex is never updated, so the path is not of minimum total weight. -/
theorem dijkstras_returns_heavier_path (H : HeapOps) (hH : H.Lawful) (fuel : Nat) :
    detourGraph.WellFormed ∧ (∀ e ∈ detourGraph.edges, 0 ≤ detourGraph.weight e) ∧
    detourGraph.IsWalk 1 [5, 6] 2 ∧ detourGraph.pathWeight [5, 6] = 2 ∧
    dijkstras H (fuel + 3) [] detourGraph 1 2 = .ok (true, [4]) ∧
    detourGraph.pathWeight [4] = 10 :=
  ⟨by decide, by decide, ⟨by decide, 3, rfl, by decide, 2, rfl, rfl⟩, rfl,
    dijkstras_detour hH fuel, rfl⟩

theorem dijkstras_returns_heavier_path_witness :
    sortedHeap.Lawful ∧
    (detourGraph.WellFormed ∧ (∀ e ∈ detourGraph.edges, 0 ≤ detourGraph.weight e) ∧
      detourGraph.IsWalk 1 [5, 6] 2 ∧ detourGraph.pathWeight [5, 6] = 2 ∧
      dijkstras sortedHeap (0 + 3) [] detourGraph 1 2 = .ok (true, [4]) ∧
      detourGraph.pathWeight [4] = 10) :=
  ⟨sortedHeap_lawful, dijkstras_returns_heavier_path sortedHeap sortedHeap_lawful 0⟩

/-- C2, on the code: on `detourGraph` with the zero heuristic (which never exceeds a
least cost, the weights being non-negative), `astar` returns true with the path `[4]` of
weight `10` although the edges `5, 6` lead from the start to the goal with total weight
`2`: the record of an open vertex is never updated. -/
theorem astar_returns_heavier_path (H : HeapOps) (hH : H.Lawful) (fuel : Nat) :
    detourGraph.WellFormed ∧ (∀ e ∈ detourGraph.edges, 0 ≤ detourGraph.weight e) ∧
    detourGraph.IsWalk 1 [5, 6] 2 ∧ detourGraph.pathWeight [5, 6] = 2 ∧
    astar H (fuel + 3) [] detourGraph 1 2 (fun _ _ => 0) = .ok (true, [4]) ∧
    detourGraph.pathWeight [4] = 10 :=
  ⟨by decide, by decide, ⟨by decide, 3, rfl, by decide, 2, rfl, rfl⟩, rfl,
    astar_detour hH fuel, rfl⟩

theorem astar_returns_heavier_path_witness :
    sortedHeap.Lawful ∧
    (detourGraph.WellFormed ∧ (∀ e ∈ detourGraph.edges, 0 ≤ detourGraph.weight e) ∧
      detourGraph.IsWalk 1 [5, 6] 2 ∧ detourGraph.pathWeight [5, 6] = 2 ∧
      astar sortedHeap (0 + 3) [] detourGraph 1 2 (fun _ _ => 0) = .ok (true, [4]) ∧
      detourGraph.pathWeight [4] = 10) :=
  ⟨sortedHeap_lawful, astar_returns_heavier_path sortedHeap sortedHeap_lawful 0⟩

/-- C3, on the code: when the expansion of an edge in `astar` reaches a vertex that is in
the closed list with a recorded cost so far strictly greater than the new cost, the
record is erased from the closed list and the open list is left as it was: the updated
record is a local copy that is pushed nowhere, so the vertex is not reopened. -/
theorem astarEdge_erases_without_reopening {V : Type} (graph : AdjacencyListGraph V Int)
    (endVertex : Ptr) (heuristic : Heuristic) (current : VertexRecord)
    (openList closedList : AdaptableSearchableVector) (e opposite : Ptr) (w : Int)
    (record : VertexRecord)
    (hopp : graph.opposite current.vertex e = .ok opposite)
    (hw : graph.edgeElement e = .ok w)
    (hfind : closedList.find opposite = some record)
    (hlt : current.costSoFar + w < record.costSoFar) :
    astarEdge graph endVertex heuristic current (openList, closedList) e =
      .ok (openList, closedList.eraseFound opposite) := by
  unfold astarEdge
  simp only [bind, Except.bind, hopp, hw, hfind, pure, Except.pure]
  rw [if_neg (by omega)]

theorem astarEdge_erases_without_reopening_witness :
    (reopenGraph.opposite 3 7 = .ok 2 ∧ reopenGraph.edgeElement 7 = .ok 1 ∧
      AdaptableSearchableVector.find [⟨1, nullptr, 0, 0⟩, ⟨2, 5, 5, 5⟩] 2 = some ⟨2, 5, 5, 5⟩ ∧
      (1 : Int) + 1 < 5) ∧
    astarEdge reopenGraph 4 reopenHeuristic ⟨3, 6, 12, 1⟩
        ([⟨4, 8, 15, 15⟩], [⟨1, nullptr, 0, 0⟩, ⟨2, 5, 5, 5⟩]) 7 =
      .ok ([⟨4, 8, 15, 15⟩],
        AdaptableSearchableVector.eraseFound [⟨1, nullptr, 0, 0⟩, ⟨2, 5, 5, 5⟩] 2) ∧
    AdaptableSearchableVector.eraseFound [⟨1, nullptr, 0, 0⟩, ⟨2, 5, 5, 5⟩] 2
      = [⟨1, nullptr, 0, 0⟩] ∧
    AdaptableSearchableVector.find [⟨4, 8, 15, 15⟩] 2 = none ∧
    astar sortedHeap 10 [] reopenGraph 1 4 reopenHeuristic = .error .undefinedBehaviour :=
  ⟨⟨rfl, rfl, rfl, by decide⟩,
    astarEdge_erases_without_reopening reopenGraph 4 reopenHeuristic ⟨3, 6, 12, 1⟩
      [⟨4, 8, 15, 15⟩] [⟨1, nullptr, 0, 0⟩, ⟨2, 5, 5, 5⟩] 7 2 1 ⟨2, 5, 5, 5⟩ rfl rfl rfl
      (by decide),
    rfl, rfl, rfl⟩

theorem start_eq_goal_returns_empty_path_witness :
    sortedHeap.Lawful ∧
    (dijkstras sortedHeap (0 + 1) [] detourGraph 1 1 = .ok (true, []) ∧
      astar sortedHeap (0 + 1) [] detourGraph 1 1 reopenHeuristic = .ok (true, [])) :=
  ⟨sortedHeap_lawful,
    start_eq_goal_returns_empty_path sortedHeap sortedHeap_lawful 0 detourGraph 1 reopenHeuristic⟩

theorem detourGraph_unreachable : ¬ detourGraph.Reachable 2 1 := by
  rintro ⟨path, h⟩
  cases path with
  | nil =>
    have h21 : (2 : Ptr) = 1 := h
    exact absurd h21 (by decide)
  | cons e path =>
    have : e ∈ detourGraph.out 2 := h.1
    exact absurd this (by simp [show detourGraph.out 2 = [] from rfl])

theorem unreachable_goal_returns_false_witness :
    sortedHeap.Lawful ∧
    ((∀ result, dijkstras sortedHeap 10 [] detourGraph 2 1 = .ok result →
        (result.1 = true → detourGraph.Reachable 2 1) ∧
        (¬ detourGraph.Reachable 2 1 → result = (false, []))) ∧
      (∀ result, astar sortedHeap 10 [] detourGraph 2 1 reopenHeuristic = .ok result →
        (result.1 = true → detourGraph.Reachable 2 1) ∧
        (¬ detourGraph.Reachable 2 1 → result = (false, [])))) ∧
    ¬ detourGraph.Reachable 2 1 ∧
    dijkstras sortedHeap 10 [] detourGraph 2 1 = .ok (false, []) ∧
    astar sortedHeap 10 [] detourGraph 2 1 reopenHeuristic = .ok (false, []) :=
  ⟨sortedHeap_lawful,
    unreachable_goal_returns_false sortedHeap sortedHeap_lawful 10 [] detourGraph 2 1
      reopenHeuristic,
    detourGraph_unreachable, rfl, rfl⟩

theorem unit_weights_dijkstras_astar_agree_witness :
    (sortedHeap.Lawful ∧ grid3x3.WellFormed ∧ UnitWeights grid3x3 ∧ 1 ∈ grid3x3.vertices ∧
      (∀ a b : Ptr, (fun _ _ => (0 : Int)) a b = 0) ∧ 5 * grid3x3.numVertices + 1 < 47) ∧
    (∃ success pathD pathA,
      dijkstras sortedHeap 47 [] grid3x3 1 9 = .ok (success, pathD) ∧
      astar sortedHeap 47 [] grid3x3 1 9 (fun _ _ => 0) = .ok (success, pathA) ∧
      (success = true ↔ grid3x3.Reachable 1 9) ∧
      (success = true →
        grid3x3.pathWeight pathD = grid3x3.pathWeight pathA ∧
        grid3x3.pathWeight pathD = (pathD.length : Int) ∧
        pathD.length = pathA.length ∧
        grid3x3.IsWalk 1 pathD 9 ∧
        grid3x3.IsWalk 1 pathA 9 ∧
        ∀ p, grid3x3.IsWalk 1 p 9 → pathD.length ≤ p.length)) :=
  ⟨⟨sortedHeap_lawful, by decide, by decide, by decide, fun _ _ => rfl, by decide⟩,
    unit_weights_dijkstras_astar_agree sortedHeap sortedHeap_lawful grid3x3 (by decide)
      (by decide) 47 1 9 (by decide) (fun _ _ => 0) (fun _ _ => rfl) (by decide)⟩

end Algorithm

theorem removeVertex_removes_incident_edges_witness :
    (detourGraph.WellFormed ∧ 3 ∈ detourGraph.vertices) ∧
    (∃ g', detourGraph.removeVertex 3 = .ok g' ∧
      3 ∉ g'.vertices ∧
      g'.vertices = detourGraph.vertices.erase 3 ∧
      g'.numVertices + 1 = detourGraph.numVertices ∧
      g'.edges = detourGraph.edges.filter (fun e => decide (¬ detourGraph.Incident e 3)) ∧
      g'.numEdges +
          (detourGraph.edges.filter (fun e => decide (detourGraph.Incident e 3))).length =
        detourGraph.numEdges ∧
      (∀ e ∈ g'.edges, ∃ a b, g'.endVertices e = .ok (a, b) ∧ a ≠ 3 ∧ b ≠ 3)) ∧
    detourGraph.edges.filter (fun e => decide (detourGraph.Incident e 3)) = [5, 6] ∧
    (detourGraph.removeVertex 3).map (fun g => (g.vertices, g.edges)) = .ok ([1, 2], [4]) := by
  obtain ⟨g', h1, h2, h3, h4, h5, -, h7, h8, -⟩ :=
    AdjacencyListGraph.removeVertex_removes_incident_edges detourGraph (by decide) 3 (by decide)
  exact ⟨⟨by decide, by decide⟩, ⟨g', h1, h2, h3, h4, h5, h7, h8⟩, by decide, rfl⟩

theorem selector_runs_children_until_first_success_witness :
    true ∉ [false, false] ∧
    (SelectorNode.run (probesFrom 1 [false, false]) []).2 = [] ++ List.range' 1 2 ∧
    SelectorNode.run (probesFrom 1 [false, false]) [] = (false, [1, 2]) :=
  ⟨by decide,
    (selector_runs_children_until_first_success [false, false] []).2.2.1 (by decide), rfl⟩
/-! ### Every choice among records of equal cost -/

theorem mem_minima {l : List VertexRecord} {m : VertexRecord} (hm : m ∈ l)
    (hmin : ∀ y ∈ l, m.cost ≤ y.cost) : m ∈ minima l := by
  unfold minima
  rw [List.mem_filter]
  refine ⟨hm, ?_⟩
  rw [List.all_eq_true]
  intro y hy
  exact decide_eq_true (hmin y hy)

theorem find_isSome_perm {l l' : List VertexRecord} (hp : l.Perm l') (w : Ptr) :
    (AdaptableSearchableVector.find l w).isSome = (AdaptableSearchableVector.find l' w).isSome := by
  have h : (AdaptableSearchableVector.find l w).isSome = true ↔
      (AdaptableSearchableVector.find l' w).isSome = true := by
    rw [find_isSome_iff, find_isSome_iff]
    exact ⟨fun h => h.perm hp, fun h => h.perm hp.symm⟩
  cases h1 : (AdaptableSearchableVector.find l w).isSome <;>
    cases h2 : (AdaptableSearchableVector.find l' w).isSome <;> simp_all

namespace Algorithm

variable {V : Type}

/-- The body of the loop of `dijkstras` on two open lists with the same records: the
same fault, or new open lists with the same records. -/
theorem dijkstrasEdge_perm (graph : AdjacencyListGraph V Int) (m : VertexRecord)
    (closed : List VertexRecord) {o o' : List VertexRecord} (hp : o.Perm o') (e : Ptr) :
    (∃ f, dijkstrasEdge graph m closed o e = .error f ∧
        dijkstrasEdge graph m closed o' e = .error f) ∨
    (∃ r r', dijkstrasEdge graph m closed o e = .ok r ∧
        dijkstrasEdge graph m closed o' e = .ok r' ∧ r.Perm r') := by
  unfold dijkstrasEdge
  simp only [bind, pure, Except.pure]
  cases hopp : graph.opposite m.vertex e with
  | error f => exact Or.inl ⟨f, rfl, rfl⟩
  | ok w =>
    cases hwt : graph.edgeElement e with
    | error f => exact Or.inl ⟨f, rfl, rfl⟩
    | ok wt =>
      simp only [Except.bind]
      by_cases hc : (AdaptableSearchableVector.find closed w).isSome = true
      · simp only [hc, if_true]
        exact Or.inr ⟨o, o', rfl, rfl, hp⟩
      · simp only [hc, if_false]
        have hiff := find_isSome_perm hp w
        cases h1 : AdaptableSearchableVector.find o w with
        | some r1 =>
          cases h2 : AdaptableSearchableVector.find o' w with
          | some r2 => exact Or.inr ⟨o, o', rfl, rfl, hp⟩
          | none => simp [h1, h2] at hiff
        | none =>
          cases h2 : AdaptableSearchableVector.find o' w with
          | some r2 => simp [h1, h2] at hiff
          | none => exact Or.inr ⟨_, _, rfl, rfl, hp.append_right _⟩

theorem dijkstrasEdges_perm (graph : AdjacencyListGraph V Int) (m : VertexRecord)
    (closed : List VertexRecord) :
    ∀ (edges : List Ptr) {o o' : List VertexRecord}, o.Perm o' →
      (∃ f, edges.foldlM (dijkstrasEdge graph m closed) o = .error f ∧
          edges.foldlM (dijkstrasEdge graph m closed) o' = .error f) ∨
      (∃ r r', edges.foldlM (dijkstrasEdge graph m closed) o = .ok r ∧
          edges.foldlM (dijkstrasEdge graph m closed) o' = .ok r' ∧ r.Perm r') := by
  intro edges
  induction edges with
  | nil =>
    intro o o' hp
    exact Or.inr ⟨o, o', rfl, rfl, hp⟩
  | cons e edges ih =>
    intro o o' hp
    simp only [List.foldlM_cons, bind]
    rcases dijkstrasEdge_perm graph m closed hp e with ⟨f, h1, h2⟩ | ⟨r, r', h1, h2, hrr⟩
    · exact Or.inl ⟨f, by simp [h1, Except.bind], by simp [h2, Except.bind]⟩
    · simp only [h1, h2, Except.bind]
      exact ih hrr

/-- The body of the loop of `astar` on two open lists with the same records. -/
theorem astarEdge_perm (graph : AdjacencyListGraph V Int) (t : Ptr) (heuristic : Heuristic)
    (m : VertexRecord) (closed : List VertexRecord) {o o' : List VertexRecord}
    (hp : o.Perm o') (e : Ptr) :
    (∃ f, astarEdge graph t heuristic m (o, closed) e = .error f ∧
        astarEdge graph t heuristic m (o', closed) e = .error f) ∨
    (∃ r r' c, astarEdge graph t heuristic m (o, closed) e = .ok (r, c) ∧
        astarEdge graph t heuristic m (o', closed) e = .ok (r', c) ∧ r.Perm r') := by
  unfold astarEdge
  simp only [bind, pure, Except.pure]
  cases hopp : graph.opposite m.vertex e with
  | error f => exact Or.inl ⟨f, rfl, rfl⟩
  | ok w =>
    cases hwt : graph.edgeElement e with
    | error f => exact Or.inl ⟨f, rfl, rfl⟩
    | ok wt =>
      simp only [Except.bind]
      cases hc : AdaptableSearchableVector.find closed w with
      | some rc =>
        simp only
        split
        · exact Or.inr ⟨o, o', closed, rfl, rfl, hp⟩
        · exact Or.inr ⟨o, o', _, rfl, rfl, hp⟩
      | none =>
        simp only
        have hiff := find_isSome_perm hp w
        cases h1 : AdaptableSearchableVector.find o w with
        | some r1 =>
          cases h2 : AdaptableSearchableVector.find o' w with
          | some r2 =>
            simp only
            split <;> split <;> exact Or.inr ⟨o, o', closed, rfl, rfl, hp⟩
          | none => simp [h1, h2] at hiff
        | none =>
          cases h2 : AdaptableSearchableVector.find o' w with
          | some r2 => simp [h1, h2] at hiff
          | none => exact Or.inr ⟨_, _, closed, rfl, rfl, hp.append_right _⟩

theorem astarEdges_perm (graph : AdjacencyListGraph V Int) (t : Ptr) (heuristic : Heuristic)
    (m : VertexRecord) :
    ∀ (edges : List Ptr) (closed : List VertexRecord) {o o' : List VertexRecord}, o.Perm o' →
      (∃ f, edges.foldlM (astarEdge graph t heuristic m) (o, closed) = .error f ∧
          edges.foldlM (astarEdge graph t heuristic m) (o', closed) = .error f) ∨
      (∃ r r' c, edges.foldlM (astarEdge graph t heuristic m) (o, closed) = .ok (r, c) ∧
          edges.foldlM (astarEdge graph t heuristic m) (o', closed) = .ok (r', c) ∧
          r.Perm r') := by
  intro edges
  induction edges with
  | nil =>
    intro closed o o' hp
    exact Or.inr ⟨o, o', closed, rfl, rfl, hp⟩
  | cons e edges ih =>
    intro closed o o' hp
    simp only [List.foldlM_cons, bind]
    rcases astarEdge_perm graph t heuristic m closed hp e with
      ⟨f, h1, h2⟩ | ⟨r, r', c, h1, h2, hrr⟩
    · exact Or.inl ⟨f, by simp [h1, Except.bind], by simp [h2, Except.bind]⟩
    · simp only [h1, h2, Except.bind]
      exact ih c hrr

/-- The result of the loop of `dijkstras` with lawful heap algorithms is one of the
results over every choice of a least-cost record. -/
theorem dijkstrasLoop_mem_all {H : HeapOps} (hH : H.Lawful) (graph : AdjacencyListGraph V Int)
    (t : Ptr) :
    ∀ (fuel : Nat) (oH oN closed : List VertexRecord) (current : VertexRecord),
      oH.Perm oN → IsHeap oH →
      dijkstrasLoop H graph t fuel oH closed current
        ∈ dijkstrasLoopAll graph t fuel oN closed current := by
  intro fuel
  induction fuel with
  | zero =>
    intro oH oN closed current _ _
    simp [dijkstrasLoop, dijkstrasLoopAll]
  | succ fuel ih =>
    intro oH oN closed current hp hheap
    by_cases hne : oH = []
    · subst hne
      have : oN = [] := List.Perm.eq_nil hp.symm
      subst this
      simp [dijkstrasLoop, dijkstrasLoopAll]
    · obtain ⟨m, rest, hperm, hmin, -, hstep⟩ := dijkstrasLoop_step hH graph t hheap hne
      rw [hstep]
      have hlenN : oN.length > 0 := by
        rw [← hp.length_eq]
        exact List.length_pos.mpr hne
      have hmN : m ∈ oN := hp.subset (hperm.subset (List.mem_cons_self _ _))
      have hminN : ∀ y ∈ oN, m.cost ≤ y.cost := fun y hy => hmin y (hp.symm.subset hy)
      have hrest : rest.Perm (oN.erase m) := by
        have := (hperm.trans hp).erase m
        simpa using this
      simp only [dijkstrasLoopAll, hlenN, if_true]
      rw [List.mem_flatMap]
      refine ⟨m, mem_minima hmN hminN, ?_⟩
      by_cases hmt : m.vertex = t
      · simp [hmt]
      · simp only [hmt, if_false]
        cases hedges : graph.outgoingEdges m.vertex with
        | error f => simp [Except.bind]
        | ok edges =>
          simp only [Except.bind]
          rcases dijkstrasEdges_perm graph m closed edges hrest with
            ⟨f, h1, h2⟩ | ⟨r, r', h1, h2, hrr⟩
          · simp [h1, h2]
          · simp only [h1, h2]
            exact ih _ _ _ _ ((hH.make_heap_perm r).trans hrr) (hH.make_heap_isHeap r)

/-- The result of the loop of `astar` with lawful heap algorithms is one of the results
over every choice of a least-cost record. -/
theorem astarLoop_mem_all {H : HeapOps} (hH : H.Lawful) (graph : AdjacencyListGraph V Int)
    (t : Ptr) (heuristic : Heuristic) :
    ∀ (fuel : Nat) (oH oN closed : List VertexRecord) (current : VertexRecord),
      oH.Perm oN → IsHeap oH →
      astarLoop H graph t heuristic fuel oH closed current
        ∈ astarLoopAll graph t heuristic fuel oN closed current := by
  intro fuel
  induction fuel with
  | zero =>
    intro oH oN closed current _ _
    simp [astarLoop, astarLoopAll]
  | succ fuel ih =>
    intro oH oN closed current hp hheap
    by_cases hne : oH = []
    · subst hne
      have : oN = [] := List.Perm.eq_nil hp.symm
      subst this
      simp [astarLoop, astarLoopAll]
    · obtain ⟨m, rest, hperm, hmin, -, hstep⟩ := astarLoop_step hH graph t heuristic hheap hne
      rw [hstep]
      have hlenN : oN.length > 0 := by
        rw [← hp.length_eq]
        exact List.length_pos.mpr hne
      have hmN : m ∈ oN := hp.subset (hperm.subset (List.mem_cons_self _ _))
      have hminN : ∀ y ∈ oN, m.cost ≤ y.cost := fun y hy => hmin y (hp.symm.subset hy)
      have hrest : rest.Perm (oN.erase m) := by
        have := (hperm.trans hp).erase m
        simpa using this
      simp only [astarLoopAll, hlenN, if_true]
      rw [List.mem_flatMap]
      refine ⟨m, mem_minima hmN hminN, ?_⟩
      by_cases hmt : m.vertex = t
      · simp [hmt]
      · simp only [hmt, if_false]
        cases hedges : graph.outgoingEdges m.vertex with
        | error f => simp [Except.bind]
        | ok edges =>
          simp only [Except.bind]
          rcases astarEdges_perm graph t heuristic m edges closed hrest with
            ⟨f, h1, h2⟩ | ⟨r, r', c, h1, h2, hrr⟩
          · simp [h1, h2]
          · simp only [h1, h2]
            exact ih _ _ _ _ ((hH.make_heap_perm r).trans hrr) (hH.make_heap_isHeap r)

end Algorithm

namespace Algorithm

variable {V : Type}

/-! ### More fuel does not change a result -/

theorem dijkstrasLoop_fuel_mono (H : HeapOps) (graph : AdjacencyListGraph V Int) (t : Ptr) :
    ∀ (fuel : Nat) (o c : List VertexRecord) (current : VertexRecord)
      (r : VertexRecord × List VertexRecord),
      dijkstrasLoop H graph t fuel o c current = .ok r →
      ∀ k, dijkstrasLoop H graph t (fuel + k) o c current = .ok r := by
  intro fuel
  induction fuel with
  | zero =>
    intro o c current r h
    simp [dijkstrasLoop] at h
  | succ fuel ih =>
    intro o c current r h k
    rw [show fuel + 1 + k = (fuel + k) + 1 by omega]
    simp only [dijkstrasLoop] at h ⊢
    split
    · rename_i hlen
      simp only [hlen, if_true] at h
      cases hlast : (H.pop_heap o).getLast? with
      | none => simp [hlast] at h
      | some back =>
        simp only [hlast] at h ⊢
        split
        · rename_i hbt
          simpa [hbt] using h
        · rename_i hbt
          simp only [hbt, if_false, bind] at h ⊢
          obtain ⟨edges, hedges, h⟩ := bind_eq_ok.mp h
          obtain ⟨o', hfold, h⟩ := bind_eq_ok.mp h
          simp only [hedges, hfold, Except.bind]
          exact ih _ _ _ r h k
    · rename_i hlen
      simpa [hlen] using h

theorem astarLoop_fuel_mono (H : HeapOps) (graph : AdjacencyListGraph V Int) (t : Ptr)
    (heuristic : Heuristic) :
    ∀ (fuel : Nat) (o c : List VertexRecord) (current : VertexRecord)
      (r : VertexRecord × List VertexRecord),
      astarLoop H graph t heuristic fuel o c current = .ok r →
      ∀ k, astarLoop H graph t heuristic (fuel + k) o c current = .ok r := by
  intro fuel
  induction fuel with
  | zero =>
    intro o c current r h
    simp [astarLoop] at h
  | succ fuel ih =>
    intro o c current r h k
    rw [show fuel + 1 + k = (fuel + k) + 1 by omega]
    simp only [astarLoop] at h ⊢
    split
    · rename_i hlen
      simp only [hlen, if_true] at h
      cases hlast : (H.pop_heap o).getLast? with
      | none => simp [hlast] at h
      | some back =>
        simp only [hlast] at h ⊢
        split
        · rename_i hbt
          simpa [hbt] using h
        · rename_i hbt
          simp only [hbt, if_false, bind] at h ⊢
          obtain ⟨edges, hedges, h⟩ := bind_eq_ok.mp h
          obtain ⟨lists, hfold, h⟩ := bind_eq_ok.mp h
          simp only [hedges, hfold, Except.bind]
          exact ih _ _ _ r h k
    · rename_i hlen
      simpa [hlen] using h

theorem compilePath_fuel_mono (graph : AdjacencyListGraph V Int) (s : Ptr)
    (closed : List VertexRecord) :
    ∀ (fuel : Nat) (current : VertexRecord) (path r : List Ptr),
      compilePath graph s closed fuel current path = .ok r →
      ∀ k, compilePath graph s closed (fuel + k) current path = .ok r := by
  intro fuel
  induction fuel with
  | zero =>
    intro current path r h
    simp [compilePath] at h
  | succ fuel ih =>
    intro current path r h k
    rw [show fuel + 1 + k = (fuel + k) + 1 by omega]
    simp only [compilePath, bind] at h ⊢
    by_cases hcs : current.vertex ≠ s
    · rw [if_pos hcs] at h ⊢
      obtain ⟨previous, hprev, h⟩ := bind_eq_ok.mp h
      simp only [hprev, Except.bind]
      cases hfind : AdaptableSearchableVector.find closed previous with
      | none => simp [hfind] at h
      | some record =>
        simp only [hfind] at h ⊢
        exact ih _ _ r h k
    · rw [if_neg hcs] at h ⊢
      exact h

theorem dijkstras_eq_finish (H : HeapOps) (fuel : Nat) (path : List Ptr)
    (graph : AdjacencyListGraph V Int) (s t : Ptr) :
    dijkstras H fuel path graph s t =
      finish graph s t fuel path
        (dijkstrasLoop H graph t fuel [⟨s, nullptr, 0, 0⟩] [] VertexRecord.uninitialised) := by
  unfold dijkstras finish
  simp only [bind, pure, Except.pure]
  cases dijkstrasLoop H graph t fuel [⟨s, nullptr, 0, 0⟩] [] VertexRecord.uninitialised with
  | error f => rfl
  | ok x =>
    obtain ⟨m, closed⟩ := x
    simp only [Except.bind]
    split
    · rfl
    · cases compilePath graph s closed fuel m path <;> rfl

theorem astar_eq_finish (H : HeapOps) (fuel : Nat) (path : List Ptr)
    (graph : AdjacencyListGraph V Int) (s t : Ptr) (heuristic : Heuristic) :
    astar H fuel path graph s t heuristic =
      finish graph s t fuel path
        (astarLoop H graph t heuristic fuel [⟨s, nullptr, heuristic s t, 0⟩] []
          VertexRecord.uninitialised) := by
  unfold astar finish
  simp only [bind, pure, Except.pure]
  cases astarLoop H graph t heuristic fuel [⟨s, nullptr, heuristic s t, 0⟩] []
      VertexRecord.uninitialised with
  | error f => rfl
  | ok x =>
    obtain ⟨m, closed⟩ := x
    simp only [Except.bind]
    split
    · rfl
    · cases compilePath graph s closed fuel m path <;> rfl

theorem finish_fuel_mono (graph : AdjacencyListGraph V Int) (s t : Ptr) (fuel : Nat)
    (path : List Ptr) (x : VertexRecord × List VertexRecord) (r : Bool × List Ptr)
    (h : finish graph s t fuel path (.ok x) = .ok r) (k : Nat) :
    finish graph s t (fuel + k) path (.ok x) = .ok r := by
  obtain ⟨m, closed⟩ := x
  unfold finish at h ⊢
  simp only at h ⊢
  split
  · rename_i hmt
    simpa [hmt] using h
  · rename_i hmt
    simp only [hmt, if_false] at h
    cases hc : compilePath graph s closed fuel m path with
    | error f => simp [hc] at h
    | ok p =>
      simp only [hc] at h
      simp only [compilePath_fuel_mono graph s closed fuel m path p hc k]
      exact h

/-- More fuel does not change what `dijkstras` returns. -/
theorem dijkstras_fuel_mono (H : HeapOps) (fuel : Nat) (path : List Ptr)
    (graph : AdjacencyListGraph V Int) (s t : Ptr) (r : Bool × List Ptr)
    (h : dijkstras H fuel path graph s t = .ok r) (k : Nat) :
    dijkstras H (fuel + k) path graph s t = .ok r := by
  rw [dijkstras_eq_finish] at h ⊢
  cases hloop : dijkstrasLoop H graph t fuel [⟨s, nullptr, 0, 0⟩] []
      VertexRecord.uninitialised with
  | error f => simp [hloop, finish] at h
  | ok x =>
    rw [hloop] at h
    rw [dijkstrasLoop_fuel_mono H graph t fuel _ _ _ x hloop k]
    exact finish_fuel_mono graph s t fuel path x r h k

/-- More fuel does not change what `astar` returns. -/
theorem astar_fuel_mono (H : HeapOps) (fuel : Nat) (path : List Ptr)
    (graph : AdjacencyListGraph V Int) (s t : Ptr) (heuristic : Heuristic)
    (r : Bool × List Ptr) (h : astar H fuel path graph s t heuristic = .ok r) (k : Nat) :
    astar H (fuel + k) path graph s t heuristic = .ok r := by
  rw [astar_eq_finish] at h ⊢
  cases hloop : astarLoop H graph t heuristic fuel [⟨s, nullptr, heuristic s t, 0⟩] []
      VertexRecord.uninitialised with
  | error f => simp [hloop, finish] at h
  | ok x =>
    rw [hloop] at h
    rw [astarLoop_fuel_mono H graph t heuristic fuel _ _ _ x hloop k]
    exact finish_fuel_mono graph s t fuel path x r h k

theorem fourNeighbourSteps_ok {graph : AdjacencyListGraph Grid Int}
    {r : Except Fault (Bool × List Ptr)} (h : fourNeighbourSteps graph r = true) :
    ∃ path, r = .ok (true, path) ∧ path.length = 4 ∧
      ∀ e ∈ path, joinsNeighbours graph e = true := by
  unfold fourNeighbourSteps at h
  split at h
  · rename_i path
    simp only [Bool.and_eq_true, beq_iff_eq, List.all_eq_true] at h
    exact ⟨path, rfl, h.1, h.2⟩
  · simp at h

set_option maxRecDepth 1000000 in
theorem dijkstrasLoopAll_grid3x3 :
    ((dijkstrasLoopAll grid3x3 9 10 [⟨1, nullptr, 0, 0⟩] [] VertexRecord.uninitialised).map
      (finish grid3x3 1 9 10 [])).all (fourNeighbourSteps grid3x3) = true := by
  decide!

set_option maxRecDepth 1000000 in
theorem astarLoopAll_grid3x3 :
    ((astarLoopAll grid3x3 9 (gridHeuristic grid3x3 ManhattanHeuristic.estimate) 10
      [⟨1, nullptr, gridHeuristic grid3x3 ManhattanHeuristic.estimate 1 9, 0⟩] []
      VertexRecord.uninitialised).map
      (finish grid3x3 1 9 10 [])).all (fourNeighbourSteps grid3x3) = true := by
  decide!

/-- C9: on the graph of `GridEnvironment` for a 3x3 tiling with no obstacle, `dijkstras`
and `astar` with the Manhattan heuristic from the vertex of cell `(0, 0)` to the vertex
of cell `(2, 2)` return true with a path of exactly four edges, each of which joins two
cells that differ by exactly one in the row or by exactly one in the column, not both;
this holds whatever record the heap algorithms pop among those of equal cost. -/
theorem grid3x3_corner_to_corner_path (H : HeapOps) (hH : H.Lawful) (fuel : Nat)
    (hfuel : 10 ≤ fuel) :
    grid3x3.vertexElement 1 = .ok ⟨0, 0⟩ ∧ grid3x3.vertexElement 9 = .ok ⟨2, 2⟩ ∧
    (∃ path, dijkstras H fuel [] grid3x3 1 9 = .ok (true, path) ∧ path.length = 4 ∧
      ∀ e ∈ path, joinsNeighbours grid3x3 e = true) ∧
    (∃ path, astar H fuel [] grid3x3 1 9
        (gridHeuristic grid3x3 ManhattanHeuristic.estimate) = .ok (true, path) ∧
      path.length = 4 ∧ ∀ e ∈ path, joinsNeighbours grid3x3 e = true) := by
  obtain ⟨k, rfl⟩ : ∃ k, fuel = 10 + k := ⟨fuel - 10, by omega⟩
  refine ⟨rfl, rfl, ?_, ?_⟩
  · have hmem := dijkstrasLoop_mem_all hH grid3x3 9 10 [⟨1, nullptr, 0, 0⟩]
      [⟨1, nullptr, 0, 0⟩] [] VertexRecord.uninitialised (List.Perm.refl _) (isHeap_singleton _)
    have hall := List.all_eq_true.mp dijkstrasLoopAll_grid3x3 _
      (List.mem_map_of_mem (finish grid3x3 1 9 10 []) hmem)
    rw [← dijkstras_eq_finish] at hall
    obtain ⟨path, hpath, hlen, hsteps⟩ := fourNeighbourSteps_ok hall
    exact ⟨path, dijkstras_fuel_mono H 10 [] grid3x3 1 9 _ hpath k, hlen, hsteps⟩
  · have hmem := astarLoop_mem_all hH grid3x3 9
      (gridHeuristic grid3x3 ManhattanHeuristic.estimate) 10
      [⟨1, nullptr, gridHeuristic grid3x3 ManhattanHeuristic.estimate 1 9, 0⟩]
      [⟨1, nullptr, gridHeuristic grid3x3 ManhattanHeuristic.estimate 1 9, 0⟩] []
      VertexRecord.uninitialised (List.Perm.refl _) (isHeap_singleton _)
    have hall := List.all_eq_true.mp astarLoopAll_grid3x3 _
      (List.mem_map_of_mem (finish grid3x3 1 9 10 []) hmem)
    rw [← astar_eq_finish] at hall
    obtain ⟨path, hpath, hlen, hsteps⟩ := fourNeighbourSteps_ok hall
    exact ⟨path, astar_fuel_mono H 10 [] grid3x3 1 9 _ _ hpath k, hlen, hsteps⟩

theorem grid3x3_corner_to_corner_path_witness :
    (sortedHeap.Lawful ∧ 10 ≤ 10) ∧
    (grid3x3.vertexElement 1 = .ok ⟨0, 0⟩ ∧ grid3x3.vertexElement 9 = .ok ⟨2, 2⟩ ∧
      (∃ path, dijkstras sortedHeap 10 [] grid3x3 1 9 = .ok (true, path) ∧ path.length = 4 ∧
        ∀ e ∈ path, joinsNeighbours grid3x3 e = true) ∧
      (∃ path, astar sortedHeap 10 [] grid3x3 1 9
          (gridHeuristic grid3x3 ManhattanHeuristic.estimate) = .ok (true, path) ∧
        path.length = 4 ∧ ∀ e ∈ path, joinsNeighbours grid3x3 e = true)) ∧
    dijkstras sortedHeap 10 [] grid3x3 1 9 = .ok (true, [11, 19, 28, 31]) ∧
    astar sortedHeap 10 [] grid3x3 1 9 (gridHeuristic grid3x3 ManhattanHeuristic.estimate)
      = .ok (true, [11, 19, 28, 31]) :=
  ⟨⟨sortedHeap_lawful, le_refl 10⟩,
    grid3x3_corner_to_corner_path sortedHeap sortedHeap_lawful 10 (le_refl 10), rfl, rfl⟩

end Algorithm

/-! ### The graph operations keep the representation invariant -/

namespace AdjacencyListGraph

variable {V E : Type}

/-- The empty graph is well formed. -/
theorem wellFormed_new (directed : Bool) :
    (AdjacencyListGraph.new directed : AdjacencyListGraph V E).WellFormed := by
  simp [WellFormed, AdjacencyListGraph.new]

/-- `insertVertex` keeps the graph well formed and appends the new vertex. -/
theorem WellFormed.insertVertex {g : AdjacencyListGraph V E} (hg : g.WellFormed) (d : V) :
    (g.insertVertex d).2.WellFormed ∧
    (g.insertVertex d).2.vertexList = g.vertexList ++ [(g.insertVertex d).1] ∧
    (g.insertVertex d).2.edgeList = g.edgeList ∧
    (g.insertVertex d).1 ∉ g.vertexList := by
  obtain ⟨h1, h2, h3, h4, h5, h6, h7⟩ := hg
  have hp : g.fresh ∉ g.vertexList := fun h => Nat.lt_irrefl _ (h6 _ h)
  have hold : ∀ v ∈ g.vertexList, v ≠ g.fresh := fun v hv h => hp (h ▸ hv)
  have hout : ∀ v ∈ g.vertexList, (g.insertVertex d).2.out v = g.out v := by
    intro v hv
    simp [AdjacencyListGraph.insertVertex, out, setVertex, hold v hv]
  have hinc : ∀ v ∈ g.vertexList, (g.insertVertex d).2.inc v = g.inc v := by
    intro v hv
    simp [AdjacencyListGraph.insertVertex, inc, setVertex, hold v hv]
  have hends : ∀ e, (g.insertVertex d).2.ends e = g.ends e := fun e => rfl
  have hvl : (g.insertVertex d).2.vertexList = g.vertexList ++ [g.fresh] := rfl
  have hel : (g.insertVertex d).2.edgeList = g.edgeList := rfl
  refine ⟨⟨?_, h2, ?_, ?_, ?_, ?_, ?_⟩, rfl, rfl, hp⟩
  · rw [hvl]
    exact List.nodup_append.mpr ⟨h1, List.nodup_singleton _, by
      intro a ha hb
      simp only [List.mem_singleton] at hb
      exact hp (hb ▸ ha)⟩
  · intro v hv
    rw [hvl] at hv
    rcases List.mem_append.mp hv with hv | hv
    · obtain ⟨a1, a2, a3, a4, a5, a6⟩ := h3 v hv
      rw [hout v hv, hinc v hv, hel]
      refine ⟨a1, ?_, a3, a4, a5, a6⟩
      simpa [AdjacencyListGraph.insertVertex, setVertex, hold v hv] using a2
    · simp only [List.mem_singleton] at hv
      subst hv
      have ho : (g.insertVertex d).2.out g.fresh = [] := by
        simp [AdjacencyListGraph.insertVertex, out, setVertex]
      have hi : (g.insertVertex d).2.inc g.fresh = [] := by
        simp [AdjacencyListGraph.insertVertex, inc, setVertex]
      rw [ho, hi]
      refine ⟨fun h => ?_, ?_, List.nodup_nil, List.nodup_nil, fun e he => by simp at he,
        fun e he => by simp at he⟩
      · rw [h] at h5
        exact Nat.lt_irrefl _ h5
      · simp [AdjacencyListGraph.insertVertex, setVertex]
  · intro e he
    obtain ⟨a, ha, b, hb, hab, hea, heb⟩ := h4 e he
    refine ⟨a, ?_, b, ?_, hab, ?_, ?_⟩
    · rw [hvl]; exact List.mem_append_left _ ha
    · rw [hvl]; exact List.mem_append_left _ hb
    · rw [hout a ha]; exact hea
    · rw [hinc b hb]; exact heb
  · exact Nat.succ_pos _
  · intro v hv
    rw [hvl] at hv
    rcases List.mem_append.mp hv with hv | hv
    · exact Nat.lt_succ_of_lt (h6 v hv)
    · simp only [List.mem_singleton] at hv
      exact hv ▸ Nat.lt_succ_self _
  · intro e he
    exact Nat.lt_succ_of_lt (h7 e he)

end AdjacencyListGraph


namespace AdjacencyListGraph

variable {V E : Type}

theorem insertEdge_eq (g : AdjacencyListGraph V E) (org dest : Ptr) (d : E)
    (oa od : ALVertex V) (hoa : g.vertexObj org = some oa)
    (hod : (if dest = org then some { oa with outgoing := oa.outgoing ++ [g.fresh] }
      else g.vertexObj dest) = some od) :
    g.insertEdge org dest d = .ok (g.fresh,
      ((({ (g.setEdge g.fresh (some { element := d, endpoints := (org, dest) })) with
            edgeList := g.edgeList ++ [g.fresh], fresh := g.fresh + 1 } :
          AdjacencyListGraph V E).setVertex org
          (some { oa with outgoing := oa.outgoing ++ [g.fresh] })).setVertex dest
          (some { od with incoming := od.incoming ++ [g.fresh] }))) := by
  simp only [AdjacencyListGraph.insertEdge, addOutgoing, addIncoming, vertexAt, setEdge,
    setVertex, hoa, Except.map, bind, Except.bind, pure, Except.pure]
  by_cases h : dest = org
  · rw [if_pos h] at hod
    cases hod
    simp [h]
  · rw [if_neg h] at hod
    simp [h, hod]

/-- What `insertEdge` does between two vertices with live objects: the new edge has the
next address, is appended to the edge vector, to the outgoing vector of the origin and to
the incoming vector of the destination; nothing else changes. -/
theorem insertEdge_spec (g : AdjacencyListGraph V E) (org dest : Ptr) (d : E)
    (horg : (g.vertexObj org).isSome = true) (hdest : (g.vertexObj dest).isSome = true) :
    ∃ g', g.insertEdge org dest d = .ok (g.fresh, g') ∧
      g'.directed = g.directed ∧
      g'.vertexList = g.vertexList ∧ g'.edgeList = g.edgeList ++ [g.fresh] ∧
      g'.fresh = g.fresh + 1 ∧
      (∀ u, g'.out u = g.out u ++ (if u = org then [g.fresh] else [])) ∧
      (∀ u, g'.inc u = g.inc u ++ (if u = dest then [g.fresh] else [])) ∧
      (∀ u, (g'.vertexObj u).isSome = (g.vertexObj u).isSome) ∧
      (∀ u, (g'.vertexObj u).map (fun o => o.element) =
        (g.vertexObj u).map (fun o => o.element)) ∧
      (∀ e, g'.edgeObj e =
        if e = g.fresh then some { element := d, endpoints := (org, dest) } else g.edgeObj e) := by
  obtain ⟨oa, hoa⟩ := Option.isSome_iff_exists.mp horg
  obtain ⟨ob, hob⟩ := Option.isSome_iff_exists.mp hdest
  by_cases hod : dest = org
  · subst hod
    have hab : ob = oa := by rw [hoa] at hob; cases hob; rfl
    subst hab
    refine ⟨_, insertEdge_eq g dest dest d ob
      { ob with outgoing := ob.outgoing ++ [g.fresh] } hoa (by simp), ?_, ?_, ?_, ?_, ?_, ?_,
      ?_, ?_, ?_⟩
    · rfl
    · rfl
    · rfl
    · rfl
    · intro u
      by_cases hu : u = dest
      · subst hu
        simp [out, setVertex, setEdge, hoa]
      · simp [out, setVertex, setEdge, hu]
    · intro u
      by_cases hu : u = dest
      · subst hu
        simp [inc, setVertex, setEdge, hoa]
      · simp [inc, setVertex, setEdge, hu]
    · intro u
      by_cases hu : u = dest
      · subst hu
        simp [setVertex, setEdge, hoa]
      · simp [setVertex, setEdge, hu]
    · intro u
      by_cases hu : u = dest
      · subst hu
        simp [setVertex, setEdge, hoa]
      · simp [setVertex, setEdge, hu]
    · intro e
      simp [setVertex, setEdge]
  · have hod' : ¬ org = dest := fun h => hod h.symm
    refine ⟨_, insertEdge_eq g org dest d oa ob hoa (by simp [hod, hob]), ?_, ?_, ?_, ?_, ?_,
      ?_, ?_, ?_, ?_⟩
    · rfl
    · rfl
    · rfl
    · rfl
    · intro u
      by_cases hu : u = dest
      · subst hu
        simp [out, setVertex, setEdge, hob, hod]
      · by_cases hu' : u = org
        · subst hu'
          simp [out, setVertex, setEdge, hoa, hu]
        · simp [out, setVertex, setEdge, hu, hu']
    · intro u
      by_cases hu : u = dest
      · subst hu
        simp [inc, setVertex, setEdge, hob]
      · by_cases hu' : u = org
        · subst hu'
          simp [inc, setVertex, setEdge, hoa, hu]
        · simp [inc, setVertex, setEdge, hu, hu']
    · intro u
      by_cases hu : u = dest
      · subst hu
        simp [setVertex, setEdge, hob]
      · by_cases hu' : u = org
        · subst hu'
          simp [setVertex, setEdge, hoa, hu]
        · simp [setVertex, setEdge, hu, hu']
    · intro u
      by_cases hu : u = dest
      · subst hu
        simp [setVertex, setEdge, hob]
      · by_cases hu' : u = org
        · subst hu'
          simp [setVertex, setEdge, hoa, hu]
        · simp [setVertex, setEdge, hu, hu']
    · intro e
      simp [setVertex, setEdge]

/-- `insertEdge` between two vertices of a well-formed graph keeps it well formed. -/
theorem WellFormed.insertEdge {g : AdjacencyListGraph V E} (hg : g.WellFormed)
    {org dest : Ptr} (horg : org ∈ g.vertexList) (hdest : dest ∈ g.vertexList) (d : E) :
    ∃ g', g.insertEdge org dest d = .ok (g.fresh, g') ∧ g'.WellFormed ∧
      g'.vertexList = g.vertexList ∧ g'.edgeList = g.edgeList ++ [g.fresh] ∧
      g'.ends g.fresh = some (org, dest) := by
  obtain ⟨h1, h2, h3, h4, h5, h6, h7⟩ := hg
  obtain ⟨g', hres, -, hvl, hel, hfresh, hout, hinc, hlive, -, hobj⟩ :=
    insertEdge_spec g org dest d (h3 org horg).2.1 (h3 dest hdest).2.1
  have hnew : g.fresh ∉ g.edgeList := fun h => Nat.lt_irrefl _ (h7 _ h)
  have hends : ∀ e, g'.ends e = if e = g.fresh then some (org, dest) else g.ends e := by
    intro e
    unfold ends
    rw [hobj e]
    by_cases he : e = g.fresh <;> simp [he]
  have hendsold : ∀ e ∈ g.edgeList, g'.ends e = g.ends e := by
    intro e he
    rw [hends e, if_neg (fun (h : e = g.fresh) => hnew (h ▸ he))]
  refine ⟨g', hres, ⟨?_, ?_, ?_, ?_, ?_, ?_, ?_⟩, hvl, hel, by rw [hends, if_pos rfl]⟩
  · rw [hvl]; exact h1
  · rw [hel]
    exact List.nodup_append.mpr ⟨h2, List.nodup_singleton _, by
      intro a ha hb
      simp only [List.mem_singleton] at hb
      exact hnew (hb ▸ ha)⟩
  · intro v hv
    rw [hvl] at hv
    obtain ⟨a1, a2, a3, a4, a5, a6⟩ := h3 v hv
    refine ⟨a1, by rw [hlive v]; exact a2, ?_, ?_, ?_, ?_⟩
    · rw [hout v]
      refine List.nodup_append.mpr ⟨a3, ?_, ?_⟩
      · split
        · exact List.nodup_singleton _
        · exact List.nodup_nil
      · intro e he he'
        split at he'
        · simp only [List.mem_singleton] at he'
          exact hnew (he' ▸ (a5 e he).1)
        · simp at he'
    · rw [hinc v]
      refine List.nodup_append.mpr ⟨a4, ?_, ?_⟩
      · split
        · exact List.nodup_singleton _
        · exact List.nodup_nil
      · intro e he he'
        split at he'
        · simp only [List.mem_singleton] at he'
          exact hnew (he' ▸ (a6 e he).1)
        · simp at he'
    · intro e he
      rw [hout v] at he
      rcases List.mem_append.mp he with he | he
      · rw [hel, hendsold e (a5 e he).1]
        exact ⟨List.mem_append_left _ (a5 e he).1, (a5 e he).2⟩
      · split at he
        · rename_i hvo
          simp only [List.mem_singleton] at he
          subst he
          rw [hel, hends, if_pos rfl]
          exact ⟨by simp, by simp [hvo]⟩
        · simp at he
    · intro e he
      rw [hinc v] at he
      rcases List.mem_append.mp he with he | he
      · rw [hel, hendsold e (a6 e he).1]
        exact ⟨List.mem_append_left _ (a6 e he).1, (a6 e he).2⟩
      · split at he
        · rename_i hvo
          simp only [List.mem_singleton] at he
          subst he
          rw [hel, hends, if_pos rfl]
          exact ⟨by simp, by simp [hvo]⟩
        · simp at he
  · intro e he
    rw [hel] at he
    rw [hvl]
    rcases List.mem_append.mp he with he | he
    · obtain ⟨a, ha, b, hb, hab, hea, heb⟩ := h4 e he
      refine ⟨a, ha, b, hb, by rw [hendsold e he]; exact hab, ?_, ?_⟩
      · rw [hout a]; exact List.mem_append_left _ hea
      · rw [hinc b]; exact List.mem_append_left _ heb
    · simp only [List.mem_singleton] at he
      subst he
      refine ⟨org, horg, dest, hdest, by rw [hends, if_pos rfl], ?_, ?_⟩
      · rw [hout org]; simp
      · rw [hinc dest]; simp
  · rw [hfresh]; exact Nat.succ_pos _
  · intro v hv
    rw [hvl] at hv
    rw [hfresh]
    exact Nat.lt_succ_of_lt (h6 v hv)
  · intro e he
    rw [hel] at he
    rw [hfresh]
    rcases List.mem_append.mp he with he | he
    · exact Nat.lt_succ_of_lt (h7 e he)
    · simp only [List.mem_singleton] at he
      exact he ▸ Nat.lt_succ_self _

end AdjacencyListGraph
/-! ### The sequence node of the behavior tree -/

theorem SequenceNode.sequence_runChildren_probes :
    ∀ (outcomes : List Bool) (k : Nat) (log : List Nat),
      SequenceNode.runChildren (probesFrom k outcomes) log =
        (outcomes.all id,
          log ++ List.range' k
            ((outcomes.takeWhile id).length + if outcomes.all id then 0 else 1)) := by
  intro outcomes
  induction outcomes with
  | nil =>
    intro k log
    simp [probesFrom, SequenceNode.runChildren]
  | cons b bs ih =>
    intro k log
    cases b with
    | false =>
      simp [probesFrom, SequenceNode.runChildren, probe]
    | true =>
      simp only [probesFrom, SequenceNode.runChildren, probe, Bool.not_true, Bool.false_eq_true,
        if_false, ih, List.all_cons, id, Bool.true_and, List.takeWhile_cons, if_true,
        List.length_cons]
      congr 1
      rw [List.append_assoc]
      congr 1
      rw [show (List.takeWhile id bs).length + 1 + (if bs.all id = true then 0 else 1)
          = ((List.takeWhile id bs).length + (if bs.all id = true then 0 else 1)) + 1
          by omega]
      rw [List.range'_succ]
      rfl

/-- C11: for a `SequenceNode` whose children `c1..cn` return fixed outcomes, `run`
returns success iff there is a child and every child returns success; it invokes the
children in order and stops right after the first failure (invoking all of them when none
fails); with no child it returns failure; over `[success, fail, success]` it returns
failure after invoking exactly two children. -/
theorem sequence_runs_children_until_first_failure (outcomes : List Bool) (log : List Nat) :
    ((SequenceNode.run (probesFrom 1 outcomes) log).1 = true ↔
      1 ≤ outcomes.length ∧ ∀ b ∈ outcomes, b = true) ∧
    (SequenceNode.run (probesFrom 1 outcomes) log).2 =
      log ++ List.range' 1
        ((outcomes.takeWhile id).length + if false ∈ outcomes then 1 else 0) ∧
    (false ∉ outcomes →
      (SequenceNode.run (probesFrom 1 outcomes) log).2 = log ++ List.range' 1 outcomes.length) ∧
    SequenceNode.run (probesFrom 1 []) log = (false, log) ∧
    SequenceNode.run (probesFrom 1 [true, false, true]) [] = (false, [1, 2]) := by
  have hall : outcomes.all id = true ↔ false ∉ outcomes := by
    simp only [List.all_eq_true, id]
    constructor
    · intro h hf
      exact absurd (h false hf) (by decide)
    · intro h b hb
      cases b with
      | true => rfl
      | false => exact absurd hb h
  cases outcomes with
  | nil => refine ⟨?_, ?_, ?_, rfl, rfl⟩ <;> simp [SequenceNode.run, probesFrom]
  | cons b bs =>
    have hrun : SequenceNode.run (probesFrom 1 (b :: bs)) log =
        SequenceNode.runChildren (probesFrom 1 (b :: bs)) log := by
      simp [SequenceNode.run, probesFrom]
    have hsnd : (SequenceNode.run (probesFrom 1 (b :: bs)) log).2 =
        log ++ List.range' 1
          (((b :: bs).takeWhile id).length + if false ∈ b :: bs then 1 else 0) := by
      rw [hrun, SequenceNode.sequence_runChildren_probes]
      by_cases hf : false ∈ b :: bs
      · have : ¬ (b :: bs).all id = true := fun h => (hall.mp h) hf
        simp [this, hf]
      · have : (b :: bs).all id = true := hall.mpr hf
        simp only [this, hf, if_true, if_false]
    refine ⟨?_, hsnd, ?_, rfl, rfl⟩
    · rw [hrun, SequenceNode.sequence_runChildren_probes]
      show (b :: bs).all id = true ↔ _
      rw [hall]
      constructor
      · intro h
        refine ⟨by simp, ?_⟩
        intro c hc
        cases c with
        | true => rfl
        | false => exact absurd hc h
      · intro h hf
        exact absurd (h.2 false hf) (by decide)
    · intro hnone
      rw [hsnd, if_neg hnone, Nat.add_zero]
      have : (b :: bs).takeWhile id = b :: bs := by
        rw [List.takeWhile_eq_self_iff]
        intro c hc
        cases c with
        | true => rfl
        | false => exact absurd hc hnone
      rw [this]

theorem sequence_runs_children_until_first_failure_witness :
    false ∉ [true, true] ∧
    (SequenceNode.run (probesFrom 1 [true, true]) []).2 = [] ++ List.range' 1 2 ∧
    SequenceNode.run (probesFrom 1 [true, true]) [] = (true, [1, 2]) :=
  ⟨by decide,
    (sequence_runs_children_until_first_failure [true, true] []).2.2.1 (by decide), rfl⟩

/-! ### The decorators of the behavior tree -/

theorem LimitDecorator.runs_scripted (outcomes : Nat → Bool) (limit : Int) :
    ∀ (n : Nat) (count : Int) (invocations : Nat),
      LimitDecorator.runs n ⟨scripted outcomes, limit, count⟩ invocations =
        ((List.range n).map
            (fun j => decide (j < (limit - count).toNat) && outcomes (invocations + j)),
          invocations + min n (limit - count).toNat,
          ⟨scripted outcomes, limit, count + (min n (limit - count).toNat : Nat)⟩) := by
  intro n
  induction n with
  | zero =>
    intro count invocations
    simp [LimitDecorator.runs]
  | succ n ih =>
    intro count invocations
    rw [List.range_succ_eq_map, List.map_cons, List.map_map]
    by_cases hc : count ≥ limit
    · have hK : (limit - count).toNat = 0 := by omega
      have hrun : LimitDecorator.run ⟨scripted outcomes, limit, count⟩ invocations =
          (false, invocations, ⟨scripted outcomes, limit, count⟩) := by
        simp [LimitDecorator.run, hc]
      simp only [LimitDecorator.runs, hrun, ih, hK]
      simp
    · have hK : (limit - count).toNat = (limit - (count + 1)).toNat + 1 := by omega
      have hrun : LimitDecorator.run ⟨scripted outcomes, limit, count⟩ invocations =
          (outcomes invocations, invocations + 1, ⟨scripted outcomes, limit, count + 1⟩) := by
        simp [LimitDecorator.run, hc, scripted]
      simp only [LimitDecorator.runs, hrun, ih, hK]
      refine Prod.ext ?_ (Prod.ext ?_ ?_)
      · simp only [Nat.zero_lt_succ, decide_True, Bool.true_and, Nat.add_zero, List.cons.injEq,
          true_and]
        apply List.map_congr_left
        intro j _
        simp only [Function.comp, Nat.succ_eq_add_one, Nat.add_lt_add_iff_right]
        congr 2
        omega
      · simp only [Nat.add_min_add_right]
        omega
      · simp only [Nat.add_min_add_right, LimitDecorator.mk.injEq, true_and]
        push_cast
        omega

/-- C13, as amended: for `LimitDecorator(child, limit, count0)` and any number `n` of
successive calls of `run`: the child is invoked on exactly the first
`max(0, limit - count0)` calls, each of which returns the outcome of the child; every
later call returns failure without invoking the child, so the child is invoked at most
`max(0, limit - count0)` times.  The counter ends at `count0` plus the number of
invocations, which is at most `limit` when `count0` is; for `count0 >= 0` the child is
invoked at most `max(0, limit)` times. -/
theorem limit_invokes_child_on_first_calls_only (outcomes : Nat → Bool) (limit count0 : Int)
    (n invocations : Nat) :
    (LimitDecorator.runs n ⟨scripted outcomes, limit, count0⟩ invocations).1 =
      (List.range n).map (fun j =>
        if j < (max 0 (limit - count0)).toNat then outcomes (invocations + j) else false) ∧
    (LimitDecorator.runs n ⟨scripted outcomes, limit, count0⟩ invocations).2.1 =
      invocations + min n (max 0 (limit - count0)).toNat ∧
    (LimitDecorator.runs n ⟨scripted outcomes, limit, count0⟩ invocations).2.2.count =
      count0 + (min n (max 0 (limit - count0)).toNat : Nat) ∧
    (count0 ≤ limit →
      (LimitDecorator.runs n ⟨scripted outcomes, limit, count0⟩ invocations).2.2.count ≤ limit) ∧
    (0 ≤ count0 →
      (((LimitDecorator.runs n ⟨scripted outcomes, limit, count0⟩ invocations).2.1 -
        invocations : Nat) : Int) ≤ max 0 limit) := by
  have hmax : (max 0 (limit - count0)).toNat = (limit - count0).toNat := by
    rcases le_total 0 (limit - count0) with h | h
    · rw [max_eq_right h]
    · rw [max_eq_left h]; omega
  rw [hmax, LimitDecorator.runs_scripted]
  refine ⟨?_, rfl, rfl, ?_, ?_⟩
  · apply List.map_congr_left
    intro j _
    by_cases hj : j < (limit - count0).toNat <;> simp [hj]
  · intro h
    show count0 + ((min n (limit - count0).toNat : Nat) : Int) ≤ limit
    omega
  · intro h
    show (((invocations + min n (limit - count0).toNat - invocations : Nat) : Nat) : Int) ≤ _
    rw [Nat.add_sub_cancel_left]
    rcases le_total 0 limit with hl | hl
    · rw [max_eq_right hl]; omega
    · rw [max_eq_left hl]; omega

/-- C13, counterexample: with `limit = 1` and `count0 = -1` the first two calls invoke
the child, which is more than `limit` times. -/
theorem limit_with_negative_count_invokes_child_twice :
    (LimitDecorator.runs 3 ⟨scripted (fun _ => true), 1, -1⟩ 0).1 = [true, true, false] ∧
    (LimitDecorator.runs 3 ⟨scripted (fun _ => true), 1, -1⟩ 0).2.1 = 2 ∧
    ¬ (((LimitDecorator.runs 3 ⟨scripted (fun _ => true), 1, -1⟩ 0).2.1 : Int) ≤ 1) := by
  decide

theorem limit_invokes_child_on_first_calls_only_witness :
    ((1 : Int) ≤ 3 ∧ (0 : Int) ≤ 1) ∧
    (LimitDecorator.runs 5 ⟨scripted (fun i => i % 2 == 0), 3, 1⟩ 0).1 =
      [true, false, false, false, false] ∧
    (LimitDecorator.runs 5 ⟨scripted (fun i => i % 2 == 0), 3, 1⟩ 0).2.1 = 2 ∧
    (LimitDecorator.runs 5 ⟨scripted (fun i => i % 2 == 0), 3, 1⟩ 0).2.2.count ≤ 3 ∧
    (((LimitDecorator.runs 5 ⟨scripted (fun i => i % 2 == 0), 3, 1⟩ 0).2.1 - 0 : Nat) : Int)
      ≤ max 0 3 :=
  ⟨⟨by decide, by decide⟩, by decide, by decide,
    (limit_invokes_child_on_first_calls_only (fun i => i % 2 == 0) 3 1 5 0).2.2.2.1 (by decide),
    (limit_invokes_child_on_first_calls_only (fun i => i % 2 == 0) 3 1 5 0).2.2.2.2 (by decide)⟩

theorem successes_succ (outcomes : Nat → Bool) (n : Nat) :
    successes outcomes (n + 1) = successes outcomes n + if outcomes n then 1 else 0 := by
  unfold successes
  rw [List.range_succ, List.filter_append, List.length_append]
  by_cases h : outcomes n = true <;> simp [h]

/-- One call of `RepeatDecorator::run` on a scripted child, below the maximum. -/
theorem RepeatDecorator.run_below (outcomes : Nat → Bool) (max count : Int) (invocations : Nat)
    (h : count < max) :
    RepeatDecorator.run ⟨scripted outcomes, max, count⟩ invocations =
      (decide ((if outcomes invocations then count + 1 else count) ≥ max), invocations + 1,
        ⟨scripted outcomes, max, if outcomes invocations then count + 1 else count⟩) := by
  by_cases ho : outcomes invocations = true <;>
    simp [RepeatDecorator.run, h, scripted, ho]

/-- One call of `RepeatDecorator::run` once the counter has reached the maximum. -/
theorem RepeatDecorator.run_reset {σ : Type} (child : NodeRun σ) (max count : Int)
    (environment : σ) (h : ¬ count < max) :
    RepeatDecorator.run ⟨child, max, count⟩ environment =
      (decide ((0 : Int) ≥ max), environment, ⟨child, max, 0⟩) := by
  simp [RepeatDecorator.run, h]

/-- The counter of a `RepeatDecorator` holds the number of successes of the child beyond
the last multiple of the maximum. -/
theorem RepeatDecorator.runs_counter (outcomes : Nat → Bool) (max : Int) (hmax : 1 ≤ max) :
    ∀ n : Nat, ∃ (count : Int) (invocations : Nat) (q : Int),
      RepeatDecorator.runs n (RepeatDecorator.new (scripted outcomes) max) 0 =
        (invocations, ⟨scripted outcomes, max, count⟩) ∧
      0 ≤ count ∧ count ≤ max ∧ (successes outcomes invocations : Int) = max * q + count := by
  intro n
  induction n with
  | zero =>
    exact ⟨0, 0, 0, rfl, le_refl _, by omega, by simp [successes]⟩
  | succ n ih =>
    obtain ⟨count, invocations, q, hruns, h0, hle, hS⟩ := ih
    by_cases hlt : count < max
    · by_cases ho : outcomes invocations = true
      · refine ⟨count + 1, invocations + 1, q, ?_, by omega, by omega, ?_⟩
        · simp only [RepeatDecorator.runs, hruns, RepeatDecorator.run_below _ _ _ _ hlt, ho,
            if_true]
        · rw [successes_succ, if_pos ho]
          push_cast
          omega
      · refine ⟨count, invocations + 1, q, ?_, h0, hle, ?_⟩
        · simp only [RepeatDecorator.runs, hruns, RepeatDecorator.run_below _ _ _ _ hlt, ho]
          simp
        · rw [successes_succ, if_neg ho]
          push_cast
          omega
    · refine ⟨0, invocations, q + 1, ?_, le_refl _, by omega, ?_⟩
      · simp only [RepeatDecorator.runs, hruns, RepeatDecorator.run_reset _ _ _ _ hlt]
      · have : count = max := by omega
        rw [hS, this]
        ring

/-- C12: for `RepeatDecorator(child, n)` with `n >= 1` and a new decorator, after any
number of calls of `run`: the counter is within `0..n` and is the number of successes of
the child so far minus a multiple of `n`.  If the counter is below `n`, the next call
invokes the child once, adds its success to the counter, and returns success exactly
when the child succeeds and the counter reaches `n`.  If the counter is `n`, which is
exactly after a call that returned success, the next call does not invoke the child,
returns failure and sets the counter back to `0`.  So a call returns success exactly
when it invokes the child, the child succeeds and that success is the `n`-th, `2n`-th,
... cumulative success of the child, and every other call returns failure. -/
theorem repeat_succeeds_on_every_nth_success (outcomes : Nat → Bool) (n : Int) (hn : 1 ≤ n)
    (calls : Nat) :
    ∃ (invocations : Nat) (count : Int),
      RepeatDecorator.runs calls (RepeatDecorator.new (scripted outcomes) n) 0 =
        (invocations, ⟨scripted outcomes, n, count⟩) ∧
      RepeatDecorator.runs (calls + 1) (RepeatDecorator.new (scripted outcomes) n) 0 =
        ((RepeatDecorator.run ⟨scripted outcomes, n, count⟩ invocations).2.1,
          (RepeatDecorator.run ⟨scripted outcomes, n, count⟩ invocations).2.2) ∧
      (calls = 0 → invocations = 0 ∧ count = 0) ∧
      0 ≤ count ∧ count ≤ n ∧
      (∃ q : Int, (successes outcomes invocations : Int) = n * q + count) ∧
      (count < n →
        RepeatDecorator.run ⟨scripted outcomes, n, count⟩ invocations =
          (decide (outcomes invocations = true ∧ count + 1 = n), invocations + 1,
            ⟨scripted outcomes, n, if outcomes invocations then count + 1 else count⟩)) ∧
      (count = n →
        RepeatDecorator.run ⟨scripted outcomes, n, count⟩ invocations =
          (false, invocations, ⟨scripted outcomes, n, 0⟩)) ∧
      ((RepeatDecorator.run ⟨scripted outcomes, n, count⟩ invocations).1 = true ↔
        (RepeatDecorator.run ⟨scripted outcomes, n, count⟩ invocations).2.1 = invocations + 1 ∧
        outcomes invocations = true ∧
        n ∣ (successes outcomes (invocations + 1) : Int)) ∧
      ((RepeatDecorator.run ⟨scripted outcomes, n, count⟩ invocations).1 = true ↔
        (RepeatDecorator.run ⟨scripted outcomes, n, count⟩ invocations).2.2.count = n) := by
  obtain ⟨count, invocations, q, hruns, h0, hle, hS⟩ :=
    RepeatDecorator.runs_counter outcomes n hn calls
  have hbelow : count < n →
      RepeatDecorator.run ⟨scripted outcomes, n, count⟩ invocations =
        (decide (outcomes invocations = true ∧ count + 1 = n), invocations + 1,
          ⟨scripted outcomes, n, if outcomes invocations then count + 1 else count⟩) := by
    intro hlt
    rw [RepeatDecorator.run_below _ _ _ _ hlt]
    by_cases ho : outcomes invocations = true
    · simp only [ho, if_true, true_and]
      congr 1
      apply decide_eq_decide.mpr
      omega
    · simp only [ho, Bool.false_eq_true, if_false, false_and, decide_False]
      congr 1
      apply decide_eq_false
      omega
  have hreset : count = n →
      RepeatDecorator.run ⟨scripted outcomes, n, count⟩ invocations =
        (false, invocations, ⟨scripted outcomes, n, 0⟩) := by
    intro heq
    rw [RepeatDecorator.run_reset _ _ _ _ (by omega)]
    congr 1
    apply decide_eq_false
    omega
  refine ⟨invocations, count, hruns, ?_, ?_, h0, hle, ⟨q, hS⟩, hbelow, hreset, ?_, ?_⟩
  · simp only [RepeatDecorator.runs, hruns]
  · intro hc
    subst hc
    have h : RepeatDecorator.runs 0 (RepeatDecorator.new (scripted outcomes) n) 0 =
        (0, ⟨scripted outcomes, n, 0⟩) := rfl
    rw [h] at hruns
    have h1 := congrArg Prod.fst hruns
    have h2 := congrArg (fun p => p.2.count) hruns
    exact ⟨h1.symm, h2.symm⟩
  · by_cases hlt : count < n
    · rw [hbelow hlt]
      by_cases ho : outcomes invocations = true
      · simp only [ho, true_and, decide_eq_true_eq]
        rw [successes_succ, if_pos ho]
        push_cast
        rw [hS]
        constructor
        · intro h
          exact ⟨q + 1, by rw [← h]; ring⟩
        · rintro ⟨k, hk⟩
          have hdvd : n ∣ count + 1 := ⟨k - q, by rw [mul_sub, ← hk]; ring⟩
          have := Int.le_of_dvd (by omega) hdvd
          omega
      · simp [ho]
    · have heq : count = n := by omega
      rw [hreset heq]
      simp
  · by_cases hlt : count < n
    · rw [hbelow hlt]
      by_cases ho : outcomes invocations = true
      · simp [ho]
      · simp only [ho, Bool.false_eq_true, false_and, decide_False, if_false, false_iff]
        omega
    · have heq : count = n := by omega
      rw [hreset heq]
      simp only [Bool.false_eq_true, false_iff]
      omega

theorem repeat_succeeds_on_every_nth_success_witness :
    (1 : Int) ≤ 3 ∧
    ((List.range 10).map (fun calls =>
      ((RepeatDecorator.runs calls (RepeatDecorator.new (scripted (fun i => i % 4 != 0)) 3)
          0).2.run
        (RepeatDecorator.runs calls (RepeatDecorator.new (scripted (fun i => i % 4 != 0)) 3)
          0).1).1)) =
      [false, false, false, true, false, false, false, false, true, false] ∧
    RepeatDecorator.runs 4 (RepeatDecorator.new (scripted (fun i => i % 4 != 0)) 3) 0 =
      (4, ⟨scripted (fun i => i % 4 != 0), 3, 3⟩) ∧
    ∃ (invocations : Nat) (count : Int),
      RepeatDecorator.runs 4 (RepeatDecorator.new (scripted (fun i => i % 4 != 0)) 3) 0 =
        (invocations, ⟨scripted (fun i => i % 4 != 0), 3, count⟩) ∧
      (count = 3 →
        RepeatDecorator.run ⟨scripted (fun i => i % 4 != 0), 3, count⟩ invocations =
          (false, invocations, ⟨scripted (fun i => i % 4 != 0), 3, 0⟩)) := by
  obtain ⟨invocations, count, h1, -, -, -, -, -, -, h8, -⟩ :=
    repeat_succeeds_on_every_nth_success (fun i => i % 4 != 0) 3 (by decide) 4
  exact ⟨by decide, by decide, rfl, invocations, count, h1, h8⟩

theorem RepeatUntilDecorator.run_scripted (outcomes : Nat → Bool) (target : Bool) :
    ∀ (k invocations fuel : Nat), k < fuel →
      outcomes (invocations + k) = target →
      (∀ j, j < k → outcomes (invocations + j) ≠ target) →
      RepeatUntilDecorator.run ⟨scripted outcomes, target⟩ fuel invocations =
        .ok (true, invocations + k + 1) := by
  intro k
  induction k with
  | zero =>
    intro invocations fuel hfuel hk _
    obtain ⟨fuel, rfl⟩ : ∃ f, fuel = f + 1 := ⟨fuel - 1, by omega⟩
    simp only [Nat.add_zero] at hk
    simp [RepeatUntilDecorator.run, scripted, hk]
  | succ k ih =>
    intro invocations fuel hfuel hk hfirst
    obtain ⟨fuel, rfl⟩ : ∃ f, fuel = f + 1 := ⟨fuel - 1, by omega⟩
    have h0 : outcomes invocations ≠ target := by
      have := hfirst 0 (Nat.succ_pos _)
      simpa using this
    have hrec := ih (invocations + 1) fuel (by omega)
      (by rw [← hk]; congr 1; omega)
      (fun j hj => by
        have := hfirst (j + 1) (by omega)
        rw [show invocations + 1 + j = invocations + (j + 1) by omega]
        exact this)
    simp only [RepeatUntilDecorator.run, scripted, bne_iff_ne, ne_eq, h0, not_false_eq_true,
      if_true]
    rw [show invocations + (k + 1) + 1 = invocations + 1 + k + 1 by omega]
    exact hrec

theorem RepeatUntilDecorator.run_spins (outcomes : Nat → Bool) (target : Bool) :
    ∀ (fuel invocations : Nat), (∀ j, j < fuel → outcomes (invocations + j) ≠ target) →
      RepeatUntilDecorator.run ⟨scripted outcomes, target⟩ fuel invocations =
        .error .outOfFuel := by
  intro fuel
  induction fuel with
  | zero => intro invocations _; rfl
  | succ fuel ih =>
    intro invocations h
    have h0 : outcomes invocations ≠ target := by
      have := h 0 (Nat.succ_pos _)
      simpa using this
    simp only [RepeatUntilDecorator.run, scripted, bne_iff_ne, ne_eq, h0, not_false_eq_true,
      if_true]
    apply ih
    intro j hj
    rw [show invocations + 1 + j = invocations + (j + 1) by omega]
    exact h (j + 1) (by omega)

/-- C14: for `RepeatUntilDecorator(child, target)`: if the `k`-th invocation of the child
within one call of `run` is the first whose outcome equals `target`, then `run` invokes
the child exactly `k` times and returns success, whatever `target` is; `run` returns
(for some number of turns of its loop) iff the child eventually yields `target`, and
otherwise the loop outlasts every fuel. -/
theorem repeatUntil_invokes_child_until_target (outcomes : Nat → Bool) (target : Bool)
    (invocations : Nat) :
    (∀ k, 1 ≤ k → outcomes (invocations + (k - 1)) = target →
      (∀ j, j < k - 1 → outcomes (invocations + j) ≠ target) →
      ∀ fuel, k ≤ fuel →
        RepeatUntilDecorator.run ⟨scripted outcomes, target⟩ fuel invocations =
          .ok (true, invocations + k)) ∧
    ((∃ fuel result,
        RepeatUntilDecorator.run ⟨scripted outcomes, target⟩ fuel invocations = .ok result) ↔
      ∃ j, outcomes (invocations + j) = target) ∧
    ((∀ j, outcomes (invocations + j) ≠ target) →
      ∀ fuel, RepeatUntilDecorator.run ⟨scripted outcomes, target⟩ fuel invocations =
        .error .outOfFuel) := by
  refine ⟨?_, ?_, ?_⟩
  · intro k hk htarget hfirst fuel hfuel
    have := RepeatUntilDecorator.run_scripted outcomes target (k - 1) invocations fuel
      (by omega) htarget hfirst
    rw [this, show invocations + (k - 1) + 1 = invocations + k by omega]
  · constructor
    · rintro ⟨fuel, result, hres⟩
      by_contra hnone
      have hall : ∀ j, outcomes (invocations + j) ≠ target := by
        intro j hj
        exact hnone ⟨j, hj⟩
      rw [RepeatUntilDecorator.run_spins outcomes target fuel invocations
        (fun j _ => hall j)] at hres
      cases hres
    · intro hex
      classical
      refine ⟨Nat.find hex + 1, (true, invocations + Nat.find hex + 1), ?_⟩
      exact RepeatUntilDecorator.run_scripted outcomes target (Nat.find hex) invocations _
        (Nat.lt_succ_self _) (Nat.find_spec hex) (fun j hj => Nat.find_min hex hj)
  · intro hall fuel
    exact RepeatUntilDecorator.run_spins outcomes target fuel invocations (fun j _ => hall j)

theorem repeatUntil_invokes_child_until_target_witness :
    ((1 ≤ 3 ∧ (fun i => decide (i < 7)) (5 + (3 - 1)) = false ∧
      (∀ j, j < 3 - 1 → (fun i => decide (i < 7)) (5 + j) ≠ false) ∧ 3 ≤ 4) ∧
    RepeatUntilDecorator.run ⟨scripted (fun i => decide (i < 7)), false⟩ 4 5 =
      .ok (true, 5 + 3)) ∧
    RepeatUntilDecorator.run ⟨scripted (fun _ => true), false⟩ 100 0 = .error .outOfFuel :=
  ⟨⟨⟨by decide, by decide, by decide, by decide⟩,
    (repeatUntil_invokes_child_until_target (fun i => decide (i < 7)) false 5).1 3 (by decide)
      (by decide) (by decide) 4 (by decide)⟩,
    (repeatUntil_invokes_child_until_target (fun _ => true) false 0).2.2
      (fun _ => by decide) 100⟩

/-! ### The random node of the behavior tree -/

theorem probesFrom_get? :
    ∀ (outcomes : List Bool) (k i : Nat),
      (probesFrom k outcomes).get? i = (outcomes.get? i).map (fun b => probe (k + i) b) := by
  intro outcomes
  induction outcomes with
  | nil => intro k i; simp [probesFrom]
  | cons b bs ih =>
    intro k i
    cases i with
    | zero => simp [probesFrom]
    | succ i =>
      simp only [probesFrom, List.get?_cons_succ, ih]
      rw [show k + 1 + i = k + (i + 1) by omega]

theorem probesFrom_length :
    ∀ (outcomes : List Bool) (k : Nat), (probesFrom k outcomes).length = outcomes.length := by
  intro outcomes
  induction outcomes with
  | nil => intro k; rfl
  | cons b bs ih => intro k; simp [probesFrom, ih]

/-- C15: a `RandomNode` with `n >= 1` children invokes exactly one of them, the one at
the index `rand() % n`, exactly once and returns its outcome unchanged; `at` never
throws; with no child it returns failure and invokes nothing. -/
theorem random_runs_exactly_one_child (outcomes : List Bool) (rand : Nat) (log : List Nat) :
    (1 ≤ outcomes.length →
      ∃ i outcome, i < outcomes.length ∧ i = rand % outcomes.length ∧
        outcomes.get? i = some outcome ∧
        RandomNode.run (probesFrom 1 outcomes) rand log = .ok (outcome, log ++ [i + 1])) ∧
    RandomNode.run (probesFrom 1 []) rand log = .ok (false, log) := by
  refine ⟨?_, rfl⟩
  intro hn
  have hlt : rand % outcomes.length < outcomes.length := Nat.mod_lt _ hn
  obtain ⟨outcome, hout⟩ : ∃ outcome, outcomes.get? (rand % outcomes.length) = some outcome :=
    ⟨outcomes.get ⟨_, hlt⟩, List.get?_eq_get hlt⟩
  refine ⟨rand % outcomes.length, outcome, hlt, rfl, hout, ?_⟩
  have hne2 : ¬ outcomes.length = 0 := by omega
  simp only [RandomNode.run, probesFrom_length, probesFrom_get?, hout,
    Option.map_some', probe, hne2, if_false]
  rw [Nat.add_comm 1]

theorem random_runs_exactly_one_child_witness :
    1 ≤ [true, false, true].length ∧
    (∃ i outcome, i < [true, false, true].length ∧ i = 7 % [true, false, true].length ∧
      [true, false, true].get? i = some outcome ∧
      RandomNode.run (probesFrom 1 [true, false, true]) 7 [] = .ok (outcome, [] ++ [i + 1])) ∧
    RandomNode.run (probesFrom 1 [true, false, true]) 7 [] = .ok (false, [2]) :=
  ⟨by decide, (random_runs_exactly_one_child [true, false, true] 7 []).1 (by decide), rfl⟩
/-! ### Trees -/

namespace AdjacencyListGraph

variable {V E : Type}

theorem insertVertex_out (g : AdjacencyListGraph V E) (d : V) (u : Ptr) :
    (g.insertVertex d).2.out u = if u = g.fresh then [] else g.out u := by
  by_cases h : u = g.fresh <;> simp [AdjacencyListGraph.insertVertex, out, setVertex, h]

theorem insertVertex_inc (g : AdjacencyListGraph V E) (d : V) (u : Ptr) :
    (g.insertVertex d).2.inc u = if u = g.fresh then [] else g.inc u := by
  by_cases h : u = g.fresh <;> simp [AdjacencyListGraph.insertVertex, inc, setVertex, h]

theorem incomingEdges_of_mem {g : AdjacencyListGraph V E} (hg : g.WellFormed) {v : Ptr}
    (hv : v ∈ g.vertexList) : g.incomingEdges v = .ok (g.inc v) := by
  have h := (hg.2.2.1 v hv).2.1
  unfold incomingEdges vertexAt inc
  cases hvo : g.vertexObj v with
  | none => simp [hvo] at h
  | some o => rfl

theorem target_of_ends {g : AdjacencyListGraph V E} {e a b : Ptr}
    (h : g.ends e = some (a, b)) : g.target e = b := by
  simp [target, h]

end AdjacencyListGraph

namespace Tree

variable {V E : Type}

theorem childrenLoop_eq (t : Tree V E) (vertex : Ptr) :
    ∀ (es acc : List Ptr), (∀ e ∈ es, ∃ w, t.graph.ends e = some (vertex, w)) →
      t.childrenLoop vertex es acc = .ok (acc ++ es.map t.graph.target) := by
  intro es
  induction es with
  | nil => intro acc _; simp [childrenLoop]
  | cons e rest ih =>
    intro acc h
    obtain ⟨w, hw⟩ := h e (List.mem_cons_self _ _)
    simp only [childrenLoop, AdjacencyListGraph.opposite_of_ends_fst hw]
    rw [ih _ (fun x hx => h x (List.mem_cons_of_mem _ hx)), List.map_cons,
      AdjacencyListGraph.target_of_ends hw]
    simp

/-- In a well-formed graph `children` returns the far ends of the outgoing edges. -/
theorem children_eq {t : Tree V E} (hg : t.graph.WellFormed) {v : Ptr}
    (hv : v ∈ t.graph.vertexList) :
    t.children v = .ok ((t.graph.out v).map t.graph.target) := by
  have hne : v ≠ nullptr := (hg.2.2.1 v hv).1
  unfold children
  rw [if_neg hne, AdjacencyListGraph.WellFormed.outgoingEdges_ok hg hv]
  simp only
  rw [childrenLoop_eq]
  · simp
  · intro e he
    obtain ⟨w, _, hw, _⟩ := AdjacencyListGraph.WellFormed.out_edge hg hv he
    exact ⟨w, hw⟩

theorem Descends.mem {t : Tree V E} (hg : t.graph.WellFormed) {a b : Ptr}
    (ha : a ∈ t.graph.vertexList) (h : t.Descends a b) : b ∈ t.graph.vertexList := by
  induction h with
  | refl => exact ha
  | child b c cs _ hcs hc ih =>
    rw [children_eq hg ih] at hcs
    cases hcs
    obtain ⟨e, he, rfl⟩ := List.mem_map.mp hc
    obtain ⟨w, hw, hends, _⟩ := AdjacencyListGraph.WellFormed.out_edge hg ih he
    rw [AdjacencyListGraph.target_of_ends hends]
    exact hw

/-- The tree of one `addRoot` on the empty tree. -/
theorem rooted_addRoot_new (rootData : V) :
    ∃ t, (Tree.new : Tree V E).addRoot rootData = .ok (1, t) ∧ t.Rooted ∧
      t.root = 1 ∧ t.graph.vertexList = [1] := by
  have hw := AdjacencyListGraph.WellFormed.insertVertex
    (AdjacencyListGraph.wellFormed_new (V := V) (E := E) true) rootData
  refine ⟨{ graph := ((AdjacencyListGraph.new true :
      AdjacencyListGraph V E).insertVertex rootData).2, root := 1 }, rfl, ?_, rfl, rfl⟩
  refine ⟨hw.1, ?_, ?_, ?_, rfl, ?_, ?_⟩
  · show (1 : Ptr) ∈ [1]
    simp
  · rw [AdjacencyListGraph.insertVertex_inc]
    simp [AdjacencyListGraph.new]
  · intro v hv hne
    have : v ∈ [(1 : Ptr)] := hv
    simp only [List.mem_singleton] at this
    exact absurd this hne
  · intro v hv
    have : v ∈ [(1 : Ptr)] := hv
    simp only [List.mem_singleton] at this
    subst this
    exact Descends.refl _
  · intro e he
    have : e ∈ ([] : List Ptr) := he
    simp at this

/-- A call of `insertNode` under a vertex of a rooted tree returns and keeps the
invariant; the new vertex is a new last child of the parent. -/
theorem rooted_insertNode {t : Tree V E} (ht : t.Rooted) (vertexData : V) (edgeData : E)
    {parent : Ptr} (hp : parent ∈ t.graph.vertexList) :
    ∃ t1, t.insertNode vertexData edgeData parent = .ok (t.graph.fresh, t1) ∧ t1.Rooted ∧
      t1.root = t.root ∧
      t1.graph.vertexList = t.graph.vertexList ++ [t.graph.fresh] ∧
      t1.graph.edgeList = t.graph.edgeList ++ [t.graph.fresh + 1] ∧
      t1.graph.ends (t.graph.fresh + 1) = some (parent, t.graph.fresh) ∧
      (∀ e ∈ t.graph.edgeList, t1.graph.edgeObj e = t.graph.edgeObj e) ∧
      (∀ u, t1.graph.out u =
        (if u = t.graph.fresh then [] else t.graph.out u) ++
          (if u = parent then [t.graph.fresh + 1] else [])) ∧
      (∀ u, (t1.graph.vertexObj u).map (fun o => o.element) =
        if u = t.graph.fresh then some vertexData
        else (t.graph.vertexObj u).map (fun o => o.element)) ∧
      t1.graph.edgeElement (t.graph.fresh + 1) = .ok edgeData := by
  have hg := ht.wellFormed
  obtain ⟨hg1, hvl1, hel1, hvnew⟩ := AdjacencyListGraph.WellFormed.insertVertex hg vertexData
  have hfresh1 : (t.graph.insertVertex vertexData).2.fresh = t.graph.fresh + 1 := rfl
  have hv1 : (t.graph.insertVertex vertexData).1 = t.graph.fresh := rfl
  rw [hv1] at hvl1 hvnew
  have hp1 : parent ∈ (t.graph.insertVertex vertexData).2.vertexList := by
    rw [hvl1]; exact List.mem_append_left _ hp
  have hn1 : t.graph.fresh ∈ (t.graph.insertVertex vertexData).2.vertexList := by
    rw [hvl1]; simp
  obtain ⟨g2, hres, -, hvl2, hel2, hfresh2, hout2, hinc2, -, helem2, hobj2⟩ :=
    AdjacencyListGraph.insertEdge_spec (t.graph.insertVertex vertexData).2 parent t.graph.fresh
      edgeData (hg1.2.2.1 parent hp1).2.1 (hg1.2.2.1 _ hn1).2.1
  obtain ⟨g2', hres', hg2, -, -, hends2⟩ :=
    AdjacencyListGraph.WellFormed.insertEdge hg1 hp1 hn1 edgeData
  have hgg : g2' = g2 := by
    rw [hres] at hres'
    cases hres'
    rfl
  subst hgg
  rw [hfresh1] at hres hel2 hends2 hout2 hinc2 hobj2
  rw [hvl1] at hvl2
  rw [hel1] at hel2
  have hne_e : ∀ e ∈ t.graph.edgeList, e ≠ t.graph.fresh + 1 := by
    intro e he h
    have := hg.2.2.2.2.2.2 e he
    rw [h] at this
    exact Nat.lt_irrefl _ (Nat.lt_of_succ_lt this)
  have hne_v : ∀ u ∈ t.graph.vertexList, u ≠ t.graph.fresh := fun u hu h => hvnew (h ▸ hu)
  have hold_obj : ∀ e ∈ t.graph.edgeList, g2'.edgeObj e = t.graph.edgeObj e := by
    intro e he
    rw [hobj2 e, if_neg (hne_e e he)]
    rfl
  have hold_ends : ∀ e ∈ t.graph.edgeList, g2'.ends e = t.graph.ends e := by
    intro e he
    unfold AdjacencyListGraph.ends
    rw [hold_obj e he]
  have hold_target : ∀ e ∈ t.graph.edgeList, g2'.target e = t.graph.target e := by
    intro e he
    unfold AdjacencyListGraph.target
    rw [hold_ends e he]
  have hout : ∀ u, g2'.out u =
      (if u = t.graph.fresh then [] else t.graph.out u) ++
        (if u = parent then [t.graph.fresh + 1] else []) := by
    intro u
    rw [hout2 u, AdjacencyListGraph.insertVertex_out]
  have hinc : ∀ u, g2'.inc u =
      (if u = t.graph.fresh then [] else t.graph.inc u) ++
        (if u = t.graph.fresh then [t.graph.fresh + 1] else []) := by
    intro u
    rw [hinc2 u, AdjacencyListGraph.insertVertex_inc]
  have hchildren : ∀ b ∈ t.graph.vertexList, ∀ cs, t.children b = .ok cs →
      ∃ cs1, Tree.children { t with graph := g2' } b = .ok cs1 ∧ ∀ c ∈ cs, c ∈ cs1 := by
    intro b hb cs hcs
    have hb2 : b ∈ g2'.vertexList := by rw [hvl2]; exact List.mem_append_left _ hb
    refine ⟨_, children_eq (t := { t with graph := g2' }) hg2 hb2, ?_⟩
    rw [children_eq hg hb] at hcs
    cases hcs
    intro c hc
    obtain ⟨e, he, rfl⟩ := List.mem_map.mp hc
    have hel := ((hg.2.2.1 b hb).2.2.2.2.1 e he).1
    refine List.mem_map.mpr ⟨e, ?_, hold_target e hel⟩
    show e ∈ g2'.out b
    rw [hout b, if_neg (hne_v b hb)]
    exact List.mem_append_left _ he
  have hmono : ∀ b, t.Descends t.root b →
      Tree.Descends { t with graph := g2' } t.root b := by
    intro b hb
    induction hb with
    | refl => exact Descends.refl _
    | child b c cs hd hcs hc ih =>
      obtain ⟨cs1, hcs1, hsub⟩ := hchildren b (Descends.mem hg ht.root_mem hd) cs hcs
      exact Descends.child _ b c cs1 ih hcs1 (hsub c hc)
  refine ⟨{ t with graph := g2' }, ?_, ⟨hg2, ?_, ?_, ?_, ?_, ?_, ?_⟩, rfl, hvl2, hel2, hends2,
    hold_obj, hout, ?_, ?_⟩
  · unfold Tree.insertNode
    simp only [hv1, hres]
  · show t.root ∈ g2'.vertexList
    rw [hvl2]; exact List.mem_append_left _ ht.root_mem
  · show g2'.inc t.root = []
    rw [hinc, if_neg (hne_v _ ht.root_mem), if_neg (hne_v _ ht.root_mem), ht.root_inc]
    rfl
  · intro v hv hne
    have hv' : v ∈ t.graph.vertexList ++ [t.graph.fresh] := by rw [← hvl2]; exact hv
    rcases List.mem_append.mp hv' with hv' | hv'
    · obtain ⟨e, he⟩ := ht.inc_one v hv' hne
      refine ⟨e, ?_⟩
      show g2'.inc v = [e]
      rw [hinc, if_neg (hne_v v hv'), if_neg (hne_v v hv'), he]
      rfl
    · simp only [List.mem_singleton] at hv'
      refine ⟨t.graph.fresh + 1, ?_⟩
      show g2'.inc v = _
      rw [hinc, if_pos hv', if_pos hv']
      rfl
  · show g2'.edgeList.length + 1 = g2'.vertexList.length
    rw [hvl2, hel2, List.length_append, List.length_append]
    have := ht.count
    simp only [List.length_singleton]
    omega
  · intro v hv
    have hv' : v ∈ t.graph.vertexList ++ [t.graph.fresh] := by rw [← hvl2]; exact hv
    rcases List.mem_append.mp hv' with hv' | hv'
    · exact hmono v (ht.descends v hv')
    · simp only [List.mem_singleton] at hv'
      subst hv'
      have hp2 : parent ∈ g2'.vertexList := by rw [hvl2]; exact List.mem_append_left _ hp
      refine Descends.child _ parent _ _ (hmono parent (ht.descends parent hp))
        (children_eq (t := { t with graph := g2' }) hg2 hp2) ?_
      refine List.mem_map.mpr ⟨t.graph.fresh + 1, ?_, AdjacencyListGraph.target_of_ends hends2⟩
      show t.graph.fresh + 1 ∈ g2'.out parent
      rw [hout]
      simp
  · intro e he a b hab
    have he' : e ∈ t.graph.edgeList ++ [t.graph.fresh + 1] := by rw [← hel2]; exact he
    rcases List.mem_append.mp he' with he' | he'
    · have : t.graph.ends e = some (a, b) := by
        rw [← hold_ends e he']; exact hab
      exact ht.ordered e he' a b this
    · simp only [List.mem_singleton] at he'
      subst he'
      have hab' : g2'.ends (t.graph.fresh + 1) = some (a, b) := hab
      rw [hends2] at hab'
      cases hab'
      exact hg.2.2.2.2.2.1 _ hp
  · intro u
    show (g2'.vertexObj u).map (fun o => o.element) = _
    rw [helem2 u]
    by_cases hu : u = t.graph.fresh <;>
      simp [AdjacencyListGraph.insertVertex, AdjacencyListGraph.setVertex, hu]
  · show g2'.edgeElement (t.graph.fresh + 1) = .ok edgeData
    unfold AdjacencyListGraph.edgeElement AdjacencyListGraph.edgeAt
    rw [hobj2, if_pos rfl]
    rfl

/-- Every tree that `addRoot` and `insertNode` build satisfies the invariant. -/
theorem Built.rooted {t : Tree V E} (h : t.Built) : t.Rooted := by
  induction h with
  | addRoot rootData root t hres =>
    obtain ⟨t0, h0, hr, -, -⟩ := rooted_addRoot_new (E := E) rootData
    rw [h0] at hres
    cases hres
    exact hr
  | insertNode t vertexData edgeData parent vertex t1 _ hp hres ih =>
    obtain ⟨t2, h2, hr, -⟩ := rooted_insertNode ih vertexData edgeData hp
    rw [h2] at hres
    cases hres
    exact hr

/-- C20: in every tree built by one `addRoot` on an empty tree followed by `insertNode`
calls whose parent is a vertex of the tree: the root has no incoming edge, every other
vertex has exactly one incoming edge, the number of edges is `size() - 1`, and every
vertex is reached from the root by repeatedly taking `children()`; a further
`insertNode` under a vertex of the tree returns. -/
theorem built_tree_has_one_parent_per_vertex (t : Tree V E) (h : t.Built) :
    t.graph.incomingEdges t.getRoot = .ok [] ∧
    (∀ v ∈ t.graph.vertices, v ≠ t.getRoot → ∃ e, t.graph.incomingEdges v = .ok [e]) ∧
    t.graph.numEdges + 1 = t.size ∧ t.graph.numEdges = t.size - 1 ∧
    (∀ v ∈ t.graph.vertices, t.Descends t.getRoot v) ∧
    (∀ vertexData edgeData parent, parent ∈ t.graph.vertices →
      ∃ vertex t1, t.insertNode vertexData edgeData parent = .ok (vertex, t1)) := by
  have ht := Built.rooted h
  refine ⟨?_, ?_, ht.count, ?_, ht.descends, ?_⟩
  · show t.graph.incomingEdges t.root = _
    rw [AdjacencyListGraph.incomingEdges_of_mem ht.wellFormed ht.root_mem, ht.root_inc]
  · intro v hv hne
    obtain ⟨e, he⟩ := ht.inc_one v hv hne
    exact ⟨e, by rw [AdjacencyListGraph.incomingEdges_of_mem ht.wellFormed hv, he]⟩
  · have := ht.count
    show t.graph.edgeList.length = t.graph.vertexList.length - 1
    omega
  · intro vertexData edgeData parent hp
    obtain ⟨t1, h1, -⟩ := rooted_insertNode ht vertexData edgeData hp
    exact ⟨_, t1, h1⟩

end Tree

namespace AdjacencyListGraph

variable {V E : Type}

/-- The graph that `removeVertex` returns: the graph without the edges incident to the
vertex, without the vertex in the vertex vector and without its object. -/
theorem removeVertex_stripped {g : AdjacencyListGraph V E} (hg : g.WellFormed) {v : Ptr}
    (hv : v ∈ g.vertexList) :
    ∃ g1, Stripped g (g.edgeList.filter (fun e => decide (g.Incident e v))) g1 ∧
      g.removeVertex v = .ok (({ g1 with vertexList := g1.vertexList.erase v } :
        AdjacencyListGraph V E).setVertex v none) := by
  obtain ⟨g1, hfold, hS⟩ := removeVertex_loop hg v
  refine ⟨g1, hS, ?_⟩
  have hvne : v ≠ nullptr := (hg.2.2.1 v hv).1
  obtain ⟨ov, hov⟩ := Option.isSome_iff_exists.mp (hg.2.2.1 v hv).2.1
  have hlive : (({ g1 with vertexList := g1.vertexList.erase v } :
      AdjacencyListGraph V E).vertexAt v) =
      .ok (ov.without (g.edgeList.filter (fun e => decide (g.Incident e v)))) := by
    unfold vertexAt
    simp only [hS.vertexObj v hv, hov, Option.map_some']
  simp only [removeVertex, bind, Except.bind, hfold, hvne, if_false, hlive, pure, Except.pure]

end AdjacencyListGraph

namespace Tree

variable {V E : Type}

/-- C19: in every tree built by `addRoot` and `insertNode`, with root `r`, a further
`addRoot(d)` returns a new vertex with payload `d` that is the root, `r` is no longer in
the tree and `size()` is unchanged; but the new root has no children, and every child of
`r` is left in the tree without incoming edge: the loop of `addRoot` runs over the
incoming edges of the old root, of which a root has none, and `removeVertex` then
removes the edges to the children. -/
theorem addRoot_discards_children_of_old_root (t : Tree V E) (h : t.Built) (rootData : V) :
    ∃ newRoot t1 children, t.addRoot rootData = .ok (newRoot, t1) ∧
      t.children t.getRoot = .ok children ∧
      t1.getRoot = newRoot ∧ newRoot ∉ t.graph.vertices ∧ newRoot ∈ t1.graph.vertices ∧
      t1.graph.vertexElement newRoot = .ok rootData ∧
      t.getRoot ∉ t1.graph.vertices ∧ t1.size = t.size ∧
      t1.children newRoot = .ok [] ∧
      (∀ c ∈ children, c ∈ t1.graph.vertices ∧ t1.graph.incomingEdges c = .ok []) := by
  have ht := Built.rooted h
  have hg := ht.wellFormed
  have hr := ht.root_mem
  have hrne : t.root ≠ nullptr := (hg.2.2.1 _ hr).1
  obtain ⟨hg1, hvl1, hel1, hvnew⟩ := AdjacencyListGraph.WellFormed.insertVertex hg rootData
  have hv1 : (t.graph.insertVertex rootData).1 = t.graph.fresh := rfl
  rw [hv1] at hvl1 hvnew
  have hne_v : ∀ u ∈ t.graph.vertexList, u ≠ t.graph.fresh := fun u hu h => hvnew (h ▸ hu)
  have hr1 : t.root ∈ (t.graph.insertVertex rootData).2.vertexList := by
    rw [hvl1]; exact List.mem_append_left _ hr
  have hinc1 : (t.graph.insertVertex rootData).2.incomingEdges t.root = .ok [] := by
    rw [AdjacencyListGraph.incomingEdges_of_mem hg1 hr1, AdjacencyListGraph.insertVertex_inc,
      if_neg (hne_v _ hr), ht.root_inc]
  obtain ⟨g2, hS, hrem⟩ := AdjacencyListGraph.removeVertex_stripped hg1 hr1
  obtain ⟨R, hR⟩ : ∃ R, R = (t.graph.insertVertex rootData).2.edgeList.filter
      (fun e => decide ((t.graph.insertVertex rootData).2.Incident e t.root)) := ⟨_, rfl⟩
  rw [← hR] at hS
  have hres : t.addRoot rootData = .ok (t.graph.fresh,
      { graph := ({ g2 with vertexList := g2.vertexList.erase t.root } :
          AdjacencyListGraph V E).setVertex t.root none, root := t.graph.fresh }) := by
    unfold Tree.addRoot
    simp only [hrne, if_false, hinc1, hv1, List.foldlM, pure, Except.pure, hrem]
  have hvo : ∀ u ∈ t.graph.vertexList ++ [t.graph.fresh], u ≠ t.root →
      (({ g2 with vertexList := g2.vertexList.erase t.root } :
        AdjacencyListGraph V E).setVertex t.root none).vertexObj u
        = ((t.graph.insertVertex rootData).2.vertexObj u).map (ALVertex.without R) := by
    intro u hu hne
    simp only [AdjacencyListGraph.setVertex, hne, if_false]
    exact hS.vertexObj u (by rw [hvl1]; exact hu)
  have hvl : (({ g2 with vertexList := g2.vertexList.erase t.root } :
      AdjacencyListGraph V E).setVertex t.root none).vertexList =
      (t.graph.vertexList ++ [t.graph.fresh]).erase t.root := by
    simp only [AdjacencyListGraph.setVertex, hS.vertexList, hvl1]
  have hnd : (t.graph.vertexList ++ [t.graph.fresh]).Nodup := by
    rw [← hvl1]; exact hg1.1
  have hnewne : t.graph.fresh ≠ t.root := fun h => hvnew (h ▸ hr)
  have hnew0 : t.graph.fresh ≠ nullptr := by
    intro h
    have := hg.2.2.2.2.1
    rw [h] at this
    exact Nat.lt_irrefl _ this
  have hobjnew : (({ g2 with vertexList := g2.vertexList.erase t.root } :
      AdjacencyListGraph V E).setVertex t.root none).vertexObj t.graph.fresh =
      some { element := rootData, outgoing := [], incoming := [] } := by
    rw [hvo _ (by simp) hnewne]
    simp [AdjacencyListGraph.insertVertex, AdjacencyListGraph.setVertex, ALVertex.without]
  refine ⟨t.graph.fresh, _, _, hres, children_eq hg hr, rfl, hvnew, ?_, ?_, ?_, ?_, ?_, ?_⟩
  · show t.graph.fresh ∈ AdjacencyListGraph.vertexList _
    rw [hvl]
    exact (List.Nodup.mem_erase_iff hnd).mpr ⟨hnewne, by simp⟩
  · unfold AdjacencyListGraph.vertexElement AdjacencyListGraph.vertexAt
    simp only [hobjnew]
    rfl
  · show t.root ∉ AdjacencyListGraph.vertexList _
    rw [hvl]
    exact fun h => ((List.Nodup.mem_erase_iff hnd).mp h).1 rfl
  · show (AdjacencyListGraph.vertexList _).length = t.graph.vertexList.length
    rw [hvl, List.length_erase_of_mem (List.mem_append_left _ hr)]
    simp
  · unfold Tree.children
    simp only [hnew0, if_false, AdjacencyListGraph.outgoingEdges,
      AdjacencyListGraph.vertexAt, hobjnew]
    rfl
  · intro c hc
    obtain ⟨e, he, rfl⟩ := List.mem_map.mp hc
    obtain ⟨w, hw, hends, hel⟩ := AdjacencyListGraph.WellFormed.out_edge hg hr he
    rw [AdjacencyListGraph.target_of_ends hends]
    have hlt : t.root < w := ht.ordered e hel _ _ hends
    have hwne : w ≠ t.root := fun h => by rw [h] at hlt; exact Nat.lt_irrefl _ hlt
    have hw1 : w ∈ t.graph.vertexList ++ [t.graph.fresh] := List.mem_append_left _ hw
    obtain ⟨e1, he1⟩ := ht.inc_one w hw hwne
    have hein : e ∈ t.graph.inc w := by
      obtain ⟨a, _, b, _, hab, _, hb⟩ := hg.2.2.2.1 e hel
      rw [hab] at hends
      cases hends
      exact hb
    have hee : e1 = e := by
      rw [he1] at hein
      simp only [List.mem_singleton] at hein
      exact hein.symm
    subst hee
    have heR : e1 ∈ R := by
      rw [hR, List.mem_filter, decide_eq_true_eq]
      refine ⟨by rw [hel1]; exact hel, Or.inl ?_⟩
      show ((t.graph.ends e1).map Prod.fst) = some t.root
      rw [hends]
      rfl
    obtain ⟨ow, how⟩ := Option.isSome_iff_exists.mp (hg.2.2.1 w hw).2.1
    have hincw : ow.incoming = [e1] := by
      have := he1
      unfold AdjacencyListGraph.inc at this
      rw [how] at this
      exact this
    have hobjw : (t.graph.insertVertex rootData).2.vertexObj w = some ow := by
      simp [AdjacencyListGraph.insertVertex, AdjacencyListGraph.setVertex, hne_v w hw, how]
    constructor
    · show w ∈ AdjacencyListGraph.vertexList _
      rw [hvl]
      exact (List.Nodup.mem_erase_iff hnd).mpr ⟨hwne, hw1⟩
    · unfold AdjacencyListGraph.incomingEdges AdjacencyListGraph.vertexAt
      rw [hvo w hw1 hwne, hobjw]
      simp [ALVertex.without, hincw, heR, Except.map]

end Tree

/-- The sample tree is built by `addRoot` and `insertNode`. -/
theorem sampleTree_built : sampleTree.Built := by
  have b0 : (treeOf ((Tree.new : Tree Nat Bool).addRoot 10 |>.map Prod.snd)).Built :=
    Tree.Built.addRoot 10 1 _ rfl
  have b1 := Tree.Built.insertNode _ 20 true 1 2 _ b0 (by decide) rfl
  have b2 := Tree.Built.insertNode _ 30 false 1 4 _ b1 (by decide) rfl
  exact Tree.Built.insertNode _ 40 true 2 6 _ b2 (by decide) rfl

theorem built_tree_has_one_parent_per_vertex_witness :
    sampleTree.Built ∧ sampleTree.graph.vertices = [1, 2, 4, 6] ∧
    sampleTree.graph.incomingEdges sampleTree.getRoot = .ok [] ∧
    (∀ v ∈ sampleTree.graph.vertices, v ≠ sampleTree.getRoot →
      ∃ e, sampleTree.graph.incomingEdges v = .ok [e]) ∧
    sampleTree.graph.numEdges + 1 = sampleTree.size ∧
    sampleTree.graph.numEdges = sampleTree.size - 1 ∧
    (∀ v ∈ sampleTree.graph.vertices, sampleTree.Descends sampleTree.getRoot v) ∧
    (∀ vertexData edgeData parent, parent ∈ sampleTree.graph.vertices →
      ∃ vertex t1, sampleTree.insertNode vertexData edgeData parent = .ok (vertex, t1)) :=
  ⟨sampleTree_built, rfl, Tree.built_tree_has_one_parent_per_vertex sampleTree sampleTree_built⟩

theorem addRoot_discards_children_of_old_root_witness :
    sampleTree.Built ∧ sampleTree.children sampleTree.getRoot = .ok [2, 4] ∧
    (sampleTree.addRoot 50).map (fun r =>
        (r.1, r.2.getRoot, r.2.graph.vertices, r.2.graph.edges, r.2.children r.2.getRoot,
          r.2.graph.incomingEdges 2, r.2.graph.incomingEdges 4)) =
      .ok (8, 8, [2, 4, 6, 8], [7], .ok [], .ok [], .ok []) ∧
    (∃ newRoot t1 children, sampleTree.addRoot 50 = .ok (newRoot, t1) ∧
      sampleTree.children sampleTree.getRoot = .ok children ∧
      t1.getRoot = newRoot ∧ newRoot ∉ sampleTree.graph.vertices ∧
      newRoot ∈ t1.graph.vertices ∧
      t1.graph.vertexElement newRoot = .ok 50 ∧
      sampleTree.getRoot ∉ t1.graph.vertices ∧ t1.size = sampleTree.size ∧
      t1.children newRoot = .ok [] ∧
      (∀ c ∈ children, c ∈ t1.graph.vertices ∧ t1.graph.incomingEdges c = .ok [])) :=
  ⟨sampleTree_built, rfl, rfl,
    Tree.addRoot_discards_children_of_old_root sampleTree sampleTree_built 50⟩
/-! ### Decision trees -/

namespace DecisionMulti

theorem find_addChildNode (children : List (String × List Ptr)) (child : Ptr)
    (onValue value : String) :
    find (addChildNode children child onValue) value =
      if onValue = value then some ((find children value).getD [] ++ [child])
      else find children value := by
  unfold addChildNode
  cases hf : find children onValue with
  | none =>
    simp only
    unfold find at hf ⊢
    rw [List.find?_append]
    by_cases hk : onValue = value
    · subst hk
      simp only [Option.map_eq_none'] at hf
      simp [hf]
    · cases hv : List.find? (fun entry => entry.1 == value) children with
      | none => simp [hk]
      | some entry => simp [hk]
  | some l =>
    simp only
    unfold find at hf ⊢
    rw [List.find?_map]
    have hcomp : ((fun entry : String × List Ptr => entry.1 == value) ∘
        fun entry => if (entry.1 == onValue) = true then (entry.1, entry.2 ++ [child]) else entry)
        = fun entry => entry.1 == value := by
      funext entry
      simp only [Function.comp]
      split <;> rfl
    rw [hcomp]
    by_cases hk : onValue = value
    · subst hk
      obtain ⟨entry, hentry, rfl⟩ := Option.map_eq_some'.mp hf
      have h1 : entry.1 = onValue := by simpa using List.find?_some hentry
      simp [hentry, h1]
    · cases hv : List.find? (fun entry => entry.1 == value) children with
      | none => simp [hk]
      | some entry =>
        have h1 : entry.1 = value := by simpa using List.find?_some hv
        have h2 : ¬ entry.1 = onValue := fun h => hk (h.symm.trans h1)
        simp [hk, h2]

/-- The vector registered under a key holds the children that were added under that
key, in the order of the calls, and there is no vector for a key without a call. -/
theorem find_registered (registrations : List (Ptr × String)) (value : String) :
    find (registered registrations) value =
      if (registrations.filter (fun r => r.2 = value)).map Prod.fst = [] then none
      else some ((registrations.filter (fun r => r.2 = value)).map Prod.fst) := by
  induction registrations using List.reverseRecOn with
  | nil => simp [registered, find]
  | append_singleton init r ih =>
    have hreg : registered (init ++ [r]) = addChildNode (registered init) r.1 r.2 := by
      simp [registered, List.foldl_append]
    rw [hreg, find_addChildNode, ih, List.filter_append, List.map_append]
    by_cases hk : r.2 = value
    · by_cases hl : (init.filter (fun r => r.2 = value)).map Prod.fst = []
      · simp [hk, hl]
      · simp [hk, hl]
    · have hnil : List.filter (fun r => decide (r.2 = value)) [r] = [] := by simp [hk]
      rw [hnil, List.map_nil, List.append_nil, if_neg hk]

end DecisionMulti

/-- C17: for a `DecisionMulti` node whose children were registered by calls of
`addChildNode`, and any state: when no child is registered under the string extracted
for the test value, `run` returns the node itself and leaves the state, the behaviors of
the character included, as it was; otherwise it returns what `run` of one child returns,
the child at the index `rand() % size` of the vector of the children registered under
that very key. -/
theorem decisionMulti_runs_child_of_matching_key {B : Type} (toString : Rat → String)
    (nodes : Nodes B) (self : Ptr) (registrations : List (Ptr × String)) (testValue : String)
    (hself : nodes self =
      some (.multi (DecisionMulti.registered registrations) testValue))
    (fuel : Nat) (environment : EnvironmentParameters B) :
    ((∀ r ∈ registrations,
        r.2 ≠ DecisionMulti.value toString testValue environment.packet) →
      DecisionTreeNode.run toString nodes (fuel + 1) self environment =
        .ok (self, environment)) ∧
    ((∃ r ∈ registrations,
        r.2 = DecisionMulti.value toString testValue environment.packet) →
      ∃ child index,
        index = environment.randValues environment.randCalls %
          ((registrations.filter (fun r =>
            r.2 = DecisionMulti.value toString testValue environment.packet)).length) ∧
        ((registrations.filter (fun r =>
            r.2 = DecisionMulti.value toString testValue environment.packet)).map
              Prod.fst).get? index = some child ∧
        (child, DecisionMulti.value toString testValue environment.packet) ∈ registrations ∧
        DecisionTreeNode.run toString nodes (fuel + 1) self environment =
          DecisionTreeNode.run toString nodes fuel child
            { environment with randCalls := environment.randCalls + 1 }) := by
  constructor
  · intro hnone
    have hl : (registrations.filter (fun r =>
        r.2 = DecisionMulti.value toString testValue environment.packet)).map Prod.fst = [] := by
      rw [List.map_eq_nil_iff, List.filter_eq_nil_iff]
      intro r hr
      simpa using hnone r hr
    simp only [DecisionTreeNode.run, hself, DecisionMulti.find_registered, hl, if_true]
  · rintro ⟨r, hr, hkey⟩
    have hmem : r.1 ∈ (registrations.filter (fun r =>
        r.2 = DecisionMulti.value toString testValue environment.packet)).map Prod.fst :=
      List.mem_map.mpr ⟨r, List.mem_filter.mpr ⟨hr, by simpa using hkey⟩, rfl⟩
    have hl : ¬ (registrations.filter (fun r =>
        r.2 = DecisionMulti.value toString testValue environment.packet)).map Prod.fst = [] :=
      List.ne_nil_of_mem hmem
    have hlen : 0 < ((registrations.filter (fun r =>
        r.2 = DecisionMulti.value toString testValue environment.packet)).map
          Prod.fst).length := List.length_pos_of_mem hmem
    have hlen' := hlen
    rw [List.length_map] at hlen'
    have hidx : environment.randValues environment.randCalls %
        ((registrations.filter (fun r =>
          r.2 = DecisionMulti.value toString testValue environment.packet)).length) <
        ((registrations.filter (fun r =>
          r.2 = DecisionMulti.value toString testValue environment.packet)).map
            Prod.fst).length := by
      rw [List.length_map]
      exact Nat.mod_lt _ hlen'
    obtain ⟨child, hchild⟩ : ∃ child, ((registrations.filter (fun r =>
        r.2 = DecisionMulti.value toString testValue environment.packet)).map
          Prod.fst).get? (environment.randValues environment.randCalls %
        ((registrations.filter (fun r =>
          r.2 = DecisionMulti.value toString testValue environment.packet)).length)) =
        some child := ⟨_, List.get?_eq_get hidx⟩
    refine ⟨child, _, rfl, hchild, ?_, ?_⟩
    · obtain ⟨q, hq, hq1⟩ := List.mem_map.mp (List.get?_mem hchild)
      obtain ⟨hq2, hq3⟩ := List.mem_filter.mp hq
      have hq4 : q.2 = DecisionMulti.value toString testValue environment.packet := by
        simpa using hq3
      rw [← hq1, ← hq4]
      exact hq2
    · have hne : ¬ ((registrations.filter (fun r =>
          r.2 = DecisionMulti.value toString testValue environment.packet)).map
            Prod.fst).length = 0 := by omega
      simp only [DecisionTreeNode.run, hself, DecisionMulti.find_registered, hl, if_false, hne]
      rw [List.length_map, hchild]

theorem decisionMulti_runs_child_of_matching_key_witness :
    (multiNodes 100 =
        some (.multi (DecisionMulti.registered [(101, "idle"), (102, "idle"), (103, "run")])
          "action") ∧
      (∀ r ∈ [((101 : Ptr), "idle"), (102, "idle"), (103, "run")],
        r.2 ≠ DecisionMulti.value (fun _ => "") "action"
          (sampleEnvironment (0, 0) "jump").packet) ∧
      (∃ r ∈ [((101 : Ptr), "idle"), (102, "idle"), (103, "run")],
        r.2 = DecisionMulti.value (fun _ => "") "action"
          (sampleEnvironment (0, 0) "idle").packet)) ∧
    DecisionTreeNode.run (fun _ => "") multiNodes (1 + 1) 100 (sampleEnvironment (0, 0) "jump") =
      .ok (100, sampleEnvironment (0, 0) "jump") ∧
    (∃ child index,
      index = (sampleEnvironment (0, 0) "idle").randValues
          (sampleEnvironment (0, 0) "idle").randCalls %
        (([((101 : Ptr), "idle"), (102, "idle"), (103, "run")].filter (fun r =>
          r.2 = DecisionMulti.value (fun _ => "") "action"
            (sampleEnvironment (0, 0) "idle").packet)).length) ∧
      (([((101 : Ptr), "idle"), (102, "idle"), (103, "run")].filter (fun r =>
          r.2 = DecisionMulti.value (fun _ => "") "action"
            (sampleEnvironment (0, 0) "idle").packet)).map Prod.fst).get? index = some child ∧
      (child, DecisionMulti.value (fun _ => "") "action"
        (sampleEnvironment (0, 0) "idle").packet) ∈
          [((101 : Ptr), "idle"), (102, "idle"), (103, "run")] ∧
      DecisionTreeNode.run (fun _ => "") multiNodes (1 + 1) 100
          (sampleEnvironment (0, 0) "idle") =
        DecisionTreeNode.run (fun _ => "") multiNodes 1 child
          { sampleEnvironment (0, 0) "idle" with
            randCalls := (sampleEnvironment (0, 0) "idle").randCalls + 1 }) ∧
    (DecisionTreeNode.run (fun _ => "") multiNodes 2 100 (sampleEnvironment (0, 0) "idle")).map
      (fun r => (r.1, r.2.behaviors)) = .ok (102, [2]) :=
  ⟨⟨rfl, by decide, by decide⟩,
    (decisionMulti_runs_child_of_matching_key (fun _ => "") multiNodes 100
      [(101, "idle"), (102, "idle"), (103, "run")] "action" rfl 1
      (sampleEnvironment (0, 0) "jump")).1 (by decide),
    (decisionMulti_runs_child_of_matching_key (fun _ => "") multiNodes 100
      [(101, "idle"), (102, "idle"), (103, "run")] "action" rfl 1
      (sampleEnvironment (0, 0) "idle")).2 (by decide),
    rfl⟩

namespace AdjacencyListGraph

variable {V E : Type}

theorem vertexElement_eq_ok_iff (g : AdjacencyListGraph V E) (v : Ptr) (x : V) :
    g.vertexElement v = .ok x ↔ (g.vertexObj v).map (fun o => o.element) = some x := by
  unfold vertexElement vertexAt
  cases g.vertexObj v with
  | none => simp [Except.map]
  | some o => simp [Except.map]

theorem vertexAt_ne_invalidArgument (g : AdjacencyListGraph V E) (v : Ptr) :
    g.vertexAt v ≠ .error .invalidArgument := by
  unfold vertexAt
  cases g.vertexObj v <;> simp

theorem map_vertexAt_ne_invalidArgument {α : Type} (g : AdjacencyListGraph V E) (v : Ptr)
    (f : ALVertex V → α) : (g.vertexAt v).map f ≠ .error .invalidArgument := by
  unfold vertexAt
  cases g.vertexObj v <;> simp [Except.map]

theorem insertEdge_ne_invalidArgument (g : AdjacencyListGraph V E) (org dest : Ptr) (d : E) :
    g.insertEdge org dest d ≠ .error .invalidArgument := by
  intro h
  unfold AdjacencyListGraph.insertEdge at h
  simp only [bind, Except.bind, pure, Except.pure] at h
  split at h
  · rename_i fault h1
    cases h
    exact map_vertexAt_ne_invalidArgument _ _ _ h1
  · rename_i g2 h1
    split at h
    · rename_i fault h2
      cases h
      exact map_vertexAt_ne_invalidArgument _ _ _ h2
    · cases h

end AdjacencyListGraph

namespace DecisionTree

variable {B : Type}

theorem dynamicCast_ne_invalidArgument (nodes : Nodes B) (isT : DecisionTreeNode B → Bool)
    (v : Ptr) : dynamicCast nodes isT v ≠ .error .invalidArgument := by
  unfold dynamicCast
  intro h
  repeat' split at h
  all_goals cases h

theorem validateDecisionNode_ne_invalidArgument (nodes : Nodes B) (v : Ptr) :
    validateDecisionNode nodes v ≠ .error .invalidArgument := by
  unfold validateDecisionNode catchBadCast
  rw [if_neg (by decide)]
  exact dynamicCast_ne_invalidArgument _ _ _

theorem validateMultiNode_ne_invalidArgument (nodes : Nodes B) (v : Ptr) :
    validateMultiNode nodes v ≠ .error .invalidArgument := by
  unfold validateMultiNode catchBadCast
  rw [if_neg (by decide)]
  exact dynamicCast_ne_invalidArgument _ _ _

theorem dynamicCast_of_other (nodes : Nodes B) (isT : DecisionTreeNode B → Bool)
    (v : Ptr) (o : DecisionTreeNode B) (ho : nodes v = some o) (hT : isT o = false) :
    dynamicCast nodes isT v = .ok nullptr := by
  unfold dynamicCast
  by_cases hv : v = nullptr
  · rw [if_pos hv]
  · rw [if_neg hv, ho]
    simp [hT]

theorem setNode_ne_invalidArgument (nodes : Nodes B) (decision : Ptr) (value : Bool)
    (node : Ptr) : setNode nodes decision value node ≠ .error .invalidArgument := by
  unfold setNode
  intro h
  repeat' split at h
  all_goals cases h

theorem addChildNode_ne_invalidArgument (nodes : Nodes B) (multi child : Ptr)
    (onValue : String) : addChildNode nodes multi child onValue ≠ .error .invalidArgument := by
  unfold addChildNode
  intro h
  repeat' split at h
  all_goals cases h

theorem treeInsertNode_ne_invalidArgument {V E : Type} (t : Tree V E) (vertexData : V)
    (edgeData : E) (parent : Ptr) :
    t.insertNode vertexData edgeData parent ≠ .error .invalidArgument := by
  unfold Tree.insertNode
  intro h
  simp only at h
  split at h
  · cases h
  · rename_i fault hf
    cases h
    exact AdjacencyListGraph.insertEdge_ne_invalidArgument _ _ _ _ hf

theorem vertexElement_ne_invalidArgument {V E : Type} (g : AdjacencyListGraph V E) (v : Ptr) :
    g.vertexElement v ≠ .error .invalidArgument := by
  unfold AdjacencyListGraph.vertexElement AdjacencyListGraph.vertexAt
  cases g.vertexObj v <;> simp [Except.map]

/-- C18: `insertNode(child, parent, bool)` on a parent vertex whose node is not a
`Decision` and `insertNode(child, parent, string)` on a parent whose node is not a
`DecisionMulti` do not fail with `std::invalid_argument`: the `dynamic_cast` on a
pointer returns the null pointer, which `validateDecisionNode` and `validateMultiNode`
return, no call of the two `insertNode` throws `std::invalid_argument` on any input, and
on such a parent the call is undefined behaviour (a method call through the null
pointer) after `Tree::insertNode` has added the vertex and the edge. -/
theorem insertNode_under_wrong_parent_is_undefined (dt : DecisionTree B)
    (hbuilt : dt.tree.Built) (data parent element : Ptr) (o : DecisionTreeNode B)
    (hparent : parent ∈ dt.tree.graph.vertices)
    (helement : dt.tree.graph.vertexElement parent = .ok element)
    (hnode : dt.nodes element = some o) :
    (∀ (dt1 : DecisionTree B) data1 parent1 value1,
      dt1.insertNode data1 parent1 value1 ≠ .error .invalidArgument) ∧
    (∀ (dt1 : DecisionTree B) data1 parent1 value1,
      dt1.insertMultiNode data1 parent1 value1 ≠ .error .invalidArgument) ∧
    (∃ (node : Ptr) (tree1 : Bool → Tree Ptr Bool), ∀ value, dt.tree.insertNode data value parent = .ok (node, tree1 value) ∧
      (tree1 value).graph.numEdges = dt.tree.graph.numEdges + 1 ∧
      (tree1 value).children parent = (dt.tree.children parent).map (fun cs => cs ++ [node])) ∧
    ((∀ test truthNode falseNode, o ≠ .decision test truthNode falseNode) →
      validateDecisionNode dt.nodes element = .ok nullptr ∧
      ∀ value, dt.insertNode data parent value = .error .undefinedBehaviour) ∧
    ((∀ children testValue, o ≠ .multi children testValue) →
      validateMultiNode dt.nodes element = .ok nullptr ∧
      ∀ value, dt.insertMultiNode data parent value = .error .undefinedBehaviour) := by
  have ht := Tree.Built.rooted hbuilt
  have hp : parent ∈ dt.tree.graph.vertexList := hparent
  have hpne : parent ≠ dt.tree.graph.fresh := by
    intro h
    have := ht.wellFormed.2.2.2.2.2.1 parent hp
    rw [h] at this
    exact Nat.lt_irrefl _ this
  have hstep : ∀ value : Bool, ∃ t1, dt.tree.insertNode data value parent =
      .ok (dt.tree.graph.fresh, t1) ∧ t1.graph.vertexElement parent = .ok element ∧
      t1.graph.numEdges = dt.tree.graph.numEdges + 1 ∧
      t1.children parent =
        (dt.tree.children parent).map (fun cs => cs ++ [dt.tree.graph.fresh]) := by
    intro value
    obtain ⟨t1, h1, hr1, -, hvl, hel, hends, hold, hout, helem, -⟩ :=
      Tree.rooted_insertNode ht data value hp
    refine ⟨t1, h1, ?_, ?_, ?_⟩
    · rw [AdjacencyListGraph.vertexElement_eq_ok_iff, helem parent, if_neg hpne,
        ← AdjacencyListGraph.vertexElement_eq_ok_iff]
      exact helement
    · show t1.graph.edgeList.length = dt.tree.graph.edgeList.length + 1
      rw [hel]
      simp
    · have hp1 : parent ∈ t1.graph.vertexList := by
        rw [hvl]; exact List.mem_append_left _ hp
      rw [Tree.children_eq hr1.wellFormed hp1, Tree.children_eq ht.wellFormed hp, hout parent,
        if_neg hpne, if_pos rfl]
      simp only [Except.map, List.map_append, List.map_cons, List.map_nil,
        AdjacencyListGraph.target_of_ends hends]
      congr 2
      apply List.map_congr_left
      intro e he
      have hel' := ((ht.wellFormed.2.2.1 parent hp).2.2.2.2.1 e he).1
      unfold AdjacencyListGraph.target AdjacencyListGraph.ends
      rw [hold e hel']
  refine ⟨?_, ?_, ?_, ?_, ?_⟩
  · intro dt1 data1 parent1 value1 h
    unfold DecisionTree.insertNode at h
    repeat' split at h
    all_goals first
      | (cases h; done)
      | (cases h; first
          | exact setNode_ne_invalidArgument _ _ _ _ (by assumption)
          | exact validateDecisionNode_ne_invalidArgument _ _ (by assumption)
          | exact vertexElement_ne_invalidArgument _ _ (by assumption)
          | exact treeInsertNode_ne_invalidArgument _ _ _ _ (by assumption))
  · intro dt1 data1 parent1 value1 h
    unfold DecisionTree.insertMultiNode at h
    repeat' split at h
    all_goals first
      | (cases h; done)
      | (cases h; first
          | exact addChildNode_ne_invalidArgument _ _ _ _ (by assumption)
          | exact validateMultiNode_ne_invalidArgument _ _ (by assumption)
          | exact vertexElement_ne_invalidArgument _ _ (by assumption)
          | exact treeInsertNode_ne_invalidArgument _ _ _ _ (by assumption))
  · refine ⟨dt.tree.graph.fresh, fun value => (hstep value).choose, ?_⟩
    intro value
    obtain ⟨h1, -, h3, h4⟩ := (hstep value).choose_spec
    exact ⟨h1, h3, h4⟩
  · intro hnot
    have hv : validateDecisionNode dt.nodes element = .ok nullptr := by
      unfold validateDecisionNode catchBadCast
      rw [if_neg (by decide)]
      apply dynamicCast_of_other _ _ _ o hnode
      cases o with
      | decision test truthNode falseNode => exact absurd rfl (hnot test truthNode falseNode)
      | action _ => rfl
      | multi _ _ => rfl
    refine ⟨hv, ?_⟩
    intro value
    obtain ⟨t1, h1, h2, -⟩ := hstep value
    unfold DecisionTree.insertNode
    simp only [h1, h2, hv, setNode, if_true]
  · intro hnot
    have hv : validateMultiNode dt.nodes element = .ok nullptr := by
      unfold validateMultiNode catchBadCast
      rw [if_neg (by decide)]
      apply dynamicCast_of_other _ _ _ o hnode
      cases o with
      | multi children testValue => exact absurd rfl (hnot children testValue)
      | action _ => rfl
      | decision _ _ _ => rfl
    refine ⟨hv, ?_⟩
    intro value
    obtain ⟨t1, h1, h2, -⟩ := hstep false
    unfold DecisionTree.insertMultiNode
    simp only [h1, h2, hv, addChildNode, if_true]

end DecisionTree

namespace AdjacencyListGraph

variable {E : Type}

theorem vertexElement_of_mem {g : AdjacencyListGraph Ptr E} (hg : g.WellFormed) {v : Ptr}
    (hv : v ∈ g.vertexList) : g.vertexElement v = .ok (g.payload v) := by
  have h := (hg.2.2.1 v hv).2.1
  unfold vertexElement vertexAt payload
  cases hvo : g.vertexObj v with
  | none => simp [hvo] at h
  | some o => rfl

theorem payload_eq_of_map {g g1 : AdjacencyListGraph Ptr E} {v : Ptr}
    (h : (g1.vertexObj v).map (fun o => o.element) = (g.vertexObj v).map (fun o => o.element)) :
    g1.payload v = g.payload v := by
  unfold payload
  cases h1 : g1.vertexObj v <;> cases h2 : g.vertexObj v <;> simp_all

end AdjacencyListGraph

namespace DecisionTree

variable {B : Type}

/-- What a returning call of `insertNode` has done: the node of the parent is a
`Decision`, and its truth node or false node is the new node. -/
theorem insertNode_ok {dt dt1 : DecisionTree B} {data parent vertex : Ptr} {value : Bool}
    (ht : dt.tree.Rooted) (hp : parent ∈ dt.tree.graph.vertexList)
    (h : dt.insertNode data parent value = .ok (vertex, dt1)) :
    ∃ test truthNode falseNode,
      dt.tree.insertNode data value parent = .ok (vertex, dt1.tree) ∧
      dt.tree.graph.payload parent ≠ nullptr ∧
      dt.nodes (dt.tree.graph.payload parent) = some (.decision test truthNode falseNode) ∧
      dt1.nodes = dt.nodes.set (dt.tree.graph.payload parent)
        (.decision test (if value then some data else truthNode)
          (if value then falseNode else some data)) := by
  obtain ⟨t1, h1, hr1, -, -, -, -, -, -, helem, -⟩ :=
    Tree.rooted_insertNode ht data value hp
  have hpne : parent ≠ dt.tree.graph.fresh := by
    intro h
    have := ht.wellFormed.2.2.2.2.2.1 parent hp
    rw [h] at this
    exact Nat.lt_irrefl _ this
  have h2 : t1.graph.vertexElement parent = .ok (dt.tree.graph.payload parent) := by
    rw [AdjacencyListGraph.vertexElement_eq_ok_iff, helem parent, if_neg hpne,
      ← AdjacencyListGraph.vertexElement_eq_ok_iff]
    exact AdjacencyListGraph.vertexElement_of_mem ht.wellFormed hp
  unfold DecisionTree.insertNode at h
  simp only [h1, h2] at h
  unfold validateDecisionNode catchBadCast dynamicCast at h
  rw [if_neg (by decide)] at h
  by_cases hnull : dt.tree.graph.payload parent = nullptr
  · simp [hnull, setNode] at h
  · rw [if_neg hnull] at h
    cases hn : dt.nodes (dt.tree.graph.payload parent) with
    | none => simp [hn] at h
    | some o =>
      cases o with
      | action behaviors => simp [hn, setNode] at h
      | multi children testValue => simp [hn, setNode] at h
      | decision test truthNode falseNode =>
        simp only [hn, if_true, setNode, hnull, if_false] at h
        refine ⟨test, truthNode, falseNode, ?_, hnull, rfl, ?_⟩
        · cases value <;> simp at h <;> obtain ⟨h3, h4⟩ := h <;> subst h3 <;> subst h4 <;>
            exact h1
        · cases value <;> simp at h <;> obtain ⟨h3, h4⟩ := h <;> subst h4 <;> rfl

end DecisionTree

namespace AdjacencyListGraph

variable {E : Type}

theorem payload_eq_getD (g : AdjacencyListGraph Ptr E) (v : Ptr) :
    g.payload v = ((g.vertexObj v).map (fun o => o.element)).getD nullptr := by
  unfold payload
  cases g.vertexObj v <;> rfl

end AdjacencyListGraph

namespace DecisionTree

variable {B : Type}

/-- The tree of one `addRoot` on a new decision tree satisfies the invariant. -/
theorem wired_addRoot_new (nodes : Nodes B) (hnull : nodes nullptr = none) (root : Ptr) :
    ∃ dt, (DecisionTree.new nodes).addRoot root = .ok (1, dt) ∧ dt.Wired ∧
      dt.nodes = nodes ∧ dt.tree.root = 1 ∧ dt.tree.graph.vertexList = [1] ∧
      dt.tree.graph.payload 1 = root := by
  obtain ⟨t, ht, hr, hroot, hvl⟩ := Tree.rooted_addRoot_new (E := Bool) root
  have hout : t.graph.out 1 = [] := by
    have : (Tree.new : Tree Ptr Bool).addRoot root =
        .ok (1, { graph := ((AdjacencyListGraph.new true :
          AdjacencyListGraph Ptr Bool).insertVertex root).2, root := 1 }) := rfl
    rw [this] at ht
    cases ht
    rfl
  have hpay : t.graph.payload 1 = root := by
    have : (Tree.new : Tree Ptr Bool).addRoot root =
        .ok (1, { graph := ((AdjacencyListGraph.new true :
          AdjacencyListGraph Ptr Bool).insertVertex root).2, root := 1 }) := rfl
    rw [this] at ht
    cases ht
    rfl
  refine ⟨{ tree := t, nodes := nodes }, ?_, ⟨hr, hnull, ?_, ?_, ?_⟩, rfl, hroot, hvl, hpay⟩
  · unfold DecisionTree.addRoot DecisionTree.new
    simp only [ht]
  · intro u hu v hv _ _
    have hu' : u ∈ t.graph.vertexList := hu
    have hv' : v ∈ t.graph.vertexList := hv
    rw [hvl] at hu' hv'
    simp only [List.mem_singleton] at hu' hv'
    rw [hu', hv']
  · intro v hv hne
    have hv' : v ∈ t.graph.vertexList := hv
    rw [hvl] at hv'
    simp only [List.mem_singleton] at hv'
    subst hv'
    exact absurd hout hne
  · intro v hv test truthNode falseNode _
    have hv' : v ∈ t.graph.vertexList := hv
    rw [hvl] at hv'
    simp only [List.mem_singleton] at hv'
    subst hv'
    have hnone : ∀ b, DecisionTree.childUnder { tree := t, nodes := nodes } 1 b = none := by
      intro b
      unfold DecisionTree.childUnder DecisionTree.edgesLabelled
      show ((t.graph.out 1).filter _).getLast?.map _ = none
      rw [hout]
      rfl
    constructor
    · intro c hc
      rw [hnone] at hc
      cases hc
    · intro c hc
      rw [hnone] at hc
      cases hc

/-- A returning call of `insertNode` with a node that is not in the tree yet, or is an
`Action`, keeps the invariant. -/
theorem wired_insertNode {dt dt1 : DecisionTree B} (hw : dt.Wired)
    {data parent vertex : Ptr} {value : Bool} (hp : parent ∈ dt.tree.graph.vertexList)
    (hnew : ∀ v ∈ dt.tree.graph.vertexList, dt.tree.graph.vertexElement v = .ok data →
      ∃ behaviors, dt.nodes data = some (.action behaviors))
    (h : dt.insertNode data parent value = .ok (vertex, dt1)) : dt1.Wired := by
  obtain ⟨test, truthNode, falseNode, htree, hpnull, hnode, hnodes1⟩ :=
    insertNode_ok hw.rooted hp h
  obtain ⟨t1, h1, hr1, hroot, hvl, hel, hends, hold, hout, helem, hlabel⟩ :=
    Tree.rooted_insertNode hw.rooted data value hp
  have ht1 : t1 = dt1.tree := by
    rw [h1] at htree
    exact (Prod.mk.inj (Except.ok.inj htree)).2
  subst ht1
  have hg := hw.rooted.wellFormed
  have hne_v : ∀ u ∈ dt.tree.graph.vertexList, u ≠ dt.tree.graph.fresh := by
    intro u hu h
    have := hg.2.2.2.2.2.1 u hu
    rw [h] at this
    exact Nat.lt_irrefl _ this
  have hne_e : ∀ e ∈ dt.tree.graph.edgeList, e ≠ dt.tree.graph.fresh + 1 := by
    intro e he h
    have := hg.2.2.2.2.2.2 e he
    rw [h] at this
    exact Nat.lt_irrefl _ (Nat.lt_of_succ_lt this)
  have hpay : ∀ u, dt1.tree.graph.payload u =
      if u = dt.tree.graph.fresh then data else dt.tree.graph.payload u := by
    intro u
    rw [AdjacencyListGraph.payload_eq_getD, helem u]
    by_cases hu : u = dt.tree.graph.fresh
    · simp [hu]
    · rw [if_neg hu, if_neg hu, AdjacencyListGraph.payload_eq_getD]
  have hpay_old : ∀ u ∈ dt.tree.graph.vertexList,
      dt1.tree.graph.payload u = dt.tree.graph.payload u := by
    intro u hu
    rw [hpay u, if_neg (hne_v u hu)]
  have hdata : ∀ u ∈ dt.tree.graph.vertexList, dt.tree.graph.payload u = data →
      ∃ behaviors, dt.nodes data = some (.action behaviors) := by
    intro u hu heq
    apply hnew u hu
    rw [AdjacencyListGraph.vertexElement_of_mem hg hu, heq]
  have hlab_old : ∀ e ∈ dt.tree.graph.edgeList, dt1.label e = dt.label e := by
    intro e he
    unfold DecisionTree.label
    rw [hold e he]
  have hlab_new : dt1.label (dt.tree.graph.fresh + 1) = some value := by
    unfold DecisionTree.label
    unfold AdjacencyListGraph.edgeElement AdjacencyListGraph.edgeAt at hlabel
    cases ho : dt1.tree.graph.edgeObj (dt.tree.graph.fresh + 1) with
    | none =>
      rw [ho] at hlabel
      cases hlabel
    | some o =>
      rw [ho] at hlabel
      simp only [Except.map, Except.ok.injEq] at hlabel
      simp [hlabel]
  have htarget_old : ∀ e ∈ dt.tree.graph.edgeList,
      dt1.tree.graph.target e = dt.tree.graph.target e := by
    intro e he
    unfold AdjacencyListGraph.target AdjacencyListGraph.ends
    rw [hold e he]
  have htarget_new : dt1.tree.graph.target (dt.tree.graph.fresh + 1) = dt.tree.graph.fresh :=
    AdjacencyListGraph.target_of_ends hends
  have hout_el : ∀ v ∈ dt.tree.graph.vertexList, ∀ e ∈ dt.tree.graph.out v,
      e ∈ dt.tree.graph.edgeList := fun v hv e he => ((hg.2.2.1 v hv).2.2.2.2.1 e he).1
  have hfilter : ∀ v ∈ dt.tree.graph.vertexList, ∀ b,
      dt1.edgesLabelled v b = dt.edgesLabelled v b ++
        (if v = parent ∧ value = b then [dt.tree.graph.fresh + 1] else []) := by
    intro v hv b
    unfold DecisionTree.edgesLabelled
    rw [hout v, if_neg (hne_v v hv), List.filter_append]
    congr 1
    · apply List.filter_congr
      intro e he
      rw [hlab_old e (hout_el v hv e he)]
    · by_cases hvp : v = parent
      · by_cases hb : value = b
        · simp [hvp, hb, hlab_new]
        · simp [hvp, hb, hlab_new]
      · simp [hvp]
  have hchild : ∀ v ∈ dt.tree.graph.vertexList, ∀ b,
      dt1.childUnder v b = if v = parent ∧ value = b then some data else dt.childUnder v b := by
    intro v hv b
    unfold DecisionTree.childUnder
    rw [hfilter v hv b]
    by_cases hc : v = parent ∧ value = b
    · rw [if_pos hc, if_pos hc, List.getLast?_concat, Option.map_some', htarget_new, hpay,
        if_pos rfl]
    · rw [if_neg hc, if_neg hc, List.append_nil]
      cases hl : (dt.edgesLabelled v b).getLast? with
      | none => rfl
      | some e =>
        have he : e ∈ dt.edgesLabelled v b := List.mem_of_getLast?_eq_some hl
        have he' : e ∈ dt.tree.graph.out v := List.mem_of_mem_filter he
        obtain ⟨w, hw', hwe, hel'⟩ := AdjacencyListGraph.WellFormed.out_edge hg hv he'
        simp only [Option.map_some', Option.some.injEq]
        rw [htarget_old e hel', AdjacencyListGraph.target_of_ends hwe, hpay_old w hw']
  have hmem1 : ∀ v, v ∈ dt1.tree.graph.vertexList ↔
      v ∈ dt.tree.graph.vertexList ∨ v = dt.tree.graph.fresh := by
    intro v
    rw [hvl]
    simp
  have hout_new : dt1.tree.graph.out dt.tree.graph.fresh = [] := by
    rw [hout, if_pos rfl, if_neg (fun h => hne_v parent hp h.symm)]
    rfl
  have hnodes_other : ∀ v ∈ dt.tree.graph.vertexList, v ≠ parent →
      dt1.nodes (dt.tree.graph.payload v) = dt.nodes (dt.tree.graph.payload v) := by
    intro v hv hvp
    rw [hnodes1]
    unfold Nodes.set
    rw [if_neg (fun heq => hvp (hw.injective v hv parent hp heq
      ⟨test, truthNode, falseNode, by rw [heq]; exact hnode⟩))]
  have hnodes_parent : dt1.nodes (dt.tree.graph.payload parent) =
      some (.decision test (if value then some data else truthNode)
        (if value then falseNode else some data)) := by
    rw [hnodes1]
    unfold Nodes.set
    rw [if_pos rfl]
  refine ⟨hr1, ?_, ?_, ?_, ?_⟩
  · rw [hnodes1]
    unfold Nodes.set
    rw [if_neg (fun heq => hpnull heq.symm)]
    exact hw.null
  · intro u hu v hv heq hdec
    have hkind : ∀ q test2 truthNode2 falseNode2,
        dt1.nodes q = some (.decision test2 truthNode2 falseNode2) →
        ∃ test3 truthNode3 falseNode3,
          dt.nodes q = some (.decision test3 truthNode3 falseNode3) := by
      intro q test2 truthNode2 falseNode2 hq
      rw [hnodes1] at hq
      unfold Nodes.set at hq
      by_cases hqp : q = dt.tree.graph.payload parent
      · exact ⟨test, truthNode, falseNode, by rw [hqp]; exact hnode⟩
      · rw [if_neg hqp] at hq
        exact ⟨_, _, _, hq⟩
    have hnotdata : ∀ w ∈ dt.tree.graph.vertexList, dt.tree.graph.payload w = data →
        ∀ test2 truthNode2 falseNode2,
          dt1.nodes data ≠ some (.decision test2 truthNode2 falseNode2) := by
      intro w hw' hwd test2 truthNode2 falseNode2 hq
      obtain ⟨behaviors, hb⟩ := hdata w hw' hwd
      obtain ⟨_, _, _, hq'⟩ := hkind _ _ _ _ hq
      rw [hb] at hq'
      cases hq'
    obtain ⟨test2, truthNode2, falseNode2, hdec⟩ := hdec
    rw [hpay u] at hdec
    rw [hpay u, hpay v] at heq
    rcases (hmem1 u).mp hu with hu' | hu' <;> rcases (hmem1 v).mp hv with hv' | hv'
    · rw [if_neg (hne_v u hu'), if_neg (hne_v v hv')] at heq
      rw [if_neg (hne_v u hu')] at hdec
      exact hw.injective u hu' v hv' heq (hkind _ _ _ _ hdec)
    · rw [if_neg (hne_v u hu'), if_pos hv'] at heq
      rw [if_neg (hne_v u hu'), heq] at hdec
      exact absurd hdec (hnotdata u hu' heq _ _ _)
    · rw [if_pos hu', if_neg (hne_v v hv')] at heq
      rw [if_pos hu'] at hdec
      exact absurd hdec (hnotdata v hv' heq.symm _ _ _)
    · rw [hu', hv']
  · intro v hv hne
    rcases (hmem1 v).mp hv with hv' | hv'
    · rw [hpay_old v hv']
      by_cases hvp : v = parent
      · subst hvp
        exact ⟨_, _, _, hnodes_parent⟩
      · rw [hnodes_other v hv' hvp]
        apply hw.internal v hv'
        rw [hout v, if_neg (hne_v v hv'), if_neg hvp, List.append_nil] at hne
        exact hne
    · subst hv'
      exact absurd hout_new hne
  · intro v hv test2 truthNode2 falseNode2 hnode2
    rcases (hmem1 v).mp hv with hv' | hv'
    · rw [hpay_old v hv'] at hnode2
      rw [hchild v hv' true, hchild v hv' false]
      by_cases hvp : v = parent
      · subst hvp
        rw [hnodes_parent] at hnode2
        simp only [Option.some.injEq, DecisionTreeNode.decision.injEq] at hnode2
        obtain ⟨-, h2, h3⟩ := hnode2
        have hold_w := hw.wired v hv' test truthNode falseNode hnode
        cases value with
        | true =>
          simp only [if_true] at h2 h3
          subst h2; subst h3
          constructor
          · intro c hc
            simp only [true_and, if_true] at hc
            exact hc
          · intro c hc
            simp only [Bool.true_eq_false, and_false, if_false] at hc
            exact hold_w.2 c hc
        | false =>
          simp only [Bool.false_eq_true, if_false] at h2 h3
          subst h2; subst h3
          constructor
          · intro c hc
            simp only [Bool.false_eq_true, and_false, if_false] at hc
            exact hold_w.1 c hc
          · intro c hc
            simp only [true_and, if_true] at hc
            exact hc
      · rw [hnodes_other v hv' hvp] at hnode2
        have hold_w := hw.wired v hv' test2 truthNode2 falseNode2 hnode2
        simp only [hvp, false_and, if_false]
        exact hold_w
    · subst hv'
      have hnone : ∀ b, dt1.childUnder dt.tree.graph.fresh b = none := by
        intro b
        unfold DecisionTree.childUnder DecisionTree.edgesLabelled
        rw [hout_new]
        rfl
      constructor
      · intro c hc
        rw [hnone] at hc
        cases hc
      · intro c hc
        rw [hnone] at hc
        cases hc

/-- Every decision tree that `addRoot` and `insertNode` build satisfies the invariant. -/
theorem Built.wired {dt : DecisionTree B} (h : dt.Built) : dt.Wired := by
  induction h with
  | addRoot nodes root vertex dt hnull hres =>
    obtain ⟨dt0, h0, hw, -⟩ := wired_addRoot_new nodes hnull root
    rw [h0] at hres
    cases hres
    exact hw
  | insertNode dt data parent value vertex dt1 _ hp hnew hres ih =>
    exact wired_insertNode ih hp hnew hres

end DecisionTree

theorem sub_le_of_lt_step (fresh v c n : Nat) (hvc : v < c) (hc : c < fresh)
    (hn : fresh - v ≤ n + 1) : fresh - c ≤ n := by
  omega

theorem not_sub_le_zero (fresh v : Nat) (hv : v < fresh) : ¬ fresh - v ≤ 0 := by
  omega

namespace DecisionTree

variable {B : Type}

/-- In a wired tree whose `Decision` vertices have one edge per label and whose leaves
hold `Action`s, `run` from the node of a vertex follows the branch to an `Action`. -/
theorem Wired.run_branch {dt : DecisionTree B} (hw : dt.Wired) (toString : Rat → String)
    (hdecision : ∀ v ∈ dt.tree.graph.vertexList, ∀ test truthNode falseNode,
      dt.nodes (dt.tree.graph.payload v) = some (.decision test truthNode falseNode) →
      ∀ b, ∃ e, dt.edgesLabelled v b = [e])
    (hleaf : ∀ v ∈ dt.tree.graph.vertexList, dt.tree.graph.out v = [] →
      ∃ behaviors, dt.nodes (dt.tree.graph.payload v) = some (.action behaviors))
    (environment : EnvironmentParameters B) :
    ∀ (n : Nat), ∀ v ∈ dt.tree.graph.vertexList, dt.tree.graph.fresh - v ≤ n →
      ∃ leaf behaviors,
        dt.Branch environment.position v leaf ∧ leaf ∈ dt.tree.graph.vertexList ∧
        dt.nodes (dt.tree.graph.payload leaf) = some (.action behaviors) ∧
        ∀ fuel, n ≤ fuel →
          DecisionTreeNode.run toString dt.nodes fuel (dt.tree.graph.payload v) environment =
            .ok (dt.tree.graph.payload leaf, { environment with behaviors := behaviors }) := by
  have hg := hw.rooted.wellFormed
  intro n
  induction n with
  | zero =>
    intro v hv hn
    exact absurd hn (not_sub_le_zero _ _ (hg.2.2.2.2.2.1 v hv))
  | succ n ih =>
    intro v hv hn
    by_cases hout : dt.tree.graph.out v = []
    · obtain ⟨behaviors, hb⟩ := hleaf v hv hout
      refine ⟨v, behaviors, Branch.leaf v _ behaviors
        (AdjacencyListGraph.vertexElement_of_mem hg hv) hb, hv, hb, ?_⟩
      intro fuel hfuel
      obtain ⟨fuel, rfl⟩ : ∃ f, fuel = f + 1 := ⟨fuel - 1, by omega⟩
      simp only [DecisionTreeNode.run, hb]
    · obtain ⟨test, truthNode, falseNode, hd⟩ := hw.internal v hv hout
      obtain ⟨e, he⟩ := hdecision v hv test truthNode falseNode hd
        (test.holds environment.position)
      have hmem : e ∈ dt.edgesLabelled v (test.holds environment.position) := by
        rw [he]; simp
      have hmem' : e ∈ dt.tree.graph.out v := List.mem_of_mem_filter hmem
      obtain ⟨c, hc, hends, hel⟩ := AdjacencyListGraph.WellFormed.out_edge hg hv hmem'
      have hlt : v < c := hw.rooted.ordered e hel v c hends
      have hcf := hg.2.2.2.2.2.1 c hc
      obtain ⟨leaf, behaviors, hbranch, hleafmem, hact, hrun⟩ :=
        ih c hc (sub_le_of_lt_step _ _ _ _ hlt hcf hn)
      have hchild : dt.childUnder v (test.holds environment.position) =
          some (dt.tree.graph.payload c) := by
        unfold DecisionTree.childUnder
        rw [he]
        simp [AdjacencyListGraph.target_of_ends hends]
      refine ⟨leaf, behaviors, Branch.step v _ test truthNode falseNode e c leaf
        (AdjacencyListGraph.vertexElement_of_mem hg hv) hd hmem
        (AdjacencyListGraph.opposite_of_ends_fst hends) hbranch, hleafmem, hact, ?_⟩
      intro fuel hfuel
      obtain ⟨fuel, rfl⟩ : ∃ f, fuel = f + 1 := ⟨fuel - 1, by omega⟩
      have hwired := hw.wired v hv test truthNode falseNode hd
      cases hb : test.holds environment.position with
      | true =>
        rw [hb] at hchild
        have := hwired.1 _ hchild
        subst this
        simp only [DecisionTreeNode.run, hd, hb, if_true]
        exact hrun fuel (by omega)
      | false =>
        rw [hb] at hchild
        have := hwired.2 _ hchild
        subst this
        simp only [DecisionTreeNode.run, hd, hb, Bool.false_eq_true, if_false]
        exact hrun fuel (by omega)

theorem Branch.cases_on_vertex {dt : DecisionTree B} {position : Rat × Rat} {v leaf : Ptr}
    (h : dt.Branch position v leaf) :
    (∃ action behaviors, v = leaf ∧ dt.tree.graph.vertexElement v = .ok action ∧
      dt.nodes action = some (.action behaviors)) ∨
    (∃ element test truthNode falseNode e child,
      dt.tree.graph.vertexElement v = .ok element ∧
      dt.nodes element = some (.decision test truthNode falseNode) ∧
      e ∈ dt.edgesLabelled v (test.holds position) ∧
      dt.tree.graph.opposite v e = .ok child ∧ dt.Branch position child leaf) := by
  cases h
  · exact Or.inl ⟨_, _, rfl, ‹_›, ‹_›⟩
  · exact Or.inr ⟨_, _, _, _, _, _, ‹_›, ‹_›, ‹_›, ‹_›, ‹_›⟩

/-- There is only one branch from a vertex when every `Decision` vertex has one edge per
label. -/
theorem Branch.unique {dt : DecisionTree B} {position : Rat × Rat}
    (hg : dt.tree.graph.WellFormed)
    (hone : ∀ v ∈ dt.tree.graph.vertexList, ∀ element test truthNode falseNode,
      dt.tree.graph.vertexElement v = .ok element →
      dt.nodes element = some (.decision test truthNode falseNode) →
      ∀ b, ∀ e1 ∈ dt.edgesLabelled v b, ∀ e2 ∈ dt.edgesLabelled v b, e1 = e2)
    {v leaf1 leaf2 : Ptr} (hmem : v ∈ dt.tree.graph.vertexList)
    (h1 : dt.Branch position v leaf1) (h2 : dt.Branch position v leaf2) :
    leaf1 = leaf2 := by
  induction h1 with
  | leaf v action behaviors hv ha =>
    rcases Branch.cases_on_vertex h2 with ⟨_, _, heq, _, _⟩ | ⟨_, _, _, _, _, _, hv2, hd, _⟩
    · exact heq
    · rw [hv] at hv2
      cases hv2
      rw [ha] at hd
      cases hd
  | step v element test truthNode falseNode e child leaf hv hd he hopp _ ih =>
    have hchild : child ∈ dt.tree.graph.vertexList := by
      obtain ⟨w, hw, hends, _⟩ :=
        AdjacencyListGraph.WellFormed.out_edge hg hmem (List.mem_of_mem_filter he)
      rw [AdjacencyListGraph.opposite_of_ends_fst hends] at hopp
      cases hopp
      exact hw
    rcases Branch.cases_on_vertex h2 with
      ⟨_, _, _, hv2, ha⟩ | ⟨_, _, _, _, e2, child2, hv2, hd2, he2, hopp2, hb2⟩
    · rw [hv] at hv2
      cases hv2
      rw [ha] at hd
      cases hd
    · rw [hv] at hv2
      cases hv2
      rw [hd] at hd2
      cases hd2
      have := hone v hmem element test truthNode falseNode hv hd _ e he e2 he2
      subst this
      rw [hopp] at hopp2
      cases hopp2
      exact ih hchild hb2

/-- C16: in every decision tree built with `addRoot` and `insertNode`, no `Decision`
being inserted twice, in which every `Decision` vertex has one child inserted with
`true` and one with `false` and every leaf is an `Action`, `decide` returns for every
fuel from some bound on: it follows the one branch from the root on which the vertex of
a `Decision` whose condition holds is followed by the child inserted with `true`, and
otherwise by the child inserted with `false`; it returns the `Action` at the end of that
branch, does what one call of `run` of that `Action` does, and leaves the behaviors of
the character equal to those of the `Action`.  On a tree without root it returns null
and changes nothing. -/
theorem decide_follows_one_branch_to_an_action (toString : Rat → String)
    (dt : DecisionTree B) (hbuilt : dt.Built)
    (hdecision : ∀ v ∈ dt.tree.graph.vertices, ∀ element test truthNode falseNode,
      dt.tree.graph.vertexElement v = .ok element →
      dt.nodes element = some (.decision test truthNode falseNode) →
      (dt.edgesLabelled v true).length = 1 ∧ (dt.edgesLabelled v false).length = 1)
    (hleaf : ∀ v ∈ dt.tree.graph.vertices, dt.tree.children v = .ok [] →
      ∃ element behaviors, dt.tree.graph.vertexElement v = .ok element ∧
        dt.nodes element = some (.action behaviors))
    (environment : EnvironmentParameters B) :
    (∃ leaf action behaviors bound,
      dt.Branch environment.position dt.tree.getRoot leaf ∧
      (∀ leaf1, dt.Branch environment.position dt.tree.getRoot leaf1 → leaf1 = leaf) ∧
      leaf ∈ dt.tree.graph.vertices ∧
      dt.tree.graph.vertexElement leaf = .ok action ∧
      dt.nodes action = some (.action behaviors) ∧
      ∀ fuel, bound ≤ fuel →
        dt.decide toString fuel environment =
          .ok (action, { environment with behaviors := behaviors }) ∧
        dt.decide toString fuel environment =
          DecisionTreeNode.run toString dt.nodes 1 action environment) ∧
    (∀ (nodes : Nodes B) fuel,
      (DecisionTree.new nodes).decide toString fuel environment = .ok (nullptr, environment)) := by
  have hw := Built.wired hbuilt
  have hg := hw.rooted.wellFormed
  have hlen1 : ∀ (l : List Ptr), l.length = 1 → ∃ e, l = [e] := by
    intro l hl
    match l, hl with
    | [e], _ => exact ⟨e, rfl⟩
  have hdecision' : ∀ v ∈ dt.tree.graph.vertexList, ∀ test truthNode falseNode,
      dt.nodes (dt.tree.graph.payload v) = some (.decision test truthNode falseNode) →
      ∀ b, ∃ e, dt.edgesLabelled v b = [e] := by
    intro v hv test truthNode falseNode hd b
    have := hdecision v hv _ test truthNode falseNode
      (AdjacencyListGraph.vertexElement_of_mem hg hv) hd
    cases b with
    | true => exact hlen1 _ this.1
    | false => exact hlen1 _ this.2
  have hleaf' : ∀ v ∈ dt.tree.graph.vertexList, dt.tree.graph.out v = [] →
      ∃ behaviors, dt.nodes (dt.tree.graph.payload v) = some (.action behaviors) := by
    intro v hv hout
    have hch : dt.tree.children v = .ok [] := by
      rw [Tree.children_eq hg hv, hout]
      rfl
    obtain ⟨element, behaviors, he, hb⟩ := hleaf v hv hch
    rw [AdjacencyListGraph.vertexElement_of_mem hg hv] at he
    cases he
    exact ⟨behaviors, hb⟩
  refine ⟨?_, ?_⟩
  · obtain ⟨leaf, behaviors, hbranch, hleafmem, hact, hrun⟩ :=
      Wired.run_branch hw toString hdecision' hleaf' environment dt.tree.graph.fresh
        dt.tree.root hw.rooted.root_mem (Nat.sub_le _ _)
    refine ⟨leaf, dt.tree.graph.payload leaf, behaviors, dt.tree.graph.fresh + 1, hbranch, ?_,
      hleafmem, AdjacencyListGraph.vertexElement_of_mem hg hleafmem, hact, ?_⟩
    · intro leaf1 h1
      refine Branch.unique hg ?_ hw.rooted.root_mem h1 hbranch
      intro v hvmem element test truthNode falseNode hv hd b e1 he1 e2 he2
      have hpay := AdjacencyListGraph.vertexElement_of_mem hg hvmem
      rw [hv] at hpay
      cases hpay
      obtain ⟨e, he⟩ := hdecision' v hvmem test truthNode falseNode hd b
      rw [he] at he1 he2
      simp only [List.mem_singleton] at he1 he2
      rw [he1, he2]
    · intro fuel hfuel
      have hrootne : dt.tree.root ≠ nullptr := (hg.2.2.1 _ hw.rooted.root_mem).1
      have hpayne : dt.tree.graph.payload dt.tree.root ≠ nullptr := by
        intro h
        by_cases hout : dt.tree.graph.out dt.tree.root = []
        · obtain ⟨bs, hb⟩ := hleaf' _ hw.rooted.root_mem hout
          rw [h, hw.null] at hb
          cases hb
        · obtain ⟨test, t, f, hd⟩ := hw.internal _ hw.rooted.root_mem hout
          rw [h, hw.null] at hd
          cases hd
      have hdec : dt.decide toString fuel environment =
          .ok (dt.tree.graph.payload leaf, { environment with behaviors := behaviors }) := by
        unfold DecisionTree.decide Tree.getRoot
        rw [if_neg hrootne, AdjacencyListGraph.vertexElement_of_mem hg hw.rooted.root_mem]
        simp only [hpayne, if_false]
        exact hrun fuel (by omega)
      refine ⟨hdec, ?_⟩
      rw [hdec]
      simp only [DecisionTreeNode.run, hact]
  · intro nodes fuel
    rfl

end DecisionTree

theorem actionRootTree_built : actionRootTree.tree.Built :=
  Tree.Built.addRoot 101 1 _ rfl

theorem insertNode_under_wrong_parent_is_undefined_witness :
    (actionRootTree.tree.Built ∧ 1 ∈ actionRootTree.tree.graph.vertices ∧
      actionRootTree.tree.graph.vertexElement 1 = .ok 101 ∧
      actionRootTree.nodes 101 = some (.action [1])) ∧
    (DecisionTree.validateDecisionNode actionRootTree.nodes 101 = .ok nullptr ∧
      ∀ value, actionRootTree.insertNode 103 1 value = .error .undefinedBehaviour) ∧
    (DecisionTree.validateMultiNode actionRootTree.nodes 101 = .ok nullptr ∧
      ∀ value, actionRootTree.insertMultiNode 103 1 value = .error .undefinedBehaviour) ∧
    (actionRootTree.tree.insertNode 103 true 1).map
      (fun r => (r.1, r.2.graph.vertices, r.2.graph.edges, r.2.children 1)) =
        .ok (2, [1, 2], [3], .ok [2]) :=
  ⟨⟨actionRootTree_built, by decide, rfl, rfl⟩,
    (DecisionTree.insertNode_under_wrong_parent_is_undefined actionRootTree
      actionRootTree_built 103 1 101 (.action [1]) (by decide) rfl rfl).2.2.2.1
      (fun _ _ _ h => by cases h),
    (DecisionTree.insertNode_under_wrong_parent_is_undefined actionRootTree
      actionRootTree_built 103 1 101 (.action [1]) (by decide) rfl rfl).2.2.2.2
      (fun _ _ h => by cases h),
    rfl⟩

/-- The decision tree of `SceneA` is built by `addRoot` and `insertNode`. -/
theorem sceneATree_built : sceneATree.Built := by
  have hnew : ∀ (dt : DecisionTree Nat) (data element : Ptr) (v : Ptr),
      dt.tree.graph.vertexElement v = .ok element → element ≠ data →
      dt.tree.graph.vertexElement v ≠ .ok data := by
    intro dt data element v h hne h2
    rw [h] at h2
    exact hne (Except.ok.inj h2)
  have b0 : (decisionTreeOf ((DecisionTree.new sceneANodes).addRoot 100 |>.map
      Prod.snd)).Built := DecisionTree.Built.addRoot sceneANodes 100 1 _ rfl rfl
  have b1 := DecisionTree.Built.insertNode _ 101 1 true 2 _ b0 (by decide)
    (by
      intro v hv
      have hv' : v ∈ [(1 : Ptr)] := hv
      simp only [List.mem_singleton] at hv'
      subst hv'
      exact fun h => absurd h (hnew _ _ 100 _ rfl (by decide))) rfl
  have b2 := DecisionTree.Built.insertNode _ 102 1 false 4 _ b1 (by decide)
    (by
      intro v hv
      have hv' : v ∈ [(1 : Ptr), 2] := hv
      simp only [List.mem_cons, List.mem_singleton, List.not_mem_nil, or_false] at hv'
      rcases hv' with rfl | rfl
      · exact fun h => absurd h (hnew _ _ 100 _ rfl (by decide))
      · exact fun h => absurd h (hnew _ _ 101 _ rfl (by decide))) rfl
  have b3 := DecisionTree.Built.insertNode _ 103 4 true 6 _ b2 (by decide)
    (by
      intro v hv
      have hv' : v ∈ [(1 : Ptr), 2, 4] := hv
      simp only [List.mem_cons, List.mem_singleton, List.not_mem_nil, or_false] at hv'
      rcases hv' with rfl | rfl | rfl
      · exact fun h => absurd h (hnew _ _ 100 _ rfl (by decide))
      · exact fun h => absurd h (hnew _ _ 101 _ rfl (by decide))
      · exact fun h => absurd h (hnew _ _ 102 _ rfl (by decide))) rfl
  have b4 := DecisionTree.Built.insertNode _ 104 4 false 8 _ b3 (by decide)
    (by
      intro v hv
      have hv' : v ∈ [(1 : Ptr), 2, 4, 6] := hv
      simp only [List.mem_cons, List.mem_singleton, List.not_mem_nil, or_false] at hv'
      rcases hv' with rfl | rfl | rfl | rfl
      · exact fun h => absurd h (hnew _ _ 100 _ rfl (by decide))
      · exact fun h => absurd h (hnew _ _ 101 _ rfl (by decide))
      · exact fun h => absurd h (hnew _ _ 102 _ rfl (by decide))
      · exact fun h => absurd h (hnew _ _ 103 _ rfl (by decide))) rfl
  have b5 := DecisionTree.Built.insertNode _ 105 8 true 10 _ b4 (by decide)
    (by
      intro v hv
      have hv' : v ∈ [(1 : Ptr), 2, 4, 6, 8] := hv
      simp only [List.mem_cons, List.mem_singleton, List.not_mem_nil, or_false] at hv'
      rcases hv' with rfl | rfl | rfl | rfl | rfl
      · exact fun h => absurd h (hnew _ _ 100 _ rfl (by decide))
      · exact fun h => absurd h (hnew _ _ 101 _ rfl (by decide))
      · exact fun h => absurd h (hnew _ _ 102 _ rfl (by decide))
      · exact fun h => absurd h (hnew _ _ 103 _ rfl (by decide))
      · exact fun h => absurd h (hnew _ _ 104 _ rfl (by decide))) rfl
  exact DecisionTree.Built.insertNode _ 106 8 false 12 _ b5 (by decide)
    (by
      intro v hv
      have hv' : v ∈ [(1 : Ptr), 2, 4, 6, 8, 10] := hv
      simp only [List.mem_cons, List.mem_singleton, List.not_mem_nil, or_false] at hv'
      rcases hv' with rfl | rfl | rfl | rfl | rfl | rfl
      · exact fun h => absurd h (hnew _ _ 100 _ rfl (by decide))
      · exact fun h => absurd h (hnew _ _ 101 _ rfl (by decide))
      · exact fun h => absurd h (hnew _ _ 102 _ rfl (by decide))
      · exact fun h => absurd h (hnew _ _ 103 _ rfl (by decide))
      · exact fun h => absurd h (hnew _ _ 104 _ rfl (by decide))
      · exact fun h => absurd h (hnew _ _ 105 _ rfl (by decide))) rfl

theorem sceneATree_decisions :
    ∀ v ∈ sceneATree.tree.graph.vertices, ∀ element test truthNode falseNode,
      sceneATree.tree.graph.vertexElement v = .ok element →
      sceneATree.nodes element = some (.decision test truthNode falseNode) →
      (sceneATree.edgesLabelled v true).length = 1 ∧
      (sceneATree.edgesLabelled v false).length = 1 := by
  intro v hv element test truthNode falseNode he hd
  have hv' : v ∈ [(1 : Ptr), 2, 4, 6, 8, 10, 12] := hv
  simp only [List.mem_cons, List.mem_singleton, List.not_mem_nil, or_false] at hv'
  rcases hv' with rfl | rfl | rfl | rfl | rfl | rfl | rfl
  · exact ⟨rfl, rfl⟩
  · have he' : (Except.ok 101 : Except Fault Ptr) = .ok element := he
    cases he'
    have hd' : some (DecisionTreeNode.action [1]) =
      some (DecisionTreeNode.decision test truthNode falseNode) := hd
    cases hd'
  · exact ⟨rfl, rfl⟩
  · have he' : (Except.ok 103 : Except Fault Ptr) = .ok element := he
    cases he'
    have hd' : some (DecisionTreeNode.action [2]) =
      some (DecisionTreeNode.decision test truthNode falseNode) := hd
    cases hd'
  · exact ⟨rfl, rfl⟩
  · have he' : (Except.ok 105 : Except Fault Ptr) = .ok element := he
    cases he'
    have hd' : some (DecisionTreeNode.action [3]) =
      some (DecisionTreeNode.decision test truthNode falseNode) := hd
    cases hd'
  · have he' : (Except.ok 106 : Except Fault Ptr) = .ok element := he
    cases he'
    have hd' : some (DecisionTreeNode.action [4]) =
      some (DecisionTreeNode.decision test truthNode falseNode) := hd
    cases hd'

theorem sceneATree_leaves :
    ∀ v ∈ sceneATree.tree.graph.vertices, sceneATree.tree.children v = .ok [] →
      ∃ element behaviors, sceneATree.tree.graph.vertexElement v = .ok element ∧
        sceneATree.nodes element = some (.action behaviors) := by
  intro v hv hc
  have hv' : v ∈ [(1 : Ptr), 2, 4, 6, 8, 10, 12] := hv
  simp only [List.mem_cons, List.mem_singleton, List.not_mem_nil, or_false] at hv'
  rcases hv' with rfl | rfl | rfl | rfl | rfl | rfl | rfl
  · have hc' : (Except.ok [2, 4] : Except Fault (List Ptr)) = .ok [] := hc
    cases hc'
  · exact ⟨101, [1], rfl, rfl⟩
  · have hc' : (Except.ok [6, 8] : Except Fault (List Ptr)) = .ok [] := hc
    cases hc'
  · exact ⟨103, [2], rfl, rfl⟩
  · have hc' : (Except.ok [10, 12] : Except Fault (List Ptr)) = .ok [] := hc
    cases hc'
  · exact ⟨105, [3], rfl, rfl⟩
  · exact ⟨106, [4], rfl, rfl⟩

theorem decide_follows_one_branch_to_an_action_witness :
    sceneATree.Built ∧
    (∃ leaf action behaviors bound,
      sceneATree.Branch (sampleEnvironment (600, 450) "").position sceneATree.tree.getRoot leaf ∧
      (∀ leaf1, sceneATree.Branch (sampleEnvironment (600, 450) "").position
        sceneATree.tree.getRoot leaf1 → leaf1 = leaf) ∧
      leaf ∈ sceneATree.tree.graph.vertices ∧
      sceneATree.tree.graph.vertexElement leaf = .ok action ∧
      sceneATree.nodes action = some (.action behaviors) ∧
      ∀ fuel, bound ≤ fuel →
        sceneATree.decide (fun _ => "") fuel (sampleEnvironment (600, 450) "") =
          .ok (action, { sampleEnvironment (600, 450) "" with behaviors := behaviors }) ∧
        sceneATree.decide (fun _ => "") fuel (sampleEnvironment (600, 450) "") =
          DecisionTreeNode.run (fun _ => "") sceneATree.nodes 1 action
            (sampleEnvironment (600, 450) "")) ∧
    (sceneATree.decide (fun _ => "") 5 (sampleEnvironment (600, 450) "")).map
      (fun r => (r.1, r.2.behaviors)) = .ok (101, [1]) ∧
    (sceneATree.decide (fun _ => "") 5 (sampleEnvironment (10, 450) "")).map
      (fun r => (r.1, r.2.behaviors)) = .ok (105, [3]) :=
  ⟨sceneATree_built,
    (DecisionTree.decide_follows_one_branch_to_an_action (fun _ => "") sceneATree
      sceneATree_built sceneATree_decisions sceneATree_leaves
      (sampleEnvironment (600, 450) "")).1,
    rfl, by
      simp only [DecisionTree.decide, sceneATree]
      rfl⟩
/-! ### Adjacency views of an undirected graph -/

namespace AdjacencyListGraph

variable {V E : Type}

/-- C21: in a well-formed graph constructed as undirected (`directed = false`),
`insertEdge(u, v, w)` between two different vertices returns a new edge `e` that is
contained in `outgoingEdges(u)` and `incomingEdges(v)` but neither in `incomingEdges(u)`
nor in `outgoingEdges(v)`, and afterwards `outDegree(u)` is `inDegree(u)` only if it was
one less before: the constructor of `ALVertex` copies the outgoing vector into the
incoming one, so the two vectors are separate objects and `addOutgoing` and
`addIncoming` each change one of them. -/
theorem insertEdge_undirected_fills_one_view_per_endpoint (g : AdjacencyListGraph V E)
    (hg : g.WellFormed) (hdir : g.directed = false) (u v : Ptr) (w : E)
    (hu : u ∈ g.vertices) (hv : v ∈ g.vertices) (huv : u ≠ v) :
    ∃ e g', g.insertEdge u v w = .ok (e, g') ∧ g'.directed = false ∧
      (∃ l, g'.outgoingEdges u = .ok l ∧ e ∈ l) ∧
      (∃ l, g'.incomingEdges v = .ok l ∧ e ∈ l) ∧
      (∃ l, g'.incomingEdges u = .ok l ∧ e ∉ l) ∧
      (∃ l, g'.outgoingEdges v = .ok l ∧ e ∉ l) ∧
      (∃ o i o' i', g.outDegree u = .ok o ∧ g.inDegree u = .ok i ∧
        g'.outDegree u = .ok o' ∧ g'.inDegree u = .ok i' ∧ o' = o + 1 ∧ i' = i ∧
        (o = i → o' ≠ i')) := by
  obtain ⟨h1, h2, h3, h4, h5, h6, h7⟩ := hg
  have hulive := (h3 u hu).2.1
  have hvlive := (h3 v hv).2.1
  obtain ⟨g', hres, hd, hvl, hel, hfresh, hout, hinc, hlive, -, hobj⟩ :=
    insertEdge_spec g u v w hulive hvlive
  have hnew : ∀ x ∈ g.vertexList, g.fresh ∉ g.out x ∧ g.fresh ∉ g.inc x := by
    intro x hx
    exact ⟨fun h => Nat.lt_irrefl _ (h7 _ ((h3 x hx).2.2.2.2.1 _ h).1),
      fun h => Nat.lt_irrefl _ (h7 _ ((h3 x hx).2.2.2.2.2 _ h).1)⟩
  obtain ⟨ou, hou⟩ := Option.isSome_iff_exists.mp hulive
  obtain ⟨ov, hov⟩ := Option.isSome_iff_exists.mp hvlive
  obtain ⟨ou', hou'⟩ := Option.isSome_iff_exists.mp ((hlive u).trans hulive)
  obtain ⟨ov', hov'⟩ := Option.isSome_iff_exists.mp ((hlive v).trans hvlive)
  have houtu := hout u
  have hincu := hinc u
  have houtv := hout v
  have hincv := hinc v
  have hnu := hnew u hu
  have hnv := hnew v hv
  simp only [out, inc, hou, hov, hou', hov', if_true, if_neg huv, if_neg (Ne.symm huv),
    List.append_nil] at houtu hincu houtv hincv hnu hnv
  refine ⟨g.fresh, g', hres, hd.trans hdir, ⟨ou'.outgoing, ?_, ?_⟩, ⟨ov'.incoming, ?_, ?_⟩,
    ⟨ou'.incoming, ?_, ?_⟩, ⟨ov'.outgoing, ?_, ?_⟩,
    ⟨ou.outgoing.length, ou.incoming.length, ou'.outgoing.length, ou'.incoming.length,
      ?_, ?_, ?_, ?_, ?_, ?_, ?_⟩⟩
  · simp [outgoingEdges, vertexAt, hou', Except.map]
  · rw [houtu]; simp
  · simp [incomingEdges, vertexAt, hov', Except.map]
  · rw [hincv]; simp
  · simp [incomingEdges, vertexAt, hou', Except.map]
  · rw [hincu]; exact hnu.2
  · simp [outgoingEdges, vertexAt, hov', Except.map]
  · rw [houtv]; exact hnv.1
  · simp [outDegree, vertexAt, hou, Except.map]
  · simp [inDegree, vertexAt, hou, Except.map]
  · simp [outDegree, vertexAt, hou', Except.map]
  · simp [inDegree, vertexAt, hou', Except.map]
  · rw [houtu]; simp
  · rw [hincu]
  · intro h
    rw [houtu, hincu, List.length_append, List.length_singleton]
    have h' : ou.outgoing.length = ou.incoming.length := by exact_mod_cast h
    rw [h']
    push_cast
    omega

end AdjacencyListGraph

theorem insertEdge_undirected_fills_one_view_per_endpoint_witness :
    (undirectedPair.WellFormed ∧ undirectedPair.directed = false ∧
      1 ∈ undirectedPair.vertices ∧ 2 ∈ undirectedPair.vertices ∧ (1 : Ptr) ≠ 2) ∧
    ∃ e g', undirectedPair.insertEdge 1 2 5 = .ok (e, g') ∧ g'.directed = false ∧
      (∃ l, g'.outgoingEdges 1 = .ok l ∧ e ∈ l) ∧
      (∃ l, g'.incomingEdges 2 = .ok l ∧ e ∈ l) ∧
      (∃ l, g'.incomingEdges 1 = .ok l ∧ e ∉ l) ∧
      (∃ l, g'.outgoingEdges 2 = .ok l ∧ e ∉ l) ∧
      (∃ o i o' i', undirectedPair.outDegree 1 = .ok o ∧ undirectedPair.inDegree 1 = .ok i ∧
        g'.outDegree 1 = .ok o' ∧ g'.inDegree 1 = .ok i' ∧ o' = o + 1 ∧ i' = i ∧
        (o = i → o' ≠ i')) :=
  ⟨⟨by decide, rfl, by decide, by decide, by decide⟩,
    AdjacencyListGraph.insertEdge_undirected_fills_one_view_per_endpoint undirectedPair
      (by decide) rfl 1 2 5 (by decide) (by decide) (by decide)⟩
/-! ### Blending and the steering primitives -/

namespace Entity

variable {F σ : Type} [LinearOrderedField F]

theorem blend_eq (self : Entity F σ) :
    ∀ (l : List (WeightedBehavior F σ)) (a : Accelerations F) (state : σ),
      (self.blend l a state).1.linearAcceleration.x = a.linearAcceleration.x +
          ((weightedOutputs self.getTarget l state).map
            (fun o => o.1 * o.2.linearAcceleration.x)).sum ∧
      (self.blend l a state).1.linearAcceleration.y = a.linearAcceleration.y +
          ((weightedOutputs self.getTarget l state).map
            (fun o => o.1 * o.2.linearAcceleration.y)).sum ∧
      (self.blend l a state).1.angularAcceleration = a.angularAcceleration +
          ((weightedOutputs self.getTarget l state).map
            (fun o => o.1 * o.2.angularAcceleration)).sum := by
  intro l
  induction l with
  | nil =>
    intro a state
    simp [blend, weightedOutputs]
  | cons b rest ih =>
    intro a state
    obtain ⟨h1, h2, h3⟩ := ih (a.add ((b.behavior self.getTarget state).1.mul b.weight))
      (b.behavior self.getTarget state).2
    simp only [blend, weightedOutputs, List.map_cons, List.sum_cons]
    rw [h1, h2, h3]
    simp only [Accelerations.add, Accelerations.mul, Vector2.add, Vector2.mul]
    refine ⟨?_, ?_, ?_⟩ <;> ring

/-- C22: `Entity::nextAccelerations` sets the linear and the angular acceleration of the
entity to the sum, over its behavior list, of the output of the behavior for
`getTarget()` times its weight, component by component, and changes no other member; in
particular two behaviors of equal weight whose outputs are `a` and `-a` give zero linear
and zero angular acceleration. -/
theorem nextAccelerations_is_weighted_sum (self : Entity F σ) (state : σ) :
    ((self.nextAccelerations state).1.linearAcceleration.x =
        ((weightedOutputs self.getTarget self.behaviors state).map
          (fun o => o.1 * o.2.linearAcceleration.x)).sum ∧
      (self.nextAccelerations state).1.linearAcceleration.y =
        ((weightedOutputs self.getTarget self.behaviors state).map
          (fun o => o.1 * o.2.linearAcceleration.y)).sum ∧
      (self.nextAccelerations state).1.angularAcceleration =
        ((weightedOutputs self.getTarget self.behaviors state).map
          (fun o => o.1 * o.2.angularAcceleration)).sum ∧
      (self.nextAccelerations state).1.linearVelocity = self.linearVelocity ∧
      (self.nextAccelerations state).1.angularVelocity = self.angularVelocity ∧
      (self.nextAccelerations state).1.position = self.position ∧
      (self.nextAccelerations state).1.rotation = self.rotation ∧
      (self.nextAccelerations state).1.behaviors = self.behaviors) ∧
    (∀ (b1 b2 : WeightedBehavior F σ) (a : Accelerations F),
      self.behaviors = [b1, b2] → b1.weight = b2.weight →
      (b1.behavior self.getTarget state).1 = a →
      (b2.behavior self.getTarget (b1.behavior self.getTarget state).2).1 =
        { linearAcceleration := a.linearAcceleration.neg,
          angularAcceleration := -a.angularAcceleration } →
      (self.nextAccelerations state).1.linearAcceleration = ⟨0, 0⟩ ∧
      (self.nextAccelerations state).1.angularAcceleration = 0) := by
  obtain ⟨h1, h2, h3⟩ := blend_eq self self.behaviors Accelerations.new state
  have hx : (self.nextAccelerations state).1.linearAcceleration.x =
      ((weightedOutputs self.getTarget self.behaviors state).map
        (fun o => o.1 * o.2.linearAcceleration.x)).sum := by
    show (self.blend self.behaviors Accelerations.new state).1.linearAcceleration.x = _
    rw [h1]
    simp only [Accelerations.new, zero_add]
  have hy : (self.nextAccelerations state).1.linearAcceleration.y =
      ((weightedOutputs self.getTarget self.behaviors state).map
        (fun o => o.1 * o.2.linearAcceleration.y)).sum := by
    show (self.blend self.behaviors Accelerations.new state).1.linearAcceleration.y = _
    rw [h2]
    simp only [Accelerations.new, zero_add]
  have ha : (self.nextAccelerations state).1.angularAcceleration =
      ((weightedOutputs self.getTarget self.behaviors state).map
        (fun o => o.1 * o.2.angularAcceleration)).sum := by
    show (self.blend self.behaviors Accelerations.new state).1.angularAcceleration = _
    rw [h3]
    simp only [Accelerations.new, zero_add]
  refine ⟨⟨hx, hy, ha, rfl, rfl, rfl, rfl, rfl⟩, ?_⟩
  intro b1 b2 a hb hw ho1 ho2
  have hlin : (self.nextAccelerations state).1.linearAcceleration =
      ⟨(self.nextAccelerations state).1.linearAcceleration.x,
        (self.nextAccelerations state).1.linearAcceleration.y⟩ := rfl
  rw [hlin, hx, hy, ha, hb]
  simp only [weightedOutputs, List.map_cons, List.map_nil, List.sum_cons, List.sum_nil,
    ho1, ho2, hw, Vector2.neg, add_zero]
  refine ⟨?_, ?_⟩
  · congr 1 <;> ring
  · ring

end Entity

theorem nextAccelerations_is_weighted_sum_witness :
    (opposedEntity.behaviors =
        [constantBehavior { linearAcceleration := ⟨3, -4⟩, angularAcceleration := 7 } 2,
         constantBehavior { linearAcceleration := ⟨-3, 4⟩, angularAcceleration := -7 } 2] ∧
      (constantBehavior { linearAcceleration := ⟨3, -4⟩, angularAcceleration := 7 } 2).weight =
        (constantBehavior { linearAcceleration := ⟨-3, 4⟩, angularAcceleration := -7 } 2).weight) ∧
    (opposedEntity.nextAccelerations ()).1.linearAcceleration = ⟨0, 0⟩ ∧
    (opposedEntity.nextAccelerations ()).1.angularAcceleration = 0 :=
  ⟨⟨rfl, rfl⟩,
    (Entity.nextAccelerations_is_weighted_sum opposedEntity ()).2
      (constantBehavior { linearAcceleration := ⟨3, -4⟩, angularAcceleration := 7 } 2)
      (constantBehavior { linearAcceleration := ⟨-3, 4⟩, angularAcceleration := -7 } 2)
      { linearAcceleration := ⟨3, -4⟩, angularAcceleration := 7 } rfl rfl rfl
      (by simp [constantBehavior, Vector2.neg])⟩

section Steering

variable {F : Type} [LinearOrderedField F]

theorem divide_of_ne (a : F) {b : F} (hb : b ≠ 0) : divide a b = .ok (a / b) := by
  simp [divide, hb]

theorem divide_zero (a : F) : divide a 0 = .error .divisionByZero := by
  simp [divide]

theorem Vector2.div_of_ne (v : Vector2 F) {b : F} (hb : b ≠ 0) :
    v.div b = .ok ⟨v.x / b, v.y / b⟩ := by
  simp [Vector2.div, divide_of_ne _ hb, bind, Except.bind, pure, Except.pure]

theorem Vector2.div_zero (v : Vector2 F) : v.div 0 = .error .divisionByZero := by
  simp [Vector2.div, divide_zero, bind, Except.bind]

/-- The cascade of `Arrive::find`: the tests `len < radiusOfSatisfaction` and
`len < radiusOfDeceleration` are made in this order, whatever the two radii are. -/
theorem arrive_find_cascade (sqrt : F → F) (hsqrt : ∀ x, 0 ≤ sqrt x)
    (self : Arrive F) (params : Params F) (htime : self.timeToTargetVelocity ≠ 0) :
    let d := params.target.position.sub params.character.position
    let len := Vmath.length sqrt d
    let s :=
      if len < self.radiusOfSatisfaction then 0
      else if len < self.radiusOfDeceleration then
        self.maxVelocity * len / self.radiusOfDeceleration
      else self.maxVelocity
    Arrive.find sqrt self params = .ok
        (if len = 0 then { linearAcceleration := ⟨0, 0⟩, angularAcceleration := 0 }
         else
          { linearAcceleration :=
              ⟨(d.x / len * s - params.character.linearVelocity.x) / self.timeToTargetVelocity,
               (d.y / len * s - params.character.linearVelocity.y) / self.timeToTargetVelocity⟩,
            angularAcceleration := 0 }) ∧
      (len ≠ 0 → ¬ len < self.radiusOfSatisfaction → len < self.radiusOfDeceleration →
        self.radiusOfDeceleration ≠ 0) := by
  intro d len s
  have hlen0 : 0 ≤ len := hsqrt _
  refine ⟨?_, ?_⟩
  · by_cases h0 : len = 0
    · rw [if_pos h0]
      have h0' : Vmath.length sqrt (params.target.position.sub params.character.position) = 0 := h0
      simp [Arrive.find, h0', Accelerations.new, pure, Except.pure]
    · rw [if_neg h0]
      have h0' : Vmath.length sqrt (params.target.position.sub params.character.position) ≠ 0 :=
        h0
      have hnorm : Vmath.normalize sqrt (params.target.position.sub params.character.position) =
          .ok ⟨d.x / len, d.y / len⟩ := Vector2.div_of_ne _ h0
      by_cases h1 : len < self.radiusOfSatisfaction
      · have h1' : Vmath.length sqrt (params.target.position.sub params.character.position) <
            self.radiusOfSatisfaction := h1
        have hs : s = 0 := if_pos h1
        rw [hs]
        simp only [Arrive.find, if_neg h0', hnorm, if_pos h1', bind, Except.bind, pure,
          Except.pure, Accelerations.new, Vector2.div_of_ne _ htime]
        rfl
      · have h1' : ¬ Vmath.length sqrt (params.target.position.sub params.character.position) <
            self.radiusOfSatisfaction := h1
        by_cases h2 : len < self.radiusOfDeceleration
        · have h2' : Vmath.length sqrt (params.target.position.sub params.character.position) <
              self.radiusOfDeceleration := h2
          have hrod : self.radiusOfDeceleration ≠ 0 := ne_of_gt (lt_of_le_of_lt hlen0 h2)
          have hs : s = self.maxVelocity * len / self.radiusOfDeceleration := by
            show (if _ then _ else _) = _
            rw [if_neg h1, if_pos h2]
          rw [hs]
          have e : len / self.radiusOfDeceleration * self.maxVelocity =
              self.maxVelocity * len / self.radiusOfDeceleration := by ring
          simp only [Arrive.find, if_neg h0', hnorm, if_neg h1', if_pos h2', bind, Except.bind,
            pure, Except.pure, Accelerations.new, divide_of_ne _ hrod,
            Vector2.div_of_ne _ htime]
          rw [← e]
          rfl
        · have h2' : ¬ Vmath.length sqrt
              (params.target.position.sub params.character.position) <
              self.radiusOfDeceleration := h2
          have hs : s = self.maxVelocity := by
            show (if _ then _ else _) = _
            rw [if_neg h1, if_neg h2]
          rw [hs]
          simp only [Arrive.find, if_neg h0', hnorm, if_neg h1', if_neg h2', bind, Except.bind,
            pure, Except.pure, Accelerations.new, Vector2.div_of_ne _ htime]
          rfl
  · intro _ _ h2
    exact ne_of_gt (lt_of_le_of_lt hlen0 h2)

/-- C23, as amended: with `d = target.position - character.position`, `len` the length
of `d` (the square root is never negative) and `timeToTargetVelocity` other than zero,
`Arrive::find` returns zero acceleration when `len = 0`; otherwise the linear acceleration
is `((d / len) * s - character.linearVelocity) / timeToTargetVelocity` with `s = 0` when
`len < radiusOfSatisfaction`, `s = maxVelocity * len / radiusOfDeceleration` when
`radiusOfSatisfaction <= len < radiusOfDeceleration` (the radius is then not zero), and
`s = maxVelocity` when `len >= radiusOfDeceleration` and `len >= radiusOfSatisfaction`;
the angular acceleration is `0`. -/
theorem arrive_find_scales_speed_by_radius (sqrt : F → F) (hsqrt : ∀ x, 0 ≤ sqrt x)
    (self : Arrive F) (params : Params F) (htime : self.timeToTargetVelocity ≠ 0) :
    let d := params.target.position.sub params.character.position
    let len := Vmath.length sqrt d
    let result : F → Accelerations F := fun s =>
      { linearAcceleration :=
          ⟨(d.x / len * s - params.character.linearVelocity.x) / self.timeToTargetVelocity,
           (d.y / len * s - params.character.linearVelocity.y) / self.timeToTargetVelocity⟩,
        angularAcceleration := 0 }
    (len = 0 → Arrive.find sqrt self params =
      .ok { linearAcceleration := ⟨0, 0⟩, angularAcceleration := 0 }) ∧
    (len ≠ 0 → len < self.radiusOfSatisfaction →
      Arrive.find sqrt self params = .ok (result 0)) ∧
    (len ≠ 0 → self.radiusOfSatisfaction ≤ len → len < self.radiusOfDeceleration →
      self.radiusOfDeceleration ≠ 0 ∧
      Arrive.find sqrt self params =
        .ok (result (self.maxVelocity * len / self.radiusOfDeceleration))) ∧
    (len ≠ 0 → self.radiusOfDeceleration ≤ len → self.radiusOfSatisfaction ≤ len →
      Arrive.find sqrt self params = .ok (result self.maxVelocity)) := by
  intro d len result
  obtain ⟨hfind, hrod⟩ := arrive_find_cascade sqrt hsqrt self params htime
  refine ⟨?_, ?_, ?_, ?_⟩
  · intro h0
    have h0' : Vmath.length sqrt (params.target.position.sub params.character.position) = 0 := h0
    rw [hfind, if_pos h0']
  · intro h0 h1
    have h0' : Vmath.length sqrt (params.target.position.sub params.character.position) ≠ 0 := h0
    have h1' : Vmath.length sqrt (params.target.position.sub params.character.position) <
        self.radiusOfSatisfaction := h1
    rw [hfind, if_neg h0', if_pos h1']
  · intro h0 h1 h2
    have h0' : Vmath.length sqrt (params.target.position.sub params.character.position) ≠ 0 := h0
    have h1' : ¬ Vmath.length sqrt (params.target.position.sub params.character.position) <
        self.radiusOfSatisfaction := not_lt.mpr h1
    have h2' : Vmath.length sqrt (params.target.position.sub params.character.position) <
        self.radiusOfDeceleration := h2
    refine ⟨hrod h0' h1' h2', ?_⟩
    rw [hfind, if_neg h0', if_neg h1', if_pos h2']
  · intro h0 h2 h1
    have h0' : Vmath.length sqrt (params.target.position.sub params.character.position) ≠ 0 := h0
    have h1' : ¬ Vmath.length sqrt (params.target.position.sub params.character.position) <
        self.radiusOfSatisfaction := not_lt.mpr h1
    have h2' : ¬ Vmath.length sqrt (params.target.position.sub params.character.position) <
        self.radiusOfDeceleration := not_lt.mpr h2
    rw [hfind, if_neg h0', if_neg h1', if_neg h2']

end Steering

section Steering

variable {F : Type} [LinearOrderedField F]

/-- C24, as amended: with `r = mapOrientationToRange(target.orientation -
character.orientation)`, `radiusOfSatisfaction > 0` and `timeToTargetRotation` other than
zero, `Align::find` returns zero acceleration when `|r| < radiusOfSatisfaction`; otherwise
the angular acceleration is `(sign(r) * g - character.angularVelocity) /
timeToTargetRotation` with `g = maxRotation * |r| / radiusOfDeceleration` for
`|r| < radiusOfDeceleration` and `g = maxRotation` for `|r| >= radiusOfDeceleration`; the
linear acceleration is `0` and no divisor is zero. -/
theorem align_find_scales_rotation_by_radius (fmod : F → F → F) (self : Align F)
    (params : Params F) (hsat : 0 < self.radiusOfSatisfaction)
    (htime : self.timeToTargetRotation ≠ 0) :
    let r := Vmath.mapOrientationToRange fmod
      (params.target.orientation - params.character.orientation)
    let g :=
      if |r| < self.radiusOfDeceleration then self.maxRotation * |r| / self.radiusOfDeceleration
      else self.maxRotation
    Align.find fmod self params = .ok
        (if |r| < self.radiusOfSatisfaction then
          { linearAcceleration := ⟨0, 0⟩, angularAcceleration := 0 }
         else
          { linearAcceleration := ⟨0, 0⟩,
            angularAcceleration :=
              ((SignType.sign r : F) * g - params.character.angularVelocity) /
                self.timeToTargetRotation }) ∧
      (¬ |r| < self.radiusOfSatisfaction → |r| ≠ 0 ∧
        (|r| < self.radiusOfDeceleration → self.radiusOfDeceleration ≠ 0)) := by
  intro r g
  have hdiv : ¬ |r| < self.radiusOfSatisfaction → |r| ≠ 0 ∧
      (|r| < self.radiusOfDeceleration → self.radiusOfDeceleration ≠ 0) := by
    intro h
    have hpos : 0 < |r| := lt_of_lt_of_le hsat (not_lt.mp h)
    exact ⟨ne_of_gt hpos, fun h2 => ne_of_gt (lt_trans hpos h2)⟩
  refine ⟨?_, hdiv⟩
  by_cases h1 : |r| < self.radiusOfSatisfaction
  · rw [if_pos h1]
    have h1' : |Vmath.mapOrientationToRange fmod
        (params.target.orientation - params.character.orientation)| <
        self.radiusOfSatisfaction := h1
    simp only [Align.find, if_pos h1', pure, Except.pure, Accelerations.new]
  · rw [if_neg h1]
    have h1' : ¬ |Vmath.mapOrientationToRange fmod
        (params.target.orientation - params.character.orientation)| <
        self.radiusOfSatisfaction := h1
    obtain ⟨habs, hrod⟩ := hdiv h1
    have hr : r ≠ 0 := fun h => habs (by rw [h, abs_zero])
    have hsign : r / |r| = (SignType.sign r : F) := by
      rcases lt_or_gt_of_ne hr with hneg | hpos
      · rw [abs_of_neg hneg, sign_neg hneg, div_neg, div_self hr]
        simp
      · rw [abs_of_pos hpos, sign_pos hpos, div_self hr]
        simp
    have hdir : divide (Vmath.mapOrientationToRange fmod
        (params.target.orientation - params.character.orientation))
        |Vmath.mapOrientationToRange fmod
          (params.target.orientation - params.character.orientation)| =
        .ok (SignType.sign r : F) := by
      rw [← hsign]
      exact divide_of_ne _ habs
    by_cases h2 : |r| < self.radiusOfDeceleration
    · have h2' : |Vmath.mapOrientationToRange fmod
          (params.target.orientation - params.character.orientation)| <
          self.radiusOfDeceleration := h2
      have hg : g = self.maxRotation * |r| / self.radiusOfDeceleration := if_pos h2
      rw [hg]
      simp only [Align.find, if_neg h1', if_pos h2', bind, Except.bind, pure, Except.pure,
        Accelerations.new, divide_of_ne _ (hrod h2), hdir, divide_of_ne _ htime]
      have e : self.maxRotation * (|r| / self.radiusOfDeceleration) * (SignType.sign r : F) =
          (SignType.sign r : F) * (self.maxRotation * |r| / self.radiusOfDeceleration) := by ring
      rw [← e]
    · have h2' : ¬ |Vmath.mapOrientationToRange fmod
          (params.target.orientation - params.character.orientation)| <
          self.radiusOfDeceleration := h2
      have hg : g = self.maxRotation := if_neg h2
      rw [hg]
      simp only [Align.find, if_neg h1', if_neg h2', bind, Except.bind, pure, Except.pure,
        Accelerations.new, hdir, divide_of_ne _ htime]
      rw [mul_comm]

/-- C25: when `target.position` equals `character.position`, `Seek::find` and
`Flee::find` divide the zero displacement by its length, which is zero: neither has the
test of the length that `Arrive::find` starts with. -/
theorem seek_and_flee_divide_by_zero_length (sqrt : F → F) (hsqrt : sqrt 0 = 0)
    (seek : Seek F) (flee : Flee F) (params : Params F)
    (hsame : params.target.position = params.character.position) :
    Seek.find sqrt seek params = .error .divisionByZero ∧
    Flee.find sqrt flee params = .error .divisionByZero := by
  have hlen : Vmath.length sqrt (params.target.position.sub params.character.position) = 0 := by
    simp [Vmath.length, Vector2.sub, hsame, hsqrt]
  have hnorm : Vmath.normalize sqrt (params.target.position.sub params.character.position) =
      .error .divisionByZero := by
    unfold Vmath.normalize
    rw [hlen]
    exact Vector2.div_zero _
  constructor
  · simp only [Seek.find, hnorm, bind, Except.bind]
  · simp only [Flee.find, hnorm, bind, Except.bind]

end Steering

theorem length_three_four :
    Vmath.length Real.sqrt
      ((targetAt (⟨3, 4⟩ : Vector2 ℝ) 0).position.sub (targetAt (⟨0, 0⟩ : Vector2 ℝ) 0).position) =
      5 := by
  simp only [Vmath.length, Vector2.sub, targetAt]
  rw [show ((3 : ℝ) - 0) * (3 - 0) + (4 - 0) * (4 - 0) = 5 ^ 2 by norm_num]
  exact Real.sqrt_sq (by norm_num)

/-- C23, counterexample: with `radiusOfSatisfaction = 10` above `radiusOfDeceleration =
1`, `maxVelocity = 4` and a target at distance `len = 5`, which is not below
`radiusOfDeceleration`, `Arrive::find` takes the requested speed `0`, not `maxVelocity`,
and returns zero acceleration for a character at rest, where the speed `maxVelocity`
gives the linear acceleration `(6 / 5, 8 / 5)`. -/
theorem arrive_find_stops_inside_satisfaction_radius :
    (2 : ℝ) ≠ 0 ∧
    Vmath.length Real.sqrt
      ((targetAt (⟨3, 4⟩ : Vector2 ℝ) 0).position.sub (targetAt (⟨0, 0⟩ : Vector2 ℝ) 0).position)
        = 5 ∧
    (1 : ℝ) ≤ 5 ∧
    Arrive.find Real.sqrt
        { radiusOfSatisfaction := 10, radiusOfDeceleration := 1, maxVelocity := 4,
          timeToTargetVelocity := 2 }
        { target := targetAt ⟨3, 4⟩ 0, character := targetAt ⟨0, 0⟩ 0 } =
      .ok { linearAcceleration := ⟨0, 0⟩, angularAcceleration := 0 } ∧
    ((3 : ℝ) / 5 * 4 - 0) / 2 = 6 / 5 ∧ ((4 : ℝ) / 5 * 4 - 0) / 2 = 8 / 5 ∧
    (⟨6 / 5, 8 / 5⟩ : Vector2 ℝ) ≠ ⟨0, 0⟩ := by
  refine ⟨two_ne_zero, length_three_four, by norm_num, ?_, by norm_num, by norm_num, ?_⟩
  · have h := (arrive_find_cascade Real.sqrt Real.sqrt_nonneg
      { radiusOfSatisfaction := 10, radiusOfDeceleration := 1, maxVelocity := 4,
        timeToTargetVelocity := 2 }
      { target := targetAt ⟨3, 4⟩ 0, character := targetAt ⟨0, 0⟩ 0 } two_ne_zero).1
    rw [h]
    simp only [length_three_four]
    norm_num [Vector2.sub, targetAt, Target.new]
  · intro h
    have := congrArg Vector2.x h
    norm_num at this

theorem arrive_find_scales_speed_by_radius_witness :
    ((∀ x : ℝ, 0 ≤ Real.sqrt x) ∧ (2 : ℝ) ≠ 0) ∧
    Arrive.find Real.sqrt
        { radiusOfSatisfaction := 1, radiusOfDeceleration := 10, maxVelocity := 4,
          timeToTargetVelocity := 2 }
        { target := targetAt ⟨3, 4⟩ 0, character := targetAt ⟨0, 0⟩ 0 } =
      .ok { linearAcceleration := ⟨3 / 5, 4 / 5⟩, angularAcceleration := 0 } := by
  refine ⟨⟨Real.sqrt_nonneg, two_ne_zero⟩, ?_⟩
  have h := (arrive_find_scales_speed_by_radius Real.sqrt Real.sqrt_nonneg
    { radiusOfSatisfaction := 1, radiusOfDeceleration := 10, maxVelocity := 4,
      timeToTargetVelocity := 2 }
    { target := targetAt ⟨3, 4⟩ 0, character := targetAt ⟨0, 0⟩ 0 } two_ne_zero).2.2.1
  simp only [length_three_four] at h
  rw [(h (by norm_num) (by norm_num) (by norm_num)).2]
  norm_num [Vector2.sub, targetAt, Target.new]

theorem mapOrientationToRange_ninety :
    Vmath.mapOrientationToRange fmodExact
      ((targetAt (⟨0, 0⟩ : Vector2 ℚ) 90).orientation -
        (targetAt (⟨0, 0⟩ : Vector2 ℚ) 0).orientation) = 90 := by
  have hq : ((90 : ℚ) - 0) / 360 = 1 / 4 := by norm_num
  have ht : truncate ((1 : ℚ) / 4) = 0 := by
    unfold truncate
    rw [if_pos (by norm_num), Int.floor_eq_iff]
    constructor <;> norm_num
  have hf : fmodExact ((90 : ℚ) - 0) 360 = 90 := by
    unfold fmodExact
    rw [hq, ht]
    norm_num
  simp only [Vmath.mapOrientationToRange, targetAt, hf]
  norm_num

/-- C24, counterexample: with `radiusOfSatisfaction = 1 > 0` but `timeToTargetRotation =
0`, for a target at orientation `90` and a character at orientation `0`, `Align::find`
divides by zero. -/
theorem align_find_divides_by_zero_time :
    (0 : ℚ) < 1 ∧
    Align.find fmodExact
        { radiusOfSatisfaction := (1 : ℚ), radiusOfDeceleration := 180, maxRotation := 3,
          timeToTargetRotation := 0 }
        { target := targetAt ⟨0, 0⟩ 90, character := targetAt ⟨0, 0⟩ 0 } =
      .error .divisionByZero := by
  refine ⟨by norm_num, ?_⟩
  simp only [Align.find, mapOrientationToRange_ninety]
  norm_num [divide, bind, Except.bind, pure, Except.pure]

theorem align_find_scales_rotation_by_radius_witness :
    ((0 : ℚ) < 1 ∧ (2 : ℚ) ≠ 0) ∧
    Align.find fmodExact
        { radiusOfSatisfaction := (1 : ℚ), radiusOfDeceleration := 180, maxRotation := 3,
          timeToTargetRotation := 2 }
        { target := targetAt ⟨0, 0⟩ 90, character := targetAt ⟨0, 0⟩ 0 } =
      .ok { linearAcceleration := ⟨0, 0⟩, angularAcceleration := 3 / 4 } := by
  refine ⟨⟨by norm_num, two_ne_zero⟩, ?_⟩
  have h := (align_find_scales_rotation_by_radius fmodExact
    { radiusOfSatisfaction := (1 : ℚ), radiusOfDeceleration := 180, maxRotation := 3,
      timeToTargetRotation := 2 }
    { target := targetAt ⟨0, 0⟩ 90, character := targetAt ⟨0, 0⟩ 0 } (by norm_num)
    two_ne_zero).1
  rw [h]
  simp only [mapOrientationToRange_ninety]
  norm_num [targetAt, Target.new]

theorem seek_and_flee_divide_by_zero_length_witness :
    (Real.sqrt 0 = 0 ∧
      (targetAt (⟨3, 4⟩ : Vector2 ℝ) 0).position = (targetAt (⟨3, 4⟩ : Vector2 ℝ) 90).position) ∧
    Seek.find Real.sqrt { maxVelocity := 4, timeToTargetVelocity := 2 }
        { target := targetAt ⟨3, 4⟩ 0, character := targetAt ⟨3, 4⟩ 90 } =
      .error .divisionByZero ∧
    Flee.find Real.sqrt { maxVelocity := 4, timeToTargetVelocity := 2 }
        { target := targetAt ⟨3, 4⟩ 0, character := targetAt ⟨3, 4⟩ 90 } =
      .error .divisionByZero :=
  ⟨⟨Real.sqrt_zero, rfl⟩,
    seek_and_flee_divide_by_zero_length Real.sqrt Real.sqrt_zero
      { maxVelocity := 4, timeToTargetVelocity := 2 }
      { maxVelocity := 4, timeToTargetVelocity := 2 }
      { target := targetAt ⟨3, 4⟩ 0, character := targetAt ⟨3, 4⟩ 90 } rfl⟩
/-! ### The graph of a grid environment -/

theorem cellOf_insertVertex_old (g : AdjacencyListGraph Grid Int) (d : Grid) {v : Ptr}
    (hv : v ≠ g.fresh) : cellOf (g.insertVertex d).2 v = cellOf g v := by
  simp [cellOf, AdjacencyListGraph.insertVertex, AdjacencyListGraph.setVertex, hv]

theorem cellOf_insertVertex_new (g : AdjacencyListGraph Grid Int) (d : Grid) :
    cellOf (g.insertVertex d).2 g.fresh = some d := by
  simp [cellOf, AdjacencyListGraph.insertVertex, AdjacencyListGraph.setVertex]

theorem cells_insertVertex {g : AdjacencyListGraph Grid Int} (hg : g.WellFormed) (d : Grid) :
    (g.insertVertex d).2.vertexList.map (cellOf (g.insertVertex d).2) =
      g.vertexList.map (cellOf g) ++ [some d] := by
  have hvl : (g.insertVertex d).2.vertexList = g.vertexList ++ [g.fresh] := rfl
  rw [hvl, List.map_append, List.map_singleton, cellOf_insertVertex_new]
  congr 1
  apply List.map_congr_left
  intro v hv
  exact cellOf_insertVertex_old g d (fun h => Nat.lt_irrefl _ (h ▸ hg.2.2.2.2.2.1 v hv))

theorem insertRow_spec (row : Int) :
    ∀ (cs : List Int) (g : AdjacencyListGraph Grid Int), g.WellFormed → g.edgeList = [] →
      (cs.foldl (fun (g : AdjacencyListGraph Grid Int) (col : Int) =>
          (g.insertVertex { row := row, column := col }).2) g).WellFormed ∧
      (cs.foldl (fun (g : AdjacencyListGraph Grid Int) (col : Int) =>
          (g.insertVertex { row := row, column := col }).2) g).edgeList = [] ∧
      (cs.foldl (fun (g : AdjacencyListGraph Grid Int) (col : Int) =>
          (g.insertVertex { row := row, column := col }).2) g).vertexList.map
          (cellOf (cs.foldl (fun (g : AdjacencyListGraph Grid Int) (col : Int) =>
            (g.insertVertex { row := row, column := col }).2) g)) =
        g.vertexList.map (cellOf g) ++
          cs.map (fun (col : Int) => some ({ row := row, column := col } : Grid)) := by
  intro cs
  induction cs with
  | nil =>
    intro g hg he
    simp [hg, he]
  | cons c cs ih =>
    intro g hg he
    have hw := AdjacencyListGraph.WellFormed.insertVertex hg
      ({ row := row, column := c } : Grid)
    obtain ⟨h1, h2, h3⟩ := ih _ hw.1 (hw.2.2.1.trans he)
    simp only [List.foldl_cons]
    refine ⟨h1, h2, ?_⟩
    rw [h3, cells_insertVertex hg, List.map_cons, List.append_assoc]
    rfl

theorem insertRows_spec (cs : List Int) :
    ∀ (rs : List Int) (g : AdjacencyListGraph Grid Int), g.WellFormed → g.edgeList = [] →
      (rs.foldl (fun (g : AdjacencyListGraph Grid Int) (row : Int) =>
          cs.foldl (fun (g : AdjacencyListGraph Grid Int) (col : Int) =>
            (g.insertVertex { row := row, column := col }).2) g) g).WellFormed ∧
      (rs.foldl (fun (g : AdjacencyListGraph Grid Int) (row : Int) =>
          cs.foldl (fun (g : AdjacencyListGraph Grid Int) (col : Int) =>
            (g.insertVertex { row := row, column := col }).2) g) g).edgeList = [] ∧
      (rs.foldl (fun (g : AdjacencyListGraph Grid Int) (row : Int) =>
          cs.foldl (fun (g : AdjacencyListGraph Grid Int) (col : Int) =>
            (g.insertVertex { row := row, column := col }).2) g) g).vertexList.map
          (cellOf (rs.foldl (fun (g : AdjacencyListGraph Grid Int) (row : Int) =>
            cs.foldl (fun (g : AdjacencyListGraph Grid Int) (col : Int) =>
              (g.insertVertex { row := row, column := col }).2) g) g)) =
        g.vertexList.map (cellOf g) ++
          rs.flatMap (fun (row : Int) =>
            cs.map (fun (col : Int) => some ({ row := row, column := col } : Grid))) := by
  intro rs
  induction rs with
  | nil =>
    intro g hg he
    simp [hg, he]
  | cons r rs ih =>
    intro g hg he
    obtain ⟨h1, h2, h3⟩ := insertRow_spec r cs g hg he
    obtain ⟨k1, k2, k3⟩ := ih _ h1 h2
    simp only [List.foldl_cons]
    refine ⟨k1, k2, ?_⟩
    rw [k3, h3, List.flatMap_cons, List.append_assoc]

theorem castRange_eq (n : Nat) :
    (do let a ← List.range n; pure (a : Int) : List Int) =
      (List.range n).map (fun (a : Nat) => (a : Int)) := by
  simp only [List.bind_eq_flatMap, List.pure_def]
  induction List.range n with
  | nil => rfl
  | cons a l ih => simp [List.flatMap_cons, ih]

theorem insertCells_eq (xTiles yTiles : Int) (g : AdjacencyListGraph Grid Int) :
    GridEnvironment.insertCells xTiles yTiles g =
      ((List.range yTiles.toNat).map (fun (a : Nat) => (a : Int))).foldl
        (fun (g : AdjacencyListGraph Grid Int) (row : Int) =>
          ((List.range xTiles.toNat).map (fun (a : Nat) => (a : Int))).foldl
            (fun (g : AdjacencyListGraph Grid Int) (col : Int) =>
              (g.insertVertex { row := row, column := col }).2) g) g := by
  unfold GridEnvironment.insertCells
  rw [castRange_eq, castRange_eq]

theorem gridCells_nodup {rs cs : List Int} (hr : rs.Nodup) (hc : cs.Nodup) :
    (rs.flatMap (fun (row : Int) =>
      cs.map (fun (col : Int) => some ({ row := row, column := col } : Grid)))).Nodup := by
  have h : rs.flatMap (fun (row : Int) =>
      cs.map (fun (col : Int) => some ({ row := row, column := col } : Grid))) =
      (List.product rs cs).map
        (fun p => some ({ row := p.1, column := p.2 } : Grid)) := by
    unfold List.product
    rw [List.map_flatMap]
    simp only [List.map_map]
    rfl
  rw [h]
  apply List.Nodup.map
  · intro p q hpq
    simp only [Option.some.injEq, Grid.mk.injEq] at hpq
    exact Prod.ext hpq.1 hpq.2
  · exact List.Nodup.product hr hc

theorem gridCells_mem {rs cs : List Int} (hr : ∀ r ∈ rs, 0 ≤ r) (hc : ∀ c ∈ cs, 0 ≤ c)
    {o : Option Grid}
    (h : o ∈ rs.flatMap (fun (row : Int) =>
      cs.map (fun (col : Int) => some ({ row := row, column := col } : Grid)))) :
    ∃ c, o = some c ∧ 0 ≤ c.row ∧ 0 ≤ c.column := by
  simp only [List.mem_flatMap, List.mem_map] at h
  obtain ⟨r, hr', c, hc', rfl⟩ := h
  exact ⟨_, rfl, hr r hr', hc c hc'⟩

theorem castRange_nodup (n : Nat) :
    ((List.range n).map (fun (a : Nat) => (a : Int))).Nodup :=
  List.Nodup.map (fun _ _ h => Int.ofNat.inj h) (List.nodup_range n)

theorem castRange_nonneg (n : Nat) :
    ∀ r ∈ (List.range n).map (fun (a : Nat) => (a : Int)), 0 ≤ r := by
  intro r hr
  obtain ⟨a, _, rfl⟩ := List.mem_map.mp hr
  exact Int.natCast_nonneg a

theorem joinsNeighbours_eq (g : AdjacencyListGraph Grid Int) (e : Ptr) :
    joinsNeighbours g e =
      match g.ends e with
      | some (a, b) =>
        match cellOf g a, cellOf g b with
        | some ca, some cb =>
          (Int.natAbs (ca.row - cb.row) == 1 && ca.column == cb.column)
            || (ca.row == cb.row && Int.natAbs (ca.column - cb.column) == 1)
        | _, _ => false
      | none => false := by
  unfold joinsNeighbours cellOf
  cases g.ends e with
  | none => rfl
  | some p =>
    obtain ⟨a, b⟩ := p
    dsimp only
    cases g.vertexObj a <;> cases g.vertexObj b <;> rfl

theorem joinsNeighbours_congr {g g' : AdjacencyListGraph Grid Int} {e : Ptr}
    (hends : g'.ends e = g.ends e)
    (hcell : ∀ a b, g.ends e = some (a, b) → cellOf g' a = cellOf g a ∧ cellOf g' b = cellOf g b) :
    joinsNeighbours g' e = joinsNeighbours g e := by
  rw [joinsNeighbours_eq, joinsNeighbours_eq, hends]
  cases h : g.ends e with
  | none => rfl
  | some p =>
    obtain ⟨a, b⟩ := p
    obtain ⟨ha, hb⟩ := hcell a b h
    simp only [ha, hb]

theorem joinsNeighbours_of_cells {g : AdjacencyListGraph Grid Int} {e a b : Ptr} {ca cb : Grid}
    (hends : g.ends e = some (a, b)) (ha : cellOf g a = some ca) (hb : cellOf g b = some cb)
    (h : ((ca.row - 1 = cb.row ∨ ca.row + 1 = cb.row) ∧ ca.column = cb.column) ∨
      ((ca.column - 1 = cb.column ∨ ca.column + 1 = cb.column) ∧ ca.row = cb.row)) :
    joinsNeighbours g e = true := by
  rw [joinsNeighbours_eq, hends]
  simp only [ha, hb, Bool.or_eq_true, Bool.and_eq_true, beq_iff_eq]
  rcases h with ⟨h1, h2⟩ | ⟨h1, h2⟩
  · left
    refine ⟨?_, h2⟩
    omega
  · right
    refine ⟨h2, ?_⟩
    omega

theorem vertexElement_of_cellOf {g : AdjacencyListGraph Grid Int} {v : Ptr} {c : Grid}
    (h : cellOf g v = some c) : g.vertexElement v = .ok c := by
  unfold cellOf at h
  unfold AdjacencyListGraph.vertexElement AdjacencyListGraph.vertexAt
  cases hv : g.vertexObj v with
  | none => simp [hv] at h
  | some o =>
    simp only [hv, Option.map_some', Option.some.injEq] at h
    simp [Except.map, h]

theorem cellOf_of_mem {g : AdjacencyListGraph Grid Int} (hg : g.WellFormed) {v : Ptr}
    (hv : v ∈ g.vertexList) : ∃ c, cellOf g v = some c := by
  obtain ⟨o, ho⟩ := Option.isSome_iff_exists.mp (hg.2.2.1 v hv).2.1
  exact ⟨o.element, by simp [cellOf, ho]⟩

theorem connecting_insertEdge {vl : List Ptr} {cells : Ptr → Option Grid}
    {g : AdjacencyListGraph Grid Int} (hJ : Connecting vl cells g) {v c : Ptr} (hv : v ∈ vl)
    (hc : c ∈ vl) {cv cc : Grid} (hcv : cellOf g v = some cv) (hcc : cellOf g c = some cc)
    (h : ((cv.row - 1 = cc.row ∨ cv.row + 1 = cc.row) ∧ cv.column = cc.column) ∨
      ((cv.column - 1 = cc.column ∨ cv.column + 1 = cc.column) ∧ cv.row = cc.row)) :
    ∃ g', (g.insertEdge v c 1).map Prod.snd = .ok g' ∧ Connecting vl cells g' := by
  obtain ⟨hg, hvl, hcell, hnb, hunit⟩ := hJ
  have hv' : v ∈ g.vertexList := hvl ▸ hv
  have hc' : c ∈ g.vertexList := hvl ▸ hc
  obtain ⟨g', hres, hwf, hvl', hel', hends'⟩ := AdjacencyListGraph.WellFormed.insertEdge hg hv' hc' 1
  obtain ⟨g'', hres', -, -, -, -, -, -, -, helem, hobj⟩ :=
    AdjacencyListGraph.insertEdge_spec g v c (1 : Int) (hg.2.2.1 v hv').2.1 (hg.2.2.1 c hc').2.1
  have hgg : g'' = g' := by
    rw [hres] at hres'
    cases hres'
    rfl
  subst hgg
  have hcell' : ∀ u, cellOf g'' u = cellOf g u := helem
  have hold : ∀ e ∈ g.edgeList, e ≠ g.fresh := fun e he h =>
    Nat.lt_irrefl _ (h ▸ hg.2.2.2.2.2.2 e he)
  refine ⟨g'', by rw [hres]; rfl, hwf, hvl'.trans hvl, fun u => (hcell' u).trans (hcell u), ?_, ?_⟩
  · intro e he
    rw [hel'] at he
    rcases List.mem_append.mp he with he | he
    · rw [← hnb e he]
      apply joinsNeighbours_congr
      · unfold AdjacencyListGraph.ends
        rw [hobj e, if_neg (hold e he)]
      · intro a b _
        exact ⟨hcell' a, hcell' b⟩
    · rw [List.mem_singleton] at he
      subst he
      exact joinsNeighbours_of_cells hends' ((hcell' v).trans hcv) ((hcell' c).trans hcc) h
  · intro e he
    rw [hel'] at he
    unfold AdjacencyListGraph.weight
    rcases List.mem_append.mp he with he | he
    · rw [hobj e, if_neg (hold e he)]
      exact hunit e he
    · rw [List.mem_singleton] at he
      subst he
      rw [hobj g.fresh, if_pos rfl]

theorem connect_spec {vl : List Ptr} {cells : Ptr → Option Grid}
    {g : AdjacencyListGraph Grid Int} (hJ : Connecting vl cells g) {v c : Ptr} (hv : v ∈ vl)
    (hc : c ∈ vl) :
    ∃ g', GridEnvironment.connect v g c = .ok g' ∧ Connecting vl cells g' := by
  have hg := hJ.1
  have hvl := hJ.2.1
  obtain ⟨cv, hcv⟩ := cellOf_of_mem hg (hvl ▸ hv)
  obtain ⟨cc, hcc⟩ := cellOf_of_mem hg (hvl ▸ hc)
  unfold GridEnvironment.connect
  simp only [vertexElement_of_cellOf hcv, vertexElement_of_cellOf hcc, bind, Except.bind]
  by_cases h1 : (cv.row - 1 = cc.row ∨ cv.row + 1 = cc.row) ∧ cv.column = cc.column
  · rw [if_pos h1]
    exact connecting_insertEdge hJ hv hc hcv hcc (Or.inl h1)
  · rw [if_neg h1]
    by_cases h2 : (cv.column - 1 = cc.column ∨ cv.column + 1 = cc.column) ∧ cv.row = cc.row
    · rw [if_pos h2]
      exact connecting_insertEdge hJ hv hc hcv hcc (Or.inr h2)
    · rw [if_neg h2]
      exact ⟨g, rfl, hJ⟩

theorem insertConnections_spec {vl : List Ptr} {cells : Ptr → Option Grid}
    {g : AdjacencyListGraph Grid Int} (hJ : Connecting vl cells g) :
    ∃ g', GridEnvironment.insertConnections g = .ok g' ∧ Connecting vl cells g' := by
  unfold GridEnvironment.insertConnections
  have hvs : g.vertices = vl := hJ.2.1
  rw [hvs]
  apply foldlM_ok_induct _ (Connecting vl cells) vl g _ hJ
  intro v hv x hx
  have hxs : x.vertices = vl := hx.2.1
  rw [hxs]
  apply foldlM_ok_induct _ (Connecting vl cells) vl x _ hx
  intro c hc y hy
  exact connect_spec hy hv hc

namespace GridEnvironment

/-- The constructor returns for every number of tiles other than zero, and the
environment it builds satisfies the representation invariant. -/
theorem new_sound (xTiles yTiles width height : Int) (hx : xTiles ≠ 0) (hy : yTiles ≠ 0) :
    ∃ env, GridEnvironment.new xTiles yTiles width height = .ok env ∧ env.Sound ∧
      env.tileWidth = Int.tdiv width xTiles ∧ env.tileHeight = Int.tdiv height yTiles := by
  obtain ⟨h1, h2, h3⟩ := insertRows_spec ((List.range xTiles.toNat).map (fun (a : Nat) => (a : Int)))
    ((List.range yTiles.toNat).map (fun (a : Nat) => (a : Int)))
    (AdjacencyListGraph.new true) (AdjacencyListGraph.wellFormed_new true) rfl
  rw [← insertCells_eq] at h1 h2 h3
  have hJ : Connecting (insertCells xTiles yTiles (AdjacencyListGraph.new true)).vertexList
      (cellOf (insertCells xTiles yTiles (AdjacencyListGraph.new true)))
      (insertCells xTiles yTiles (AdjacencyListGraph.new true)) := by
    refine ⟨h1, rfl, fun _ => rfl, ?_, ?_⟩
    · intro e he
      rw [h2] at he
      cases he
    · intro e he
      rw [h2] at he
      cases he
  obtain ⟨g, hg, hwf, hvl, hcell, hnb, hunit⟩ := insertConnections_spec hJ
  have hcells : (insertCells xTiles yTiles (AdjacencyListGraph.new true)).vertexList.map
      (cellOf (insertCells xTiles yTiles (AdjacencyListGraph.new true))) =
      ((List.range yTiles.toNat).map (fun (a : Nat) => (a : Int))).flatMap (fun (row : Int) =>
        ((List.range xTiles.toNat).map (fun (a : Nat) => (a : Int))).map
          (fun (col : Int) => some ({ row := row, column := col } : Grid))) := by
    rw [h3]
    rfl
  refine ⟨{ graph := g, tileWidth := Int.tdiv width xTiles, tileHeight := Int.tdiv height yTiles,
            xTiles := xTiles, yTiles := yTiles, width := width, height := height }, ?_,
    ⟨hwf, ?_, ?_, hnb, hunit, ⟨hx, hy⟩⟩, rfl, rfl⟩
  · unfold GridEnvironment.new
    have hxy : ¬ (xTiles = 0 ∨ yTiles = 0) := by
      rintro (h | h)
      · exact hx h
      · exact hy h
    simp only [if_neg hxy, hg, bind, Except.bind, pure, Except.pure]
  · intro v hv
    have hv' : v ∈ (insertCells xTiles yTiles (AdjacencyListGraph.new true)).vertexList :=
      hvl ▸ hv
    have hm : cellOf g v ∈ (insertCells xTiles yTiles (AdjacencyListGraph.new true)).vertexList.map
        (cellOf (insertCells xTiles yTiles (AdjacencyListGraph.new true))) := by
      rw [hcell v]
      exact List.mem_map_of_mem _ hv'
    rw [hcells] at hm
    exact gridCells_mem (castRange_nonneg _) (castRange_nonneg _) hm
  · intro u hu v hv huv
    have hu' : u ∈ (insertCells xTiles yTiles (AdjacencyListGraph.new true)).vertexList :=
      hvl ▸ hu
    have hv' : v ∈ (insertCells xTiles yTiles (AdjacencyListGraph.new true)).vertexList :=
      hvl ▸ hv
    have hnodup : ((insertCells xTiles yTiles (AdjacencyListGraph.new true)).vertexList.map
        (cellOf (insertCells xTiles yTiles (AdjacencyListGraph.new true)))).Nodup := by
      rw [hcells]
      exact gridCells_nodup (castRange_nodup _) (castRange_nodup _)
    have hinj := List.inj_on_of_nodup_map hnodup
    exact hinj hu' hv' (by rw [← hcell u, ← hcell v]; exact huv)

end GridEnvironment

namespace AdjacencyListGraph

variable {V E : Type}

/-- `removeVertex` of a vertex of a well-formed graph returns a well-formed graph without
the vertex and without the edges incident to it; the other vertices keep their payload
and the other edges their object. -/
theorem wellFormed_removeVertex {g : AdjacencyListGraph V E} (hg : g.WellFormed) {v : Ptr}
    (hv : v ∈ g.vertexList) :
    ∃ g', g.removeVertex v = .ok g' ∧ g'.WellFormed ∧
      g'.vertexList = g.vertexList.erase v ∧
      (∀ e, e ∈ g'.edgeList ↔ e ∈ g.edgeList ∧ ¬ g.Incident e v) ∧
      (∀ e ∈ g'.edgeList, g'.edgeObj e = g.edgeObj e) ∧
      (∀ u ∈ g'.vertexList, (g'.vertexObj u).map (fun o => o.element) =
        (g.vertexObj u).map (fun o => o.element)) := by
  obtain ⟨g1, hS, hres⟩ := removeVertex_stripped hg hv
  obtain ⟨h1, h2, h3, h4, h5, h6, h7⟩ := hg
  refine ⟨_, hres, ?_, ?_, ?_, ?_, ?_⟩
  · -- well-formedness
    have hvl : ((({ g1 with vertexList := g1.vertexList.erase v } :
        AdjacencyListGraph V E).setVertex v none)).vertexList = g.vertexList.erase v := by
      simp [setVertex, hS.vertexList]
    have hel : ((({ g1 with vertexList := g1.vertexList.erase v } :
        AdjacencyListGraph V E).setVertex v none)).edgeList =
        g.edgeList.filter (fun e => decide (e ∉ g.edgeList.filter
          (fun e => decide (g.Incident e v)))) := by
      simp [setVertex, hS.edgeList]
    have hmemR : ∀ e ∈ g.edgeList, (e ∈ g.edgeList.filter (fun e => decide (g.Incident e v)) ↔
        g.Incident e v) := by
      intro e he
      simp [List.mem_filter, he]
    have hends : ∀ e ∈ g.edgeList, ¬ g.Incident e v →
        ((({ g1 with vertexList := g1.vertexList.erase v } :
          AdjacencyListGraph V E).setVertex v none)).ends e = g.ends e := by
      intro e he hinc
      have : e ∉ g.edgeList.filter (fun e => decide (g.Incident e v)) :=
        fun h => hinc ((hmemR e he).mp h)
      simp [ends, setVertex, hS.edgeObj e, this]
    have hobj : ∀ u ∈ g.vertexList, u ≠ v →
        ((({ g1 with vertexList := g1.vertexList.erase v } :
          AdjacencyListGraph V E).setVertex v none)).vertexObj u =
        (g.vertexObj u).map (ALVertex.without
          (g.edgeList.filter (fun e => decide (g.Incident e v)))) := by
      intro u hu huv
      simp [setVertex, huv, hS.vertexObj u hu]
    have hout : ∀ u ∈ g.vertexList, u ≠ v →
        ((({ g1 with vertexList := g1.vertexList.erase v } :
          AdjacencyListGraph V E).setVertex v none)).out u =
        (g.out u).filter (fun e => decide (e ∉ g.edgeList.filter
          (fun e => decide (g.Incident e v)))) := by
      intro u hu huv
      unfold out
      rw [hobj u hu huv]
      cases g.vertexObj u with
      | none => rfl
      | some o => rfl
    have hinc : ∀ u ∈ g.vertexList, u ≠ v →
        ((({ g1 with vertexList := g1.vertexList.erase v } :
          AdjacencyListGraph V E).setVertex v none)).inc u =
        (g.inc u).filter (fun e => decide (e ∉ g.edgeList.filter
          (fun e => decide (g.Incident e v)))) := by
      intro u hu huv
      unfold inc
      rw [hobj u hu huv]
      cases g.vertexObj u with
      | none => rfl
      | some o => rfl
    have hfresh : ((({ g1 with vertexList := g1.vertexList.erase v } :
        AdjacencyListGraph V E).setVertex v none)).fresh = g.fresh := by
      simp [setVertex, hS.fresh]
    refine ⟨?_, ?_, ?_, ?_, ?_, ?_, ?_⟩
    · rw [hvl]; exact h1.erase v
    · rw [hel]; exact h2.filter _
    · intro u hu
      rw [hvl] at hu
      have huv : u ≠ v := fun h => (List.Nodup.mem_erase_iff h1).mp hu |>.1 h
      have hu' : u ∈ g.vertexList := List.mem_of_mem_erase hu
      obtain ⟨k1, k2, k3, k4, k5, k6⟩ := h3 u hu'
      refine ⟨k1, ?_, ?_, ?_, ?_, ?_⟩
      · rw [hobj u hu' huv]
        cases hx : g.vertexObj u with
        | none => simp [hx] at k2
        | some o => rfl
      · rw [hout u hu' huv]; exact k3.filter _
      · rw [hinc u hu' huv]; exact k4.filter _
      · intro e he
        rw [hout u hu' huv, List.mem_filter] at he
        obtain ⟨he1, he2⟩ := he
        have he2' : e ∉ g.edgeList.filter (fun e => decide (g.Incident e v)) :=
          of_decide_eq_true he2
        obtain ⟨m1, m2⟩ := k5 e he1
        have hni : ¬ g.Incident e v := fun h => he2' ((hmemR e m1).mpr h)
        refine ⟨?_, ?_⟩
        · rw [hel, List.mem_filter]
          exact ⟨m1, decide_eq_true he2'⟩
        · rw [hends e m1 hni]; exact m2
      · intro e he
        rw [hinc u hu' huv, List.mem_filter] at he
        obtain ⟨he1, he2⟩ := he
        have he2' : e ∉ g.edgeList.filter (fun e => decide (g.Incident e v)) :=
          of_decide_eq_true he2
        obtain ⟨m1, m2⟩ := k6 e he1
        have hni : ¬ g.Incident e v := fun h => he2' ((hmemR e m1).mpr h)
        refine ⟨?_, ?_⟩
        · rw [hel, List.mem_filter]
          exact ⟨m1, decide_eq_true he2'⟩
        · rw [hends e m1 hni]; exact m2
    · intro e he
      rw [hel, List.mem_filter] at he
      obtain ⟨he1, he2⟩ := he
      have he2' : e ∉ g.edgeList.filter (fun e => decide (g.Incident e v)) :=
        of_decide_eq_true he2
      have hni : ¬ g.Incident e v := fun h => he2' ((hmemR e he1).mpr h)
      obtain ⟨a, ha, b, hb, hab, hoa, hib⟩ := h4 e he1
      have hav : a ≠ v := by
        intro h
        apply hni
        left
        rw [hab, h]
        rfl
      have hbv : b ≠ v := by
        intro h
        apply hni
        right
        rw [hab, h]
        rfl
      refine ⟨a, ?_, b, ?_, ?_, ?_, ?_⟩
      · rw [hvl]; exact (List.Nodup.mem_erase_iff h1).mpr ⟨hav, ha⟩
      · rw [hvl]; exact (List.Nodup.mem_erase_iff h1).mpr ⟨hbv, hb⟩
      · rw [hends e he1 hni]; exact hab
      · rw [hout a ha hav, List.mem_filter]
        exact ⟨hoa, decide_eq_true he2'⟩
      · rw [hinc b hb hbv, List.mem_filter]
        exact ⟨hib, decide_eq_true he2'⟩
    · rw [hfresh]; exact h5
    · intro u hu
      rw [hvl] at hu
      rw [hfresh]
      exact h6 u (List.mem_of_mem_erase hu)
    · intro e he
      rw [hel] at he
      rw [hfresh]
      exact h7 e (List.mem_of_mem_filter he)
  · simp [setVertex, hS.vertexList]
  · intro e
    simp only [setVertex, hS.edgeList, List.mem_filter, decide_eq_true_eq, not_and, not_not]
    constructor
    · rintro ⟨he, h⟩
      exact ⟨he, fun hi => by simpa using h he hi⟩
    · rintro ⟨he, h⟩
      exact ⟨he, fun _ hi => absurd hi h⟩
  · intro e he
    simp only [setVertex, hS.edgeList, List.mem_filter, decide_eq_true_eq] at he
    have hR : e ∉ g.edgeList.filter (fun e => decide (g.Incident e v)) := by
      simpa [List.mem_filter] using he.2
    simp only [setVertex, hS.edgeObj e, if_neg hR]
  · intro u hu
    simp only [setVertex, hS.vertexList] at hu
    have huv : u ≠ v := fun h => (List.Nodup.mem_erase_iff h1).mp hu |>.1 h
    have hu' : u ∈ g.vertexList := List.mem_of_mem_erase hu
    simp only [setVertex, if_neg huv, hS.vertexObj u hu', Option.map_map]
    rfl

end AdjacencyListGraph

namespace GridEnvironment

theorem cellOf_removeVertex {g g' : AdjacencyListGraph Grid Int}
    (h : ∀ u ∈ g'.vertexList, (g'.vertexObj u).map (fun o => o.element) =
      (g.vertexObj u).map (fun o => o.element)) {u : Ptr} (hu : u ∈ g'.vertexList) :
    cellOf g' u = cellOf g u := h u hu

/-- `removeVertex` of a vertex of the graph keeps the representation invariant. -/
theorem sound_removeVertex {env : GridEnvironment} (hs : env.Sound) {v : Ptr}
    (hv : v ∈ env.graph.vertexList) :
    ∃ g', env.graph.removeVertex v = .ok g' ∧
      GridEnvironment.Sound { env with graph := g' } := by
  obtain ⟨g', hres, hwf, hvl, hel, hobj, helem⟩ :=
    AdjacencyListGraph.wellFormed_removeVertex hs.wellFormed hv
  have hsub : ∀ u ∈ g'.vertexList, u ∈ env.graph.vertexList ∧ u ≠ v := by
    intro u hu
    rw [hvl] at hu
    exact ⟨List.mem_of_mem_erase hu,
      fun h => ((List.Nodup.mem_erase_iff hs.wellFormed.1).mp hu).1 h⟩
  have hcell : ∀ u ∈ g'.vertexList, cellOf g' u = cellOf env.graph u := helem
  have hends : ∀ e ∈ g'.edgeList, g'.ends e = env.graph.ends e := by
    intro e he
    unfold AdjacencyListGraph.ends
    rw [hobj e he]
  refine ⟨g', hres, ⟨hwf, ?_, ?_, ?_, ?_, hs.tiles⟩⟩
  · intro u hu
    show ∃ c, cellOf g' u = some c ∧ 0 ≤ c.row ∧ 0 ≤ c.column
    rw [hcell u hu]
    exact hs.cells u (hsub u hu).1
  · intro a ha b hb hab
    show a = b
    have hab' : cellOf g' a = cellOf g' b := hab
    rw [hcell a ha, hcell b hb] at hab'
    exact hs.distinct a (hsub a ha).1 b (hsub b hb).1 hab'
  · intro e he
    show joinsNeighbours g' e = true
    have he' := (hel e).mp he
    rw [← hs.neighbours e he'.1]
    apply joinsNeighbours_congr (hends e he)
    intro a b hab
    obtain ⟨a', ha', b', hb', hab', -, -⟩ := hwf.2.2.2.1 e he
    rw [hends e he, hab] at hab'
    cases hab'
    exact ⟨hcell a ha', hcell b hb'⟩
  · intro e he
    show g'.weight e = 1
    have he' := (hel e).mp he
    unfold AdjacencyListGraph.weight
    rw [hobj e he]
    exact hs.unit e he'.1

theorem addObstacleLoop_sound {env : GridEnvironment} (hs : env.Sound) (gridLocation : Grid) :
    ∀ (l : List Ptr), (∀ v ∈ l, v ∈ env.graph.vertexList) →
      ∃ g', addObstacleLoop env.graph gridLocation l = .ok g' ∧
        GridEnvironment.Sound { env with graph := g' } := by
  intro l
  induction l with
  | nil =>
    intro _
    exact ⟨env.graph, rfl, hs⟩
  | cons v rest ih =>
    intro hl
    have hv := hl v (List.mem_cons_self _ _)
    obtain ⟨c, hc, -, -⟩ := hs.cells v hv
    simp only [addObstacleLoop, vertexElement_of_cellOf hc, bind, Except.bind]
    by_cases hm : c.row = gridLocation.row ∧ c.column = gridLocation.column
    · rw [if_pos hm]
      exact sound_removeVertex hs hv
    · rw [if_neg hm]
      exact ih (fun u hu => hl u (List.mem_cons_of_mem _ hu))

/-- `addObstacle` returns and keeps the representation invariant. -/
theorem sound_addObstacle {env : GridEnvironment} (hs : env.Sound) (gridLocation : Grid) :
    ∃ env1, env.addObstacle gridLocation = .ok env1 ∧ env1.Sound ∧
      env1.tileWidth = env.tileWidth ∧ env1.tileHeight = env.tileHeight := by
  obtain ⟨g', hres, hs'⟩ := addObstacleLoop_sound hs gridLocation env.graph.vertices
    (fun _ h => h)
  refine ⟨{ env with graph := g' }, ?_, hs', rfl, rfl⟩
  have hxy : ¬ (env.xTiles = 0 ∨ env.yTiles = 0) := by
    rintro (h | h)
    · exact hs.tiles.1 h
    · exact hs.tiles.2 h
  simp only [GridEnvironment.addObstacle, if_neg hxy, hres, bind, Except.bind, pure, Except.pure]

/-- Every environment that the constructor and `addObstacle` build satisfies the
representation invariant. -/
theorem Built.sound {env : GridEnvironment} (h : env.Built) : env.Sound := by
  induction h with
  | @new xTiles yTiles width height env hnew =>
    by_cases hxy : xTiles = 0 ∨ yTiles = 0
    · simp [GridEnvironment.new, hxy, bind, Except.bind, throw, throwThe, MonadExceptOf.throw] at hnew
    · have hx : xTiles ≠ 0 := fun h => hxy (Or.inl h)
      have hy : yTiles ≠ 0 := fun h => hxy (Or.inr h)
      obtain ⟨env', henv, hs, -, -⟩ := new_sound xTiles yTiles width height hx hy
      rw [henv] at hnew
      cases hnew
      exact hs
  | @addObstacle env env1 gridLocation _ hadd ih =>
    obtain ⟨env', henv, hs, -, -⟩ := sound_addObstacle ih gridLocation
    rw [henv] at hadd
    cases hadd
    exact hs

end GridEnvironment

namespace GridEnvironment

theorem manhattan_of_joinsNeighbours {g : AdjacencyListGraph Grid Int} {e a b : Ptr}
    {ca cb : Grid} (hends : g.ends e = some (a, b)) (ha : cellOf g a = some ca)
    (hb : cellOf g b = some cb) (h : joinsNeighbours g e = true) :
    gridDistance ca cb = 1 := by
  rw [joinsNeighbours_eq, hends] at h
  simp only [ha, hb, Bool.or_eq_true, Bool.and_eq_true, beq_iff_eq] at h
  unfold gridDistance
  rcases h with ⟨h1, h2⟩ | ⟨h1, h2⟩ <;> omega

theorem manhattan_triangle (a b c : Grid) :
    gridDistance a c ≤
      gridDistance a b + gridDistance b c := by
  unfold gridDistance
  omega

/-- Along a walk of the graph of a sound environment the Manhattan distance to the start
grows by at most one per edge, and every edge of the walk is an edge of the graph. -/
theorem Sound.walk_bound {env : GridEnvironment} (hs : env.Sound) :
    ∀ (path : List Ptr) (s t : Ptr), s ∈ env.graph.vertexList → env.graph.IsWalk s path t →
      t ∈ env.graph.vertexList ∧ (∀ e ∈ path, e ∈ env.graph.edgeList) ∧
      ∀ cs ct, cellOf env.graph s = some cs → cellOf env.graph t = some ct →
        gridDistance cs ct ≤ (path.length : Int) := by
  intro path
  induction path with
  | nil =>
    intro s t hsv hw
    have hst : s = t := hw
    subst hst
    refine ⟨hsv, ?_, ?_⟩
    · intro e he
      cases he
    · intro cs ct h1 h2
      rw [h1] at h2
      cases h2
      unfold gridDistance
      simp
  | cons e p ih =>
    intro s t hsv hw
    obtain ⟨heo, w, hopp, hrest⟩ := hw
    obtain ⟨w', hw', hends, hel⟩ := AdjacencyListGraph.WellFormed.out_edge hs.wellFormed hsv heo
    have hww : w = w' := by
      have := AdjacencyListGraph.opposite_of_ends_fst hends
      rw [hopp] at this
      cases this
      rfl
    subst hww
    obtain ⟨ht, hedges, hbound⟩ := ih w t hw' hrest
    refine ⟨ht, ?_, ?_⟩
    · intro e' he'
      rcases List.mem_cons.mp he' with rfl | he'
      · exact hel
      · exact hedges e' he'
    · intro cs ct h1 h2
      obtain ⟨cw, hcw, -, -⟩ := hs.cells w hw'
      have hstep := manhattan_of_joinsNeighbours hends h1 hcw (hs.neighbours e hel)
      have hrec := hbound cw ct hcw h2
      have htri := manhattan_triangle cs cw ct
      simp only [List.length_cons, Nat.cast_add, Nat.cast_one]
      omega

end GridEnvironment

theorem intResult_ok {x : Int} (h1 : -2147483648 ≤ x) (h2 : x ≤ 2147483647) :
    intResult x = .ok x := by
  unfold intResult
  rw [if_pos ⟨h1, h2⟩]

theorem gridDistance_eq (a b : Grid) :
    gridDistance a b = |a.row - b.row| + |a.column - b.column| := by
  unfold gridDistance
  rw [Int.natCast_natAbs, Int.natCast_natAbs, abs_sub_comm a.row, abs_sub_comm a.column]

/-- The Manhattan estimate is the grid distance when that is an `int`. -/
theorem manhattan_estimate_ok (a b : Grid) (h : gridDistance a b ≤ 2147483647) :
    ManhattanHeuristic.estimate a b = .ok (gridDistance a b) := by
  unfold gridDistance at h ⊢
  unfold ManhattanHeuristic.estimate
  rw [intResult_ok (x := b.row - a.row) (by omega) (by omega)]
  simp only [bind, Except.bind]
  rw [intResult_ok (x := ((b.row - a.row).natAbs : Int)) (by omega) (by omega)]
  simp only
  rw [intResult_ok (x := b.column - a.column) (by omega) (by omega)]
  simp only
  rw [intResult_ok (x := ((b.column - a.column).natAbs : Int)) (by omega) (by omega)]
  simp only
  rw [intResult_ok (by omega) (by omega)]

/-- The Euclidean estimate, for a sum of squares below `2^52`: the greatest integer whose
square does not exceed the sum. The integers up to `2^53` are `double` values; `sqrt` is
monotone, exact on the squares of integers and has a relative error of at most `2^-53`. -/
theorem euclidean_estimate_ok {F : Type} [LinearOrderedField F] [FloorRing F]
    (double sqrt : F → F)
    (hdouble : ∀ n : Int, 0 ≤ n → n ≤ 9007199254740992 → double (n : F) = (n : F))
    (hmono : ∀ x y : F, 0 ≤ x → x ≤ y → sqrt x ≤ sqrt y)
    (hsquare : ∀ k : Int, 0 ≤ k → k * k ≤ 9007199254740992 → sqrt ((k * k : Int) : F) = (k : F))
    (herr : ∀ x : F, 0 ≤ x → sqrt x * sqrt x ≤ x * (1 + 1 / 9007199254740992) ^ 2)
    (a b : Grid)
    (h : (b.row - a.row) ^ 2 + (b.column - a.column) ^ 2 < 4503599627370496) :
    ∃ e : Int, EuclideanHeuristic.estimate double sqrt a b = .ok e ∧ 0 ≤ e ∧
      e ^ 2 ≤ (b.row - a.row) ^ 2 + (b.column - a.column) ^ 2 ∧
      (b.row - a.row) ^ 2 + (b.column - a.column) ^ 2 < (e + 1) ^ 2 := by
  have hr2 : (b.row - a.row) ^ 2 < 4503599627370496 := by nlinarith [sq_nonneg (b.column - a.column)]
  have hc2 : (b.column - a.column) ^ 2 < 4503599627370496 := by nlinarith [sq_nonneg (b.row - a.row)]
  have hr : -134217728 ≤ b.row - a.row ∧ b.row - a.row ≤ 134217728 := by
    constructor <;> nlinarith
  have hc : -134217728 ≤ b.column - a.column ∧ b.column - a.column ≤ 134217728 := by
    constructor <;> nlinarith
  generalize hS : (b.row - a.row) ^ 2 + (b.column - a.column) ^ 2 = S at h
  have hS0 : 0 ≤ S := by rw [← hS]; positivity
  have harg : double (double (((b.row - a.row : Int) : F) ^ 2) +
      double (((b.column - a.column : Int) : F) ^ 2)) = (S : F) := by
    have h1 : ((b.row - a.row : Int) : F) ^ 2 = (((b.row - a.row) ^ 2 : Int) : F) := by push_cast; ring
    have h2 : ((b.column - a.column : Int) : F) ^ 2 = (((b.column - a.column) ^ 2 : Int) : F) := by
      push_cast; ring
    rw [h1, h2, hdouble _ (sq_nonneg _) (by omega), hdouble _ (sq_nonneg _) (by omega)]
    have h3 : (((b.row - a.row) ^ 2 : Int) : F) + (((b.column - a.column) ^ 2 : Int) : F) = (S : F) := by
      rw [← hS]; push_cast; ring
    rw [h3, hdouble S hS0 (by omega)]
  -- the integer root of `S`
  obtain ⟨k, hk0, hklow, hkhigh⟩ : ∃ k : Int, 0 ≤ k ∧ k * k ≤ S ∧ S < (k + 1) * (k + 1) := by
    refine ⟨(Nat.sqrt S.toNat : Int), by positivity, ?_, ?_⟩
    · have := Nat.sqrt_le S.toNat
      have h4 : ((Nat.sqrt S.toNat * Nat.sqrt S.toNat : Nat) : Int) ≤ (S.toNat : Int) := by
        exact_mod_cast this
      rw [Int.toNat_of_nonneg hS0] at h4
      push_cast at h4
      exact h4
    · have := Nat.lt_succ_sqrt S.toNat
      have h4 : (S.toNat : Int) < ((Nat.succ (Nat.sqrt S.toNat) * Nat.succ (Nat.sqrt S.toNat) : Nat) : Int) := by
        exact_mod_cast this
      rw [Int.toNat_of_nonneg hS0] at h4
      push_cast at h4
      exact h4
  have hSF0 : (0 : F) ≤ (S : F) := by exact_mod_cast hS0
  have hkF0 : (0 : F) ≤ (k : F) := by exact_mod_cast hk0
  have hlowF : (k : F) ≤ sqrt (S : F) := by
    rw [← hsquare k hk0 (by omega)]
    apply hmono
    · exact_mod_cast mul_nonneg hk0 hk0
    · exact_mod_cast hklow
  have hroot0 : (0 : F) ≤ sqrt (S : F) := le_trans hkF0 hlowF
  have hup := herr (S : F) hSF0
  have hSle : (S : F) ≤ 4503599627370495 := by
    have : S ≤ 4503599627370495 := by omega
    exact_mod_cast this
  have hSk : (S : F) + 1 ≤ ((k : F) + 1) * ((k : F) + 1) := by
    have : S + 1 ≤ (k + 1) * (k + 1) := by omega
    exact_mod_cast this
  have hhighF : sqrt (S : F) < (k : F) + 1 := by
    by_contra hnot
    push_neg at hnot
    have h5 : ((k : F) + 1) * ((k : F) + 1) ≤ sqrt (S : F) * sqrt (S : F) :=
      mul_le_mul hnot hnot (by linarith) hroot0
    have h6 : (S : F) * (1 + 1 / 9007199254740992) ^ 2 < (S : F) + 1 := by
      have hc0 : (0 : F) ≤ (1 + 1 / 9007199254740992) ^ 2 - 1 := by norm_num
      have hc1 : (4503599627370495 : F) * ((1 + 1 / 9007199254740992) ^ 2 - 1) < 1 := by norm_num
      have hc2 : (S : F) * ((1 + 1 / 9007199254740992) ^ 2 - 1) ≤
          4503599627370495 * ((1 + 1 / 9007199254740992) ^ 2 - 1) :=
        mul_le_mul_of_nonneg_right hSle hc0
      linarith
    linarith
  have hfloor : Int.floor (sqrt (S : F)) = k := by
    rw [Int.floor_eq_iff]
    exact ⟨hlowF, hhighF⟩
  refine ⟨k, ?_, hk0, by rw [sq]; exact hklow, by rw [sq]; exact hkhigh⟩
  unfold EuclideanHeuristic.estimate
  rw [intResult_ok (x := b.row - a.row) (by omega) (by omega)]
  simp only [bind, Except.bind]
  rw [intResult_ok (x := b.column - a.column) (by omega) (by omega)]
  simp only [harg, truncate, if_pos hroot0, hfloor]
  apply intResult_ok
  · omega
  · nlinarith

/-- C26, as amended: for all integer grid cells `a` and `b` whose absolute row and
column differences sum to at most `2147483647`, the greatest `int`,
`ManhattanHeuristic<int>::estimate(a, b)` returns `|a.row - b.row| + |a.column -
b.column|`; for all cells whose squared row and column differences sum to less than
`2^52`, `EuclideanHeuristic<int>::estimate(a, b)` returns the integer part of the square
root of that sum (the greatest integer whose square does not exceed it), where the
integers up to `2^53` are `double` values and `std::sqrt` is monotone, exact on the
squares of integers and has a relative error of at most `2^-53`; for such cells both are
non-negative and `0 <= Euclidean <= Manhattan`; and in the graph of every environment
built by the constructor and `addObstacle`, a four-neighbour grid graph with unit edge
weights and any set of cells removed, the Manhattan estimate between the cells of two
vertices is at most the number of edges of every path between them, which is also the
weight of the path. -/
theorem manhattan_and_euclidean_are_admissible {F : Type} [LinearOrderedField F]
    [FloorRing F] (double sqrt : F → F)
    (hdouble : ∀ n : Int, 0 ≤ n → n ≤ 9007199254740992 → double (n : F) = (n : F))
    (hmono : ∀ x y : F, 0 ≤ x → x ≤ y → sqrt x ≤ sqrt y)
    (hsquare : ∀ k : Int, 0 ≤ k → k * k ≤ 9007199254740992 → sqrt ((k * k : Int) : F) = (k : F))
    (herr : ∀ x : F, 0 ≤ x → sqrt x * sqrt x ≤ x * (1 + 1 / 9007199254740992) ^ 2) :
    (∀ a b : Grid, |a.row - b.row| + |a.column - b.column| ≤ 2147483647 →
      ManhattanHeuristic.estimate a b = .ok (|a.row - b.row| + |a.column - b.column|) ∧
      0 ≤ |a.row - b.row| + |a.column - b.column|) ∧
    (∀ a b : Grid, (a.row - b.row) ^ 2 + (a.column - b.column) ^ 2 < 4503599627370496 →
      ∃ euclidean : Int,
        EuclideanHeuristic.estimate double sqrt a b = .ok euclidean ∧
        ManhattanHeuristic.estimate a b = .ok (|a.row - b.row| + |a.column - b.column|) ∧
        euclidean ^ 2 ≤ (a.row - b.row) ^ 2 + (a.column - b.column) ^ 2 ∧
        (a.row - b.row) ^ 2 + (a.column - b.column) ^ 2 < (euclidean + 1) ^ 2 ∧
        0 ≤ euclidean ∧ euclidean ≤ |a.row - b.row| + |a.column - b.column|) ∧
    (∀ (env : GridEnvironment), env.Built → ∀ (va vb : Ptr) (a b : Grid) (path : List Ptr),
      va ∈ env.graph.vertices → env.graph.vertexElement va = .ok a →
      env.graph.vertexElement vb = .ok b → env.graph.IsWalk va path vb →
      |a.row - b.row| + |a.column - b.column| ≤ 2147483647 →
      ∃ manhattan : Int,
        ManhattanHeuristic.estimate a b = .ok manhattan ∧
        0 ≤ manhattan ∧ manhattan ≤ (path.length : Int) ∧
        env.graph.pathWeight path = (path.length : Int) ∧
        ((a.row - b.row) ^ 2 + (a.column - b.column) ^ 2 < 4503599627370496 →
          ∃ euclidean : Int, EuclideanHeuristic.estimate double sqrt a b = .ok euclidean ∧
            0 ≤ euclidean ∧ euclidean ≤ manhattan)) := by
  have hman : ∀ a b : Grid, |a.row - b.row| + |a.column - b.column| ≤ 2147483647 →
      ManhattanHeuristic.estimate a b = .ok (|a.row - b.row| + |a.column - b.column|) := by
    intro a b h
    rw [← gridDistance_eq] at h ⊢
    exact manhattan_estimate_ok a b h
  have hnonneg : ∀ a b : Grid, 0 ≤ |a.row - b.row| + |a.column - b.column| := by
    intro a b
    have := abs_nonneg (a.row - b.row)
    have := abs_nonneg (a.column - b.column)
    omega
  have heuc : ∀ a b : Grid, (a.row - b.row) ^ 2 + (a.column - b.column) ^ 2 < 4503599627370496 →
      ∃ euclidean : Int,
        EuclideanHeuristic.estimate double sqrt a b = .ok euclidean ∧
        ManhattanHeuristic.estimate a b = .ok (|a.row - b.row| + |a.column - b.column|) ∧
        euclidean ^ 2 ≤ (a.row - b.row) ^ 2 + (a.column - b.column) ^ 2 ∧
        (a.row - b.row) ^ 2 + (a.column - b.column) ^ 2 < (euclidean + 1) ^ 2 ∧
        0 ≤ euclidean ∧ euclidean ≤ |a.row - b.row| + |a.column - b.column| := by
    intro a b h
    have hswap : (b.row - a.row) ^ 2 + (b.column - a.column) ^ 2 =
        (a.row - b.row) ^ 2 + (a.column - b.column) ^ 2 := by ring
    obtain ⟨e, he, he0, hlow, hhigh⟩ :=
      euclidean_estimate_ok double sqrt hdouble hmono hsquare herr a b (by rw [hswap]; exact h)
    rw [hswap] at hlow hhigh
    have hr0 := abs_nonneg (a.row - b.row)
    have hc0 := abs_nonneg (a.column - b.column)
    have hsq : (a.row - b.row) ^ 2 + (a.column - b.column) ^ 2 ≤
        (|a.row - b.row| + |a.column - b.column|) ^ 2 := by
      nlinarith [sq_abs (a.row - b.row), sq_abs (a.column - b.column), mul_nonneg hr0 hc0]
    have hle : e ≤ |a.row - b.row| + |a.column - b.column| := by
      by_contra hnot
      push_neg at hnot
      nlinarith
    have hsmall : |a.row - b.row| + |a.column - b.column| ≤ 2147483647 := by
      have hr2 : |a.row - b.row| ^ 2 ≤ 4503599627370496 := by
        rw [sq_abs]
        nlinarith [sq_nonneg (a.column - b.column)]
      have hc2 : |a.column - b.column| ^ 2 ≤ 4503599627370496 := by
        rw [sq_abs]
        nlinarith [sq_nonneg (a.row - b.row)]
      have h1 : |a.row - b.row| ≤ 134217728 := by nlinarith
      have h2 : |a.column - b.column| ≤ 134217728 := by nlinarith
      omega
    exact ⟨e, he, hman a b hsmall, hlow, hhigh, he0, hle⟩
  refine ⟨fun a b h => ⟨hman a b h, hnonneg a b⟩, heuc, ?_⟩
  intro env hb va vb a b path hva ha hb' hwalk hrange
  have hs := hb.sound
  obtain ⟨-, hedges, hbound⟩ := hs.walk_bound path va vb hva hwalk
  have hca : cellOf env.graph va = some a := by
    unfold cellOf
    unfold AdjacencyListGraph.vertexElement AdjacencyListGraph.vertexAt at ha
    cases hv : env.graph.vertexObj va with
    | none => simp [hv, Except.map] at ha
    | some o =>
      simp only [hv, Except.map] at ha
      cases ha
      rfl
  have hcb : cellOf env.graph vb = some b := by
    unfold cellOf
    unfold AdjacencyListGraph.vertexElement AdjacencyListGraph.vertexAt at hb'
    cases hv : env.graph.vertexObj vb with
    | none => simp [hv, Except.map] at hb'
    | some o =>
      simp only [hv, Except.map] at hb'
      cases hb'
      rfl
  have hpath := hbound a b hca hcb
  rw [gridDistance_eq] at hpath
  refine ⟨_, hman a b hrange, hnonneg a b, hpath,
    AdjacencyListGraph.pathWeight_of_unit hs.unit path hedges, ?_⟩
  intro hE
  obtain ⟨e, he, -, -, -, he0, hle⟩ := heuc a b hE
  exact ⟨e, he, he0, hle⟩

namespace GridEnvironment

theorem truncate_add_half {F : Type} [LinearOrderedField F] [FloorRing F] (n : Int)
    (hn : 0 ≤ n) : truncate ((n : F) + 1 / 2) = n := by
  have h0 : (0 : F) ≤ (n : F) + 1 / 2 := by
    have : (0 : F) ≤ (n : F) := by exact_mod_cast hn
    linarith
  unfold truncate
  rw [if_pos h0, Int.floor_eq_iff]
  constructor
  · linarith
  · linarith

theorem quantizeLoop_of_mem {env : GridEnvironment} (hs : env.Sound) {v : Ptr} {c : Grid}
    (hc : cellOf env.graph v = some c) (hv : v ∈ env.graph.vertexList) :
    ∀ (l : List Ptr), (∀ u ∈ l, u ∈ env.graph.vertexList) → v ∈ l →
      quantizeLoop env.graph c.row c.column l = .ok v := by
  intro l
  induction l with
  | nil =>
    intro _ h
    cases h
  | cons u rest ih =>
    intro hl hmem
    have hu := hl u (List.mem_cons_self _ _)
    obtain ⟨cu, hcu, -, -⟩ := hs.cells u hu
    simp only [quantizeLoop, vertexElement_of_cellOf hcu, bind, Except.bind]
    by_cases hm : cu.row = c.row ∧ cu.column = c.column
    · rw [if_pos hm]
      have hcc : cu = c := by
        cases cu
        cases c
        simp only [Grid.mk.injEq]
        exact hm
      have huv : u = v := hs.distinct u hu v hv (by rw [hcu, hc, hcc])
      rw [huv]
      rfl
    · rw [if_neg hm]
      have huv : v ≠ u := by
        intro h
        apply hm
        rw [h, hcu] at hc
        cases hc
        exact ⟨rfl, rfl⟩
      rcases List.mem_cons.mp hmem with h | h
      · exact absurd h huv
      · exact ih (fun w hw => hl w (List.mem_cons_of_mem _ hw)) h

end GridEnvironment

/-- C30: for every environment built by the constructor and `addObstacle` whose tile
width and tile height are at least `1`, and every vertex `v` of its graph, `localize(v)`
returns a position and `quantize` of that position returns `v`. -/
theorem quantize_of_localize_is_the_vertex (F : Type) [LinearOrderedField F] [FloorRing F]
    (env : GridEnvironment) (hbuilt : env.Built) (hwidth : 1 ≤ env.tileWidth)
    (hheight : 1 ≤ env.tileHeight) (v : Ptr) (hv : v ∈ env.graph.vertices) :
    ∃ position, env.localize F v = .ok position ∧ env.quantize F position = .ok v := by
  have hs := hbuilt.sound
  obtain ⟨c, hc, hrow, hcol⟩ := hs.cells v hv
  have hw : (env.tileWidth : F) ≠ 0 := by
    have : env.tileWidth ≠ 0 := by omega
    exact_mod_cast this
  have hh : (env.tileHeight : F) ≠ 0 := by
    have : env.tileHeight ≠ 0 := by omega
    exact_mod_cast this
  refine ⟨⟨(c.column : F) * (env.tileWidth : F) + (env.tileWidth : F) / 2,
    (c.row : F) * (env.tileHeight : F) + (env.tileHeight : F) / 2⟩, ?_, ?_⟩
  · simp only [GridEnvironment.localize, vertexElement_of_cellOf hc, bind, Except.bind, pure,
      Except.pure]
  · have hx : ((c.column : F) * (env.tileWidth : F) + (env.tileWidth : F) / 2) /
        (env.tileWidth : F) = (c.column : F) + 1 / 2 := by
      field_simp
      ring
    have hy : ((c.row : F) * (env.tileHeight : F) + (env.tileHeight : F) / 2) /
        (env.tileHeight : F) = (c.row : F) + 1 / 2 := by
      field_simp
      ring
    simp only [GridEnvironment.quantize, divide_of_ne _ hw, divide_of_ne _ hh, bind,
      Except.bind, hx, hy, GridEnvironment.truncate_add_half _ hcol,
      GridEnvironment.truncate_add_half _ hrow]
    exact GridEnvironment.quantizeLoop_of_mem hs hc hv _ (fun _ h => h) hv

theorem environment3x3_new : GridEnvironment.new 3 3 640 480 = .ok environment3x3 := by
  rfl

theorem environment3x3_built : environment3x3.Built :=
  GridEnvironment.Built.new environment3x3_new

theorem environment3x3_walk : environment3x3.graph.IsWalk 1 [10, 13] 3 :=
  ⟨by decide, 2, rfl, by decide, 3, rfl, rfl⟩

/-- C26, counterexample: for the cells `(2147483647, 0)` and `(-2147483648, 0)`, whose
coordinates are `int` values, the difference of the rows is outside the range of `int`,
so `ManhattanHeuristic<int>::estimate` is undefined behaviour; the sum of the absolute
differences, `4294967295`, is not an `int`, so it is the value of no estimate. -/
theorem manhattan_estimate_overflows_for_far_cells :
    ManhattanHeuristic.estimate ⟨2147483647, 0⟩ ⟨-2147483648, 0⟩ = .error .undefinedBehaviour ∧
    |(2147483647 : Int) - (-2147483648)| + |(0 : Int) - 0| = 4294967295 ∧
    intResult 4294967295 = .error .undefinedBehaviour :=
  ⟨rfl, by norm_num, rfl⟩

theorem manhattan_and_euclidean_are_admissible_witness :
    ((∀ n : Int, 0 ≤ n → n ≤ 9007199254740992 → (fun x : ℝ => x) (n : ℝ) = (n : ℝ)) ∧
      (∀ x y : ℝ, 0 ≤ x → x ≤ y → Real.sqrt x ≤ Real.sqrt y) ∧
      (∀ k : Int, 0 ≤ k → k * k ≤ 9007199254740992 → Real.sqrt ((k * k : Int) : ℝ) = (k : ℝ)) ∧
      (∀ x : ℝ, 0 ≤ x →
        Real.sqrt x * Real.sqrt x ≤ x * (1 + 1 / 9007199254740992) ^ 2)) ∧
    (environment3x3.Built ∧ 1 ∈ environment3x3.graph.vertices ∧
      environment3x3.graph.vertexElement 1 = .ok ⟨0, 0⟩ ∧
      environment3x3.graph.vertexElement 3 = .ok ⟨0, 2⟩ ∧
      environment3x3.graph.IsWalk 1 [10, 13] 3 ∧
      |(0 : Int) - 0| + |(0 : Int) - 2| ≤ 2147483647 ∧
      ((0 : Int) - 0) ^ 2 + ((0 : Int) - 2) ^ 2 < 4503599627370496) ∧
    ManhattanHeuristic.estimate ⟨0, 0⟩ ⟨0, 2⟩ = .ok 2 ∧
    EuclideanHeuristic.estimate (fun x : ℝ => x) Real.sqrt ⟨0, 0⟩ ⟨0, 2⟩ = .ok 2 ∧
    (∃ manhattan : Int,
      ManhattanHeuristic.estimate ⟨0, 0⟩ ⟨0, 2⟩ = .ok manhattan ∧
      0 ≤ manhattan ∧ manhattan ≤ (([10, 13] : List Ptr).length : Int) ∧
      environment3x3.graph.pathWeight [10, 13] = (([10, 13] : List Ptr).length : Int)) := by
  have hdouble : ∀ n : Int, 0 ≤ n → n ≤ 9007199254740992 →
      (fun x : ℝ => x) (n : ℝ) = (n : ℝ) := fun _ _ _ => rfl
  have hmono : ∀ x y : ℝ, 0 ≤ x → x ≤ y → Real.sqrt x ≤ Real.sqrt y :=
    fun x y _ hxy => Real.sqrt_le_sqrt hxy
  have hsquare : ∀ k : Int, 0 ≤ k → k * k ≤ 9007199254740992 →
      Real.sqrt ((k * k : Int) : ℝ) = (k : ℝ) := by
    intro k hk _
    push_cast
    exact Real.sqrt_mul_self (by exact_mod_cast hk)
  have herr : ∀ x : ℝ, 0 ≤ x →
      Real.sqrt x * Real.sqrt x ≤ x * (1 + 1 / 9007199254740992) ^ 2 := by
    intro x hx
    rw [Real.mul_self_sqrt hx]
    exact le_mul_of_one_le_right hx (by norm_num)
  have h := manhattan_and_euclidean_are_admissible (fun x : ℝ => x) Real.sqrt hdouble hmono
    hsquare herr
  obtain ⟨m, h1, h2, h3, h4, -⟩ := h.2.2 environment3x3 environment3x3_built 1 3 ⟨0, 0⟩
    ⟨0, 2⟩ [10, 13] (by decide) rfl rfl environment3x3_walk (by norm_num)
  obtain ⟨e, he, -, hlow, hhigh, he0, -⟩ := h.2.1 ⟨0, 0⟩ ⟨0, 2⟩ (by norm_num)
  have he2 : e = 2 := by
    norm_num at hlow hhigh
    nlinarith
  rw [he2] at he
  exact ⟨⟨hdouble, hmono, hsquare, herr⟩, ⟨environment3x3_built, by decide, rfl, rfl,
    environment3x3_walk, by norm_num, by norm_num⟩, rfl, he, m, h1, h2, h3, h4⟩

/-- C27: in the graph of `GridEnvironment(3, 3, 640, 480)`, which has no obstacle,
`EuclideanSquaredHeuristic<int>::estimate` between the cells `(0, 0)` and `(0, 2)` is `4`,
while there is a path of two edges of weight `1` between their vertices and no path has
fewer edges: the estimate is greater than the length of a shortest path. -/
theorem euclideanSquared_exceeds_shortest_path :
    ∃ (a b : Grid) (va vb : Ptr) (shortest : List Ptr),
      GridEnvironment.new 3 3 640 480 = .ok environment3x3 ∧
      environment3x3.graph.vertexElement va = .ok a ∧
      environment3x3.graph.vertexElement vb = .ok b ∧
      a.row = b.row ∧ b.column = a.column + 2 ∧
      EuclideanSquaredHeuristic.estimate a b = 4 ∧
      environment3x3.graph.IsWalk va shortest vb ∧ shortest.length = 2 ∧
      environment3x3.graph.pathWeight shortest = 2 ∧
      (∀ path, environment3x3.graph.IsWalk va path vb → shortest.length ≤ path.length) ∧
      (shortest.length : Int) < EuclideanSquaredHeuristic.estimate a b := by
  refine ⟨⟨0, 0⟩, ⟨0, 2⟩, 1, 3, [10, 13], environment3x3_new, rfl, rfl, rfl, rfl, rfl,
    environment3x3_walk, rfl, by decide, ?_, by decide⟩
  intro path hwalk
  have h := (environment3x3_built.sound.walk_bound path 1 3 (by decide) hwalk).2.2
    ⟨0, 0⟩ ⟨0, 2⟩ rfl rfl
  have hm : gridDistance ⟨0, 0⟩ ⟨0, 2⟩ = 2 := by decide
  rw [hm] at h
  have : (2 : Int) ≤ (path.length : Int) := h
  simp only [List.length_cons, List.length_nil]
  omega

theorem quantize_of_localize_is_the_vertex_witness :
    (environment3x3.Built ∧ 1 ≤ environment3x3.tileWidth ∧ 1 ≤ environment3x3.tileHeight ∧
      5 ∈ environment3x3.graph.vertices) ∧
    ∃ position, environment3x3.localize ℚ 5 = .ok position ∧
      environment3x3.quantize ℚ position = .ok 5 :=
  ⟨⟨environment3x3_built, by decide, by decide, by decide⟩,
    quantize_of_localize_is_the_vertex ℚ environment3x3 environment3x3_built (by decide)
      (by decide) 5 (by decide)⟩
/-! ### The path-following behaviors -/

section PathFollowing

variable {F : Type} [LinearOrderedField F]

theorem vectorAt_of_lt {α : Type} (v : List α) {i : Nat} (h : i < v.length) :
    vectorAt v i = .ok (v.get ⟨i, h⟩) := by
  unfold vectorAt
  rw [List.get?_eq_get h]

theorem scan_fold (distance : Nat → F) :
    ∀ (m a : Nat) (b : F × Nat),
      ((List.range' a m).foldl (scanPure distance) b = b ∧
        ∀ j, a ≤ j → j < a + m → ¬ distance j < b.1) ∨
      (a ≤ ((List.range' a m).foldl (scanPure distance) b).2 ∧
        ((List.range' a m).foldl (scanPure distance) b).2 < a + m ∧
        ((List.range' a m).foldl (scanPure distance) b).1 =
          distance ((List.range' a m).foldl (scanPure distance) b).2 ∧
        distance ((List.range' a m).foldl (scanPure distance) b).2 < b.1 ∧
        (∀ j, a ≤ j → j < a + m →
          distance ((List.range' a m).foldl (scanPure distance) b).2 ≤ distance j) ∧
        (∀ j, a ≤ j → j < ((List.range' a m).foldl (scanPure distance) b).2 →
          distance ((List.range' a m).foldl (scanPure distance) b).2 < distance j)) := by
  intro m
  induction m with
  | zero =>
    intro a b
    left
    exact ⟨rfl, fun j h1 h2 => absurd h2 (by omega)⟩
  | succ m ih =>
    intro a b
    have hr : List.range' a (m + 1) = a :: List.range' (a + 1) m := by
      simp [List.range'_succ]
    rw [hr, List.foldl_cons]
    by_cases hlt : distance a < b.1
    · have hb : scanPure distance b a = (distance a, a) := by simp [scanPure, hlt]
      rw [hb]
      rcases ih (a + 1) (distance a, a) with ⟨h1, h2⟩ | ⟨h1, h2, h3, h4, h5, h6⟩
      · right
        rw [h1]
        refine ⟨le_refl a, by omega, rfl, hlt, ?_, ?_⟩
        · intro j hj1 hj2
          rcases Nat.eq_or_lt_of_le hj1 with h | h
          · rw [← h]
          · exact not_lt.mp (h2 j h (by omega))
        · intro j hj1 hj2
          exact absurd hj2 (by simp only [] ; omega)
      · right
        refine ⟨by omega, by omega, h3, lt_trans h4 hlt, ?_, ?_⟩
        · intro j hj1 hj2
          rcases Nat.eq_or_lt_of_le hj1 with h | h
          · rw [← h]
            exact le_of_lt h4
          · exact h5 j h (by omega)
        · intro j hj1 hj2
          rcases Nat.eq_or_lt_of_le hj1 with h | h
          · rw [← h]
            exact h4
          · exact h6 j h hj2
    · have hb : scanPure distance b a = b := by simp [scanPure, hlt]
      rw [hb]
      rcases ih (a + 1) b with ⟨h1, h2⟩ | ⟨h1, h2, h3, h4, h5, h6⟩
      · left
        refine ⟨h1, ?_⟩
        intro j hj1 hj2
        rcases Nat.eq_or_lt_of_le hj1 with h | h
        · rw [← h]
          exact hlt
        · exact h2 j h (by omega)
      · right
        have hda : distance ((List.range' (a + 1) m).foldl (scanPure distance) b).2 <
            distance a := lt_of_lt_of_le h4 (not_lt.mp hlt)
        refine ⟨by omega, by omega, h3, h4, ?_, ?_⟩
        · intro j hj1 hj2
          rcases Nat.eq_or_lt_of_le hj1 with h | h
          · rw [← h]
            exact le_of_lt hda
          · exact h5 j h (by omega)
        · intro j hj1 hj2
          rcases Nat.eq_or_lt_of_le hj1 with h | h
          · rw [← h]
            exact hda
          · exact h6 j h hj2

theorem scan_foldlM (sqrt : F → F) (env : GridEnvironment) (path : List Ptr)
    (futurePosition : Vector2 F) (start : Nat → Vector2 F)
    (hstart : ∀ i (h : i < path.length),
      env.localizeEndpoint F (path.get ⟨i, h⟩) 0 = .ok (start i)) :
    ∀ (l : List Nat) (b : F × Nat), (∀ i ∈ l, i < path.length) →
      l.foldlM (scanStep sqrt env path futurePosition) b =
        .ok (l.foldl (scanPure (fun i => Vmath.length sqrt ((start i).sub futurePosition))) b) := by
  intro l
  induction l with
  | nil =>
    intro b _
    rfl
  | cons i l ih =>
    intro b hl
    have hi := hl i (List.mem_cons_self _ _)
    have hstep : scanStep sqrt env path futurePosition b i =
        .ok (scanPure (fun i => Vmath.length sqrt ((start i).sub futurePosition)) b i) := by
      simp only [scanStep, vectorAt_of_lt path hi, hstart i hi, bind, Except.bind, scanPure]
      split <;> rfl
    simp only [List.foldlM_cons, List.foldl_cons, hstep, bind, Except.bind]
    exact ih _ (fun j hj => hl j (List.mem_cons_of_mem _ hj))

/-- What the shared statements of the path-following behaviors do on a non-empty path
whose edges can be localized, from an index below the length of the path. -/
theorem followPath_spec (sqrt : F → F) (floatMax : F) (env : GridEnvironment)
    (find : Params F → Except Fault (Accelerations F)) (path : List Ptr) (currentIndex : Nat)
    (predictTime : F) (character : Target F) (start far : Nat → Vector2 F)
    (hindex : currentIndex < path.length)
    (hstart : ∀ i (h : i < path.length),
      env.localizeEndpoint F (path.get ⟨i, h⟩) 0 = .ok (start i))
    (hfar : ∀ i (h : i < path.length),
      env.localizeEndpoint F (path.get ⟨i, h⟩) 1 = .ok (far i))
    (hmax : ∀ i, i < path.length → Vmath.length sqrt ((start i).sub
      (character.position.add (character.linearVelocity.mul predictTime))) < floatMax) :
    ∃ k, currentIndex ≤ k ∧ k < path.length ∧
      (∀ j, currentIndex ≤ j → j < path.length →
        Vmath.length sqrt ((start k).sub
          (character.position.add (character.linearVelocity.mul predictTime))) ≤
        Vmath.length sqrt ((start j).sub
          (character.position.add (character.linearVelocity.mul predictTime)))) ∧
      (∀ j, currentIndex ≤ j → j < k →
        Vmath.length sqrt ((start k).sub
          (character.position.add (character.linearVelocity.mul predictTime))) <
        Vmath.length sqrt ((start j).sub
          (character.position.add (character.linearVelocity.mul predictTime)))) ∧
      followPath sqrt floatMax env find path currentIndex predictTime character =
        (find { target := { (Target.new : Target F) with position := far k },
                character := character }).map (fun a => (a, k)) := by
  have hlen : ¬ path.length = 0 := by omega
  have hsum : currentIndex + (path.length - currentIndex) = path.length := by omega
  have hscan := scan_foldlM sqrt env path
    (character.position.add (character.linearVelocity.mul predictTime)) start hstart
    (List.range' currentIndex (path.length - currentIndex)) (floatMax, currentIndex)
    (by
      intro i hi
      rw [List.mem_range'_1] at hi
      omega)
  rcases scan_fold (fun i => Vmath.length sqrt ((start i).sub
      (character.position.add (character.linearVelocity.mul predictTime))))
      (path.length - currentIndex) currentIndex (floatMax, currentIndex) with
    ⟨-, h2⟩ | ⟨h1, h2, -, -, h5, h6⟩
  · exact absurd (hmax currentIndex hindex) (h2 currentIndex (le_refl _) (by omega))
  · rw [hsum] at h2 h5
    refine ⟨_, h1, h2, h5, h6, ?_⟩
    simp only [followPath, if_neg hlen, hscan, bind, Except.bind, vectorAt_of_lt path h2,
      hfar _ h2, pure, Except.pure, Params.new]
    cases find _ <;> rfl

end PathFollowing

section PathFollowing

variable {F : Type} [LinearOrderedField F]

theorem localizeEndpoint_of_ends (env : GridEnvironment) {e a b : Ptr} {ca cb : Grid}
    (hends : env.graph.ends e = some (a, b)) (ha : cellOf env.graph a = some ca)
    (hb : cellOf env.graph b = some cb) :
    env.localizeEndpoint F e 0 =
      .ok ⟨(ca.column : F) * (env.tileWidth : F) + (env.tileWidth : F) / 2,
        (ca.row : F) * (env.tileHeight : F) + (env.tileHeight : F) / 2⟩ ∧
    env.localizeEndpoint F e 1 =
      .ok ⟨(cb.column : F) * (env.tileWidth : F) + (env.tileWidth : F) / 2,
        (cb.row : F) * (env.tileHeight : F) + (env.tileHeight : F) / 2⟩ := by
  have h := AdjacencyListGraph.endVertices_of_ends hends
  constructor
  · simp only [GridEnvironment.localizeEndpoint, h, bind, Except.bind, GridEnvironment.localize,
      vertexElement_of_cellOf ha, pure, Except.pure]
  · simp only [GridEnvironment.localizeEndpoint, h, bind, Except.bind, GridEnvironment.localize,
      vertexElement_of_cellOf hb, pure, Except.pure]

theorem localizeEndpoint_of_edge (env : GridEnvironment) (hg : env.graph.WellFormed) {e : Ptr}
    (he : e ∈ env.graph.edgeList) :
    ∃ p0 p1 : Vector2 F, env.localizeEndpoint F e 0 = .ok p0 ∧
      env.localizeEndpoint F e 1 = .ok p1 := by
  obtain ⟨a, ha, b, hb, hab, -, -⟩ := hg.2.2.2.1 e he
  obtain ⟨ca, hca⟩ := cellOf_of_mem hg ha
  obtain ⟨cb, hcb⟩ := cellOf_of_mem hg hb
  exact ⟨_, _, localizeEndpoint_of_ends env hab hca hcb⟩

/-- C28: when a path-following behavior (`PathfindToPosition`, `PathfindToMultiplePosition`,
`PathfindToRandomPosition`) is evaluated on its cached non-empty path, made of edges of
the graph of the environment, with a current index below the length of the path, and the
distances that the scan computes are below `std::numeric_limits<float>::max()`, then the
new current index `k` is not below the previous one, is below the length of the path,
and is the smallest index at or after the previous one that minimises the distance
between the localized first endpoint of `path[i]` and `character.position +
character.linearVelocity * predictTime`; the behavior returns what the wrapped steering
behavior returns for the character and a target at the localized second endpoint of
`path[k]`, and the path stays cached. -/
theorem path_following_scans_forward_to_nearest_edge (sqrt : F → F) (floatMax : F)
    (env : GridEnvironment) (pathfind : Vector2 F → Vector2 F → Except Fault (List Ptr))
    (find : Params F → Except Fault (Accelerations F)) (targetPosition : Vector2 F)
    (targetPositions : List (Vector2 F)) (positionIndex rand : Nat) (path : List Ptr)
    (currentIndex : Nat) (predictTime : F) (character : Target F)
    (hgraph : env.graph.WellFormed) (hpath : ∀ e ∈ path, e ∈ env.graph.edges)
    (hindex : currentIndex < path.length)
    (hmax : ∀ e ∈ path, ∀ p, env.localizeEndpoint F e 0 = .ok p →
      Vmath.length sqrt (p.sub
        (character.position.add (character.linearVelocity.mul predictTime))) < floatMax) :
    ∃ (start far : Nat → Vector2 F) (k : Nat),
      (∀ i (h : i < path.length),
        env.localizeEndpoint F (path.get ⟨i, h⟩) 0 = .ok (start i) ∧
        env.localizeEndpoint F (path.get ⟨i, h⟩) 1 = .ok (far i)) ∧
      currentIndex ≤ k ∧ k < path.length ∧
      (∀ j, currentIndex ≤ j → j < path.length →
        Vmath.length sqrt ((start k).sub
          (character.position.add (character.linearVelocity.mul predictTime))) ≤
        Vmath.length sqrt ((start j).sub
          (character.position.add (character.linearVelocity.mul predictTime)))) ∧
      (∀ j, currentIndex ≤ j → j < k →
        Vmath.length sqrt ((start k).sub
          (character.position.add (character.linearVelocity.mul predictTime))) <
        Vmath.length sqrt ((start j).sub
          (character.position.add (character.linearVelocity.mul predictTime)))) ∧
      PathfindToPosition.behavior sqrt floatMax env pathfind find
          { targetPosition := targetPosition, path := path, currentIndex := currentIndex,
            calculatedPath := true, predictTime := predictTime } character =
        (find { target := { (Target.new : Target F) with position := far k },
                character := character }).map
          (fun a => (a, { targetPosition := targetPosition, path := path, currentIndex := k,
                          calculatedPath := true, predictTime := predictTime })) ∧
      (currentIndex + 1 ≠ path.length →
        PathfindToMultiplePosition.behavior sqrt floatMax env pathfind find targetPositions
            { positionIndex := positionIndex, path := path, currentIndex := currentIndex,
              calculatedPath := true, predictTime := predictTime } character =
          (find { target := { (Target.new : Target F) with position := far k },
                  character := character }).map
            (fun a => (a, { positionIndex := positionIndex, path := path, currentIndex := k,
                            calculatedPath := true, predictTime := predictTime })) ∧
        PathfindToRandomPosition.behavior sqrt floatMax env pathfind find targetPositions rand
            { path := path, currentIndex := currentIndex, calculatedPath := true,
              predictTime := predictTime } character =
          (find { target := { (Target.new : Target F) with position := far k },
                  character := character }).map
            (fun a => (a, { path := path, currentIndex := k, calculatedPath := true,
                            predictTime := predictTime }))) := by
  have hex : ∀ i, ∃ p0 p1 : Vector2 F, ∀ h : i < path.length,
      env.localizeEndpoint F (path.get ⟨i, h⟩) 0 = .ok p0 ∧
      env.localizeEndpoint F (path.get ⟨i, h⟩) 1 = .ok p1 := by
    intro i
    by_cases h : i < path.length
    · obtain ⟨p0, p1, h0, h1⟩ := localizeEndpoint_of_edge (F := F) env hgraph
        (hpath _ (List.get_mem path i h))
      exact ⟨p0, p1, fun _ => ⟨h0, h1⟩⟩
    · exact ⟨⟨0, 0⟩, ⟨0, 0⟩, fun h' => absurd h' h⟩
  choose start far hsf using hex
  obtain ⟨k, hk1, hk2, hk3, hk4, hk5⟩ := followPath_spec sqrt floatMax env find path
    currentIndex predictTime character start far hindex (fun i h => (hsf i h).1)
    (fun i h => (hsf i h).2)
    (fun i h => hmax _ (List.get_mem path i h) _ (hsf i h).1)
  refine ⟨start, far, k, hsf, hk1, hk2, hk3, hk4, ?_, ?_⟩
  · simp only [PathfindToPosition.behavior, Bool.not_true, Bool.false_eq_true, if_false, hk5,
      bind, Except.bind, pure, Except.pure]
    cases find _ <;> rfl
  · intro hlast
    have hb : (currentIndex + 1 == path.length) = false := by
      simpa using hlast
    constructor
    · simp only [PathfindToMultiplePosition.behavior, Bool.not_true, Bool.false_or, hb,
        Bool.false_eq_true, if_false, hk5, bind, Except.bind, pure, Except.pure]
      cases find _ <;> rfl
    · simp only [PathfindToRandomPosition.behavior, Bool.not_true, Bool.false_or, hb,
        Bool.false_eq_true, if_false, hk5, bind, Except.bind, pure, Except.pure]
      cases find _ <;> rfl

end PathFollowing

section PathFollowing

variable {F : Type} [LinearOrderedField F]

/-- C29: a `PathfindToPosition` constructed with the target position `T` and evaluated
for the first time, with no call of `reset` before, computes its path from the position
of the character to `sf::Vector2f()`, the value that the member `targetPosition` has
from its default constructor, whatever `T` is: the constructor never stores `T` (the
constructor of `PathfindToPositionOld` does).  Only after `reset(T)` does the first
evaluation compute the path to `T`. -/
theorem pathfindToPosition_first_path_ignores_target (sqrt : F → F) (floatMax : F)
    (env : GridEnvironment) (pathfind : Vector2 F → Vector2 F → Except Fault (List Ptr))
    (find : Params F → Except Fault (Accelerations F)) (vectorDefault : Vector2 F)
    (predictTime : F) (T T' : Vector2 F) (character : Target F) :
    PathfindToPosition.behavior sqrt floatMax env pathfind find
        (PathfindToPosition.new vectorDefault predictTime T) character =
      (pathfind character.position vectorDefault).bind (fun path =>
        (followPath sqrt floatMax env find path 0 predictTime character).map (fun result =>
          (result.1, { targetPosition := vectorDefault, path := path,
                       currentIndex := result.2, calculatedPath := true,
                       predictTime := predictTime }))) ∧
    PathfindToPosition.behavior sqrt floatMax env pathfind find
        (PathfindToPosition.new vectorDefault predictTime T) character =
      PathfindToPosition.behavior sqrt floatMax env pathfind find
        (PathfindToPosition.new vectorDefault predictTime T') character ∧
    PathfindToPosition.behavior sqrt floatMax env pathfind find
        ((PathfindToPosition.new vectorDefault predictTime T).reset T) character =
      (pathfind character.position T).bind (fun path =>
        (followPath sqrt floatMax env find path 0 predictTime character).map (fun result =>
          (result.1, { targetPosition := T, path := path,
                       currentIndex := result.2, calculatedPath := true,
                       predictTime := predictTime }))) := by
  refine ⟨?_, rfl, ?_⟩
  · simp only [PathfindToPosition.behavior, PathfindToPosition.new, Bool.not_false, if_true,
      bind, Except.bind, pure, Except.pure]
    cases pathfind character.position vectorDefault with
    | error f => rfl
    | ok path =>
      simp only [Except.map]
  · simp only [PathfindToPosition.behavior, PathfindToPosition.new, PathfindToPosition.reset,
      Bool.not_false, if_true, bind, Except.bind, pure, Except.pure]
    cases pathfind character.position T with
    | error f => rfl
    | ok path =>
      simp only [Except.map]

end PathFollowing

theorem environment3x3_distances_below_max :
    ∀ e ∈ ([10, 13] : List Ptr), ∀ p : Vector2 ℝ,
      environment3x3.localizeEndpoint ℝ e 0 = .ok p →
      Vmath.length Real.sqrt (p.sub
        ((targetAt (⟨300, 80⟩ : Vector2 ℝ) 0).position.add
          ((targetAt (⟨300, 80⟩ : Vector2 ℝ) 0).linearVelocity.mul 0))) <
        340282346638528859811704183484516925440 := by
  intro e he p hp
  have hbound : ∀ x : ℝ, x < 340282346638528859811704183484516925440 ^ 2 →
      Real.sqrt x < 340282346638528859811704183484516925440 := by
    intro x hx
    exact (Real.sqrt_lt' (by norm_num)).mpr hx
  simp only [List.mem_cons, List.mem_singleton, List.not_mem_nil, or_false] at he
  rcases he with rfl | rfl
  · have h := (localizeEndpoint_of_ends (F := ℝ) environment3x3
      (show environment3x3.graph.ends 10 = some (1, 2) from rfl)
      (show cellOf environment3x3.graph 1 = some ⟨0, 0⟩ from rfl)
      (show cellOf environment3x3.graph 2 = some ⟨0, 1⟩ from rfl)).1
    rw [h] at hp
    cases hp
    apply hbound
    norm_num [Vector2.sub, Vector2.add, Vector2.mul, targetAt, Target.new, environment3x3]
  · have h := (localizeEndpoint_of_ends (F := ℝ) environment3x3
      (show environment3x3.graph.ends 13 = some (2, 3) from rfl)
      (show cellOf environment3x3.graph 2 = some ⟨0, 1⟩ from rfl)
      (show cellOf environment3x3.graph 3 = some ⟨0, 2⟩ from rfl)).1
    rw [h] at hp
    cases hp
    apply hbound
    norm_num [Vector2.sub, Vector2.add, Vector2.mul, targetAt, Target.new, environment3x3]

theorem path_following_scans_forward_to_nearest_edge_witness :
    (environment3x3.graph.WellFormed ∧
      (∀ e ∈ ([10, 13] : List Ptr), e ∈ environment3x3.graph.edges) ∧
      0 < ([10, 13] : List Ptr).length) ∧
    ∃ (start far : Nat → Vector2 ℝ) (k : Nat),
      (∀ i (h : i < ([10, 13] : List Ptr).length),
        environment3x3.localizeEndpoint ℝ (([10, 13] : List Ptr).get ⟨i, h⟩) 0 = .ok (start i) ∧
        environment3x3.localizeEndpoint ℝ (([10, 13] : List Ptr).get ⟨i, h⟩) 1 = .ok (far i)) ∧
      0 ≤ k ∧ k < ([10, 13] : List Ptr).length ∧
      (∀ j, 0 ≤ j → j < ([10, 13] : List Ptr).length →
        Vmath.length Real.sqrt ((start k).sub
          ((targetAt (⟨300, 80⟩ : Vector2 ℝ) 0).position.add
            ((targetAt (⟨300, 80⟩ : Vector2 ℝ) 0).linearVelocity.mul 0))) ≤
        Vmath.length Real.sqrt ((start j).sub
          ((targetAt (⟨300, 80⟩ : Vector2 ℝ) 0).position.add
            ((targetAt (⟨300, 80⟩ : Vector2 ℝ) 0).linearVelocity.mul 0)))) ∧
      (∀ j, 0 ≤ j → j < k →
        Vmath.length Real.sqrt ((start k).sub
          ((targetAt (⟨300, 80⟩ : Vector2 ℝ) 0).position.add
            ((targetAt (⟨300, 80⟩ : Vector2 ℝ) 0).linearVelocity.mul 0))) <
        Vmath.length Real.sqrt ((start j).sub
          ((targetAt (⟨300, 80⟩ : Vector2 ℝ) 0).position.add
            ((targetAt (⟨300, 80⟩ : Vector2 ℝ) 0).linearVelocity.mul 0)))) ∧
      PathfindToPosition.behavior Real.sqrt 340282346638528859811704183484516925440
          environment3x3 (fun _ _ => .ok [10, 13])
          (Seek.find Real.sqrt { maxVelocity := 4, timeToTargetVelocity := 2 })
          { targetPosition := ⟨0, 0⟩, path := [10, 13], currentIndex := 0,
            calculatedPath := true, predictTime := 0 } (targetAt ⟨300, 80⟩ 0) =
        (Seek.find Real.sqrt { maxVelocity := 4, timeToTargetVelocity := 2 }
          { target := { (Target.new : Target ℝ) with position := far k },
            character := targetAt ⟨300, 80⟩ 0 }).map
          (fun a => (a, { targetPosition := ⟨0, 0⟩, path := [10, 13], currentIndex := k,
                          calculatedPath := true, predictTime := 0 })) ∧
      (0 + 1 ≠ ([10, 13] : List Ptr).length →
        PathfindToMultiplePosition.behavior Real.sqrt 340282346638528859811704183484516925440
            environment3x3 (fun _ _ => .ok [10, 13])
            (Seek.find Real.sqrt { maxVelocity := 4, timeToTargetVelocity := 2 })
            [⟨530, 80⟩]
            { positionIndex := 0, path := [10, 13], currentIndex := 0,
              calculatedPath := true, predictTime := 0 } (targetAt ⟨300, 80⟩ 0) =
          (Seek.find Real.sqrt { maxVelocity := 4, timeToTargetVelocity := 2 }
            { target := { (Target.new : Target ℝ) with position := far k },
              character := targetAt ⟨300, 80⟩ 0 }).map
            (fun a => (a, { positionIndex := 0, path := [10, 13], currentIndex := k,
                            calculatedPath := true, predictTime := 0 })) ∧
        PathfindToRandomPosition.behavior Real.sqrt 340282346638528859811704183484516925440
            environment3x3 (fun _ _ => .ok [10, 13])
            (Seek.find Real.sqrt { maxVelocity := 4, timeToTargetVelocity := 2 })
            [⟨530, 80⟩] 7
            { path := [10, 13], currentIndex := 0, calculatedPath := true,
              predictTime := 0 } (targetAt ⟨300, 80⟩ 0) =
          (Seek.find Real.sqrt { maxVelocity := 4, timeToTargetVelocity := 2 }
            { target := { (Target.new : Target ℝ) with position := far k },
              character := targetAt ⟨300, 80⟩ 0 }).map
            (fun a => (a, { path := [10, 13], currentIndex := k, calculatedPath := true,
                            predictTime := 0 }))) :=
  ⟨⟨by decide, by decide, by decide⟩,
    path_following_scans_forward_to_nearest_edge Real.sqrt
      340282346638528859811704183484516925440 environment3x3 (fun _ _ => .ok [10, 13])
      (Seek.find Real.sqrt { maxVelocity := 4, timeToTargetVelocity := 2 }) ⟨0, 0⟩
      [⟨530, 80⟩] 0 7 [10, 13] 0 0 (targetAt ⟨300, 80⟩ 0) (by decide) (by decide) (by decide)
      environment3x3_distances_below_max⟩

theorem truncate_of_floor {F : Type} [LinearOrderedField F] [FloorRing F] {a : F} {n : Int}
    (h0 : 0 ≤ a) (h1 : (n : F) ≤ a) (h2 : a < (n : F) + 1) : truncate a = n := by
  unfold truncate
  rw [if_pos h0, Int.floor_eq_iff]
  exact ⟨h1, h2⟩

theorem environment3x3_quantize :
    environment3x3.quantize ℝ ⟨100, 80⟩ = .ok 1 ∧ environment3x3.quantize ℝ ⟨0, 0⟩ = .ok 1 ∧
    environment3x3.quantize ℝ ⟨530, 80⟩ = .ok 3 := by
  have hw : ((environment3x3.tileWidth : Int) : ℝ) = 213 := by norm_num [environment3x3]
  have hh : ((environment3x3.tileHeight : Int) : ℝ) = 160 := by norm_num [environment3x3]
  have c0 : truncate ((100 : ℝ) / 213) = 0 :=
    truncate_of_floor (by norm_num) (by norm_num) (by norm_num)
  have c1 : truncate ((0 : ℝ) / 213) = 0 :=
    truncate_of_floor (by norm_num) (by norm_num) (by norm_num)
  have c2 : truncate ((530 : ℝ) / 213) = 2 :=
    truncate_of_floor (by norm_num) (by norm_num) (by norm_num)
  have r0 : truncate ((80 : ℝ) / 160) = 0 :=
    truncate_of_floor (by norm_num) (by norm_num) (by norm_num)
  have r1 : truncate ((0 : ℝ) / 160) = 0 :=
    truncate_of_floor (by norm_num) (by norm_num) (by norm_num)
  refine ⟨?_, ?_, ?_⟩
  · simp only [GridEnvironment.quantize, hw, hh, divide_of_ne _ (by norm_num : (213 : ℝ) ≠ 0),
      divide_of_ne _ (by norm_num : (160 : ℝ) ≠ 0), bind, Except.bind, c0, r0]
    rfl
  · simp only [GridEnvironment.quantize, hw, hh, divide_of_ne _ (by norm_num : (213 : ℝ) ≠ 0),
      divide_of_ne _ (by norm_num : (160 : ℝ) ≠ 0), bind, Except.bind, c1, r1]
    rfl
  · simp only [GridEnvironment.quantize, hw, hh, divide_of_ne _ (by norm_num : (213 : ℝ) ≠ 0),
      divide_of_ne _ (by norm_num : (160 : ℝ) ≠ 0), bind, Except.bind, c2, r0]
    rfl

set_option maxRecDepth 1000000 in
theorem environment3x3_astar :
    Algorithm.astar sortedHeap 10 [] environment3x3.graph 1 1
        (gridHeuristic environment3x3.graph ManhattanHeuristic.estimate) = .ok (true, []) ∧
    Algorithm.astar sortedHeap 10 [] environment3x3.graph 1 3
        (gridHeuristic environment3x3.graph ManhattanHeuristic.estimate) =
      .ok (true, [10, 13]) := by
  constructor <;> rfl

theorem environment3x3_pathfind :
    Engine.pathfind sortedHeap 10 environment3x3
        (gridHeuristic environment3x3.graph ManhattanHeuristic.estimate)
        (⟨100, 80⟩ : Vector2 ℝ) ⟨0, 0⟩ = .ok [] ∧
    Engine.pathfind sortedHeap 10 environment3x3
        (gridHeuristic environment3x3.graph ManhattanHeuristic.estimate)
        (⟨100, 80⟩ : Vector2 ℝ) ⟨530, 80⟩ = .ok [10, 13] := by
  obtain ⟨q1, q2, q3⟩ := environment3x3_quantize
  obtain ⟨a1, a2⟩ := environment3x3_astar
  constructor
  · simp only [Engine.pathfind, q1, q2, bind, Except.bind, pure, Except.pure, nullptr,
      OfNat.ofNat_ne_zero, one_ne_zero, if_false, a1]
    rfl
  · simp only [Engine.pathfind, q1, q3, bind, Except.bind, pure, Except.pure, nullptr,
      OfNat.ofNat_ne_zero, one_ne_zero, if_false, a2]
    rfl

theorem pathfindToPosition_first_path_ignores_target_witness :
    Engine.pathfind sortedHeap 10 environment3x3
        (gridHeuristic environment3x3.graph ManhattanHeuristic.estimate)
        (targetAt (⟨100, 80⟩ : Vector2 ℝ) 0).position ⟨530, 80⟩ = .ok [10, 13] ∧
    PathfindToPosition.behavior Real.sqrt 340282346638528859811704183484516925440
        environment3x3
        (Engine.pathfind sortedHeap 10 environment3x3
          (gridHeuristic environment3x3.graph ManhattanHeuristic.estimate))
        (Seek.find Real.sqrt { maxVelocity := 4, timeToTargetVelocity := 2 })
        (PathfindToPosition.new ⟨0, 0⟩ 0 ⟨530, 80⟩) (targetAt ⟨100, 80⟩ 0) =
      .ok (Accelerations.new,
        { targetPosition := ⟨0, 0⟩, path := [], currentIndex := 0, calculatedPath := true,
          predictTime := 0 }) := by
  refine ⟨environment3x3_pathfind.2, ?_⟩
  rw [(pathfindToPosition_first_path_ignores_target Real.sqrt
    340282346638528859811704183484516925440 environment3x3
    (Engine.pathfind sortedHeap 10 environment3x3
      (gridHeuristic environment3x3.graph ManhattanHeuristic.estimate))
    (Seek.find Real.sqrt { maxVelocity := 4, timeToTargetVelocity := 2 }) ⟨0, 0⟩ 0
    ⟨530, 80⟩ ⟨530, 80⟩ (targetAt ⟨100, 80⟩ 0)).1]
  have h : (targetAt (⟨100, 80⟩ : Vector2 ℝ) 0).position = ⟨100, 80⟩ := rfl
  rw [h, environment3x3_pathfind.1]
  rfl
/-! ### Membership tests and `getEdge` -/

namespace AdjacencyListGraph

variable {V E : Type}

/-- C32: `containsVertex(v)` returns true for the null pointer and for every pointer to a
vertex object, whether or not it is in the vertex list of the graph, and never returns
false; `containsEdge(e)` likewise.  The test is `dynamic_cast` on a pointer inside `try`,
which never throws, so the handler that returns false cannot run. -/
theorem containsVertex_never_returns_false (g : AdjacencyListGraph V E)
    (vertexHeap : Ptr → Option (ALVertex V)) (edgeHeap : Ptr → Option (ALEdge E)) (p : Ptr) :
    ((p = nullptr ∨ (vertexHeap p).isSome = true) → g.containsVertex vertexHeap p = .ok true) ∧
    g.containsVertex vertexHeap p ≠ .ok false ∧
    ((p = nullptr ∨ (edgeHeap p).isSome = true) → g.containsEdge edgeHeap p = .ok true) ∧
    g.containsEdge edgeHeap p ≠ .ok false := by
  refine ⟨?_, ?_, ?_, ?_⟩
  · rintro (h | h)
    · simp [containsVertex, validateALVertex, DecisionTree.catchBadCast, catchException, h]
    · obtain ⟨o, ho⟩ := Option.isSome_iff_exists.mp h
      by_cases hp : p = nullptr
      · simp [containsVertex, validateALVertex, DecisionTree.catchBadCast, catchException, hp]
      · simp [containsVertex, validateALVertex, DecisionTree.catchBadCast, catchException, hp, ho]
  · by_cases hp : p = nullptr
    · simp [containsVertex, validateALVertex, DecisionTree.catchBadCast, catchException, hp]
    · cases ho : vertexHeap p <;>
        simp [containsVertex, validateALVertex, DecisionTree.catchBadCast, catchException, hp, ho]
  · rintro (h | h)
    · simp [containsEdge, validateALEdge, DecisionTree.catchBadCast, catchException, h]
    · obtain ⟨o, ho⟩ := Option.isSome_iff_exists.mp h
      by_cases hp : p = nullptr
      · simp [containsEdge, validateALEdge, DecisionTree.catchBadCast, catchException, hp]
      · simp [containsEdge, validateALEdge, DecisionTree.catchBadCast, catchException, hp, ho]
  · by_cases hp : p = nullptr
    · simp [containsEdge, validateALEdge, DecisionTree.catchBadCast, catchException, hp]
    · cases ho : edgeHeap p <;>
        simp [containsEdge, validateALEdge, DecisionTree.catchBadCast, catchException, hp, ho]

end AdjacencyListGraph

namespace AdjacencyListGraph

variable {V E : Type}

theorem getEdgeLoop_none (g : AdjacencyListGraph V E) (v1 v2 : Ptr) :
    ∀ (l : List Ptr), (∀ e ∈ l, ∃ a b, g.ends e = some (a, b) ∧
        ¬ (g.directed = true ∧ b = v1 ∧ a = v2) ∧ ¬ (a = v1 ∧ b = v2)) →
      g.getEdgeLoop v1 v2 l = .ok nullptr := by
  intro l
  induction l with
  | nil => intro _; rfl
  | cons e rest ih =>
    intro h
    obtain ⟨a, b, hab, h1, h2⟩ := h e (List.mem_cons_self _ _)
    unfold ends at hab
    cases ho : g.edgeObj e with
    | none => simp [ho] at hab
    | some o =>
      simp only [ho, Option.map_some', Option.some.injEq] at hab
      have ha : o.endpoints.1 = a := by rw [hab]
      have hb : o.endpoints.2 = b := by rw [hab]
      simp only [getEdgeLoop, edgeAt, ho, bind, Except.bind, ha, hb, if_neg h1, if_neg h2]
      exact ih (fun e' he' => h e' (List.mem_cons_of_mem _ he'))

theorem getEdgeLoop_some (g : AdjacencyListGraph V E) (v1 v2 : Ptr) :
    ∀ (l : List Ptr), (∀ e ∈ l, (g.ends e).isSome = true) →
      (∃ e ∈ l, ∃ a b, g.ends e = some (a, b) ∧
        ((g.directed = true ∧ b = v1 ∧ a = v2) ∨ (a = v1 ∧ b = v2))) →
      ∃ e ∈ l, g.getEdgeLoop v1 v2 l = .ok e ∧ ∃ a b, g.ends e = some (a, b) ∧
        ((g.directed = true ∧ b = v1 ∧ a = v2) ∨ (a = v1 ∧ b = v2)) := by
  intro l
  induction l with
  | nil =>
    rintro _ ⟨e, he, _⟩
    cases he
  | cons e rest ih =>
    intro hlive hex
    have hl := hlive e (List.mem_cons_self _ _)
    unfold ends at hl
    cases ho : g.edgeObj e with
    | none => simp [ho] at hl
    | some o =>
      have hends : g.ends e = some (o.endpoints.1, o.endpoints.2) := by
        simp [ends, ho]
      by_cases h1 : g.directed = true ∧ o.endpoints.2 = v1 ∧ o.endpoints.1 = v2
      · refine ⟨e, List.mem_cons_self _ _, ?_, _, _, hends, Or.inl h1⟩
        simp only [getEdgeLoop, edgeAt, ho, bind, Except.bind, if_pos h1, pure, Except.pure]
      · by_cases h2 : o.endpoints.1 = v1 ∧ o.endpoints.2 = v2
        · refine ⟨e, List.mem_cons_self _ _, ?_, _, _, hends, Or.inr h2⟩
          simp only [getEdgeLoop, edgeAt, ho, bind, Except.bind, if_neg h1, if_pos h2, pure,
            Except.pure]
        · obtain ⟨e', he', a, b, hab, hmatch⟩ := hex
          have hne : e' ≠ e := by
            rintro rfl
            rw [hends] at hab
            cases hab
            rcases hmatch with h | h
            · exact h1 h
            · exact h2 h
          have he'' : e' ∈ rest := by
            rcases List.mem_cons.mp he' with h | h
            · exact absurd h hne
            · exact h
          obtain ⟨f, hf, hres, hprop⟩ := ih
            (fun x hx => hlive x (List.mem_cons_of_mem _ hx)) ⟨e', he'', a, b, hab, hmatch⟩
          refine ⟨f, List.mem_cons_of_mem _ hf, ?_, hprop⟩
          simp only [getEdgeLoop, edgeAt, ho, bind, Except.bind, if_neg h1, if_neg h2]
          exact hres

/-- The cast of a vertex of the graph is the vertex. -/
theorem validateALVertex_of_mem {g : AdjacencyListGraph V E} (hg : g.WellFormed) {v : Ptr}
    (hv : v ∈ g.vertices) : validateALVertex g.vertexObj v = .ok v := by
  have hne : v ≠ nullptr := (hg.2.2.1 v hv).1
  obtain ⟨o, ho⟩ := Option.isSome_iff_exists.mp (hg.2.2.1 v hv).2.1
  simp [validateALVertex, DecisionTree.catchBadCast, hne, ho]

/-- The two tests of the loop of `getEdge` on an edge with the endpoints `a` and `b`. -/
theorem getEdgeLoop_spec (g : AdjacencyListGraph V E) (v1 v2 : Ptr) (l : List Ptr)
    (hlive : ∀ e ∈ l, (g.ends e).isSome = true) :
    ∃ f, g.getEdgeLoop v1 v2 l = .ok f ∧
      ((f = nullptr ∧ ∀ e ∈ l, ∀ a b, g.ends e = some (a, b) →
          ¬ (g.directed = true ∧ b = v1 ∧ a = v2) ∧ ¬ (a = v1 ∧ b = v2)) ∨
        (f ∈ l ∧ ∃ a b, g.ends f = some (a, b) ∧
          ((g.directed = true ∧ b = v1 ∧ a = v2) ∨ (a = v1 ∧ b = v2)))) := by
  by_cases hex : ∃ e ∈ l, ∃ a b, g.ends e = some (a, b) ∧
      ((g.directed = true ∧ b = v1 ∧ a = v2) ∨ (a = v1 ∧ b = v2))
  · obtain ⟨f, hf, hres, hm⟩ := getEdgeLoop_some g v1 v2 l hlive hex
    exact ⟨f, hres, Or.inr ⟨hf, hm⟩⟩
  · have hno : ∀ e ∈ l, ∀ a b, g.ends e = some (a, b) →
        ¬ (g.directed = true ∧ b = v1 ∧ a = v2) ∧ ¬ (a = v1 ∧ b = v2) := by
      intro e he a b hab
      constructor
      · intro h
        exact hex ⟨e, he, a, b, hab, Or.inl h⟩
      · intro h
        exact hex ⟨e, he, a, b, hab, Or.inr h⟩
    refine ⟨nullptr, ?_, Or.inl ⟨rfl, hno⟩⟩
    apply getEdgeLoop_none
    intro e he
    obtain ⟨p, hp⟩ := Option.isSome_iff_exists.mp (hlive e he)
    exact ⟨p.1, p.2, hp, hno e he p.1 p.2 hp⟩

/-- C33, on the code: in a well-formed graph whose edges are not null, `getEdge` returns
for every two vertices `u` and `v` of the graph.  For an undirected graph it is not
symmetric: `getEdge(u, v)` returns only an edge whose first endpoint is `u` and whose
second endpoint is `v`, and the null pointer exactly when the graph has no such edge, so
an edge inserted from `u` to `v` is not found by `getEdge(v, u)`.  For a directed graph
`getEdge(u, v)` returns an edge if and only if `getEdge(v, u)` does, and the edge it
returns has the endpoints `u` and `v` in one order or the other, so its origin need not
be `u`.  The test of the reversed endpoints in the loop is guarded by `this->directed`,
not by its negation. -/
theorem getEdge_is_symmetric_only_when_directed (g : AdjacencyListGraph V E)
    (hg : g.WellFormed) (hnull : nullptr ∉ g.edges) (u v : Ptr) (hu : u ∈ g.vertices)
    (hv : v ∈ g.vertices) :
    ∃ f f', g.getEdge u v = .ok f ∧ g.getEdge v u = .ok f' ∧
      (g.directed = true →
        (f ≠ nullptr ↔ f' ≠ nullptr) ∧
        (f ≠ nullptr → f ∈ g.edges ∧
          (g.endVertices f = .ok (u, v) ∨ g.endVertices f = .ok (v, u))) ∧
        (f' ≠ nullptr → f' ∈ g.edges ∧
          (g.endVertices f' = .ok (u, v) ∨ g.endVertices f' = .ok (v, u)))) ∧
      (g.directed = false →
        (f ≠ nullptr → f ∈ g.edges ∧ g.endVertices f = .ok (u, v)) ∧
        (f = nullptr ↔ ∀ e ∈ g.edges, g.endVertices e ≠ .ok (u, v))) := by
  have hlive : ∀ f ∈ g.edgeList, (g.ends f).isSome = true := by
    intro f hf
    obtain ⟨a, _, b, _, hab, _, _⟩ := hg.2.2.2.1 f hf
    rw [hab]
    rfl
  have hnn : ∀ f ∈ g.edgeList, f ≠ nullptr := fun f hf h => hnull (h ▸ hf)
  obtain ⟨f, hf, hfs⟩ := getEdgeLoop_spec g u v g.edgeList hlive
  obtain ⟨f', hf', hfs'⟩ := getEdgeLoop_spec g v u g.edgeList hlive
  have hcu := validateALVertex_of_mem hg hu
  have hcv := validateALVertex_of_mem hg hv
  have hguv : g.getEdge u v = .ok f := by
    simp only [getEdge, hcu, hcv, bind, Except.bind]
    exact hf
  have hgvu : g.getEdge v u = .ok f' := by
    simp only [getEdge, hcu, hcv, bind, Except.bind]
    exact hf'
  refine ⟨f, f', hguv, hgvu, ?_, ?_⟩
  · intro hd
    have hends : ∀ (x y w : Ptr), w ∈ g.edgeList →
        (∃ a b, g.ends w = some (a, b) ∧
          ((g.directed = true ∧ b = x ∧ a = y) ∨ (a = x ∧ b = y))) →
        g.endVertices w = .ok (x, y) ∨ g.endVertices w = .ok (y, x) := by
      rintro x y w - ⟨a, b, hab, hm⟩
      rcases hm with ⟨-, h1, h2⟩ | ⟨h1, h2⟩
      · exact Or.inr (endVertices_of_ends (by rw [hab, h1, h2]))
      · exact Or.inl (endVertices_of_ends (by rw [hab, h1, h2]))
    refine ⟨?_, ?_, ?_⟩
    · constructor
      · intro hne
        rcases hfs with ⟨h0, -⟩ | ⟨hmem, a, b, hab, hm⟩
        · exact absurd h0 hne
        · rcases hfs' with ⟨-, hno⟩ | ⟨hmem', -⟩
          · exfalso
            have := hno f hmem a b hab
            rcases hm with ⟨-, h1, h2⟩ | ⟨h1, h2⟩
            · exact this.2 ⟨h2, h1⟩
            · exact this.1 ⟨hd, h2, h1⟩
          · exact hnn f' hmem'
      · intro hne
        rcases hfs' with ⟨h0, -⟩ | ⟨hmem', a, b, hab, hm⟩
        · exact absurd h0 hne
        · rcases hfs with ⟨-, hno⟩ | ⟨hmem, -⟩
          · exfalso
            have := hno f' hmem' a b hab
            rcases hm with ⟨-, h1, h2⟩ | ⟨h1, h2⟩
            · exact this.2 ⟨h2, h1⟩
            · exact this.1 ⟨hd, h2, h1⟩
          · exact hnn f hmem
    · intro hne
      rcases hfs with ⟨h0, -⟩ | ⟨hmem, hm⟩
      · exact absurd h0 hne
      · exact ⟨hmem, hends u v f hmem hm⟩
    · intro hne
      rcases hfs' with ⟨h0, -⟩ | ⟨hmem, hm⟩
      · exact absurd h0 hne
      · refine ⟨hmem, ?_⟩
        rcases hends v u f' hmem hm with h | h
        · exact Or.inr h
        · exact Or.inl h
  · intro hd
    refine ⟨?_, ?_⟩
    · intro hne
      rcases hfs with ⟨h0, -⟩ | ⟨hmem, a, b, hab, hm⟩
      · exact absurd h0 hne
      · refine ⟨hmem, ?_⟩
        rcases hm with ⟨h, -, -⟩ | ⟨h1, h2⟩
        · rw [hd] at h
          cases h
        · exact endVertices_of_ends (by rw [hab, h1, h2])
    · constructor
      · intro h0 e he hends
        rcases hfs with ⟨-, hno⟩ | ⟨hmem, -⟩
        · exact (hno e he u v (ends_of_endVertices hends)).2 ⟨rfl, rfl⟩
        · exact hnn f hmem h0
      · intro hno
        rcases hfs with ⟨h0, -⟩ | ⟨hmem, a, b, hab, hm⟩
        · exact h0
        · exfalso
          rcases hm with ⟨h, -, -⟩ | ⟨h1, h2⟩
          · rw [hd] at h
            cases h
          · exact hno f hmem (endVertices_of_ends (by rw [hab, h1, h2]))

end AdjacencyListGraph

/-! ### The representation invariant under the four mutators -/

namespace AdjacencyListGraph

variable {V E : Type}

/-- Removing a set of edges from a well-formed graph leaves a well-formed graph. -/
theorem wellFormed_of_stripped {g g' : AdjacencyListGraph V E} (hg : g.WellFormed)
    {R : List Ptr} (hS : Stripped g R g') : g'.WellFormed := by
  obtain ⟨h1, h2, h3, h4, h5, h6, h7⟩ := hg
  have hends : ∀ e, e ∉ R → g'.ends e = g.ends e := by
    intro e he
    simp [ends, hS.edgeObj e, he]
  have hout : ∀ u ∈ g.vertexList, g'.out u = (g.out u).filter (fun e => decide (e ∉ R)) := by
    intro u hu
    unfold out
    rw [hS.vertexObj u hu]
    cases g.vertexObj u <;> rfl
  have hinc : ∀ u ∈ g.vertexList, g'.inc u = (g.inc u).filter (fun e => decide (e ∉ R)) := by
    intro u hu
    unfold inc
    rw [hS.vertexObj u hu]
    cases g.vertexObj u <;> rfl
  refine ⟨?_, ?_, ?_, ?_, ?_, ?_, ?_⟩
  · rw [hS.vertexList]; exact h1
  · rw [hS.edgeList]; exact h2.filter _
  · intro u hu
    rw [hS.vertexList] at hu
    obtain ⟨k1, k2, k3, k4, k5, k6⟩ := h3 u hu
    refine ⟨k1, ?_, ?_, ?_, ?_, ?_⟩
    · rw [hS.vertexObj u hu]
      cases hx : g.vertexObj u with
      | none => simp [hx] at k2
      | some o => rfl
    · rw [hout u hu]; exact k3.filter _
    · rw [hinc u hu]; exact k4.filter _
    · intro e he
      rw [hout u hu, List.mem_filter] at he
      have heR : e ∉ R := of_decide_eq_true he.2
      obtain ⟨m1, m2⟩ := k5 e he.1
      exact ⟨by rw [hS.edgeList, List.mem_filter]; exact ⟨m1, he.2⟩, by rw [hends e heR]; exact m2⟩
    · intro e he
      rw [hinc u hu, List.mem_filter] at he
      have heR : e ∉ R := of_decide_eq_true he.2
      obtain ⟨m1, m2⟩ := k6 e he.1
      exact ⟨by rw [hS.edgeList, List.mem_filter]; exact ⟨m1, he.2⟩, by rw [hends e heR]; exact m2⟩
  · intro e he
    rw [hS.edgeList, List.mem_filter] at he
    have heR : e ∉ R := of_decide_eq_true he.2
    obtain ⟨a, ha, b, hb, hab, hoa, hib⟩ := h4 e he.1
    refine ⟨a, by rw [hS.vertexList]; exact ha, b, by rw [hS.vertexList]; exact hb,
      by rw [hends e heR]; exact hab, ?_, ?_⟩
    · rw [hout a ha, List.mem_filter]; exact ⟨hoa, he.2⟩
    · rw [hinc b hb, List.mem_filter]; exact ⟨hib, he.2⟩
  · rw [hS.fresh]; exact h5
  · intro u hu
    rw [hS.vertexList] at hu
    rw [hS.fresh]
    exact h6 u hu
  · intro e he
    rw [hS.edgeList] at he
    rw [hS.fresh]
    exact h7 e (List.mem_of_mem_filter he)

/-- `removeEdge` of an edge of a well-formed graph returns a well-formed graph without
the edge. -/
theorem wellFormed_removeEdge {g : AdjacencyListGraph V E} (hg : g.WellFormed) {e : Ptr}
    (he : e ∈ g.edgeList) :
    ∃ g', g.removeEdge e = .ok g' ∧ g'.WellFormed ∧ Stripped g [e] g' := by
  obtain ⟨g', hres, hS⟩ := Stripped.removeEdge hg (stripped_nil g) he (List.not_mem_nil e)
  exact ⟨g', hres, wellFormed_of_stripped hg hS, hS⟩

end AdjacencyListGraph

namespace AdjacencyListGraph

variable {V E : Type}

theorem vertexAt_eq_ok {g : AdjacencyListGraph V E} {v : Ptr} {o : ALVertex V}
    (h : g.vertexAt v = .ok o) : g.vertexObj v = some o := by
  unfold vertexAt at h
  cases hv : g.vertexObj v with
  | none => simp [hv] at h
  | some o' =>
    simp only [hv, Except.ok.injEq] at h
    rw [h]

theorem edgeAt_eq_ok {g : AdjacencyListGraph V E} {e : Ptr} {o : ALEdge E}
    (h : g.edgeAt e = .ok o) : g.edgeObj e = some o := by
  unfold edgeAt at h
  cases he : g.edgeObj e with
  | none => simp [he] at h
  | some o' =>
    simp only [he, Except.ok.injEq] at h
    rw [h]

/-- `removeEdge` creates no object, and it returns only for a pointer with an edge
object. -/
theorem removeEdge_frame {g g' : AdjacencyListGraph V E} {e : Ptr}
    (h : g.removeEdge e = .ok g') :
    (g.edgeObj e).isSome = true ∧
    (∀ u, g.vertexObj u = none → g'.vertexObj u = none) ∧
    (∀ p, g.edgeObj p = none → g'.edgeObj p = none) := by
  unfold removeEdge at h
  simp only [bind] at h
  obtain ⟨edge, hedge, h⟩ := bind_eq_ok.mp h
  obtain ⟨origin, horigin, h⟩ := bind_eq_ok.mp h
  obtain ⟨dest0, hdest0, h⟩ := bind_eq_ok.mp h
  obtain ⟨destination, hdest, h⟩ := bind_eq_ok.mp h
  simp only [pure, Except.pure, Except.ok.injEq] at h
  subst h
  have h1 := vertexAt_eq_ok horigin
  have h2 := vertexAt_eq_ok hdest0
  refine ⟨by rw [edgeAt_eq_ok hedge]; rfl, ?_, ?_⟩
  · intro u hu
    have hu1 : u ≠ edge.endpoints.1 := fun hx => by rw [hx, h1] at hu; cases hu
    have hu2 : u ≠ edge.endpoints.2 := fun hx => by rw [hx, h2] at hu; cases hu
    simp [setEdge, setVertex, hu1, hu2, hu]
  · intro p hp
    simp only [setEdge, setVertex]
    split
    · rfl
    · exact hp

theorem removeVertexStep_frame {g g' : AdjacencyListGraph V E} {vertex e : Ptr}
    (h : removeVertexStep vertex g e = .ok g') :
    (∀ u, g.vertexObj u = none → g'.vertexObj u = none) ∧
    (∀ p, g.edgeObj p = none → g'.edgeObj p = none) := by
  unfold removeVertexStep at h
  simp only [bind] at h
  obtain ⟨ends, -, h⟩ := bind_eq_ok.mp h
  split at h
  · exact (removeEdge_frame h).2
  · simp only [pure, Except.pure, Except.ok.injEq] at h
    subst h
    exact ⟨fun _ hu => hu, fun _ hp => hp⟩

theorem removeVertex_loop_frame (vertex : Ptr) (g0 : AdjacencyListGraph V E) :
    ∀ (l : List Ptr) (g g' : AdjacencyListGraph V E),
      ((∀ u, g0.vertexObj u = none → g.vertexObj u = none) ∧
        (∀ p, g0.edgeObj p = none → g.edgeObj p = none)) →
      l.foldlM (removeVertexStep vertex) g = .ok g' →
      (∀ u, g0.vertexObj u = none → g'.vertexObj u = none) ∧
        (∀ p, g0.edgeObj p = none → g'.edgeObj p = none) := by
  intro l g g' hg hfold
  refine foldlM_eq_ok_induct (removeVertexStep vertex)
    (fun x => (∀ u, g0.vertexObj u = none → x.vertexObj u = none) ∧
      (∀ p, g0.edgeObj p = none → x.edgeObj p = none)) l g g' ?_ hg hfold
  intro a _ x y hx hy
  obtain ⟨f1, f2⟩ := removeVertexStep_frame hy
  exact ⟨fun u hu => f1 u (hx.1 u hu), fun p hp => f2 p (hx.2 p hp)⟩

theorem insertEdge_live {g g' : AdjacencyListGraph V E} {org dest e : Ptr} {d : E}
    (h : g.insertEdge org dest d = .ok (e, g')) :
    (g.vertexObj org).isSome = true ∧ (g.vertexObj dest).isSome = true := by
  unfold insertEdge at h
  simp only [bind] at h
  obtain ⟨g2, h2, h⟩ := bind_eq_ok.mp h
  obtain ⟨g3, h3, h⟩ := bind_eq_ok.mp h
  unfold addOutgoing at h2
  obtain ⟨oa, hoa, h2'⟩ := map_eq_ok.mp h2
  have ha := vertexAt_eq_ok hoa
  simp only [setEdge] at ha
  refine ⟨by rw [ha]; rfl, ?_⟩
  unfold addIncoming at h3
  obtain ⟨ob, hob, -⟩ := map_eq_ok.mp h3
  have hb := vertexAt_eq_ok hob
  subst h2'
  simp only [setVertex, setEdge] at hb
  split at hb
  · rename_i hd
    rw [hd, ha]
    rfl
  · rw [hb]
    rfl

theorem removeVertex_shape {g g1 : AdjacencyListGraph V E} {vertex : Ptr}
    (h : g.removeVertex vertex = .ok g1) :
    ∃ gl, g.edges.foldlM (removeVertexStep vertex) g = .ok gl ∧
      ((vertex = nullptr ∧
          g1 = ({ gl with vertexList := gl.vertexList.erase vertex } : AdjacencyListGraph V E)) ∨
        (vertex ≠ nullptr ∧ (gl.vertexObj vertex).isSome = true ∧
          g1 = ({ gl with vertexList := gl.vertexList.erase vertex } :
            AdjacencyListGraph V E).setVertex vertex none)) := by
  unfold removeVertex at h
  simp only [bind] at h
  obtain ⟨gl, hloop, h⟩ := bind_eq_ok.mp h
  refine ⟨gl, hloop, ?_⟩
  by_cases hn : vertex = nullptr
  · left
    rw [if_pos hn] at h
    simp only [pure, Except.pure, Except.ok.injEq] at h
    exact ⟨hn, h.symm⟩
  · right
    rw [if_neg hn] at h
    obtain ⟨o, ho, h⟩ := bind_eq_ok.mp h
    simp only [pure, Except.pure, Except.ok.injEq] at h
    have := vertexAt_eq_ok ho
    exact ⟨hn, by rw [show gl.vertexObj vertex = some o from this]; rfl, h.symm⟩

/-- Every graph that the four mutators build is well formed and leaves no object behind. -/
theorem Reached.wellFormed_clean {g : AdjacencyListGraph V E} (h : g.Reached) :
    g.WellFormed ∧ g.Clean := by
  induction h with
  | new directed =>
    exact ⟨wellFormed_new directed, fun _ _ => rfl, fun _ _ => rfl⟩
  | @insertVertex g d _ ih =>
    obtain ⟨hwf, hc1, hc2⟩ := ih
    refine ⟨(WellFormed.insertVertex hwf d).1, ?_, hc2⟩
    intro v hv
    have hvl : (g.insertVertex d).2.vertexList = g.vertexList ++ [g.fresh] := rfl
    rw [hvl, List.mem_append, List.mem_singleton, not_or] at hv
    simp [AdjacencyListGraph.insertVertex, setVertex, hv.2, hc1 v hv.1]
  | @insertEdge g g1 org dest e d _ hres ih =>
    obtain ⟨hwf, hc1, hc2⟩ := ih
    obtain ⟨l1, l2⟩ := insertEdge_live hres
    have horg : org ∈ g.vertexList := by
      by_contra hn
      rw [hc1 org hn] at l1
      cases l1
    have hdest : dest ∈ g.vertexList := by
      by_contra hn
      rw [hc1 dest hn] at l2
      cases l2
    obtain ⟨g', hres', hwf', -, -, -⟩ := WellFormed.insertEdge hwf horg hdest d
    obtain ⟨g'', hres'', -, hvl, hel, -, -, -, hlive, -, hobj⟩ :=
      insertEdge_spec g org dest d l1 l2
    rw [hres] at hres' hres''
    cases hres'
    cases hres''
    refine ⟨hwf', ?_, ?_⟩
    · intro v hv
      rw [hvl] at hv
      have := hlive v
      rw [hc1 v hv] at this
      cases hx : g1.vertexObj v with
      | none => rfl
      | some o => simp [hx] at this
    · intro p hp
      rw [hel, List.mem_append, List.mem_singleton, not_or] at hp
      rw [hobj p, if_neg hp.2]
      exact hc2 p hp.1
  | @removeEdge g g1 e _ hres ih =>
    obtain ⟨hwf, hc1, hc2⟩ := ih
    obtain ⟨hlive, f1, f2⟩ := removeEdge_frame hres
    have he : e ∈ g.edgeList := by
      by_contra hn
      rw [hc2 e hn] at hlive
      cases hlive
    obtain ⟨g', hres', hwf', hS⟩ := wellFormed_removeEdge hwf he
    rw [hres] at hres'
    cases hres'
    refine ⟨hwf', ?_, ?_⟩
    · intro v hv
      rw [hS.vertexList] at hv
      exact f1 v (hc1 v hv)
    · intro p hp
      by_cases hpe : p = e
      · rw [hS.edgeObj p, if_pos (by simp [hpe])]
      · apply f2 p (hc2 p _)
        intro hmem
        apply hp
        rw [hS.edgeList, List.mem_filter]
        exact ⟨hmem, by simpa using hpe⟩
  | @removeVertex g g1 vertex _ hres ih =>
    obtain ⟨hwf, hc1, hc2⟩ := ih
    obtain ⟨gl, hloop, hshape⟩ := removeVertex_shape hres
    obtain ⟨gs, hloop', hS⟩ := removeVertex_loop hwf vertex
    rw [hloop] at hloop'
    cases hloop'
    obtain ⟨f1, f2⟩ := removeVertex_loop_frame vertex g g.edges g gl
      ⟨fun _ hu => hu, fun _ hp => hp⟩ hloop
    have hedge : ∀ p, p ∉ gl.edgeList → gl.edgeObj p = none := by
      intro p hp
      by_cases hpe : p ∈ g.edgeList
      · rw [hS.edgeObj p, if_pos]
        by_contra hR
        apply hp
        rw [hS.edgeList, List.mem_filter]
        exact ⟨hpe, decide_eq_true hR⟩
      · exact f2 p (hc2 p hpe)
    rcases hshape with ⟨hn, rfl⟩ | ⟨hn, hlive, rfl⟩
    · have hv : vertex ∉ gl.vertexList := by
        rw [hS.vertexList]
        intro hmem
        exact (hwf.2.2.1 vertex hmem).1 hn
      have heq : ({ gl with vertexList := gl.vertexList.erase vertex } :
          AdjacencyListGraph V E) = gl := by
        rw [List.erase_of_not_mem hv]
      rw [heq]
      refine ⟨wellFormed_of_stripped hwf hS, ?_, hedge⟩
      intro u hu
      rw [hS.vertexList] at hu
      exact f1 u (hc1 u hu)
    · have hv : vertex ∈ g.vertexList := by
        by_contra hnot
        rw [f1 vertex (hc1 vertex hnot)] at hlive
        cases hlive
      obtain ⟨g', hres', hwf', -, -, -, -⟩ := wellFormed_removeVertex hwf hv
      rw [hres] at hres'
      cases hres'
      refine ⟨hwf', ?_, hedge⟩
      intro u hu
      by_cases huv : u = vertex
      · simp [setVertex, huv]
      · have hu' : u ∉ g.vertexList := by
          intro hmem
          apply hu
          simp only [setVertex, hS.vertexList]
          exact (List.Nodup.mem_erase_iff hwf.1).mpr ⟨huv, hmem⟩
        simp only [setVertex, if_neg huv]
        exact f1 u (hc1 u hu')

end AdjacencyListGraph

namespace AdjacencyListGraph

variable {V E : Type}

theorem sum_indicator (a : Ptr) :
    ∀ (l : List Ptr), l.Nodup → a ∈ l →
      (l.map (fun v => if some a = some v then 1 else 0)).sum = 1 := by
  intro l
  induction l with
  | nil => intro _ h; cases h
  | cons x l ih =>
    intro hnd hmem
    rw [List.nodup_cons] at hnd
    rw [List.map_cons, List.sum_cons]
    rcases List.mem_cons.mp hmem with h | h
    · subst h
      have hz : (l.map (fun v => if some a = some v then 1 else 0)).sum = 0 := by
        apply List.sum_eq_zero
        intro n hn
        obtain ⟨v, hv, rfl⟩ := List.mem_map.mp hn
        have : a ≠ v := fun h' => hnd.1 (h' ▸ hv)
        simp [this]
      rw [hz]
      simp
    · have : a ≠ x := fun h' => hnd.1 (h' ▸ h)
      rw [ih hnd.2 h]
      simp [this]

theorem sum_filter_length (vl : List Ptr) (key : Ptr → Option Ptr) (hnd : vl.Nodup) :
    ∀ (el : List Ptr), (∀ e ∈ el, ∃ a ∈ vl, key e = some a) →
      (vl.map (fun v => (el.filter (fun e => decide (key e = some v))).length)).sum =
        el.length := by
  intro el
  induction el with
  | nil =>
    intro _
    simp
  | cons e el ih =>
    intro h
    obtain ⟨a, ha, hka⟩ := h e (List.mem_cons_self _ _)
    have hstep : ∀ v, ((e :: el).filter (fun e => decide (key e = some v))).length =
        (el.filter (fun e => decide (key e = some v))).length +
          (if some a = some v then 1 else 0) := by
      intro v
      rw [List.filter_cons, hka]
      by_cases hv : some a = some v
      · simp [hv]
      · simp [hv]
    simp only [hstep]
    rw [List.sum_map_add, ih (fun e' he' => h e' (List.mem_cons_of_mem _ he')),
      sum_indicator a vl hnd ha, List.length_cons]

theorem out_length_eq_filter {g : AdjacencyListGraph V E} (hg : g.WellFormed) {v : Ptr}
    (hv : v ∈ g.vertexList) :
    (g.out v).length =
      (g.edgeList.filter (fun e => decide ((g.ends e).map Prod.fst = some v))).length := by
  apply List.Perm.length_eq
  rw [List.perm_ext_iff_of_nodup (hg.2.2.1 v hv).2.2.1 (hg.2.1.filter _)]
  intro e
  rw [List.mem_filter, decide_eq_true_eq]
  constructor
  · intro he
    exact (hg.2.2.1 v hv).2.2.2.2.1 e he
  · rintro ⟨he, hk⟩
    obtain ⟨a, _, b, _, hab, hoa, _⟩ := hg.2.2.2.1 e he
    rw [hab] at hk
    simp only [Option.map_some', Option.some.injEq] at hk
    rw [← hk]
    exact hoa

theorem inc_length_eq_filter {g : AdjacencyListGraph V E} (hg : g.WellFormed) {v : Ptr}
    (hv : v ∈ g.vertexList) :
    (g.inc v).length =
      (g.edgeList.filter (fun e => decide ((g.ends e).map Prod.snd = some v))).length := by
  apply List.Perm.length_eq
  rw [List.perm_ext_iff_of_nodup (hg.2.2.1 v hv).2.2.2.1 (hg.2.1.filter _)]
  intro e
  rw [List.mem_filter, decide_eq_true_eq]
  constructor
  · intro he
    exact (hg.2.2.1 v hv).2.2.2.2.2 e he
  · rintro ⟨he, hk⟩
    obtain ⟨a, _, b, _, hab, _, hib⟩ := hg.2.2.2.1 e he
    rw [hab] at hk
    simp only [Option.map_some', Option.some.injEq] at hk
    rw [← hk]
    exact hib

/-- In a well-formed graph the lengths of the outgoing vectors, and those of the incoming
vectors, add up to the number of edges. -/
theorem WellFormed.degree_sum {g : AdjacencyListGraph V E} (hg : g.WellFormed) :
    (g.vertexList.map (fun v => (g.out v).length)).sum = g.edgeList.length ∧
    (g.vertexList.map (fun v => (g.inc v).length)).sum = g.edgeList.length := by
  constructor
  · rw [← sum_filter_length g.vertexList (fun e => (g.ends e).map Prod.fst) hg.1 g.edgeList]
    · congr 1
      apply List.map_congr_left
      intro v hv
      exact out_length_eq_filter hg hv
    · intro e he
      obtain ⟨a, ha, b, _, hab, _, _⟩ := hg.2.2.2.1 e he
      exact ⟨a, ha, by rw [hab]; rfl⟩
  · rw [← sum_filter_length g.vertexList (fun e => (g.ends e).map Prod.snd) hg.1 g.edgeList]
    · congr 1
      apply List.map_congr_left
      intro v hv
      exact inc_length_eq_filter hg hv
    · intro e he
      obtain ⟨a, _, b, hb, hab, _, _⟩ := hg.2.2.2.1 e he
      exact ⟨b, hb, by rw [hab]; rfl⟩

/-- C39: in every graph that calls of `insertVertex`, `insertEdge`, `removeEdge` and
`removeVertex` build from the empty graph (directed or not): every edge of `edges()` has
two endpoints in `vertices()`, occurs exactly once in the outgoing vector of the first
and exactly once in the incoming vector of the second, and in no other outgoing or
incoming vector of a vertex; every edge in an adjacency vector of a vertex is in
`edges()`; and the values of `outDegree` over the vertices, and those of `inDegree`, add
up to `numEdges()`. -/
theorem reached_graph_lists_each_edge_once (g : AdjacencyListGraph V E) (h : g.Reached) :
    (∀ e ∈ g.edges, ∃ a b, g.endVertices e = .ok (a, b) ∧ a ∈ g.vertices ∧ b ∈ g.vertices ∧
      (∃ l, g.outgoingEdges a = .ok l ∧ l.count e = 1) ∧
      (∃ l, g.incomingEdges b = .ok l ∧ l.count e = 1) ∧
      (∀ v ∈ g.vertices, v ≠ a → ∃ l, g.outgoingEdges v = .ok l ∧ e ∉ l) ∧
      (∀ v ∈ g.vertices, v ≠ b → ∃ l, g.incomingEdges v = .ok l ∧ e ∉ l)) ∧
    (∀ v ∈ g.vertices, ∃ lo li, g.outgoingEdges v = .ok lo ∧ g.incomingEdges v = .ok li ∧
      g.outDegree v = .ok (lo.length : Int) ∧ g.inDegree v = .ok (li.length : Int) ∧
      (∀ e ∈ lo, e ∈ g.edges) ∧ (∀ e ∈ li, e ∈ g.edges)) ∧
    (∃ outDegrees inDegrees : Ptr → Int,
      (∀ v ∈ g.vertices, g.outDegree v = .ok (outDegrees v) ∧
        g.inDegree v = .ok (inDegrees v)) ∧
      (g.vertices.map outDegrees).sum = (g.numEdges : Int) ∧
      (g.vertices.map inDegrees).sum = (g.numEdges : Int)) := by
  obtain ⟨hg, -⟩ := h.wellFormed_clean
  have hlists : ∀ v ∈ g.vertexList, g.outgoingEdges v = .ok (g.out v) ∧
      g.incomingEdges v = .ok (g.inc v) ∧ g.outDegree v = .ok ((g.out v).length : Int) ∧
      g.inDegree v = .ok ((g.inc v).length : Int) := by
    intro v hv
    obtain ⟨o, ho⟩ := Option.isSome_iff_exists.mp (hg.2.2.1 v hv).2.1
    simp [outgoingEdges, incomingEdges, outDegree, inDegree, vertexAt, out, inc, ho, Except.map]
  refine ⟨?_, ?_, fun v => ((g.out v).length : Int), fun v => ((g.inc v).length : Int),
    fun v hv => ⟨(hlists v hv).2.2.1, (hlists v hv).2.2.2⟩, ?_, ?_⟩
  · intro e he
    obtain ⟨a, ha, b, hb, hab, hoa, hib⟩ := hg.2.2.2.1 e he
    refine ⟨a, b, endVertices_of_ends hab, ha, hb,
      ⟨g.out a, (hlists a ha).1, List.count_eq_one_of_mem (hg.2.2.1 a ha).2.2.1 hoa⟩,
      ⟨g.inc b, (hlists b hb).2.1, List.count_eq_one_of_mem (hg.2.2.1 b hb).2.2.2.1 hib⟩,
      ?_, ?_⟩
    · intro v hv hva
      refine ⟨g.out v, (hlists v hv).1, fun hmem => ?_⟩
      have := ((hg.2.2.1 v hv).2.2.2.2.1 e hmem).2
      rw [hab] at this
      simp only [Option.map_some', Option.some.injEq] at this
      exact hva this.symm
    · intro v hv hvb
      refine ⟨g.inc v, (hlists v hv).2.1, fun hmem => ?_⟩
      have := ((hg.2.2.1 v hv).2.2.2.2.2 e hmem).2
      rw [hab] at this
      simp only [Option.map_some', Option.some.injEq] at this
      exact hvb this.symm
  · intro v hv
    obtain ⟨l1, l2, l3, l4⟩ := hlists v hv
    exact ⟨g.out v, g.inc v, l1, l2, l3, l4,
      fun e he => ((hg.2.2.1 v hv).2.2.2.2.1 e he).1,
      fun e he => ((hg.2.2.1 v hv).2.2.2.2.2 e he).1⟩
  · have := hg.degree_sum.1
    unfold vertices numEdges
    rw [← this, Nat.cast_list_sum, List.map_map]
    rfl
  · have := hg.degree_sum.2
    unfold vertices numEdges
    rw [← this, Nat.cast_list_sum, List.map_map]
    rfl

end AdjacencyListGraph

theorem undirectedEdge_reached : undirectedEdge.Reached :=
  AdjacencyListGraph.Reached.insertEdge
    (AdjacencyListGraph.Reached.insertVertex ()
      (AdjacencyListGraph.Reached.insertVertex () (AdjacencyListGraph.Reached.new false)))
    (show undirectedPair.insertEdge 1 2 5 = .ok (3, undirectedEdge) from rfl)

theorem containsVertex_never_returns_false_witness :
    (1 : Ptr) ∉ (AdjacencyListGraph.new true : AdjacencyListGraph Unit Int).vertices ∧
    (4 : Ptr) ∉ (AdjacencyListGraph.new true : AdjacencyListGraph Unit Int).edges ∧
    (AdjacencyListGraph.new true : AdjacencyListGraph Unit Int).containsVertex
      detourGraph.vertexObj 1 = .ok true ∧
    (AdjacencyListGraph.new true : AdjacencyListGraph Unit Int).containsEdge
      detourGraph.edgeObj 4 = .ok true :=
  ⟨by decide, by decide,
    (AdjacencyListGraph.containsVertex_never_returns_false
      (AdjacencyListGraph.new true : AdjacencyListGraph Unit Int)
      detourGraph.vertexObj detourGraph.edgeObj 1).1 (Or.inr rfl),
    (AdjacencyListGraph.containsVertex_never_returns_false
      (AdjacencyListGraph.new true : AdjacencyListGraph Unit Int)
      detourGraph.vertexObj detourGraph.edgeObj 4).2.2.1 (Or.inr rfl)⟩

theorem getEdge_is_symmetric_only_when_directed_witness :
    (undirectedEdge.WellFormed ∧ nullptr ∉ undirectedEdge.edges ∧
      (2 : Ptr) ∈ undirectedEdge.vertices ∧ (1 : Ptr) ∈ undirectedEdge.vertices) ∧
    undirectedEdge.directed = false ∧
    undirectedEdge.endVertices 3 = .ok (1, 2) ∧
    undirectedEdge.getEdge 1 2 = .ok 3 ∧
    undirectedEdge.getEdge 2 1 = .ok nullptr ∧
    (∀ e ∈ undirectedEdge.edges, undirectedEdge.endVertices e ≠ .ok (2, 1)) ∧
    detourGraph.directed = true ∧
    detourGraph.endVertices 4 = .ok (1, 2) ∧
    detourGraph.getEdge 2 1 = .ok 4 := by
  obtain ⟨f, f', h1, -, -, hu⟩ :=
    AdjacencyListGraph.getEdge_is_symmetric_only_when_directed undirectedEdge (by decide)
      (by decide) 2 1 (by decide) (by decide)
  have e1 : undirectedEdge.getEdge 2 1 = .ok nullptr := rfl
  have hf : f = nullptr := by
    rw [e1] at h1
    cases h1
    rfl
  exact ⟨⟨by decide, by decide, by decide, by decide⟩, rfl, rfl, rfl, rfl,
    ((hu rfl).2).mp hf, rfl, rfl, rfl⟩

theorem reached_graph_lists_each_edge_once_witness :
    undirectedEdge.Reached ∧
    undirectedEdge.edges = [3] ∧
    undirectedEdge.endVertices 3 = .ok (1, 2) ∧
    (∃ l, undirectedEdge.outgoingEdges 1 = .ok l ∧ l.count 3 = 1) ∧
    (∃ l, undirectedEdge.incomingEdges 2 = .ok l ∧ l.count 3 = 1) := by
  have h := (AdjacencyListGraph.reached_graph_lists_each_edge_once undirectedEdge
    undirectedEdge_reached).1 3 (by decide)
  obtain ⟨a, b, hab, -, -, ho, hi, -, -⟩ := h
  have h12 : (a, b) = ((1 : Ptr), (2 : Ptr)) := by
    have h' : undirectedEdge.endVertices 3 = .ok (1, 2) := rfl
    rw [h'] at hab
    cases hab
    rfl
  cases h12
  exact ⟨undirectedEdge_reached, rfl, rfl, ho, hi⟩

/-! ### Obstacles of a grid environment -/

namespace GridEnvironment

theorem isObstacleLoop_spec {env : GridEnvironment} (hs : env.Sound) (row col : Int) :
    ∀ (l : List Ptr), (∀ v ∈ l, v ∈ env.graph.vertexList) →
      isObstacleLoop env.graph row col l =
        .ok (decide (∀ v ∈ l, cellOf env.graph v ≠ some ⟨row, col⟩)) := by
  intro l
  induction l with
  | nil =>
    intro _
    simp [isObstacleLoop]
  | cons v rest ih =>
    intro hl
    have hv := hl v (List.mem_cons_self _ _)
    obtain ⟨c, hc, -, -⟩ := hs.cells v hv
    simp only [isObstacleLoop, vertexElement_of_cellOf hc, bind, Except.bind]
    by_cases hm : c.row = row ∧ c.column = col
    · rw [if_pos hm]
      have hcc : c = ⟨row, col⟩ := by
        cases c
        simp only [Grid.mk.injEq]
        exact hm
      have : ¬ ∀ u ∈ v :: rest, cellOf env.graph u ≠ some ⟨row, col⟩ :=
        fun h => h v (List.mem_cons_self _ _) (by rw [hc, hcc])
      rw [decide_eq_false this]
      rfl
    · rw [if_neg hm, ih (fun u hu => hl u (List.mem_cons_of_mem _ hu))]
      have hne : cellOf env.graph v ≠ some ⟨row, col⟩ := by
        rw [hc]
        intro h
        cases h
        exact hm ⟨rfl, rfl⟩
      congr 1
      apply decide_eq_decide.mpr
      constructor
      · intro h u hu
        rcases List.mem_cons.mp hu with rfl | h'
        · exact hne
        · exact h u h'
      · intro h u hu
        exact h u (List.mem_cons_of_mem _ hu)

theorem isObstacle_spec {env : GridEnvironment} (hs : env.Sound) (row col : Int) :
    env.isObstacle row col =
      .ok (decide (∀ v ∈ env.graph.vertexList, cellOf env.graph v ≠ some ⟨row, col⟩)) :=
  isObstacleLoop_spec hs row col _ (fun _ h => h)

theorem quantizeLoop_none {env : GridEnvironment} (hs : env.Sound) (row col : Int) :
    ∀ (l : List Ptr), (∀ v ∈ l, v ∈ env.graph.vertexList) →
      (∀ v ∈ l, cellOf env.graph v ≠ some ⟨row, col⟩) →
      quantizeLoop env.graph row col l = .ok nullptr := by
  intro l
  induction l with
  | nil =>
    intro _ _
    rfl
  | cons v rest ih =>
    intro hl hno
    have hv := hl v (List.mem_cons_self _ _)
    obtain ⟨c, hc, -, -⟩ := hs.cells v hv
    simp only [quantizeLoop, vertexElement_of_cellOf hc, bind, Except.bind]
    have hm : ¬ (c.row = row ∧ c.column = col) := by
      intro hm
      apply hno v (List.mem_cons_self _ _)
      rw [hc]
      cases c
      simp only [Option.some.injEq, Grid.mk.injEq]
      exact hm
    rw [if_neg hm]
    exact ih (fun u hu => hl u (List.mem_cons_of_mem _ hu))
      (fun u hu => hno u (List.mem_cons_of_mem _ hu))

/-- The vertices of a fresh environment stand for the cells of the grid, all of them. -/
theorem new_cells {xTiles yTiles width height : Int} {env : GridEnvironment}
    (hnew : GridEnvironment.new xTiles yTiles width height = .ok env) :
    env.xTiles = xTiles ∧ env.yTiles = yTiles ∧
    ∀ (r c : Int), (∃ v ∈ env.graph.vertexList, cellOf env.graph v = some ⟨r, c⟩) ↔
      (0 ≤ r ∧ r < yTiles ∧ 0 ≤ c ∧ c < xTiles) := by
  obtain ⟨h1, h2, h3⟩ := insertRows_spec ((List.range xTiles.toNat).map (fun (a : Nat) => (a : Int)))
    ((List.range yTiles.toNat).map (fun (a : Nat) => (a : Int)))
    (AdjacencyListGraph.new true) (AdjacencyListGraph.wellFormed_new true) rfl
  rw [← insertCells_eq] at h1 h2 h3
  have hJ : Connecting (insertCells xTiles yTiles (AdjacencyListGraph.new true)).vertexList
      (cellOf (insertCells xTiles yTiles (AdjacencyListGraph.new true)))
      (insertCells xTiles yTiles (AdjacencyListGraph.new true)) := by
    refine ⟨h1, rfl, fun _ => rfl, ?_, ?_⟩
    · intro e he
      rw [h2] at he
      cases he
    · intro e he
      rw [h2] at he
      cases he
  obtain ⟨g, hg, hwf, hvl, hcell, hnb, hunit⟩ := insertConnections_spec hJ
  have hcells : (insertCells xTiles yTiles (AdjacencyListGraph.new true)).vertexList.map
      (cellOf (insertCells xTiles yTiles (AdjacencyListGraph.new true))) =
      ((List.range yTiles.toNat).map (fun (a : Nat) => (a : Int))).flatMap (fun (row : Int) =>
        ((List.range xTiles.toNat).map (fun (a : Nat) => (a : Int))).map
          (fun (col : Int) => some ({ row := row, column := col } : Grid))) := by
    rw [h3]
    rfl
  have hxy : ¬ (xTiles = 0 ∨ yTiles = 0) := by
    intro hxy
    simp [GridEnvironment.new, hxy, bind, Except.bind, throw, throwThe, MonadExceptOf.throw]
      at hnew
  have henv : env =
      { graph := g, tileWidth := Int.tdiv width xTiles,
        tileHeight := Int.tdiv height yTiles, xTiles := xTiles, yTiles := yTiles,
        width := width, height := height } := by
    unfold GridEnvironment.new at hnew
    simp only [if_neg hxy, hg, bind, Except.bind, pure, Except.pure] at hnew
    cases hnew
    rfl
  subst henv
  refine ⟨rfl, rfl, ?_⟩
  intro r c
  have hrange : ∀ (n r : Int), r ∈ (List.range n.toNat).map (fun (a : Nat) => (a : Int)) ↔
      0 ≤ r ∧ r < n := by
    intro n r
    simp only [List.mem_map, List.mem_range]
    constructor
    · rintro ⟨a, ha, rfl⟩
      omega
    · rintro ⟨h0, hn⟩
      exact ⟨r.toNat, by omega, by omega⟩
  have hmem : (∃ v ∈ g.vertexList, cellOf g v = some ⟨r, c⟩) ↔
      some (⟨r, c⟩ : Grid) ∈
        (insertCells xTiles yTiles (AdjacencyListGraph.new true)).vertexList.map
          (cellOf (insertCells xTiles yTiles (AdjacencyListGraph.new true))) := by
    rw [List.mem_map, hvl]
    constructor
    · rintro ⟨v, hv, hc⟩
      exact ⟨v, hv, by rw [← hcell v]; exact hc⟩
    · rintro ⟨v, hv, hc⟩
      exact ⟨v, hv, by rw [hcell v]; exact hc⟩
  show (∃ v ∈ g.vertexList, cellOf g v = some ⟨r, c⟩) ↔ _
  rw [hmem, hcells]
  simp only [List.mem_flatMap, Option.some.injEq, Grid.mk.injEq]
  constructor
  · rintro ⟨r', hr', hc'⟩
    obtain ⟨c', hc'', h⟩ := List.mem_map.mp hc'
    simp only [Option.some.injEq, Grid.mk.injEq] at h
    obtain ⟨rfl, rfl⟩ := h
    have := (hrange _ _).mp hr'
    have := (hrange _ _).mp hc''
    omega
  · rintro ⟨h1, h2, h3, h4⟩
    exact ⟨r, (hrange _ _).mpr ⟨h1, h2⟩,
      List.mem_map.mpr ⟨c, (hrange _ _).mpr ⟨h3, h4⟩, rfl⟩⟩

/-- What `addObstacle` does to the vertices: those of the cell are gone, the others keep
their cell. -/
theorem addObstacleLoop_spec {env : GridEnvironment} (hs : env.Sound) (gridLocation : Grid) :
    ∀ (l : List Ptr), (∀ v ∈ l, v ∈ env.graph.vertexList) →
      ∃ g', addObstacleLoop env.graph gridLocation l = .ok g' ∧
        GridEnvironment.Sound { env with graph := g' } ∧
        (∀ u ∈ g'.vertexList, u ∈ env.graph.vertexList ∧ cellOf g' u = cellOf env.graph u) ∧
        (∀ u ∈ env.graph.vertexList, cellOf env.graph u ≠ some gridLocation →
          u ∈ g'.vertexList) ∧
        ((∃ v ∈ l, cellOf env.graph v = some gridLocation) →
          ∀ u ∈ g'.vertexList, cellOf env.graph u ≠ some gridLocation) := by
  intro l
  induction l with
  | nil =>
    intro _
    refine ⟨env.graph, rfl, hs, fun u hu => ⟨hu, rfl⟩, fun u hu _ => hu, ?_⟩
    rintro ⟨v, hv, -⟩
    cases hv
  | cons v rest ih =>
    intro hl
    have hv := hl v (List.mem_cons_self _ _)
    obtain ⟨c, hc, -, -⟩ := hs.cells v hv
    simp only [addObstacleLoop, vertexElement_of_cellOf hc, bind, Except.bind]
    by_cases hm : c.row = gridLocation.row ∧ c.column = gridLocation.column
    · rw [if_pos hm]
      have hcc : c = gridLocation := by
        cases c
        cases gridLocation
        simp only [Grid.mk.injEq]
        exact hm
      obtain ⟨g', hres, hwf, hvl, -, -, helem⟩ :=
        AdjacencyListGraph.wellFormed_removeVertex hs.wellFormed hv
      obtain ⟨g'', hres', hs'⟩ := sound_removeVertex hs hv
      rw [hres] at hres'
      cases hres'
      refine ⟨g', hres, hs', ?_, ?_, ?_⟩
      · intro u hu
        refine ⟨?_, helem u hu⟩
        rw [hvl] at hu
        exact List.mem_of_mem_erase hu
      · intro u hu hne
        rw [hvl]
        refine (List.Nodup.mem_erase_iff hs.wellFormed.1).mpr ⟨?_, hu⟩
        rintro rfl
        exact hne (by rw [hc, hcc])
      · intro _ u hu hcu
        rw [hvl] at hu
        have huv := ((List.Nodup.mem_erase_iff hs.wellFormed.1).mp hu)
        exact huv.1 (hs.distinct u huv.2 v hv (by rw [hcu, hc, hcc]))
    · rw [if_neg hm]
      obtain ⟨g', hres, hs', h1, h2, h3⟩ := ih (fun u hu => hl u (List.mem_cons_of_mem _ hu))
      refine ⟨g', hres, hs', h1, h2, ?_⟩
      rintro ⟨w, hw, hcw⟩
      apply h3
      rcases List.mem_cons.mp hw with rfl | hw'
      · exfalso
        rw [hc] at hcw
        cases hcw
        exact hm ⟨rfl, rfl⟩
      · exact ⟨w, hw', hcw⟩

theorem addObstacle_spec {env : GridEnvironment} (hs : env.Sound) (gridLocation : Grid) :
    ∃ env1, env.addObstacle gridLocation = .ok env1 ∧ env1.Sound ∧
      env1.tileWidth = env.tileWidth ∧ env1.tileHeight = env.tileHeight ∧
      env1.xTiles = env.xTiles ∧ env1.yTiles = env.yTiles ∧
      (∀ u ∈ env1.graph.vertexList,
        u ∈ env.graph.vertexList ∧ cellOf env1.graph u = cellOf env.graph u ∧
        cellOf env.graph u ≠ some gridLocation) ∧
      (∀ u ∈ env.graph.vertexList, cellOf env.graph u ≠ some gridLocation →
        u ∈ env1.graph.vertexList) := by
  obtain ⟨g', hres, hs', h1, h2, h3⟩ := addObstacleLoop_spec hs gridLocation env.graph.vertices
    (fun _ h => h)
  refine ⟨{ env with graph := g' }, ?_, hs', rfl, rfl, rfl, rfl, ?_, h2⟩
  · have hxy : ¬ (env.xTiles = 0 ∨ env.yTiles = 0) := by
      rintro (h | h)
      · exact hs.tiles.1 h
      · exact hs.tiles.2 h
    simp only [GridEnvironment.addObstacle, if_neg hxy, hres, bind, Except.bind, pure,
      Except.pure]
  · intro u hu
    refine ⟨(h1 u hu).1, (h1 u hu).2, ?_⟩
    intro hcu
    exact h3 ⟨u, (h1 u hu).1, hcu⟩ u hu hcu

/-- The vertices of an environment built by the constructor and `addObstacle` stand for
cells of the grid. -/
theorem Built.inGrid {env : GridEnvironment} (h : env.Built) :
    ∀ v ∈ env.graph.vertexList, ∃ c, cellOf env.graph v = some c ∧
      0 ≤ c.row ∧ c.row < env.yTiles ∧ 0 ≤ c.column ∧ c.column < env.xTiles := by
  induction h with
  | @new xTiles yTiles width height env hnew =>
    intro v hv
    obtain ⟨hx, hy, hcells⟩ := new_cells hnew
    obtain ⟨c, hc, -, -⟩ := (Built.new hnew).sound.cells v hv
    refine ⟨c, hc, ?_⟩
    have := (hcells c.row c.column).mp ⟨v, hv, hc⟩
    rw [hx, hy]
    exact this
  | @addObstacle env env1 gridLocation hb hadd ih =>
    intro v hv
    obtain ⟨env', henv, -, -, -, hx, hy, h1, -⟩ := addObstacle_spec hb.sound gridLocation
    rw [henv] at hadd
    cases hadd
    obtain ⟨c, hc, hin⟩ := ih v (h1 v hv).1
    refine ⟨c, ?_, ?_⟩
    · rw [(h1 v hv).2.1, hc]
    · rw [hx, hy]
      exact hin

end GridEnvironment

namespace GridEnvironment

theorem truncate_in_cell {F : Type} [LinearOrderedField F] [FloorRing F] (c : Int)
    (hc : 0 ≤ c) (size x : F) (h1 : (c : F) * size ≤ x) (h2 : x < ((c : F) + 1) * size) :
    size ≠ 0 ∧ truncate (x / size) = c := by
  have hpos : 0 < size := by nlinarith
  have hc' : (0 : F) ≤ (c : F) := by exact_mod_cast hc
  have hlo : (c : F) ≤ x / size := (le_div_iff₀ hpos).mpr h1
  have hhi : x / size < (c : F) + 1 := (div_lt_iff₀ hpos).mpr h2
  refine ⟨ne_of_gt hpos, ?_⟩
  unfold truncate
  rw [if_pos (le_trans hc' hlo), Int.floor_eq_iff]
  exact ⟨hlo, hhi⟩

theorem vertexElement_ne_iff {env : GridEnvironment} (hs : env.Sound) {v : Ptr}
    (hv : v ∈ env.graph.vertexList) (cell : Grid) :
    env.graph.vertexElement v ≠ .ok cell ↔ cellOf env.graph v ≠ some cell := by
  obtain ⟨c, hc, -, -⟩ := hs.cells v hv
  rw [vertexElement_of_cellOf hc, hc]
  constructor
  · intro h h'
    cases h'
    exact h rfl
  · intro h h'
    cases h'
    exact h rfl

end GridEnvironment

/-- C31: in an environment built by the constructor and `addObstacle`, `isObstacle(r, c)`
returns true exactly when no vertex of the graph has the element `(r, c)`; in a fresh
environment it returns false for every cell of the grid and true for every other cell;
`addObstacle` for a cell `(r, c)` of the grid returns an environment in which
`isObstacle(r, c)` is true, `isObstacle` is as before for every other cell, `quantize`
of every position inside the cell returns the null pointer, and no edge of the graph has
an endpoint with the element `(r, c)`. -/
theorem isObstacle_true_iff_no_vertex (F : Type) [LinearOrderedField F] [FloorRing F]
    (env : GridEnvironment) (hbuilt : env.Built) :
    (∀ r c, ∃ b, env.isObstacle r c = .ok b ∧
      (b = true ↔ ∀ v ∈ env.graph.vertices, env.graph.vertexElement v ≠ .ok ⟨r, c⟩)) ∧
    (∀ xTiles yTiles width height,
      GridEnvironment.new xTiles yTiles width height = .ok env →
      ∀ r c, ((0 ≤ r ∧ r < yTiles ∧ 0 ≤ c ∧ c < xTiles) → env.isObstacle r c = .ok false) ∧
        (¬ (0 ≤ r ∧ r < yTiles ∧ 0 ≤ c ∧ c < xTiles) → env.isObstacle r c = .ok true)) ∧
    (∀ r c, 0 ≤ r → r < env.yTiles → 0 ≤ c → c < env.xTiles →
      ∃ env1, env.addObstacle ⟨r, c⟩ = .ok env1 ∧
        env1.isObstacle r c = .ok true ∧
        (∀ r' c', (r', c') ≠ (r, c) → env1.isObstacle r' c' = env.isObstacle r' c') ∧
        (∀ position : Vector2 F,
          (c : F) * (env1.tileWidth : F) ≤ position.x →
          position.x < ((c : F) + 1) * (env1.tileWidth : F) →
          (r : F) * (env1.tileHeight : F) ≤ position.y →
          position.y < ((r : F) + 1) * (env1.tileHeight : F) →
          env1.quantize F position = .ok nullptr) ∧
        (∀ e ∈ env1.graph.edges, ∃ a b, env1.graph.endVertices e = .ok (a, b) ∧
          env1.graph.vertexElement a ≠ .ok ⟨r, c⟩ ∧
          env1.graph.vertexElement b ≠ .ok ⟨r, c⟩)) := by
  have hs := hbuilt.sound
  refine ⟨?_, ?_, ?_⟩
  · intro r c
    refine ⟨_, GridEnvironment.isObstacle_spec hs r c, ?_⟩
    rw [decide_eq_true_eq]
    constructor
    · intro h v hv
      exact (GridEnvironment.vertexElement_ne_iff hs hv _).mpr (h v hv)
    · intro h v hv
      exact (GridEnvironment.vertexElement_ne_iff hs hv _).mp (h v hv)
  · intro xTiles yTiles width height hnew r c
    obtain ⟨-, -, hcells⟩ := GridEnvironment.new_cells hnew
    rw [GridEnvironment.isObstacle_spec hs r c]
    constructor
    · intro hin
      obtain ⟨v, hv, hc⟩ := (hcells r c).mpr hin
      have : ¬ ∀ v ∈ env.graph.vertexList, cellOf env.graph v ≠ some ⟨r, c⟩ :=
        fun h => h v hv hc
      rw [decide_eq_false this]
    · intro hout
      have : ∀ v ∈ env.graph.vertexList, cellOf env.graph v ≠ some ⟨r, c⟩ :=
        fun v hv hc => hout ((hcells r c).mp ⟨v, hv, hc⟩)
      rw [decide_eq_true this]
  · intro r c hr0 _ hc0 _
    obtain ⟨env1, hadd, hs1, -, -, -, -, h1, h2⟩ := GridEnvironment.addObstacle_spec hs ⟨r, c⟩
    have hnone : ∀ v ∈ env1.graph.vertexList, cellOf env1.graph v ≠ some ⟨r, c⟩ := by
      intro v hv
      rw [(h1 v hv).2.1]
      exact (h1 v hv).2.2
    refine ⟨env1, hadd, ?_, ?_, ?_, ?_⟩
    · rw [GridEnvironment.isObstacle_spec hs1 r c, decide_eq_true hnone]
    · intro r' c' hne
      rw [GridEnvironment.isObstacle_spec hs1, GridEnvironment.isObstacle_spec hs]
      congr 1
      apply decide_eq_decide.mpr
      constructor
      · intro h v hv hcv
        have hne' : cellOf env.graph v ≠ some ⟨r, c⟩ := by
          rw [hcv]
          intro h'
          cases h'
          exact hne rfl
        have hv1 := h2 v hv hne'
        exact h v hv1 (by rw [(h1 v hv1).2.1]; exact hcv)
      · intro h v hv hcv
        exact h v (h1 v hv).1 (by rw [← (h1 v hv).2.1]; exact hcv)
    · intro position hx1 hx2 hy1 hy2
      obtain ⟨hw, htx⟩ := GridEnvironment.truncate_in_cell c hc0 _ _ hx1 hx2
      obtain ⟨hh, hty⟩ := GridEnvironment.truncate_in_cell r hr0 _ _ hy1 hy2
      simp only [GridEnvironment.quantize, divide_of_ne _ hw, divide_of_ne _ hh, bind,
        Except.bind, htx, hty]
      exact GridEnvironment.quantizeLoop_none hs1 r c _ (fun _ h => h) hnone
    · intro e he
      obtain ⟨a, ha, b, hb, hab, -, -⟩ := hs1.wellFormed.2.2.2.1 e he
      refine ⟨a, b, AdjacencyListGraph.endVertices_of_ends hab, ?_, ?_⟩
      · exact (GridEnvironment.vertexElement_ne_iff hs1 ha _).mpr (hnone a ha)
      · exact (GridEnvironment.vertexElement_ne_iff hs1 hb _).mpr (hnone b hb)

/-! ### The scan of `nearestObstacle` -/

namespace Engine

variable {F : Type} [LinearOrderedField F]

/-- The loop of `nearestObstacle` from a cell of the grid: it stops at the first turn
whose cell `(row + k * dx, col + k * dy)` is an obstacle. -/
theorem nearestObstacleLoop_spec (settings : Settings F) {env : GridEnvironment}
    (hbuilt : env.Built) (hx : env.xTiles = settings.xTiles)
    (hy : env.yTiles = settings.yTiles) (dx dy : Int) (dd : F) :
    ∀ (k : Nat) (fuel : Nat) (row col : Int) (distance : F), k + 1 ≤ fuel →
      (0 ≤ row ∧ row < settings.yTiles ∧ 0 ≤ col ∧ col < settings.xTiles) →
      (∀ j : Nat, 1 ≤ j → j < k + 1 →
        env.isObstacle (row + j * dx) (col + j * dy) = .ok false) →
      env.isObstacle (row + ((k + 1 : Nat) : Int) * dx) (col + ((k + 1 : Nat) : Int) * dy)
        = .ok true →
      nearestObstacleLoop settings env dx dy dd fuel row col distance =
        .ok (distance + dd * ((k + 1 : Nat) : F)) := by
  intro k
  induction k with
  | zero =>
    intro fuel row col distance hfuel hin _ hlast
    obtain ⟨fuel, rfl⟩ : ∃ f, fuel = f + 1 := ⟨fuel - 1, by omega⟩
    have hin' : row ≥ 0 ∧ row < settings.yTiles ∧ col ≥ 0 ∧ col < settings.xTiles := hin
    have hl : env.isObstacle (row + dx) (col + dy) = .ok true := by
      simpa using hlast
    simp only [nearestObstacleLoop, if_pos hin', hl, bind, Except.bind, pure, Except.pure,
      if_true]
    simp
  | succ k ih =>
    intro fuel row col distance hfuel hin hfree hlast
    obtain ⟨fuel, rfl⟩ : ∃ f, fuel = f + 1 := ⟨fuel - 1, by omega⟩
    have hin' : row ≥ 0 ∧ row < settings.yTiles ∧ col ≥ 0 ∧ col < settings.xTiles := hin
    have h1 : env.isObstacle (row + dx) (col + dy) = .ok false := by
      have := hfree 1 (le_refl _) (by omega)
      simpa using this
    have hnext : 0 ≤ row + dx ∧ row + dx < settings.yTiles ∧ 0 ≤ col + dy ∧
        col + dy < settings.xTiles := by
      rw [GridEnvironment.isObstacle_spec hbuilt.sound] at h1
      have h2 : ¬ ∀ v ∈ env.graph.vertexList,
          cellOf env.graph v ≠ some ⟨row + dx, col + dy⟩ := by
        intro h
        rw [decide_eq_true h] at h1
        cases h1
      push_neg at h2
      obtain ⟨v, hv, hc⟩ := h2
      obtain ⟨c, hc', hg⟩ := hbuilt.inGrid v hv
      rw [hc] at hc'
      cases hc'
      rw [← hx, ← hy]
      exact hg
    simp only [nearestObstacleLoop, if_pos hin', h1, bind, Except.bind, pure, Except.pure,
      Bool.false_eq_true, if_false]
    rw [ih fuel (row + dx) (col + dy) (distance + dd) (by omega) hnext]
    · congr 1
      push_cast
      ring
    · intro j hj1 hj2
      have := hfree (j + 1) (by omega) (by omega)
      have e1 : row + dx + (j : Int) * dx = row + ((j + 1 : Nat) : Int) * dx := by
        push_cast
        ring
      have e2 : col + dy + (j : Int) * dy = col + ((j + 1 : Nat) : Int) * dy := by
        push_cast
        ring
      rw [e1, e2]
      exact this
    · have e1 : row + dx + ((k + 1 : Nat) : Int) * dx
          = row + ((k + 1 + 1 : Nat) : Int) * dx := by
        push_cast
        ring
      have e2 : col + dy + ((k + 1 : Nat) : Int) * dy
          = col + ((k + 1 + 1 : Nat) : Int) * dy := by
        push_cast
        ring
      rw [e1, e2]
      exact hlast

end Engine

/-- C40: for a position whose cell `(row, column)` has a vertex, in an environment built
from the settings, `nearestObstacle` returns with fuel for `k` turns, where `k >= 1` is
the number of cells stepped up to and including the first obstacle, but the cells it
steps through are not those of the direction: for `Top` and `Bottom` it steps the column
down and up and multiplies `k` by the tile height, and for `Left` and `Right` it steps
the row down and up and multiplies `k` by the tile width.  The loop adds `dx` to the row
and `dy` to the column. -/
theorem nearestObstacle_steps_the_other_axis (F : Type) [LinearOrderedField F] [FloorRing F]
    (settings : Settings F) (env : GridEnvironment) (hbuilt : env.Built)
    (hx : env.xTiles = settings.xTiles) (hy : env.yTiles = settings.yTiles)
    (position : Vector2 F) (v : Ptr) (hv : v ∈ env.graph.vertices)
    (hq : env.quantize F position = .ok v) (cell : Grid)
    (hcell : env.graph.vertexElement v = .ok cell) (k fuel : Nat) (hk : 1 ≤ k)
    (hfuel : k ≤ fuel) :
    ((∀ j : Nat, 1 ≤ j → j < k → env.isObstacle cell.row (cell.column - j) = .ok false) →
      env.isObstacle cell.row (cell.column - k) = .ok true →
      Engine.nearestObstacle settings env fuel position .Top =
        .ok (((Int.tdiv settings.height settings.yTiles : Int) : F) * (k : F))) ∧
    ((∀ j : Nat, 1 ≤ j → j < k → env.isObstacle (cell.row + j) cell.column = .ok false) →
      env.isObstacle (cell.row + k) cell.column = .ok true →
      Engine.nearestObstacle settings env fuel position .Right =
        .ok (((Int.tdiv settings.width settings.xTiles : Int) : F) * (k : F))) ∧
    ((∀ j : Nat, 1 ≤ j → j < k → env.isObstacle cell.row (cell.column + j) = .ok false) →
      env.isObstacle cell.row (cell.column + k) = .ok true →
      Engine.nearestObstacle settings env fuel position .Bottom =
        .ok (((Int.tdiv settings.height settings.yTiles : Int) : F) * (k : F))) ∧
    ((∀ j : Nat, 1 ≤ j → j < k → env.isObstacle (cell.row - j) cell.column = .ok false) →
      env.isObstacle (cell.row - k) cell.column = .ok true →
      Engine.nearestObstacle settings env fuel position .Left =
        .ok (((Int.tdiv settings.width settings.xTiles : Int) : F) * (k : F))) := by
  have hs := hbuilt.sound
  obtain ⟨c, hc, hin⟩ := hbuilt.inGrid v hv
  have hcc : c = cell := by
    rw [vertexElement_of_cellOf hc] at hcell
    cases hcell
    rfl
  subst hcc
  rw [hx, hy] at hin
  have hin' : 0 ≤ c.row ∧ c.row < settings.yTiles ∧ 0 ≤ c.column ∧
      c.column < settings.xTiles := ⟨hin.1, hin.2.1, hin.2.2.1, hin.2.2.2⟩
  have hxne : settings.xTiles ≠ 0 := hx ▸ hs.tiles.1
  have hyne : settings.yTiles ≠ 0 := hy ▸ hs.tiles.2
  obtain ⟨k, rfl⟩ : ∃ n, k = n + 1 := ⟨k - 1, by omega⟩
  have key : ∀ (dx dy : Int) (dd : F),
      (∀ j : Nat, 1 ≤ j → j < k + 1 →
        env.isObstacle (c.row + j * dx) (c.column + j * dy) = .ok false) →
      env.isObstacle (c.row + ((k + 1 : Nat) : Int) * dx)
        (c.column + ((k + 1 : Nat) : Int) * dy) = .ok true →
      Engine.nearestObstacleLoop settings env dx dy dd fuel c.row c.column 0 =
        .ok (dd * ((k + 1 : Nat) : F)) := by
    intro dx dy dd h1 h2
    rw [Engine.nearestObstacleLoop_spec settings hbuilt hx hy dx dy dd k fuel c.row c.column 0
      hfuel hin' h1 h2, zero_add]
  refine ⟨?_, ?_, ?_, ?_⟩
  · intro h1 h2
    simp only [Engine.nearestObstacle, Engine.nearestObstacleDeltas, if_neg hyne, hq, hcell,
      bind, Except.bind]
    apply key
    · intro j hj1 hj2
      have := h1 j hj1 hj2
      simpa [sub_eq_add_neg] using this
    · simpa [sub_eq_add_neg] using h2
  · intro h1 h2
    simp only [Engine.nearestObstacle, Engine.nearestObstacleDeltas, if_neg hxne, hq, hcell,
      bind, Except.bind]
    apply key
    · intro j hj1 hj2
      have := h1 j hj1 hj2
      simpa using this
    · simpa using h2
  · intro h1 h2
    simp only [Engine.nearestObstacle, Engine.nearestObstacleDeltas, if_neg hyne, hq, hcell,
      bind, Except.bind]
    apply key
    · intro j hj1 hj2
      have := h1 j hj1 hj2
      simpa using this
    · simpa using h2
  · intro h1 h2
    simp only [Engine.nearestObstacle, Engine.nearestObstacleDeltas, if_neg hxne, hq, hcell,
      bind, Except.bind]
    apply key
    · intro j hj1 hj2
      have := h1 j hj1 hj2
      simpa [sub_eq_add_neg] using this
    · simpa [sub_eq_add_neg] using h2

theorem obstacle3x3_add : environment3x3.addObstacle ⟨0, 1⟩ = .ok obstacle3x3 := rfl

theorem obstacle3x3_built : obstacle3x3.Built :=
  GridEnvironment.Built.addObstacle environment3x3_built obstacle3x3_add

theorem isObstacle_true_iff_no_vertex_witness :
    environment3x3.isObstacle 0 1 = .ok false ∧
    environment3x3.isObstacle 3 1 = .ok true ∧
    ∃ env1, environment3x3.addObstacle ⟨0, 1⟩ = .ok env1 ∧
      env1.isObstacle 0 1 = .ok true ∧
      env1.isObstacle 1 1 = environment3x3.isObstacle 1 1 ∧
      env1.quantize ℚ ⟨300, 80⟩ = .ok nullptr := by
  have h := isObstacle_true_iff_no_vertex ℚ environment3x3 environment3x3_built
  have hfresh := h.2.1 3 3 640 480 environment3x3_new
  obtain ⟨env1, hadd, h1, h2, h3, -⟩ := h.2.2 0 1 (by decide) (by decide) (by decide) (by decide)
  refine ⟨(hfresh 0 1).1 (by decide), (hfresh 3 1).2 (by decide), env1, hadd, h1,
    h2 1 1 (by decide), ?_⟩
  have htw : env1.tileWidth = 213 := by
    rw [obstacle3x3_add] at hadd
    cases hadd
    rfl
  have hth : env1.tileHeight = 160 := by
    rw [obstacle3x3_add] at hadd
    cases hadd
    rfl
  apply h3 ⟨300, 80⟩
  · rw [htw]
    norm_num
  · rw [htw]
    norm_num
  · rw [hth]
    norm_num
  · rw [hth]
    norm_num

theorem obstacle3x3_quantize : obstacle3x3.quantize ℚ ⟨320, 240⟩ = .ok 5 := by
  have hw : ((obstacle3x3.tileWidth : Int) : ℚ) = 213 := by
    have : obstacle3x3.tileWidth = 213 := rfl
    rw [this]
    norm_num
  have hh : ((obstacle3x3.tileHeight : Int) : ℚ) = 160 := by
    have : obstacle3x3.tileHeight = 160 := rfl
    rw [this]
    norm_num
  have c1 : truncate ((320 : ℚ) / 213) = 1 :=
    truncate_of_floor (by norm_num) (by norm_num) (by norm_num)
  have r1 : truncate ((240 : ℚ) / 160) = 1 :=
    truncate_of_floor (by norm_num) (by norm_num) (by norm_num)
  simp only [GridEnvironment.quantize, hw, hh, divide_of_ne _ (by norm_num : (213 : ℚ) ≠ 0),
    divide_of_ne _ (by norm_num : (160 : ℚ) ≠ 0), bind, Except.bind, c1, r1]
  rfl

theorem nearestObstacle_steps_the_other_axis_witness :
    obstacle3x3.quantize ℚ ⟨320, 240⟩ = .ok 5 ∧
    obstacle3x3.graph.vertexElement 5 = .ok ⟨1, 1⟩ ∧
    obstacle3x3.isObstacle 0 1 = .ok true ∧
    Engine.nearestObstacle settings3x3 obstacle3x3 2 ⟨320, 240⟩ .Top = .ok 320 := by
  have h := (nearestObstacle_steps_the_other_axis ℚ settings3x3 obstacle3x3 obstacle3x3_built
    rfl rfl ⟨320, 240⟩ 5 (by decide) obstacle3x3_quantize ⟨1, 1⟩ rfl 2 2 (by decide)
    (le_refl _)).1
    (by
      intro j hj1 hj2
      have hj : j = 1 := by omega
      subst hj
      rfl)
    rfl
  refine ⟨obstacle3x3_quantize, rfl, rfl, ?_⟩
  rw [h]
  have hd : Int.tdiv settings3x3.height settings3x3.yTiles = 160 := by decide
  rw [hd]
  congr 1
  norm_num

/-! ### Parents and children of a built tree -/

namespace Tree

variable {V E : Type}

theorem BuiltWith.built {t : Tree V E} {log : List (Ptr × Ptr)} (h : t.BuiltWith log) :
    t.Built := by
  induction h with
  | addRoot rootData root t hres => exact Built.addRoot rootData root t hres
  | insertNode t log vertexData edgeData parent vertex t1 _ hp hres ih =>
    exact Built.insertNode t vertexData edgeData parent vertex t1 ih hp hres

theorem target_congr {g g' : AdjacencyListGraph V E} {e : Ptr}
    (h : g'.edgeObj e = g.edgeObj e) : g'.target e = g.target e := by
  unfold AdjacencyListGraph.target AdjacencyListGraph.ends
  rw [h]

/-- What the log of the insertions says about the graph of the tree. -/
theorem BuiltWith.log_spec {t : Tree V E} {log : List (Ptr × Ptr)} (h : t.BuiltWith log) :
    t.graph.vertexList = t.root :: log.map Prod.snd ∧
    (∀ q ∈ log, q.1 ∈ t.graph.vertexList) ∧
    (∀ u ∈ t.graph.vertexList,
      (t.graph.out u).map t.graph.target = insertedUnder log u) ∧
    (∀ q ∈ log, ∃ e ∈ t.graph.edgeList, t.graph.ends e = some (q.1, q.2)) := by
  induction h with
  | addRoot rootData root t hres =>
    obtain ⟨t0, h0, hr, hroot, hvl⟩ := rooted_addRoot_new (E := E) rootData
    rw [h0] at hres
    cases hres
    refine ⟨?_, ?_, ?_, ?_⟩
    · rw [hvl, hroot]
      rfl
    · intro q hq
      cases hq
    · intro u hu
      rw [hvl] at hu
      have hu1 : u = 1 := List.mem_singleton.mp hu
      subst hu1
      have ho : t.graph.out 1 = [] := by
        have hc := hr.count
        rw [hvl] at hc
        have hel : t.graph.edgeList = [] := by
          apply List.eq_nil_of_length_eq_zero
          simp only [List.length_singleton] at hc
          omega
        by_contra hne
        obtain ⟨e, he⟩ := List.exists_mem_of_ne_nil _ hne
        have := ((hr.wellFormed.2.2.1 1 (by rw [hvl]; simp)).2.2.2.2.1 e he).1
        rw [hel] at this
        cases this
      rw [ho]
      rfl
    · intro q hq
      cases hq
  | insertNode t log vertexData edgeData parent vertex t1 hb hp hres ih =>
    obtain ⟨hvl, hpar, hch, hed⟩ := ih
    have ht := hb.built.rooted
    obtain ⟨t2, h2, hr2, hroot2, hvl2, hel2, hends2, hobj2, hout2, -, -⟩ :=
      rooted_insertNode ht vertexData edgeData hp
    rw [h2] at hres
    cases hres
    have hfresh : t.graph.fresh ∉ t.graph.vertexList :=
      fun h => Nat.lt_irrefl _ (ht.wellFormed.2.2.2.2.2.1 _ h)
    have hpne : parent ≠ t.graph.fresh := fun h => hfresh (h ▸ hp)
    refine ⟨?_, ?_, ?_, ?_⟩
    · rw [hvl2, hvl, hroot2]
      simp
    · intro q hq
      rw [hvl2]
      rcases List.mem_append.mp hq with hq | hq
      · exact List.mem_append_left _ (hpar q hq)
      · rw [List.mem_singleton.mp hq]
        exact List.mem_append_left _ hp
    · intro u hu
      rw [hvl2] at hu
      rw [hout2 u]
      unfold insertedUnder
      rw [List.filter_append, List.map_append, List.map_append]
      rcases List.mem_append.mp hu with hu | hu
      · have hune : u ≠ t.graph.fresh := fun h => hfresh (h ▸ hu)
        rw [if_neg hune]
        congr 1
        · rw [← insertedUnder, ← hch u hu]
          apply List.map_congr_left
          intro e he
          exact target_congr (hobj2 e ((ht.wellFormed.2.2.1 u hu).2.2.2.2.1 e he).1)
        · by_cases hup : u = parent
          · subst hup
            simp [AdjacencyListGraph.target_of_ends hends2]
          · have : ¬ parent = u := fun h => hup h.symm
            simp [hup, this]
      · have hu1 : u = t.graph.fresh := List.mem_singleton.mp hu
        subst hu1
        have hnone : log.filter (fun q => decide (q.1 = t.graph.fresh)) = [] := by
          apply List.filter_eq_nil_iff.mpr
          intro q hq
          simp only [decide_eq_true_eq]
          intro h
          exact hfresh (h ▸ hpar q hq)
        rw [if_pos rfl, hnone]
        simp [hpne, Ne.symm hpne]
    · intro q hq
      rcases List.mem_append.mp hq with hq | hq
      · obtain ⟨e, he, hee⟩ := hed q hq
        refine ⟨e, ?_, ?_⟩
        · rw [hel2]
          exact List.mem_append_left _ he
        · unfold AdjacencyListGraph.ends
          rw [hobj2 e he]
          exact hee
      · rw [List.mem_singleton.mp hq]
        refine ⟨t.graph.fresh + 1, ?_, hends2⟩
        rw [hel2]
        simp

theorem outDegree_of_mem {g : AdjacencyListGraph V E} (hg : g.WellFormed) {v : Ptr}
    (hv : v ∈ g.vertexList) : g.outDegree v = .ok ((g.out v).length : Int) := by
  have h := (hg.2.2.1 v hv).2.1
  unfold AdjacencyListGraph.outDegree AdjacencyListGraph.vertexAt AdjacencyListGraph.out
  cases hvo : g.vertexObj v with
  | none => simp [hvo] at h
  | some o => rfl

/-- C36: in a tree built by `addRoot` on an empty tree followed by `insertNode` calls
under vertices of the tree, with the log of the calls (the vertex passed as parent and
the vertex returned): the vertices are the root and the inserted vertices; `parent(v)`
of an inserted vertex `v` returns the vertex passed as parent when `v` was inserted; for
every vertex `p`, `children(p)` returns the vertices inserted under `p` in the order of
their insertion, `numChildren(p)` returns the length of that list and `isLeaf(p)`
returns true exactly when the list is empty. -/
theorem parent_and_children_follow_insertions (t : Tree V E) (log : List (Ptr × Ptr))
    (h : t.BuiltWith log) :
    t.graph.vertices = t.getRoot :: log.map Prod.snd ∧
    (∀ q ∈ log, q.2 ≠ t.getRoot ∧ t.parent q.2 = .ok q.1) ∧
    (∀ p ∈ t.graph.vertices,
      t.children p = .ok (insertedUnder log p) ∧
      t.numChildren p = .ok ((insertedUnder log p).length : Int) ∧
      t.isLeaf p = .ok (decide (insertedUnder log p = []))) := by
  obtain ⟨hvl, hpar, hch, hed⟩ := h.log_spec
  have ht := h.built.rooted
  have hg := ht.wellFormed
  refine ⟨hvl, ?_, ?_⟩
  · intro q hq
    obtain ⟨e, he, hends⟩ := hed q hq
    obtain ⟨a, _, b, hb, hab, -, hinc⟩ := hg.2.2.2.1 e he
    rw [hends] at hab
    cases hab
    have hne : q.2 ≠ t.root := by
      intro h
      rw [h, ht.root_inc] at hinc
      cases hinc
    obtain ⟨e', he'⟩ := ht.inc_one q.2 hb hne
    rw [he'] at hinc
    have hee : e = e' := List.mem_singleton.mp hinc
    subst hee
    refine ⟨hne, ?_⟩
    unfold parent
    rw [AdjacencyListGraph.incomingEdges_of_mem hg hb, he']
    exact AdjacencyListGraph.opposite_of_ends_snd hends
  · intro p hp
    have hlen : (t.graph.out p).length = (insertedUnder log p).length := by
      rw [← hch p hp, List.length_map]
    refine ⟨?_, ?_, ?_⟩
    · rw [children_eq hg hp, hch p hp]
    · unfold numChildren
      rw [outDegree_of_mem hg hp, hlen]
    · unfold isLeaf numChildren
      rw [outDegree_of_mem hg hp, hlen]
      simp only [Except.map]
      congr 1
      apply decide_eq_decide.mpr
      constructor
      · intro h0
        apply List.eq_nil_of_length_eq_zero
        exact_mod_cast h0
      · intro h0
        rw [h0]
        rfl

end Tree

theorem sampleTree_builtWith : sampleTree.BuiltWith [(1, 2), (1, 4), (2, 6)] := by
  have b0 : (treeOf ((Tree.new : Tree Nat Bool).addRoot 10 |>.map Prod.snd)).BuiltWith [] :=
    Tree.BuiltWith.addRoot 10 1 _ rfl
  have b1 := Tree.BuiltWith.insertNode _ _ 20 true 1 2 _ b0 (by decide) rfl
  have b2 := Tree.BuiltWith.insertNode _ _ 30 false 1 4 _ b1 (by decide) rfl
  exact Tree.BuiltWith.insertNode _ _ 40 true 2 6 _ b2 (by decide) rfl

theorem parent_and_children_follow_insertions_witness :
    sampleTree.BuiltWith [(1, 2), (1, 4), (2, 6)] ∧
    sampleTree.parent 6 = .ok 2 ∧
    sampleTree.children 1 = .ok [2, 4] ∧
    sampleTree.numChildren 1 = .ok 2 ∧
    sampleTree.isLeaf 1 = .ok false ∧
    sampleTree.isLeaf 6 = .ok true := by
  have h := Tree.parent_and_children_follow_insertions sampleTree _ sampleTree_builtWith
  refine ⟨sampleTree_builtWith, (h.2.1 (2, 6) (by decide)).2, ?_, ?_, ?_, ?_⟩
  · exact (h.2.2 1 (by decide)).1
  · exact (h.2.2 1 (by decide)).2.1
  · exact (h.2.2 1 (by decide)).2.2
  · exact (h.2.2 6 (by decide)).2.2

/-! ### The range of an orientation -/

theorem fmodExact_spec {F : Type} [LinearOrderedField F] [FloorRing F] (a : F) :
    |fmodExact a 360| < 360 ∧ ∃ k : Int, fmodExact a 360 = a - 360 * (k : F) := by
  refine ⟨?_, truncate (a / 360), rfl⟩
  unfold fmodExact truncate
  have ha : a = 360 * (a / 360) := by
    field_simp
  by_cases h0 : 0 ≤ a / 360
  · rw [if_pos h0]
    have h1 := Int.floor_le (a / 360)
    have h2 := Int.lt_floor_add_one (a / 360)
    rw [abs_lt]
    constructor <;> nlinarith
  · rw [if_neg h0]
    have h1 := Int.le_ceil (a / 360)
    have h2 := Int.ceil_lt_add_one (a / 360)
    rw [abs_lt]
    constructor <;> nlinarith

/-- C37: when `fmod(o, 360)` is what is left of `o` after a multiple of `360` is taken
away and is less than `360` in absolute value, `mapOrientationToRange(o)` lies in
`[-180, 180]`, differs from `o` by an integer multiple of `360`, and has the smallest
absolute value among the angles that differ from `o` by an integer multiple of `360`. -/
theorem mapOrientationToRange_is_nearest_equivalent {F : Type} [LinearOrderedField F]
    (fmod : F → F → F) (o : F)
    (hfmod : |fmod o 360| < 360 ∧ ∃ k : Int, fmod o 360 = o - 360 * (k : F)) :
    -180 ≤ Vmath.mapOrientationToRange fmod o ∧
    Vmath.mapOrientationToRange fmod o ≤ 180 ∧
    (∃ k : Int, Vmath.mapOrientationToRange fmod o = o - 360 * (k : F)) ∧
    (∀ m : Int, |Vmath.mapOrientationToRange fmod o| ≤ |o + 360 * (m : F)|) := by
  obtain ⟨hlt, k, hk⟩ := hfmod
  have hrange : -180 ≤ Vmath.mapOrientationToRange fmod o ∧
      Vmath.mapOrientationToRange fmod o ≤ 180 ∧
      ∃ k : Int, Vmath.mapOrientationToRange fmod o = o - 360 * (k : F) := by
    unfold Vmath.mapOrientationToRange
    simp only
    have hb := abs_lt.mp hlt
    by_cases h1 : |fmod o 360| ≤ 180
    · rw [if_pos h1]
      have := abs_le.mp h1
      exact ⟨this.1, this.2, k, hk⟩
    · rw [if_neg h1]
      by_cases h2 : fmod o 360 > 180
      · rw [if_pos h2]
        refine ⟨by linarith, by linarith, k + 1, ?_⟩
        rw [hk]
        push_cast
        ring
      · rw [if_neg h2]
        have h3 : fmod o 360 < -180 := by
          by_contra h
          push_neg at h h2
          exact h1 (abs_le.mpr ⟨h, h2⟩)
        refine ⟨by linarith, by linarith, k - 1, ?_⟩
        rw [hk]
        push_cast
        ring
  obtain ⟨hlo, hhi, k', hk'⟩ := hrange
  refine ⟨hlo, hhi, ⟨k', hk'⟩, ?_⟩
  intro m
  have hr : |Vmath.mapOrientationToRange fmod o| ≤ 180 := abs_le.mpr ⟨hlo, hhi⟩
  have ho : o + 360 * (m : F) =
      Vmath.mapOrientationToRange fmod o + 360 * ((k' + m : Int) : F) := by
    rw [hk']
    push_cast
    ring
  rw [ho]
  by_cases hn : k' + m = 0
  · rw [hn]
    simp
  · have h1 : (1 : F) ≤ |((k' + m : Int) : F)| := by
      have : (1 : Int) ≤ |k' + m| := Int.one_le_abs hn
      exact_mod_cast this
    have h2 : |360 * ((k' + m : Int) : F)| = 360 * |((k' + m : Int) : F)| := by
      rw [abs_mul, abs_of_pos (by norm_num : (0 : F) < 360)]
    have h3 := abs_sub_abs_le_abs_sub (360 * ((k' + m : Int) : F))
      (-(Vmath.mapOrientationToRange fmod o))
    rw [abs_neg, sub_neg_eq_add, add_comm (360 * ((k' + m : Int) : F)), h2] at h3
    linarith

theorem mapOrientationToRange_is_nearest_equivalent_witness :
    Vmath.mapOrientationToRange fmodExact (270 : ℚ) = -90 ∧
    (∀ m : Int, |Vmath.mapOrientationToRange fmodExact (270 : ℚ)| ≤ |270 + 360 * (m : ℚ)|) := by
  have h := mapOrientationToRange_is_nearest_equivalent fmodExact (270 : ℚ)
    (fmodExact_spec 270)
  refine ⟨?_, h.2.2.2⟩
  have ht : truncate ((270 : ℚ) / 360) = 0 :=
    truncate_of_floor (by norm_num) (by norm_num) (by norm_num)
  have hf : fmodExact (270 : ℚ) 360 = 270 := by
    unfold fmodExact
    rw [ht]
    norm_num
  simp only [Vmath.mapOrientationToRange, hf]
  norm_num

/-! ### The caps of `Entity::update` -/

namespace Entity

variable {F σ : Type} [LinearOrderedField F]

theorem scale_ok (sqrt : F → F) (v : Vector2 F) {m : F} (hm : 0 ≤ m)
    (h : Vmath.length sqrt v > m) : ∃ w, Vmath.scale sqrt v m = .ok w := by
  have hne : Vmath.length sqrt v ≠ 0 := ne_of_gt (lt_of_le_of_lt hm h)
  refine ⟨(⟨v.x / Vmath.length sqrt v, v.y / Vmath.length sqrt v⟩ : Vector2 F).mul m, ?_⟩
  simp only [Vmath.scale, Vmath.normalize, Vector2.div_of_ne _ hne, bind, Except.bind, pure,
    Except.pure]

theorem updateVelocities_spec (sqrt : F → F) (rotate : F → F → F) (settings : Settings F)
    (self : Entity F σ) (seconds : F) (hv : 0 ≤ settings.maxLinearVelocity) :
    ∃ moved, updateVelocities sqrt rotate settings self seconds = .ok moved ∧
      moved.angularVelocity =
        min (self.angularVelocity + self.angularAcceleration * seconds)
          settings.maxAngularVelocity := by
  have hmin : ∀ a m : F, (if a > m then m else a) = min a m := by
    intro a m
    by_cases h : a > m
    · rw [if_pos h, min_eq_right (le_of_lt h)]
    · rw [if_neg h, min_eq_left (not_lt.mp h)]
  unfold updateVelocities
  by_cases hl : Vmath.length sqrt
      (self.linearVelocity.add (self.linearAcceleration.mul seconds)) >
        settings.maxLinearVelocity
  · obtain ⟨w, hw⟩ := scale_ok sqrt _ hv hl
    simp only [if_pos hl, hw, bind, Except.bind, pure, Except.pure]
    refine ⟨_, rfl, ?_⟩
    rw [← hmin]
    split <;> rfl
  · simp only [if_neg hl, bind, Except.bind, pure, Except.pure]
    refine ⟨_, rfl, ?_⟩
    rw [← hmin]
    split <;> rfl

theorem nextAccelerations_angularVelocity (self : Entity F σ) (state : σ) :
    (self.nextAccelerations state).1.angularVelocity = self.angularVelocity := rfl

/-- C35: with maxima of the linear velocity and acceleration that are not negative,
`Entity::update` returns; the angular velocity it leaves is the smaller one of
`angularVelocity + angularAcceleration * seconds` and `maxAngularVelocity`, and the
angular acceleration it leaves is the smaller one of the blended output of the behaviors
and `maxAngularAcceleration`.  A value below the negated maximum is therefore left as it
is and its magnitude exceeds the maximum: the two angular caps compare the signed value,
where the two linear caps compare the length. -/
theorem update_caps_angular_values_from_above_only (sqrt : F → F) (rotate : F → F → F)
    (settings : Settings F) (self : Entity F σ) (state : σ) (seconds : F)
    (hv : 0 ≤ settings.maxLinearVelocity) (ha : 0 ≤ settings.maxLinearAcceleration) :
    ∃ moved result,
      updateVelocities sqrt rotate settings self seconds = .ok moved ∧
      update sqrt rotate settings self state seconds = .ok result ∧
      result.1.angularVelocity =
        min (self.angularVelocity + self.angularAcceleration * seconds)
          settings.maxAngularVelocity ∧
      result.1.angularAcceleration =
        min (moved.nextAccelerations state).1.angularAcceleration
          settings.maxAngularAcceleration ∧
      (0 ≤ settings.maxAngularVelocity →
        self.angularVelocity + self.angularAcceleration * seconds <
          -settings.maxAngularVelocity →
        settings.maxAngularVelocity < |result.1.angularVelocity|) ∧
      (0 ≤ settings.maxAngularAcceleration →
        (moved.nextAccelerations state).1.angularAcceleration <
          -settings.maxAngularAcceleration →
        settings.maxAngularAcceleration < |result.1.angularAcceleration|) := by
  have hmin : ∀ a m : F, (if a > m then m else a) = min a m := by
    intro a m
    by_cases h : a > m
    · rw [if_pos h, min_eq_right (le_of_lt h)]
    · rw [if_neg h, min_eq_left (not_lt.mp h)]
  have hbelow : ∀ a m : F, 0 ≤ m → a < -m → m < |min a m| := by
    intro a m hm ham
    rw [min_eq_left (by linarith), abs_of_neg (by linarith)]
    linarith
  obtain ⟨moved, hmoved, hω⟩ := updateVelocities_spec sqrt rotate settings self seconds hv
  have hres : ∃ result, update sqrt rotate settings self state seconds = .ok result ∧
      result.1.angularVelocity = moved.angularVelocity ∧
      result.1.angularAcceleration =
        min (moved.nextAccelerations state).1.angularAcceleration
          settings.maxAngularAcceleration := by
    unfold update
    simp only [hmoved, bind, Except.bind]
    by_cases hl : Vmath.length sqrt (moved.nextAccelerations state).1.linearAcceleration >
        settings.maxLinearAcceleration
    · obtain ⟨w, hw⟩ := scale_ok sqrt _ ha hl
      simp only [if_pos hl, hw, pure, Except.pure]
      refine ⟨_, rfl, ?_, ?_⟩
      · split <;> rfl
      · rw [← hmin]
        split <;> rfl
    · simp only [if_neg hl, pure, Except.pure]
      refine ⟨_, rfl, ?_, ?_⟩
      · split <;> rfl
      · rw [← hmin]
        split <;> rfl
  obtain ⟨result, hresult, h1, h2⟩ := hres
  refine ⟨moved, result, hmoved, hresult, by rw [h1, hω], h2, ?_, ?_⟩
  · intro hm hlt
    rw [h1, hω]
    exact hbelow _ _ hm hlt
  · intro hm hlt
    rw [h2]
    exact hbelow _ _ hm hlt

end Entity

theorem update_caps_angular_values_from_above_only_witness :
    ∃ result,
      Entity.update Real.sqrt (fun rotation angle => rotation + angle)
        ({ maxLinearVelocity := 200, maxAngularVelocity := 90, maxLinearAcceleration := 100,
           maxAngularAcceleration := 45, width := 640, height := 480, xTiles := 3,
           yTiles := 3 } : Settings ℝ)
        ({ linearAcceleration := ⟨0, 0⟩, angularAcceleration := -10,
           linearVelocity := ⟨0, 0⟩, angularVelocity := -80, position := ⟨0, 0⟩,
           rotation := 0, behaviors := [] } : Entity ℝ Unit) () 2 = .ok result ∧
      result.1.angularVelocity = -100 ∧ (90 : ℝ) < |result.1.angularVelocity| := by
  obtain ⟨moved, result, -, hres, hω, -, hbig, -⟩ :=
    Entity.update_caps_angular_values_from_above_only Real.sqrt
      (fun rotation angle => rotation + angle)
      ({ maxLinearVelocity := 200, maxAngularVelocity := 90, maxLinearAcceleration := 100,
         maxAngularAcceleration := 45, width := 640, height := 480, xTiles := 3,
         yTiles := 3 } : Settings ℝ)
      ({ linearAcceleration := ⟨0, 0⟩, angularAcceleration := -10,
         linearVelocity := ⟨0, 0⟩, angularVelocity := -80, position := ⟨0, 0⟩,
         rotation := 0, behaviors := [] } : Entity ℝ Unit) () 2
      (by norm_num) (by norm_num)
  refine ⟨result, hres, ?_, hbig (by norm_num) (by norm_num)⟩
  rw [hω]
  norm_num

/-! ### The targets of `PathfindToMultiplePosition` -/

namespace PathfindToMultiplePosition

variable {F : Type} [LinearOrderedField F]

/-- An evaluation that computes a path: the goal is the position after the current one,
cyclically, and the scan of the new path starts at index `0`. -/
theorem behavior_of_computes (sqrt : F → F) (floatMax : F) (env : GridEnvironment)
    (pathfind : Vector2 F → Vector2 F → Except Fault (List Ptr))
    (find : Params F → Except Fault (Accelerations F)) (targetPositions : List (Vector2 F))
    (hn : 1 ≤ targetPositions.length) (self : PathfindToMultiplePosition F)
    (character : Target F) (hc : self.computes = true) :
    ∃ goal, targetPositions.get? ((self.positionIndex + 1) % targetPositions.length)
        = some goal ∧
      behavior sqrt floatMax env pathfind find targetPositions self character =
        (pathfind character.position goal).bind fun path =>
        (followPath sqrt floatMax env find path 0 self.predictTime character).map
          fun result =>
            (result.1,
              { positionIndex := (self.positionIndex + 1) % targetPositions.length,
                path := path, currentIndex := result.2, calculatedPath := true,
                predictTime := self.predictTime }) := by
  have hlt : (self.positionIndex + 1) % targetPositions.length < targetPositions.length :=
    Nat.mod_lt _ hn
  obtain ⟨goal, hgoal⟩ : ∃ goal,
      targetPositions.get? ((self.positionIndex + 1) % targetPositions.length) = some goal :=
    ⟨_, List.get?_eq_get hlt⟩
  refine ⟨goal, hgoal, ?_⟩
  have hc' : (!self.calculatedPath || self.currentIndex + 1 == self.path.length) = true := hc
  have hne : ¬ targetPositions.length = 0 := by omega
  unfold behavior
  simp only [hc', if_true, if_neg hne, vectorAt, hgoal, bind, Except.bind, pure, Except.pure]
  cases hp : pathfind character.position goal with
  | error f => rfl
  | ok path =>
    simp only
    cases hf : followPath sqrt floatMax env find path 0 self.predictTime character with
    | error f => rfl
    | ok result => rfl

/-- An evaluation that computes no path follows the cached one from the current index. -/
theorem behavior_of_follows (sqrt : F → F) (floatMax : F) (env : GridEnvironment)
    (pathfind : Vector2 F → Vector2 F → Except Fault (List Ptr))
    (find : Params F → Except Fault (Accelerations F)) (targetPositions : List (Vector2 F))
    (self : PathfindToMultiplePosition F) (character : Target F)
    (hc : self.computes = false) :
    behavior sqrt floatMax env pathfind find targetPositions self character =
      (followPath sqrt floatMax env find self.path self.currentIndex self.predictTime
        character).map fun result => (result.1, { self with currentIndex := result.2 }) := by
  have hc' : (!self.calculatedPath || self.currentIndex + 1 == self.path.length) = false := hc
  unfold behavior
  simp only [hc', Bool.false_eq_true, if_false, bind, Except.bind, pure, Except.pure]
  cases hf : followPath sqrt floatMax env find self.path self.currentIndex self.predictTime
      character with
  | error f => rfl
  | ok result => rfl

theorem Ran.index_spec {sqrt : F → F} {floatMax : F} {env : GridEnvironment}
    {pathfind : Vector2 F → Vector2 F → Except Fault (List Ptr)}
    {find : Params F → Except Fault (Accelerations F)} {targetPositions : List (Vector2 F)}
    (hn : 1 ≤ targetPositions.length) {self : PathfindToMultiplePosition F} {k : Nat}
    {clean : Bool} (h : Ran sqrt floatMax env pathfind find targetPositions self k clean) :
    self.positionIndex = k % targetPositions.length ∧ self.calculatedPath = !clean := by
  induction h with
  | new predictTime => exact ⟨(Nat.zero_mod _).symm, rfl⟩
  | reset _ ih => exact ⟨ih.1, rfl⟩
  | @follow self k clean character result _ hc hres ih =>
    rw [behavior_of_follows _ _ _ _ _ _ _ _ hc] at hres
    cases hf : followPath sqrt floatMax env find self.path self.currentIndex self.predictTime
        character with
    | error f =>
      rw [hf] at hres
      cases hres
    | ok r =>
      rw [hf] at hres
      cases hres
      exact ih
  | @compute self k clean character result _ hc hres ih =>
    obtain ⟨goal, -, hb⟩ := behavior_of_computes sqrt floatMax env pathfind find
      targetPositions hn self character hc
    rw [hb] at hres
    cases hp : pathfind character.position goal with
    | error f =>
      rw [hp] at hres
      cases hres
    | ok path =>
      rw [hp] at hres
      simp only [Except.bind] at hres
      cases hf : followPath sqrt floatMax env find path 0 self.predictTime character with
      | error f =>
        rw [hf] at hres
        cases hres
      | ok r =>
        rw [hf] at hres
        cases hres
        refine ⟨?_, rfl⟩
        show (self.positionIndex + 1) % targetPositions.length =
          (k + 1) % targetPositions.length
        rw [ih.1, Nat.mod_add_mod]

theorem cycle_perm (n k : Nat) :
    ((List.range n).map (fun j => (k + j) % n)).Perm (List.range n) := by
  rcases Nat.eq_zero_or_pos n with rfl | hn
  · simp
  apply List.Subperm.perm_of_length_le
  · apply List.subperm_of_subset
    · apply List.Nodup.map_on _ (List.nodup_range n)
      intro a ha b hb hab
      have ha' := List.mem_range.mp ha
      have hb' := List.mem_range.mp hb
      have h1 : a ≡ b [MOD n] := Nat.ModEq.add_left_cancel' k hab
      have h2 : a % n = b % n := h1
      rwa [Nat.mod_eq_of_lt ha', Nat.mod_eq_of_lt hb'] at h2
    · intro x hx
      obtain ⟨j, -, rfl⟩ := List.mem_map.mp hx
      exact List.mem_range.mpr (Nat.mod_lt _ hn)
  · simp

/-- C38: for a list of `n >= 1` target positions and a state that evaluations of the
behavior function and calls of `reset` reach from the constructor with `k` path
computations so far: the position index is `k mod n`; the next evaluation computes a
path exactly when no path has been computed since the construction or the last `reset`,
or the current index is the last index of the cached path; when it computes, the goal
handed to `pathfind` is the position of index `(k + 1) mod n`, the position index becomes
that index and the scan of the new path starts at index `0`; when it does not, it follows
the cached path from the current index and keeps the position index; and the indices of
the `n` computations after the `k`-th are the indices `0` to `n - 1`, each once. -/
theorem computations_cycle_through_targets (sqrt : F → F) (floatMax : F)
    (env : GridEnvironment) (pathfind : Vector2 F → Vector2 F → Except Fault (List Ptr))
    (find : Params F → Except Fault (Accelerations F)) (targetPositions : List (Vector2 F))
    (hn : 1 ≤ targetPositions.length) (self : PathfindToMultiplePosition F) (k : Nat)
    (clean : Bool) (hran : Ran sqrt floatMax env pathfind find targetPositions self k clean)
    (character : Target F) :
    self.positionIndex = k % targetPositions.length ∧
    (self.computes = true ↔
      (clean = true ∨ self.currentIndex + 1 = self.path.length)) ∧
    (self.computes = true →
      ∃ goal, targetPositions.get? ((k + 1) % targetPositions.length) = some goal ∧
        behavior sqrt floatMax env pathfind find targetPositions self character =
          (pathfind character.position goal).bind fun path =>
          (followPath sqrt floatMax env find path 0 self.predictTime character).map
            fun result =>
              (result.1,
                { positionIndex := (k + 1) % targetPositions.length,
                  path := path, currentIndex := result.2, calculatedPath := true,
                  predictTime := self.predictTime })) ∧
    (self.computes = false →
      behavior sqrt floatMax env pathfind find targetPositions self character =
        (followPath sqrt floatMax env find self.path self.currentIndex self.predictTime
          character).map fun result => (result.1, { self with currentIndex := result.2 })) ∧
    ((List.range targetPositions.length).map
      (fun j => (k + 1 + j) % targetPositions.length)).Perm
        (List.range targetPositions.length) := by
  obtain ⟨hpi, hcp⟩ := hran.index_spec hn
  have hidx : (self.positionIndex + 1) % targetPositions.length =
      (k + 1) % targetPositions.length := by
    rw [hpi, Nat.mod_add_mod]
  refine ⟨hpi, ?_, ?_, ?_, cycle_perm _ _⟩
  · unfold computes
    rw [hcp]
    cases clean <;> simp
  · intro hc
    obtain ⟨goal, hgoal, hb⟩ := behavior_of_computes sqrt floatMax env pathfind find
      targetPositions hn self character hc
    rw [hidx] at hgoal hb
    exact ⟨goal, hgoal, hb⟩
  · intro hc
    exact behavior_of_follows sqrt floatMax env pathfind find targetPositions self character hc

end PathfindToMultiplePosition

theorem computations_cycle_through_targets_witness :
    (PathfindToMultiplePosition.new (0 : ℝ)).computes = true ∧
    ∃ goal, ([⟨530, 80⟩, ⟨100, 80⟩] : List (Vector2 ℝ)).get? ((0 + 1) % 2) = some goal ∧
      PathfindToMultiplePosition.behavior Real.sqrt 340282346638528859811704183484516925440
          environment3x3
          (Engine.pathfind sortedHeap 10 environment3x3
            (gridHeuristic environment3x3.graph ManhattanHeuristic.estimate))
          (Seek.find Real.sqrt { maxVelocity := 4, timeToTargetVelocity := 2 })
          [⟨530, 80⟩, ⟨100, 80⟩] (PathfindToMultiplePosition.new 0) (targetAt ⟨100, 80⟩ 0) =
        (Engine.pathfind sortedHeap 10 environment3x3
            (gridHeuristic environment3x3.graph ManhattanHeuristic.estimate)
            (targetAt (⟨100, 80⟩ : Vector2 ℝ) 0).position goal).bind fun path =>
          (followPath Real.sqrt 340282346638528859811704183484516925440 environment3x3
            (Seek.find Real.sqrt { maxVelocity := 4, timeToTargetVelocity := 2 }) path 0
            (PathfindToMultiplePosition.new (0 : ℝ)).predictTime (targetAt ⟨100, 80⟩ 0)).map
            fun result =>
              (result.1,
                { positionIndex := (0 + 1) % 2, path := path, currentIndex := result.2,
                  calculatedPath := true,
                  predictTime := (PathfindToMultiplePosition.new (0 : ℝ)).predictTime }) :=
  ⟨rfl,
    (PathfindToMultiplePosition.computations_cycle_through_targets Real.sqrt
      340282346638528859811704183484516925440 environment3x3
      (Engine.pathfind sortedHeap 10 environment3x3
        (gridHeuristic environment3x3.graph ManhattanHeuristic.estimate))
      (Seek.find Real.sqrt { maxVelocity := 4, timeToTargetVelocity := 2 })
      [⟨530, 80⟩, ⟨100, 80⟩] (by decide) (PathfindToMultiplePosition.new 0) 0 true
      (PathfindToMultiplePosition.Ran.new 0) (targetAt ⟨100, 80⟩ 0)).2.2.1 rfl⟩

/-! ### Expansion counts of the two searches -/

namespace Algorithm

variable {V : Type}

/-- The counting loop of `dijkstras` is the loop of `dijkstras`, and its counter grows
with the closed list: every turn that expands a vertex appends one record. -/
theorem dijkstrasLoopCount_spec (H : HeapOps) (graph : AdjacencyListGraph V Int) (t : Ptr) :
    ∀ (fuel : Nat) (o c : List VertexRecord) (current : VertexRecord) (n : Nat),
      (dijkstrasLoopCount H graph t fuel o c current n).map (fun r => (r.1, r.2.1)) =
        dijkstrasLoop H graph t fuel o c current ∧
      ∀ r, dijkstrasLoopCount H graph t fuel o c current n = .ok r →
        r.2.2 + c.length = n + r.2.1.length := by
  intro fuel
  induction fuel with
  | zero =>
    intro o c current n
    refine ⟨rfl, ?_⟩
    intro r h
    simp [dijkstrasLoopCount] at h
  | succ fuel ih =>
    intro o c current n
    simp only [dijkstrasLoop, dijkstrasLoopCount]
    by_cases hlen : o.length > 0
    · simp only [hlen, if_true]
      cases hlast : (H.pop_heap o).getLast? with
      | none =>
        refine ⟨rfl, ?_⟩
        intro r h
        cases h
      | some back =>
        simp only
        by_cases hbt : back.vertex = t
        · simp only [hbt, if_true]
          refine ⟨rfl, ?_⟩
          intro r h
          cases h
          simp
        · simp only [hbt, if_false, bind, Except.bind]
          cases hedges : graph.outgoingEdges back.vertex with
          | error f =>
            refine ⟨rfl, ?_⟩
            intro r h
            cases h
          | ok edges =>
            simp only
            cases hfold : edges.foldlM (dijkstrasEdge graph back c) (H.pop_heap o).dropLast with
            | error f =>
              refine ⟨rfl, ?_⟩
              intro r h
              cases h
            | ok o' =>
              simp only
              obtain ⟨h1, h2⟩ := ih (H.make_heap o') (c ++ [back]) back (n + 1)
              refine ⟨h1, ?_⟩
              intro r h
              have := h2 r h
              rw [List.length_append, List.length_singleton] at this
              omega
    · simp only [hlen, if_false]
      refine ⟨rfl, ?_⟩
      intro r h
      cases h
      simp

theorem eraseFound_length_le (l : AdaptableSearchableVector) (item : Ptr) :
    (l.eraseFound item).length ≤ l.length := by
  unfold AdaptableSearchableVector.eraseFound
  rw [List.length_eraseP]
  split <;> omega

theorem astarEdge_closed_length (graph : AdjacencyListGraph V Int) (t : Ptr)
    (heuristic : Heuristic) (m : VertexRecord) (lists lists' : List VertexRecord × List VertexRecord)
    (e : Ptr) (h : astarEdge graph t heuristic m lists e = .ok lists') :
    lists'.2.length ≤ lists.2.length := by
  obtain ⟨o, c⟩ := lists
  unfold astarEdge at h
  simp only [bind, Except.bind] at h
  cases hopp : graph.opposite m.vertex e with
  | error f => simp [hopp] at h
  | ok w =>
    cases hel : graph.edgeElement e with
    | error f => simp [hopp, hel] at h
    | ok x =>
      simp only [hopp, hel] at h
      cases hc : AdaptableSearchableVector.find c w with
      | some record =>
        simp only [hc] at h
        by_cases hle : record.costSoFar ≤ m.costSoFar + x
        · simp only [hle, if_true, pure, Except.pure] at h
          cases h
          exact le_refl _
        · simp only [hle, if_false, pure, Except.pure] at h
          cases h
          exact eraseFound_length_le c w
      | none =>
        simp only [hc] at h
        cases ho : AdaptableSearchableVector.find o w with
        | some record =>
          simp only [ho] at h
          by_cases hle : record.costSoFar ≤ m.costSoFar + x
          · simp only [hle, if_true, pure, Except.pure] at h
            cases h
            exact le_refl _
          · simp only [hle, if_false, pure, Except.pure] at h
            cases h
            exact le_refl _
        | none =>
          simp only [ho, pure, Except.pure] at h
          cases h
          exact le_refl _

theorem astarEdges_closed_length (graph : AdjacencyListGraph V Int) (t : Ptr)
    (heuristic : Heuristic) (m : VertexRecord) :
    ∀ (edges : List Ptr) (lists lists' : List VertexRecord × List VertexRecord),
      edges.foldlM (astarEdge graph t heuristic m) lists = .ok lists' →
      lists'.2.length ≤ lists.2.length := by
  intro edges
  induction edges with
  | nil =>
    intro lists lists' h
    simp only [List.foldlM, pure, Except.pure] at h
    cases h
    exact le_refl _
  | cons e rest ih =>
    intro lists lists' h
    simp only [List.foldlM, bind, Except.bind] at h
    cases h1 : astarEdge graph t heuristic m lists e with
    | error f => simp [h1] at h
    | ok mid =>
      simp only [h1] at h
      exact le_trans (ih mid lists' h) (astarEdge_closed_length graph t heuristic m _ _ e h1)

/-- The counting loop of `astar` is the loop of `astar`, and its counter grows at least
as much as the closed list: every turn that expands a vertex appends one record, and
the loop over the edges only removes records. -/
theorem astarLoopCount_spec (H : HeapOps) (graph : AdjacencyListGraph V Int) (t : Ptr)
    (heuristic : Heuristic) :
    ∀ (fuel : Nat) (o c : List VertexRecord) (current : VertexRecord) (n : Nat),
      (astarLoopCount H graph t heuristic fuel o c current n).map (fun r => (r.1, r.2.1)) =
        astarLoop H graph t heuristic fuel o c current ∧
      ∀ r, astarLoopCount H graph t heuristic fuel o c current n = .ok r →
        n + r.2.1.length ≤ r.2.2 + c.length := by
  intro fuel
  induction fuel with
  | zero =>
    intro o c current n
    refine ⟨rfl, ?_⟩
    intro r h
    simp [astarLoopCount] at h
  | succ fuel ih =>
    intro o c current n
    simp only [astarLoop, astarLoopCount]
    by_cases hlen : o.length > 0
    · simp only [hlen, if_true]
      cases hlast : (H.pop_heap o).getLast? with
      | none =>
        refine ⟨rfl, ?_⟩
        intro r h
        cases h
      | some back =>
        simp only
        by_cases hbt : back.vertex = t
        · simp only [hbt, if_true]
          refine ⟨rfl, ?_⟩
          intro r h
          cases h
          simp
        · simp only [hbt, if_false, bind, Except.bind]
          cases hedges : graph.outgoingEdges back.vertex with
          | error f =>
            refine ⟨rfl, ?_⟩
            intro r h
            cases h
          | ok edges =>
            simp only
            cases hfold : edges.foldlM (astarEdge graph t heuristic back)
                ((H.pop_heap o).dropLast, c) with
            | error f =>
              refine ⟨rfl, ?_⟩
              intro r h
              cases h
            | ok lists =>
              simp only
              obtain ⟨h1, h2⟩ := ih (H.make_heap lists.1) (lists.2 ++ [back]) back (n + 1)
              refine ⟨h1, ?_⟩
              intro r h
              have := h2 r h
              have hle := astarEdges_closed_length graph t heuristic back edges _ _ hfold
              rw [List.length_append, List.length_singleton] at this
              simp only at hle
              omega
    · simp only [hlen, if_false]
      refine ⟨rfl, ?_⟩
      intro r h
      cases h
      simp

end Algorithm

namespace Algorithm

theorem closesExactly_ok {goal : Ptr} {k : Nat}
    {r : Except Fault (VertexRecord × AdaptableSearchableVector)}
    (h : closesExactly goal k r = true) :
    ∃ current closedList, r = .ok (current, closedList) ∧ current.vertex = goal ∧
      closedList.length = k := by
  cases r with
  | error f => simp [closesExactly] at h
  | ok p =>
    obtain ⟨current, closedList⟩ := p
    simp only [closesExactly, Bool.and_eq_true, beq_iff_eq] at h
    exact ⟨current, closedList, rfl, h.1, h.2⟩

set_option maxRecDepth 1000000 in
theorem dijkstrasLoopAll_sidetrack :
    (dijkstrasLoopAll sidetrackGraph 4 5 [⟨1, nullptr, 0, 0⟩] []
      VertexRecord.uninitialised).all (closesExactly 4 3) = true := by
  decide!

set_option maxRecDepth 1000000 in
theorem astarLoopAll_sidetrack :
    (astarLoopAll sidetrackGraph 4 sidetrackHeuristic 5
      [⟨1, nullptr, sidetrackHeuristic 1 4, 0⟩] []
      VertexRecord.uninitialised).all (closesExactly 4 4) = true := by
  decide!

theorem sidetrack_pathWeight_nonneg {v t : Ptr} {path : List Ptr}
    (hv : v ∈ sidetrackGraph.vertices) (h : sidetrackGraph.IsWalk v path t) :
    0 ≤ sidetrackGraph.pathWeight path := by
  have hwf : sidetrackGraph.WellFormed := by decide
  have hnn : ∀ e ∈ sidetrackGraph.edges, 0 ≤ sidetrackGraph.weight e := by decide
  have hedges := AdjacencyListGraph.WellFormed.walk_edges hwf path v t hv h
  unfold AdjacencyListGraph.pathWeight
  apply List.sum_nonneg
  intro x hx
  obtain ⟨e, he, rfl⟩ := List.mem_map.mp hx
  exact hnn e (hedges e he)

theorem sidetrack_admissible (v : Ptr) (hv : v ∈ sidetrackGraph.vertices) (path : List Ptr)
    (h : sidetrackGraph.IsWalk v path 4) :
    sidetrackHeuristic v 4 ≤ sidetrackGraph.pathWeight path := by
  by_cases h3 : v = 3
  · subst h3
    cases path with
    | nil =>
      have : (3 : Ptr) = 4 := h
      exact absurd this (by decide)
    | cons e rest =>
      obtain ⟨he, w, hw, hrest⟩ := h
      have hout : sidetrackGraph.out 3 = [9, 10] := rfl
      rw [hout] at he
      have hsplit : sidetrackGraph.pathWeight (e :: rest) =
          sidetrackGraph.weight e + sidetrackGraph.pathWeight rest := by
        simp [AdjacencyListGraph.pathWeight]
      rw [hsplit]
      rcases List.mem_cons.mp he with rfl | he
      · have hw4 : sidetrackGraph.opposite 3 9 = .ok 4 := rfl
        rw [hw4] at hw
        cases hw
        have := sidetrack_pathWeight_nonneg (by decide) hrest
        have h1 : sidetrackGraph.weight 9 = 10 := rfl
        have h2 : sidetrackHeuristic 3 4 = 9 := rfl
        rw [h1, h2]
        omega
      · have he10 : e = 10 := List.mem_singleton.mp he
        subst he10
        have hw5 : sidetrackGraph.opposite 3 10 = .ok 5 := rfl
        rw [hw5] at hw
        cases hw
        cases rest with
        | nil =>
          have : (5 : Ptr) = 4 := hrest
          exact absurd this (by decide)
        | cons e' rest' =>
          obtain ⟨he', -⟩ := hrest
          have hout5 : sidetrackGraph.out 5 = [] := rfl
          rw [hout5] at he'
          cases he'
  · have h0 : sidetrackHeuristic v 4 = 0 := by
      simp [sidetrackHeuristic, h3]
    rw [h0]
    exact sidetrack_pathWeight_nonneg hv h

/-- C34, on the code: on `sidetrackGraph`, whose weights are not negative, with
`sidetrackHeuristic`, which never exceeds the weight of a path to the goal `4`, and the
query from `1` to `4`, the loop of `dijkstras` reaches the goal after `3` turns that
expand a vertex and the loop of `astar` reaches it after at least `4`, whatever the heap
algorithms do with ties and for every fuel from `5` on.  The counting loops are the loops
of the two functions on the arguments that the functions give them.  The goal is first
reached over the edge of weight `100`, and `astar` does not update the record of an open
vertex, so the vertex `5` is taken from the open list before the goal. -/
theorem astar_expands_more_than_dijkstras (H : HeapOps) (hH : H.Lawful) (fuel : Nat)
    (hfuel : 5 ≤ fuel) :
    sidetrackGraph.WellFormed ∧
    (∀ e ∈ sidetrackGraph.edges, 0 ≤ sidetrackGraph.weight e) ∧
    (∀ v ∈ sidetrackGraph.vertices, ∀ path, sidetrackGraph.IsWalk v path 4 →
      sidetrackHeuristic v 4 ≤ sidetrackGraph.pathWeight path) ∧
    ∃ viaDijkstras viaAstar,
      dijkstrasLoopCount H sidetrackGraph 4 fuel [⟨1, nullptr, 0, 0⟩] []
        VertexRecord.uninitialised 0 = .ok viaDijkstras ∧
      astarLoopCount H sidetrackGraph 4 sidetrackHeuristic fuel
        [⟨1, nullptr, sidetrackHeuristic 1 4, 0⟩] [] VertexRecord.uninitialised 0
          = .ok viaAstar ∧
      dijkstrasLoop H sidetrackGraph 4 fuel [⟨1, nullptr, 0, 0⟩] []
        VertexRecord.uninitialised = .ok (viaDijkstras.1, viaDijkstras.2.1) ∧
      astarLoop H sidetrackGraph 4 sidetrackHeuristic fuel
        [⟨1, nullptr, sidetrackHeuristic 1 4, 0⟩] [] VertexRecord.uninitialised
          = .ok (viaAstar.1, viaAstar.2.1) ∧
      viaDijkstras.1.vertex = 4 ∧ viaAstar.1.vertex = 4 ∧
      viaDijkstras.2.2 = 3 ∧ 4 ≤ viaAstar.2.2 ∧ viaDijkstras.2.2 < viaAstar.2.2 := by
  obtain ⟨k, rfl⟩ : ∃ k, fuel = 5 + k := ⟨fuel - 5, by omega⟩
  refine ⟨by decide, by decide, sidetrack_admissible, ?_⟩
  have hd := dijkstrasLoop_mem_all hH sidetrackGraph 4 5 [⟨1, nullptr, 0, 0⟩]
    [⟨1, nullptr, 0, 0⟩] [] VertexRecord.uninitialised (List.Perm.refl _) (isHeap_singleton _)
  obtain ⟨cd, ld, hcd, hvd, hld⟩ :=
    closesExactly_ok (List.all_eq_true.mp dijkstrasLoopAll_sidetrack _ hd)
  have hd' := dijkstrasLoop_fuel_mono H sidetrackGraph 4 5 _ _ _ _ hcd k
  have ha := astarLoop_mem_all hH sidetrackGraph 4 sidetrackHeuristic 5
    [⟨1, nullptr, sidetrackHeuristic 1 4, 0⟩] [⟨1, nullptr, sidetrackHeuristic 1 4, 0⟩] []
    VertexRecord.uninitialised (List.Perm.refl _) (isHeap_singleton _)
  obtain ⟨ca, la, hca, hva, hla⟩ :=
    closesExactly_ok (List.all_eq_true.mp astarLoopAll_sidetrack _ ha)
  have ha' := astarLoop_fuel_mono H sidetrackGraph 4 sidetrackHeuristic 5 _ _ _ _ hca k
  obtain ⟨hd1, hd2⟩ := dijkstrasLoopCount_spec H sidetrackGraph 4 (5 + k)
    [⟨1, nullptr, 0, 0⟩] [] VertexRecord.uninitialised 0
  obtain ⟨ha1, ha2⟩ := astarLoopCount_spec H sidetrackGraph 4 sidetrackHeuristic (5 + k)
    [⟨1, nullptr, sidetrackHeuristic 1 4, 0⟩] [] VertexRecord.uninitialised 0
  rw [hd'] at hd1
  rw [ha'] at ha1
  obtain ⟨rd, hrd, hrd'⟩ := map_eq_ok.mp hd1
  obtain ⟨ra, hra, hra'⟩ := map_eq_ok.mp ha1
  have e1 : rd.1 = cd := congrArg Prod.fst hrd'
  have e2 : rd.2.1 = ld := congrArg Prod.snd hrd'
  have e3 : ra.1 = ca := congrArg Prod.fst hra'
  have e4 : ra.2.1 = la := congrArg Prod.snd hra'
  have n1 := hd2 rd hrd
  have n2 := ha2 ra hra
  rw [e2, hld] at n1
  rw [e4, hla] at n2
  simp only [List.length_nil] at n1 n2
  refine ⟨rd, ra, hrd, hra, ?_, ?_, ?_, ?_, ?_, ?_, ?_⟩
  · rw [hd', e1, e2]
  · rw [ha', e3, e4]
  · rw [e1, hvd]
  · rw [e3, hva]
  · omega
  · omega
  · omega

theorem astar_expands_more_than_dijkstras_witness :
    (sortedHeap.Lawful ∧ 5 ≤ 5) ∧
    dijkstrasLoopCount sortedHeap sidetrackGraph 4 5 [⟨1, nullptr, 0, 0⟩] []
      VertexRecord.uninitialised 0 =
        .ok (⟨4, 9, 11, 0⟩, [⟨1, nullptr, 0, 0⟩, ⟨3, 7, 1, 0⟩, ⟨2, 6, 3, 0⟩], 3) ∧
    astarLoopCount sortedHeap sidetrackGraph 4 sidetrackHeuristic 5
      [⟨1, nullptr, sidetrackHeuristic 1 4, 0⟩] [] VertexRecord.uninitialised 0 =
        .ok (⟨4, 8, 103, 103⟩,
          [⟨1, nullptr, 0, 0⟩, ⟨2, 6, 3, 3⟩, ⟨3, 7, 10, 1⟩, ⟨5, 10, 41, 41⟩], 4) ∧
    ∃ viaDijkstras viaAstar,
      dijkstrasLoopCount sortedHeap sidetrackGraph 4 5 [⟨1, nullptr, 0, 0⟩] []
        VertexRecord.uninitialised 0 = .ok viaDijkstras ∧
      astarLoopCount sortedHeap sidetrackGraph 4 sidetrackHeuristic 5
        [⟨1, nullptr, sidetrackHeuristic 1 4, 0⟩] [] VertexRecord.uninitialised 0
          = .ok viaAstar ∧
      viaDijkstras.2.2 < viaAstar.2.2 := by
  obtain ⟨-, -, -, rd, ra, h1, h2, -, -, -, -, -, -, h3⟩ :=
    astar_expands_more_than_dijkstras sortedHeap sortedHeap_lawful 5 (le_refl 5)
  exact ⟨⟨sortedHeap_lawful, le_refl 5⟩, rfl, rfl, rd, ra, h1, h2, h3⟩

end Algorithm

end GameAI
